import Mathlib

/-!
# Protocol client engines: `GdbMiClient` and `LspClient`

A shallow embedding of `src/GdbMiClient.cpp` and `src/LspClient.cpp`, and of the
handlers `handleSemanticTokens` and `handleRenameEdits` of `src/MainWindow.cpp`,
with the properties of the engines and handlers proved about it.

Modelling conventions.

* `QString` is a list of characters, `QByteArray` a list of bytes.  A cursor
  `(text, pos)` of the MI value parser is represented by the unread suffix
  `text.drop pos`; the position after a call is `text.length` minus the length
  of the returned suffix.
* `QHash`, `QVariantMap` and `QJsonObject` are association lists with unique
  keys: `insert` replaces the value of a key that is present.  The code never
  iterates over these tables, so their internal order is not observable.
* A signal emission appends to the `emitted` log of the engine state and a
  write to the child process appends to its `written` log.
* Loops of the source that are not bounded by a data structure are run with
  fuel.  `none` stands for a run that does not return (or, in
  `LspClient.parseBuffer`, for an `int` computation outside the range of `int`).
* The request counters `nextToken_` and `nextId_` and the document versions
  are mathematical integers.
* Functions of the Qt library and of the platform whose result is not fixed by
  the sources (JSON codec, URL conversion, file-system path resolution, local
  8-bit codec, `std::sort`) are fields of `QtEnv`.
-/

set_option autoImplicit false

/-! ## Qt value types -/

abbrev QString := List Char

abbrev QByteArray := List UInt8

/-- Largest value of the C++ type `int`. -/
def intMax : Int := 2147483647

/-- Smallest value of the C++ type `int`. -/
def intMin : Int := -2147483648

/-- White space in the sense of `QChar::isSpace`: the ASCII controls 9 to 13,
the space, U+0085, U+00A0 and the Unicode separator categories Zs, Zl, Zp. -/
def QChar.isSpace (c : Char) : Bool :=
  let n := c.toNat
  n == 0x20 || (0x09 ≤ n && n ≤ 0x0d) || n == 0x85 || n == 0xa0 || n == 0x1680 ||
    (0x2000 ≤ n && n ≤ 0x200a) || n == 0x2028 || n == 0x2029 || n == 0x202f ||
    n == 0x205f || n == 0x3000

/-- The decimal digits matched by `\d` of `QRegularExpression` (no Unicode
properties) and accepted by `QString::toInt`. -/
def QChar.isAsciiDigit (c : Char) : Bool := 48 ≤ c.toNat && c.toNat ≤ 57

/-- Result of `QString::trimmed`. -/
def QString.trimmed (s : QString) : QString :=
  ((s.dropWhile QChar.isSpace).reverse.dropWhile QChar.isSpace).reverse

/-- Value of a run of decimal digits, `none` when a character is not a digit. -/
def QString.digitsValue : QString → Nat → Option Nat
  | [], acc => some acc
  | c :: rest, acc =>
    if QChar.isAsciiDigit c then QString.digitsValue rest (acc * 10 + (c.toNat - 48)) else none

/-- Result of `QString::toInt()`: surrounding white space is ignored, an optional
sign and at least one decimal digit follow, and a text that is not of this form
or whose value does not fit `int` gives 0. -/
def QString.toInt (s : QString) : Int :=
  let t := QString.trimmed s
  let neg := t.head? = some '-'
  let ds := if t.head? = some '-' ∨ t.head? = some '+' then t.tail else t
  if ds = [] then 0
  else
    match QString.digitsValue ds 0 with
    | none => 0
    | some n =>
      let v : Int := if neg then -(n : Int) else (n : Int)
      if intMin ≤ v ∧ v ≤ intMax then v else 0

/-- Result of `QString::number(int)`. -/
def QString.number (n : Int) : QString :=
  if n < 0 then '-' :: Nat.toDigits 10 n.natAbs else Nat.toDigits 10 n.toNat

/-- Text after the first comma, as computed by `payload.indexOf(',')` followed by
`payload.mid(comma + 1)`; empty when there is no comma. -/
def QString.afterFirstComma (line : QString) : QString :=
  (line.dropWhile (fun c => c != ',')).tail

/-- Result of `QString::replace(before, after)` for a two-character `before`
and a one-character `after`: occurrences are replaced from left to right. -/
def QString.replace2 (b1 b2 a : Char) : QString → QString
  | [] => []
  | [c] => [c]
  | c :: d :: rest =>
    if c = b1 ∧ d = b2 then a :: QString.replace2 b1 b2 a rest
    else c :: QString.replace2 b1 b2 a (d :: rest)

/-- ASCII bytes of a text, used to write byte strings of the protocol. -/
def ascii (s : String) : QByteArray := s.toList.map (fun c => c.toNat.toUInt8)

/-- White space in the sense of `QByteArray::trimmed` (`ascii_isspace`). -/
def QByteArray.isSpace (b : UInt8) : Bool := b == 32 || (9 ≤ b && b ≤ 13)

/-- Result of `QByteArray::trimmed`. -/
def QByteArray.trimmed (a : QByteArray) : QByteArray :=
  ((a.dropWhile QByteArray.isSpace).reverse.dropWhile QByteArray.isSpace).reverse

/-- Result of `QByteArray::toLower` (ASCII letters only). -/
def QByteArray.toLower (a : QByteArray) : QByteArray :=
  a.map (fun b => if 65 ≤ b ∧ b ≤ 90 then b + 32 else b)

/-- Result of `QByteArray::split(sep)`; always holds at least one part. -/
def QByteArray.split (sep : UInt8) : QByteArray → List QByteArray
  | [] => [[]]
  | b :: rest =>
    if b = sep then [] :: QByteArray.split sep rest
    else
      match QByteArray.split sep rest with
      | [] => [[b]]
      | part :: parts => (b :: part) :: parts

/-- Result of `QByteArray::indexOf(pat)`: the first position at which `pat`
occurs, `none` standing for -1. -/
def QByteArray.indexOf (pat : QByteArray) : QByteArray → Option Nat
  | [] => if pat.isPrefixOf [] then some 0 else none
  | b :: rest =>
    if pat.isPrefixOf (b :: rest) then some 0
    else (QByteArray.indexOf pat rest).map (fun i => i + 1)

/-- Value of a run of decimal digit bytes, `none` when a byte is not a digit. -/
def QByteArray.digitsValue : QByteArray → Nat → Option Nat
  | [], acc => some acc
  | b :: rest, acc =>
    if 48 ≤ b ∧ b ≤ 57 then QByteArray.digitsValue rest (acc * 10 + (b.toNat - 48)) else none

/-- Result of `QByteArray::toInt()`: surrounding white space is ignored, an
optional sign and at least one decimal digit follow, and a text that is not of
this form or whose value does not fit `int` gives 0. -/
def QByteArray.toInt (a : QByteArray) : Int :=
  let t := QByteArray.trimmed a
  let neg := t.head? = some 45
  let ds := if t.head? = some 45 ∨ t.head? = some 43 then t.tail else t
  if ds = [] then 0
  else
    match QByteArray.digitsValue ds 0 with
    | none => 0
    | some n =>
      let v : Int := if neg then -(n : Int) else (n : Int)
      if intMin ≤ v ∧ v ≤ intMax then v else 0

/-- Result of `QByteArray::number(n)` for a size. -/
def QByteArray.number (n : Nat) : QByteArray :=
  (Nat.toDigits 10 n).map (fun c => c.toNat.toUInt8)

/-! ## Association lists for `QHash`, `QMap` and `QJsonObject` -/

section Assoc

variable {κ ν : Type} [DecidableEq κ]

/-- The value stored under a key, if any. -/
def Assoc.find (k : κ) : List (κ × ν) → Option ν
  | [] => none
  | (k1, v) :: rest => if k1 = k then some v else Assoc.find k rest

/-- Membership test of `contains(key)`. -/
def Assoc.contains (k : κ) (m : List (κ × ν)) : Bool := (Assoc.find k m).isSome

/-- Result of `insert(key, value)`: the value of a present key is replaced. -/
def Assoc.insert (k : κ) (v : ν) : List (κ × ν) → List (κ × ν)
  | [] => [(k, v)]
  | (k1, v1) :: rest => if k1 = k then (k, v) :: rest else (k1, v1) :: Assoc.insert k v rest

/-- The table without the entries of a key. -/
def Assoc.erase (k : κ) : List (κ × ν) → List (κ × ν)
  | [] => []
  | (k1, v1) :: rest => if k1 = k then Assoc.erase k rest else (k1, v1) :: Assoc.erase k rest

/-- The keys of a table, in storage order. -/
def Assoc.keys (m : List (κ × ν)) : List κ := m.map Prod.fst

end Assoc

/-- A text literal of the sources as a `QString`. -/
def qs (s : String) : QString := s.toList

/-! ## JSON values and the Qt environment -/

/-- JSON values as seen through `QJsonValue`.  A number that is whole is
`number`; a number that is not whole is `fraction` and keeps its source text
(the engines read numbers through `toInt` only). -/
inductive QJsonValue where
  | null
  | undefined
  | bool (b : Bool)
  | number (n : Int)
  | fraction (text : QString)
  | string (s : QString)
  | array (items : List QJsonValue)
  | object (members : List (QString × QJsonValue))

instance : Inhabited QJsonValue := ⟨QJsonValue.undefined⟩

abbrev QJsonArray := List QJsonValue

abbrev QJsonObject := List (QString × QJsonValue)

/-- Result of `QJsonObject::value(key)`; `undefined` for an absent key. -/
def QJsonObject.value (o : QJsonObject) (key : QString) : QJsonValue :=
  (Assoc.find key o).getD QJsonValue.undefined

/-- Result of `QJsonValue::toObject()`. -/
def QJsonValue.toObject : QJsonValue → QJsonObject
  | .object members => members
  | _ => []

/-- Result of `QJsonValue::toArray()`. -/
def QJsonValue.toArray : QJsonValue → QJsonArray
  | .array items => items
  | _ => []

/-- Result of `QJsonValue::toString()`. -/
def QJsonValue.toQString : QJsonValue → QString
  | .string s => s
  | _ => []

/-- Result of `QJsonValue::toInt(defaultValue)`: the value when it is a whole
number in the range of `int`, the default otherwise. -/
def QJsonValue.toInt (v : QJsonValue) (defaultValue : Int) : Int :=
  match v with
  | .number n => if intMin ≤ n ∧ n ≤ intMax then n else defaultValue
  | _ => defaultValue

/-- Result of `QJsonValue::isObject()`. -/
def QJsonValue.isObject : QJsonValue → Bool
  | .object _ => true
  | _ => false

/-- Result of `QJsonValue::isArray()`. -/
def QJsonValue.isArray : QJsonValue → Bool
  | .array _ => true
  | _ => false

/-- Outcome of `QJsonDocument::fromJson(body, &parseError)`. -/
structure QJsonParse where
  noError : Bool
  errorString : QString
  document : QJsonValue

/-- The structure `LspCompletionItem` of `LspClient.h`. -/
structure LspCompletionItem where
  label : QString
  insertText : QString
  sortText : QString
  kind : Int
deriving DecidableEq

/-- Library and platform functions used by the engines whose results are not
determined by the sources of the repository. -/
structure QtEnv where
  /-- Encoder `QJsonDocument(message).toJson(QJsonDocument::Compact)`. -/
  toJson : QJsonObject → QByteArray
  /-- Decoder `QJsonDocument::fromJson`. -/
  fromJson : QByteArray → QJsonParse
  /-- Conversion `QUrl::fromLocalFile(path).toString()`. -/
  pathToUri : QString → QString
  /-- Conversion `QUrl(uri).toLocalFile()`. -/
  uriToLocalFile : QString → QString
  /-- Value of `QCoreApplication::applicationPid()`. -/
  applicationPid : Int
  /-- Test `QFileInfo(file).isAbsolute()`. -/
  isAbsolute : QString → Bool
  /-- Resolution `QDir(dir).absoluteFilePath(file)`. -/
  absoluteFilePath : QString → QString → QString
  /-- Decoder `QString::fromLocal8Bit`. -/
  fromLocal8Bit : QByteArray → QString
  /-- Encoder `QString::toLocal8Bit`. -/
  toLocal8Bit : QString → QByteArray
  /-- The items after `std::sort(items.begin(), items.end(), less)` on a list of
  completion items: the result of the algorithm of the C++ library in use. -/
  stdSort : (LspCompletionItem → LspCompletionItem → Bool) → List LspCompletionItem →
    List LspCompletionItem

/-! ## LspClient: data -/

/-- A `QTextDocument` as the list of the texts of its blocks (lines). -/
structure QTextDocument where
  blocks : List QString
deriving DecidableEq

/-- The cursor of a `QTextEdit::ExtraSelection`: anchor and position. -/
structure ExtraSelection where
  anchor : Int
  position : Int
deriving DecidableEq

/-- Signals of `LspClient`. -/
inductive LspEvent where
  | diagnosticsUpdated (filePath : QString) (selections : List ExtraSelection)
      (messages : List QString)
  | completionItemsReady (items : List LspCompletionItem)
  | documentSymbolsReady (filePath : QString) (symbols : QJsonArray)
  | foldingRangesReady (filePath : QString) (ranges : QJsonArray)
  | semanticTokensReady (filePath : QString) (data : QJsonArray)
  | definitionLocationsReady (filePath : QString) (locations : QJsonArray)
  | referencesLocationsReady (filePath : QString) (locations : QJsonArray)
  | renameEditsReady (filePath : QString) (edits : QJsonObject)
  | serverLog (text : QString)

/-- The member variables of `LspClient`, the state of its child process and the
logs of what it wrote and emitted. -/
structure LspClient where
  /-- Whether `process_.state() != QProcess::NotRunning`. -/
  running : Bool
  buffer_ : QByteArray
  nextId_ : Int
  initialized_ : Bool
  rootDir_ : QString
  semanticTokenTypes_ : List QString
  currentDocument_ : Option QTextDocument
  currentFilePath_ : QString
  pendingRequests_ : List (Int × QString)
  docVersions_ : List (QString × Int)
  pendingOpenDocs_ : List (QString × QString)
  /-- Byte strings passed to `process_.write`, in order. -/
  written : List QByteArray
  /-- Signals emitted, in order. -/
  emitted : List LspEvent

/-- State of a freshly constructed `LspClient`. -/
def LspClient.init : LspClient :=
  { running := false, buffer_ := [], nextId_ := 1, initialized_ := false, rootDir_ := [],
    semanticTokenTypes_ := [], currentDocument_ := none, currentFilePath_ := [],
    pendingRequests_ := [], docVersions_ := [], pendingOpenDocs_ := [],
    written := [], emitted := [] }

/-- Emission of a signal. -/
def LspClient.emit (s : LspClient) (e : LspEvent) : LspClient :=
  { s with emitted := s.emitted ++ [e] }

/-- Call of `process_.write(data)`: nothing is written to a process that is not
running. -/
def LspClient.write (s : LspClient) (data : QByteArray) : LspClient :=
  if s.running then { s with written := s.written ++ [data] } else s

/-! ## LspClient: requests and notifications -/

/-- A `QJsonObject` built by inserting the listed members in order. -/
def jsonObject (members : List (QString × QJsonValue)) : QJsonObject :=
  members.foldl (fun o kv => Assoc.insert kv.1 kv.2 o) []

/-- Model of `LspClient::sendMessage`. -/
def LspClient.sendMessage (env : QtEnv) (s : LspClient) (message : QJsonObject) : LspClient :=
  let body := env.toJson message
  let header := ascii "Content-Length: " ++ QByteArray.number body.length ++ ascii "\r\n\r\n"
  (s.write header).write body

/-- Model of `LspClient::sendRequest`: the new state and the returned id. -/
def LspClient.sendRequest (env : QtEnv) (s : LspClient) (method : QString)
    (params : QJsonObject) : LspClient × Int :=
  let id := s.nextId_
  let s1 := { s with nextId_ := s.nextId_ + 1 }
  let s2 := { s1 with pendingRequests_ := Assoc.insert id method s1.pendingRequests_ }
  let message := jsonObject [(qs "jsonrpc", .string (qs "2.0")), (qs "id", .number id),
    (qs "method", .string method), (qs "params", .object params)]
  (LspClient.sendMessage env s2 message, id)

/-- Model of `LspClient::sendNotification`. -/
def LspClient.sendNotification (env : QtEnv) (s : LspClient) (method : QString)
    (params : QJsonObject) : LspClient :=
  LspClient.sendMessage env s (jsonObject [(qs "jsonrpc", .string (qs "2.0")),
    (qs "method", .string method), (qs "params", .object params)])

/-- Model of `LspClient::currentVersion`. -/
def LspClient.currentVersion (s : LspClient) (filePath : QString) : Int :=
  (Assoc.find filePath s.docVersions_).getD 0

/-- Model of `LspClient::bumpVersion`: the new state and the returned version. -/
def LspClient.bumpVersion (s : LspClient) (filePath : QString) : LspClient × Int :=
  let next := s.currentVersion filePath + 1
  ({ s with docVersions_ := Assoc.insert filePath next s.docVersions_ }, next)

/-- Model of `LspClient::initializeServer`. -/
def LspClient.initializeServer (env : QtEnv) (s : LspClient) : LspClient :=
  let sync := jsonObject [(qs "didSave", .bool true)]
  let semanticCaps := jsonObject [
    (qs "requests", .object (jsonObject [(qs "full", .bool true)])),
    (qs "formats", .array [.string (qs "relative")])]
  let capabilities := jsonObject [
    (qs "textDocument", .object (jsonObject [(qs "synchronization", .object sync),
      (qs "completion", .object []), (qs "documentSymbol", .object []),
      (qs "foldingRange", .object []), (qs "semanticTokens", .object semanticCaps)])),
    (qs "workspace", .object (jsonObject [(qs "workspaceFolders", .bool true)]))]
  let params := jsonObject [(qs "processId", .number env.applicationPid),
    (qs "rootUri", .string (env.pathToUri s.rootDir_)),
    (qs "capabilities", .object capabilities)]
  (LspClient.sendRequest env s (qs "initialize") params).1

/-- Model of `LspClient::stop`. -/
def LspClient.stop (env : QtEnv) (s : LspClient) : LspClient :=
  if s.running = false then s
  else
    let s1 :=
      if s.initialized_ then
        LspClient.sendNotification env (LspClient.sendRequest env s (qs "shutdown") []).1
          (qs "exit") []
      else s
    { s1 with running := false, initialized_ := false }

/-- Model of `LspClient::start`; `startedOk` is the result of
`process_.waitForStarted(3000)`. -/
def LspClient.start (env : QtEnv) (s : LspClient) (rootDir : QString) (startedOk : Bool) :
    LspClient :=
  let s1 := LspClient.stop env s
  let s2 := { s1 with
    rootDir_ := rootDir, initialized_ := false, buffer_ := [],
    pendingRequests_ := [], docVersions_ := [], pendingOpenDocs_ := [] }
  if startedOk = false then s2.emit (.serverLog (qs "无法启动 clangd"))
  else LspClient.initializeServer env { s2 with running := true }

/-- Model of `LspClient::setCurrentDocument`. -/
def LspClient.setCurrentDocument (s : LspClient) (document : Option QTextDocument)
    (filePath : QString) : LspClient :=
  { s with currentDocument_ := document, currentFilePath_ := filePath }

/-- Model of `LspClient::openDocument`. -/
def LspClient.openDocument (env : QtEnv) (s : LspClient) (filePath text : QString) : LspClient :=
  if s.initialized_ = false then
    { s with pendingOpenDocs_ := s.pendingOpenDocs_ ++ [(filePath, text)] }
  else
    let r := s.bumpVersion filePath
    let doc := jsonObject [(qs "uri", .string (env.pathToUri filePath)),
      (qs "languageId", .string (qs "cpp")), (qs "version", .number r.2),
      (qs "text", .string text)]
    LspClient.sendNotification env r.1 (qs "textDocument/didOpen")
      (jsonObject [(qs "textDocument", .object doc)])

/-- Model of `LspClient::changeDocument`. -/
def LspClient.changeDocument (env : QtEnv) (s : LspClient) (filePath text : QString) :
    LspClient :=
  if s.initialized_ = false then s
  else
    let r := s.bumpVersion filePath
    let doc := jsonObject [(qs "uri", .string (env.pathToUri filePath)),
      (qs "version", .number r.2)]
    let changes : QJsonArray := [.object (jsonObject [(qs "text", .string text)])]
    LspClient.sendNotification env r.1 (qs "textDocument/didChange")
      (jsonObject [(qs "textDocument", .object doc), (qs "contentChanges", .array changes)])

/-- Model of `LspClient::saveDocument`. -/
def LspClient.saveDocument (env : QtEnv) (s : LspClient) (filePath : QString) : LspClient :=
  if s.initialized_ = false then s
  else
    let doc := jsonObject [(qs "uri", .string (env.pathToUri filePath))]
    LspClient.sendNotification env s (qs "textDocument/didSave")
      (jsonObject [(qs "textDocument", .object doc)])

/-- The `textDocument` parameter shared by the requests. -/
def LspClient.docParam (env : QtEnv) (filePath : QString) : QJsonValue :=
  .object (jsonObject [(qs "uri", .string (env.pathToUri filePath))])

/-- The `position` parameter shared by the requests. -/
def LspClient.positionParam (line character : Int) : QJsonValue :=
  .object (jsonObject [(qs "line", .number line), (qs "character", .number character)])

/-- Model of `LspClient::requestCompletion`. -/
def LspClient.requestCompletion (env : QtEnv) (s : LspClient) (filePath : QString)
    (line character : Int) : LspClient :=
  if s.initialized_ = false then s
  else
    (LspClient.sendRequest env s (qs "textDocument/completion")
      (jsonObject [(qs "textDocument", LspClient.docParam env filePath),
        (qs "position", LspClient.positionParam line character)])).1

/-- The common body of the requests that record `<method>|<filePath>`: the tag
is first recorded as `<method>` by `sendRequest` and then replaced. -/
def LspClient.requestWithPath (env : QtEnv) (s : LspClient) (method filePath : QString)
    (params : QJsonObject) : LspClient :=
  let r := LspClient.sendRequest env s method params
  { r.1 with pendingRequests_ :=
      Assoc.insert r.2 (method ++ qs "|" ++ filePath) r.1.pendingRequests_ }

/-- Model of `LspClient::requestDocumentSymbols`. -/
def LspClient.requestDocumentSymbols (env : QtEnv) (s : LspClient) (filePath : QString) :
    LspClient :=
  if s.initialized_ = false then s
  else
    LspClient.requestWithPath env s (qs "textDocument/documentSymbol") filePath
      (jsonObject [(qs "textDocument", LspClient.docParam env filePath)])

/-- Model of `LspClient::requestFoldingRanges`. -/
def LspClient.requestFoldingRanges (env : QtEnv) (s : LspClient) (filePath : QString) :
    LspClient :=
  if s.initialized_ = false then s
  else
    LspClient.requestWithPath env s (qs "textDocument/foldingRange") filePath
      (jsonObject [(qs "textDocument", LspClient.docParam env filePath)])

/-- Model of `LspClient::requestSemanticTokens`. -/
def LspClient.requestSemanticTokens (env : QtEnv) (s : LspClient) (filePath : QString) :
    LspClient :=
  if s.initialized_ = false then s
  else
    LspClient.requestWithPath env s (qs "textDocument/semanticTokens/full") filePath
      (jsonObject [(qs "textDocument", LspClient.docParam env filePath)])

/-- Model of `LspClient::requestDefinition`. -/
def LspClient.requestDefinition (env : QtEnv) (s : LspClient) (filePath : QString)
    (line character : Int) : LspClient :=
  if s.initialized_ = false then s
  else
    LspClient.requestWithPath env s (qs "textDocument/definition") filePath
      (jsonObject [(qs "textDocument", LspClient.docParam env filePath),
        (qs "position", LspClient.positionParam line character)])

/-- Model of `LspClient::requestReferences`. -/
def LspClient.requestReferences (env : QtEnv) (s : LspClient) (filePath : QString)
    (line character : Int) : LspClient :=
  if s.initialized_ = false then s
  else
    LspClient.requestWithPath env s (qs "textDocument/references") filePath
      (jsonObject [(qs "textDocument", LspClient.docParam env filePath),
        (qs "position", LspClient.positionParam line character),
        (qs "context", .object (jsonObject [(qs "includeDeclaration", .bool true)]))])

/-- Model of `LspClient::requestRename`. -/
def LspClient.requestRename (env : QtEnv) (s : LspClient) (filePath : QString)
    (line character : Int) (newName : QString) : LspClient :=
  if s.initialized_ = false then s
  else
    LspClient.requestWithPath env s (qs "textDocument/rename") filePath
      (jsonObject [(qs "textDocument", LspClient.docParam env filePath),
        (qs "position", LspClient.positionParam line character),
        (qs "newName", .string newName)])

/-! ## LspClient: diagnostics and completion helpers -/

/-- Number of characters of a document, block separators included. -/
def QTextDocument.characterCount (doc : QTextDocument) : Nat :=
  (doc.blocks.map (fun b => b.length + 1)).sum

/-- Result of `findBlockByNumber(n)`: `position()` and `length()` of the block
when it is valid.  The length of a block counts its separator. -/
def QTextDocument.findBlockByNumber (doc : QTextDocument) (n : Int) : Option (Int × Int) :=
  if 0 ≤ n ∧ n < doc.blocks.length then
    some ((((doc.blocks.take n.toNat).map (fun b => b.length + 1)).sum : Nat),
      (((doc.blocks.getD n.toNat []).length + 1 : Nat) : Int))
  else none

/-- Result of `QTextCursor::setPosition`: a position outside the document is
refused and leaves the cursor where it is. -/
def QTextCursor.setPosition (doc : QTextDocument) (cur : ExtraSelection) (pos : Int)
    (keepAnchor : Bool) : ExtraSelection :=
  if pos < 0 ∨ (doc.characterCount : Int) ≤ pos then cur
  else if keepAnchor then { cur with position := pos }
  else { anchor := pos, position := pos }

/-- One iteration of the loop of `LspClient::buildDiagnosticSelections`. -/
def LspClient.diagnosticStep (doc : QTextDocument)
    (acc : List ExtraSelection × List QString) (diagVal : QJsonValue) :
    List ExtraSelection × List QString :=
  let diagObj := diagVal.toObject
  let messages := acc.2 ++ [(QJsonObject.value diagObj (qs "message")).toQString]
  let range := (QJsonObject.value diagObj (qs "range")).toObject
  let start := (QJsonObject.value range (qs "start")).toObject
  let end_ := (QJsonObject.value range (qs "end")).toObject
  let startLine := (QJsonObject.value start (qs "line")).toInt 0
  let startChar := (QJsonObject.value start (qs "character")).toInt 0
  let endLine := (QJsonObject.value end_ (qs "line")).toInt startLine
  let endChar := (QJsonObject.value end_ (qs "character")).toInt (startChar + 1)
  match doc.findBlockByNumber startLine with
  | none => (acc.1, messages)
  | some startBlock =>
    let startPos := startBlock.1 + min startChar startBlock.2
    let endPos :=
      match doc.findBlockByNumber endLine with
      | some endBlock => endBlock.1 + min endChar endBlock.2
      | none => startPos + 1
    let cursor := QTextCursor.setPosition doc { anchor := 0, position := 0 } startPos false
    let cursor := QTextCursor.setPosition doc cursor endPos true
    (acc.1 ++ [cursor], messages)

/-- Model of `LspClient::buildDiagnosticSelections`: the selections and the
messages appended to `*messages`. -/
def LspClient.buildDiagnosticSelections (s : LspClient) (diagnostics : QJsonArray) :
    List ExtraSelection × List QString :=
  match s.currentDocument_ with
  | none => ([], [])
  | some doc => diagnostics.foldl (LspClient.diagnosticStep doc) ([], [])

/-- The comparison passed to `std::sort` for completion items. -/
def LspClient.completionLess (a b : LspCompletionItem) : Bool :=
  if a.sortText ≠ [] ∧ b.sortText ≠ [] then decide (a.sortText < b.sortText)
  else decide (a.label < b.label)

/-- The requirement of the C++ standard on the comparison passed to `std::sort`,
for the items of one list: the comparison is a strict weak order on them, that
is irreflexive and transitive with a transitive incomparability. -/
def StdSort.strictWeakOn (less : LspCompletionItem → LspCompletionItem → Bool)
    (items : List LspCompletionItem) : Prop :=
  (∀ a ∈ items, less a a = false) ∧
  (∀ a ∈ items, ∀ b ∈ items, ∀ c ∈ items,
    less a b = true → less b c = true → less a c = true) ∧
  (∀ a ∈ items, ∀ b ∈ items, ∀ c ∈ items,
    less a b = false → less b a = false → less b c = false → less c b = false →
      less a c = false ∧ less c a = false)

instance StdSort.strictWeakOn.decide (less : LspCompletionItem → LspCompletionItem → Bool)
    (items : List LspCompletionItem) : Decidable (StdSort.strictWeakOn less items) := by
  delta StdSort.strictWeakOn
  exact inferInstance

/-- The lists that `std::sort(items.begin(), items.end(), less)` may leave in
`items`.  When `less` is a strict weak order on the items the C++ standard
requires a permutation of the items in which no item is less than an item
before it; the order of equivalent items is open.  When `less` is not a strict
weak order the standard requires nothing. -/
def StdSort.mayReturn (less : LspCompletionItem → LspCompletionItem → Bool)
    (items out : List LspCompletionItem) : Prop :=
  StdSort.strictWeakOn less items →
    out.Perm items ∧ out.Pairwise (fun a b => less b a = false)

/-- The sort of the environment is a `std::sort` of the C++ standard: on every
comparison and every list it returns a list that `std::sort` may return. -/
def QtEnv.sortContract (env : QtEnv) : Prop :=
  ∀ (less : LspCompletionItem → LspCompletionItem → Bool) (items : List LspCompletionItem),
    StdSort.mayReturn less items (env.stdSort less items)

/-- Insertion of an item in front of the first item that is not less than it. -/
def StdSort.sortedInsert (less : LspCompletionItem → LspCompletionItem → Bool)
    (a : LspCompletionItem) : List LspCompletionItem → List LspCompletionItem
  | [] => [a]
  | b :: rest =>
    if less b a then b :: StdSort.sortedInsert less a rest else a :: b :: rest

/-- An insertion sort: the implementation of `std::sort` in the sample
environment, one of the algorithms that the C++ standard admits. -/
def StdSort.insertionSort (less : LspCompletionItem → LspCompletionItem → Bool)
    (items : List LspCompletionItem) : List LspCompletionItem :=
  items.foldr (StdSort.sortedInsert less) []

/-- Conversion of one element of a completion reply. -/
def LspClient.completionItemOf (it : QJsonValue) : LspCompletionItem :=
  let obj := it.toObject
  { label := (QJsonObject.value obj (qs "label")).toQString,
    insertText := (QJsonObject.value obj (qs "insertText")).toQString,
    sortText := (QJsonObject.value obj (qs "sortText")).toQString,
    kind := (QJsonObject.value obj (qs "kind")).toInt 0 }

/-! ## LspClient: message dispatch -/

/-- The loop over `pendingOpenDocs_` in `LspClient::handleMessage`, followed by
`pendingOpenDocs_.clear()`. -/
def LspClient.flushPendingOpenDocs (env : QtEnv) (s : LspClient) : LspClient :=
  { s.pendingOpenDocs_.foldl (fun st pair => LspClient.openDocument env st pair.1 pair.2) s with
    pendingOpenDocs_ := [] }

/-- The part of `LspClient::handleMessage` that handles a reply whose tag has
been split into `fullMethod` and `filePath`. -/
def LspClient.handleReply (env : QtEnv) (s : LspClient) (fullMethod filePath : QString)
    (message : QJsonObject) : LspClient :=
  let result := QJsonObject.value message (qs "result")
  if fullMethod = qs "initialize" then
    let s1 := { s with initialized_ := true }
    let legend := (QJsonObject.value (QJsonObject.value (QJsonObject.value result.toObject
      (qs "capabilities")).toObject (qs "semanticTokensProvider")).toObject (qs "legend")).toObject
    let s2 :=
      if legend.isEmpty = false then
        { s1 with semanticTokenTypes_ :=
            (QJsonObject.value legend (qs "tokenTypes")).toArray.map QJsonValue.toQString }
      else s1
    LspClient.flushPendingOpenDocs env (LspClient.sendNotification env s2 (qs "initialized") [])
  else if fullMethod = qs "textDocument/completion" then
    let arr : QJsonArray :=
      if result.isObject then (QJsonObject.value result.toObject (qs "items")).toArray
      else if result.isArray then result.toArray
      else []
    s.emit (.completionItemsReady
      (env.stdSort LspClient.completionLess (arr.map LspClient.completionItemOf)))
  else if fullMethod = qs "textDocument/documentSymbol" then
    s.emit (.documentSymbolsReady filePath result.toArray)
  else if fullMethod = qs "textDocument/foldingRange" then
    s.emit (.foldingRangesReady filePath result.toArray)
  else if fullMethod = qs "textDocument/semanticTokens/full" then
    s.emit (.semanticTokensReady filePath (QJsonObject.value result.toObject (qs "data")).toArray)
  else if fullMethod = qs "textDocument/definition" then
    let locations : QJsonArray :=
      if result.isArray then result.toArray
      else if result.isObject then [.object result.toObject]
      else []
    s.emit (.definitionLocationsReady filePath locations)
  else if fullMethod = qs "textDocument/references" then
    s.emit (.referencesLocationsReady filePath result.toArray)
  else if fullMethod = qs "textDocument/rename" then
    s.emit (.renameEditsReady filePath result.toObject)
  else s

/-- The method part of a stored tag: the text before the first `|` when there
is one (`fullMethod.left(sepIndex)`), the whole tag otherwise. -/
def LspClient.tagMethod (tag : QString) : QString :=
  if tag.contains '|' then tag.takeWhile (fun c => c != '|') else tag

/-- The file path part of a stored tag: the text after the first `|` when there
is one (`fullMethod.mid(sepIndex + 1)`), empty otherwise. -/
def LspClient.tagFilePath (tag : QString) : QString :=
  if tag.contains '|' then (tag.dropWhile (fun c => c != '|')).tail else []

/-- Model of `LspClient::handleMessage`. -/
def LspClient.handleMessage (env : QtEnv) (s : LspClient) (message : QJsonObject) : LspClient :=
  if Assoc.contains (qs "id") message ∧
      (Assoc.contains (qs "result") message ∨ Assoc.contains (qs "error") message) then
    let id := (QJsonObject.value message (qs "id")).toInt 0
    let tag := (Assoc.find id s.pendingRequests_).getD []
    let s1 := { s with pendingRequests_ := Assoc.erase id s.pendingRequests_ }
    LspClient.handleReply env s1 (LspClient.tagMethod tag) (LspClient.tagFilePath tag) message
  else if Assoc.contains (qs "method") message = false then s
  else
    let method := (QJsonObject.value message (qs "method")).toQString
    let params := (QJsonObject.value message (qs "params")).toObject
    if method = qs "textDocument/publishDiagnostics" then
      let filePath := env.uriToLocalFile (QJsonObject.value params (qs "uri")).toQString
      if filePath ≠ s.currentFilePath_ ∨ s.currentDocument_.isNone then s
      else
        let r := s.buildDiagnosticSelections (QJsonObject.value params (qs "diagnostics")).toArray
        s.emit (.diagnosticsUpdated filePath r.1 r.2)
    else if method = qs "window/logMessage" ∨ method = qs "window/showMessage" then
      s.emit (.serverLog (QJsonObject.value params (qs "message")).toQString)
    else s

/-! ## LspClient: framing -/

/-- The header terminator CR LF CR LF. -/
def LspClient.headerTerminator : QByteArray := [13, 10, 13, 10]

/-- The loop over the header lines in `LspClient::parseBuffer`: the value of
`contentLength` after it (the last `Content-Length` line decides). -/
def LspClient.contentLength (header : QByteArray) : Int :=
  (QByteArray.split 10 header).foldl
    (fun contentLength line =>
      let trimmed := QByteArray.trimmed line
      if (ascii "content-length:").isPrefixOf (QByteArray.toLower trimmed) then
        QByteArray.toInt (QByteArray.trimmed (trimmed.drop 15))
      else contentLength)
    0

/-- The loop of `LspClient::parseBuffer` over the buffer, with the treatment of
a frame body (decode, then `handleMessage` or a log line) as the parameter
`onBody`.  The result is the state after the loop and the bytes left in the
buffer.  `none`: `headerEnd + 4` or `headerEnd + 4 + contentLength` exceeds the
range of `int`, or the fuel is used up (it is not when the fuel exceeds the
length of the buffer). -/
def LspClient.parseBufferWith {σ : Type} (onBody : σ → QByteArray → σ) :
    Nat → σ → QByteArray → Option (σ × QByteArray)
  | 0, _, _ => none
  | fuel + 1, st, buffer =>
    match QByteArray.indexOf LspClient.headerTerminator buffer with
    | none => some (st, buffer)
    | some headerEnd =>
      if intMax < (headerEnd : Int) + 4 then none
      else
        let contentLength := LspClient.contentLength (buffer.take headerEnd)
        if contentLength ≤ 0 then
          LspClient.parseBufferWith onBody fuel st (buffer.drop (headerEnd + 4))
        else if intMax < (headerEnd : Int) + 4 + contentLength then none
        else
          let totalLength := headerEnd + 4 + contentLength.toNat
          if buffer.length < totalLength then some (st, buffer)
          else
            let body := (buffer.drop (headerEnd + 4)).take contentLength.toNat
            LspClient.parseBufferWith onBody fuel (onBody st body) (buffer.drop totalLength)

/-- Treatment of one frame body in `LspClient::parseBuffer`. -/
def LspClient.onFrame (env : QtEnv) (s : LspClient) (body : QByteArray) : LspClient :=
  let r := env.fromJson body
  if r.noError = false ∨ r.document.isObject = false then
    s.emit (.serverLog (qs "clangd 消息解析失败：" ++ r.errorString))
  else LspClient.handleMessage env s r.document.toObject

/-- The state with the content of its buffer replaced. -/
def LspClient.withBuffer (s : LspClient) (buffer : QByteArray) : LspClient :=
  { s with buffer_ := buffer }

/-- Model of `LspClient::handleReadyRead` for a read that returns `bytes`: the
bytes are appended to the buffer and `parseBuffer` runs. -/
def LspClient.handleReadyRead (env : QtEnv) (s : LspClient) (bytes : QByteArray) :
    Option LspClient :=
  (LspClient.parseBufferWith (LspClient.onFrame env) ((s.buffer_ ++ bytes).length + 1) s
    (s.buffer_ ++ bytes)).map (fun r => r.1.withBuffer r.2)

/-- The JSON objects that `parseBuffer` passes to `handleMessage`, appended to
`acc`, for one frame body. -/
def LspClient.recordMessage (env : QtEnv) (acc : List QJsonObject) (body : QByteArray) :
    List QJsonObject :=
  let r := env.fromJson body
  if r.noError = false ∨ r.document.isObject = false then acc
  else acc ++ [r.document.toObject]

/-- The sequence of JSON objects passed to `handleMessage`, and the buffer left,
when a read appends `bytes` to a buffer holding `buffer`. -/
def LspClient.decodeRead (env : QtEnv) (acc : List QJsonObject) (buffer bytes : QByteArray) :
    Option (List QJsonObject × QByteArray) :=
  LspClient.parseBufferWith (LspClient.recordMessage env) ((buffer ++ bytes).length + 1) acc
    (buffer ++ bytes)

/-- Successive reads `chunks` decoded one after the other. -/
def LspClient.decodeReads (env : QtEnv) :
    List QJsonObject × QByteArray → List QByteArray → Option (List QJsonObject × QByteArray)
  | st, [] => some st
  | st, chunk :: rest =>
    (LspClient.decodeRead env st.1 st.2 chunk).bind (fun st1 => LspClient.decodeReads env st1 rest)

/-- Successive reads `chunks` handled by the engine one after the other. -/
def LspClient.handleReads (env : QtEnv) : LspClient → List QByteArray → Option LspClient
  | s, [] => some s
  | s, chunk :: rest =>
    (LspClient.handleReadyRead env s chunk).bind (fun s1 => LspClient.handleReads env s1 rest)

/-! ## GdbMiClient: the MI value grammar -/

/-- The values produced by the MI parser, as seen through `QVariant`. -/
inductive QVariant where
  | invalid
  | string (s : QString)
  | map (m : List (QString × QVariant))
  | list (l : List QVariant)

instance : Inhabited QVariant := ⟨QVariant.invalid⟩

abbrev QVariantMap := List (QString × QVariant)

abbrev QVariantList := List QVariant

/-- Result of `QVariantMap::value(key)`; an invalid variant for an absent key. -/
def QVariantMap.value (m : QVariantMap) (key : QString) : QVariant :=
  (Assoc.find key m).getD QVariant.invalid

/-- Result of `QVariant::toString()`. -/
def QVariant.toQString : QVariant → QString
  | .string s => s
  | _ => []

/-- Result of `QVariant::toMap()`. -/
def QVariant.toMap : QVariant → QVariantMap
  | .map m => m
  | _ => []

/-- Result of `QVariant::toList()`. -/
def QVariant.toList : QVariant → QVariantList
  | .list l => l
  | _ => []

/-- Test `typeId() == QMetaType::QVariantList`. -/
def QVariant.isList : QVariant → Bool
  | .list _ => true
  | _ => false

/-- Model of `skipDelimiters`: the text from the first character that is not
white space. -/
def skipDelimiters (text : QString) : QString := text.dropWhile QChar.isSpace

/-- The characters at which `parseMiWord` stops. -/
def GdbMiClient.isWordEnd (c : Char) : Bool := c = '=' || c = ',' || c = '}' || c = ']'

/-- Model of `GdbMiClient::parseMiWord`: the word and the text after it. -/
def GdbMiClient.parseMiWord (text : QString) : QString × QString :=
  let t := skipDelimiters text
  (t.takeWhile (fun c => !GdbMiClient.isWordEnd c), t.dropWhile (fun c => !GdbMiClient.isWordEnd c))

/-- The loop of `parseMiValue` over a quoted string, entered after the opening
quote: the decoded text appended to `out` and the text after the closing quote. -/
def GdbMiClient.parseMiQuoted : QString → QString → QString × QString
  | [], out => (out, [])
  | [ch], out => if ch = '"' then (out, []) else (out ++ [ch], [])
  | ch :: esc :: rest, out =>
    if ch = '"' then (out, esc :: rest)
    else if ch = '\\' then
      GdbMiClient.parseMiQuoted rest
        (out ++ [if esc = 'n' then '\n' else if esc = 't' then '\t' else esc])
    else GdbMiClient.parseMiQuoted (esc :: rest) (out ++ [ch])

/-- The character `,` skipped when it is next. -/
def GdbMiClient.skipComma (text : QString) : QString :=
  if text.head? = some ',' then text.tail else text

mutual

/-- Model of `GdbMiClient::parseMiValue`: the value and the text after it. -/
def GdbMiClient.parseMiValue : Nat → QString → Option (QVariant × QString)
  | 0, _ => none
  | fuel + 1, text =>
    match skipDelimiters text with
    | [] => some (.invalid, [])
    | c :: rest =>
      if c = '"' then
        let r := GdbMiClient.parseMiQuoted rest []
        some (.string r.1, r.2)
      else if c = '{' then
        (GdbMiClient.parseMiTupleLoop fuel [] (skipDelimiters rest)).map
          (fun r => (QVariant.map r.1, r.2))
      else if c = '[' then
        (GdbMiClient.parseMiListLoop fuel [] (skipDelimiters rest)).map
          (fun r => (QVariant.list r.1, r.2))
      else
        let w := GdbMiClient.parseMiWord (c :: rest)
        some (.string w.1, w.2)

/-- The loop of `GdbMiClient::parseMiTuple` with the closing brace after it;
`text` is the text at the loop head and `map` the entries read so far. -/
def GdbMiClient.parseMiTupleLoop : Nat → QVariantMap → QString → Option (QVariantMap × QString)
  | 0, _, _ => none
  | fuel + 1, map, text =>
    match text with
    | [] => some (map, [])
    | c :: rest =>
      if c = '}' then some (map, rest)
      else
        let w := GdbMiClient.parseMiWord text
        let valueAndText :=
          if w.2.head? = some '=' then GdbMiClient.parseMiValue fuel w.2.tail
          else some (QVariant.invalid, w.2)
        match valueAndText with
        | none => none
        | some (value, text1) =>
          let map1 := if w.1.isEmpty then map else Assoc.insert w.1 value map
          GdbMiClient.parseMiTupleLoop fuel map1
            (skipDelimiters (GdbMiClient.skipComma (skipDelimiters text1)))

/-- The loop of `GdbMiClient::parseMiList` with the closing bracket after it. -/
def GdbMiClient.parseMiListLoop : Nat → QVariantList → QString → Option (QVariantList × QString)
  | 0, _, _ => none
  | fuel + 1, list, text =>
    match text with
    | [] => some (list, [])
    | c :: rest =>
      if c = ']' then some (list, rest)
      else
        let t := skipDelimiters text
        let itemAndText : Option (QVariant × QString) :=
          if t.head? = some '{' ∨ t.head? = some '[' ∨ t.head? = some '"' then
            GdbMiClient.parseMiValue fuel t
          else
            let w := GdbMiClient.parseMiWord t
            let t1 := skipDelimiters w.2
            if t1.head? = some '=' then
              (GdbMiClient.parseMiValue fuel t1.tail).map
                (fun r => (QVariant.map (Assoc.insert w.1 r.1 []), r.2))
            else GdbMiClient.parseMiValue fuel t
        match itemAndText with
        | none => none
        | some (item, text1) =>
          GdbMiClient.parseMiListLoop fuel (list ++ [item])
            (skipDelimiters (GdbMiClient.skipComma (skipDelimiters text1)))

end

/-- The loop of `GdbMiClient::parseMiResults`. -/
def GdbMiClient.parseMiResultsLoop : Nat → QVariantMap → QString → Option QVariantMap
  | 0, _, _ => none
  | fuel + 1, map, text =>
    match text with
    | [] => some map
    | _ :: _ =>
      let w := GdbMiClient.parseMiWord text
      let valueAndText :=
        if w.2.head? = some '=' then GdbMiClient.parseMiValue fuel w.2.tail
        else some (QVariant.invalid, w.2)
      match valueAndText with
      | none => none
      | some (value, text1) =>
        let map1 := if w.1.isEmpty then map else Assoc.insert w.1 value map
        GdbMiClient.parseMiResultsLoop fuel map1
          (skipDelimiters (GdbMiClient.skipComma (skipDelimiters text1)))

/-- Model of `GdbMiClient::parseMiResults`; `none` when the parser does not
return within the fuel, which is twice the length of the text plus two. -/
def GdbMiClient.parseMiResults (text : QString) : Option QVariantMap :=
  GdbMiClient.parseMiResultsLoop (2 * text.length + 2) [] (skipDelimiters text)

/-- Model of `GdbMiClient::parseMiValue(text, pos)` on a cursor: the value and
the position after the call. -/
def GdbMiClient.parseMiValueAt (text : QString) (pos : Nat) : Option (QVariant × Nat) :=
  (GdbMiClient.parseMiValue (2 * text.length + 2) (text.drop pos)).map
    (fun r => (r.1, text.length - r.2.length))

/-- Model of `GdbMiClient::decodeMiString`. -/
def GdbMiClient.decodeMiString (mi : QString) : QString :=
  if 2 ≤ mi.length ∧ (mi.head? = some '~' ∨ mi.head? = some '@' ∨ mi.head? = some '&') then
    let inner := mi.drop 2
    let inner := if inner.getLast? = some '"' then inner.dropLast else inner
    QString.replace2 '\\' '"' '"' (QString.replace2 '\\' 't' '\t' (QString.replace2 '\\' 'n' '\n' inner))
  else mi

/-! ## GdbMiClient: data -/

structure GdbBreakpoint where
  number : Int
  file : QString
  line : Int
  enabled : Bool
  condition : QString
  ignoreCount : Int
deriving DecidableEq

structure GdbStackFrame where
  level : Int
  func : QString
  file : QString
  line : Int
deriving DecidableEq

structure GdbVariable where
  name : QString
  value : QString
deriving DecidableEq

structure GdbThread where
  id : Int
  state : QString
  file : QString
  line : Int
  current : Bool
deriving DecidableEq

/-- Signals of `GdbMiClient`. -/
inductive GdbEvent where
  | consoleOutput (text : QString)
  | stopped (file : QString) (line : Int)
  | breakpointsUpdated (bps : List GdbBreakpoint)
  | stackUpdated (frames : List GdbStackFrame)
  | localsUpdated (vars : List GdbVariable)
  | threadsUpdated (threads : List GdbThread)
  | expressionEvaluated (expr : QString) (value : QString)
  | exited (code : Int)
deriving DecidableEq

/-- The signals that carry a typed domain value; `consoleOutput` and `exited`
are the two that do not. -/
def GdbEvent.isDomainEvent : GdbEvent → Bool
  | .consoleOutput _ => false
  | .exited _ => false
  | _ => true

/-- The member variables of `GdbMiClient`, the state of its child process and
the logs of what it wrote and emitted. -/
structure GdbMiClient where
  /-- Whether `process_.state() != QProcess::NotRunning`. -/
  running : Bool
  /-- Value of `process_.workingDirectory()`. -/
  workingDirectory : QString
  buffer_ : QByteArray
  nextToken_ : Int
  pendingTags_ : List (Int × QString)
  breakpoints_ : List GdbBreakpoint
  /-- Lines passed to `process_.write` (before their local 8-bit encoding). -/
  written : List QString
  /-- Signals emitted, in order. -/
  emitted : List GdbEvent

/-- State of a freshly constructed `GdbMiClient`. -/
def GdbMiClient.init : GdbMiClient :=
  { running := false, workingDirectory := [], buffer_ := [], nextToken_ := 1,
    pendingTags_ := [], breakpoints_ := [], written := [], emitted := [] }

/-- Emission of a signal. -/
def GdbMiClient.emit (s : GdbMiClient) (e : GdbEvent) : GdbMiClient :=
  { s with emitted := s.emitted ++ [e] }

/-! ## GdbMiClient: commands -/

/-- Model of `GdbMiClient::sendMiCommand`. -/
def GdbMiClient.sendMiCommand (s : GdbMiClient) (command tag : QString) : GdbMiClient :=
  if s.running = false then s
  else
    let token := s.nextToken_
    { s with
      nextToken_ := s.nextToken_ + 1,
      pendingTags_ := Assoc.insert token tag s.pendingTags_,
      written := s.written ++ [QString.number token ++ command ++ qs "\n"] }

/-- Model of `GdbMiClient::refreshBreakpoints`. -/
def GdbMiClient.refreshBreakpoints (s : GdbMiClient) : GdbMiClient :=
  s.sendMiCommand (qs "-break-list") (qs "break-list")

/-- Model of `GdbMiClient::refreshStack`. -/
def GdbMiClient.refreshStack (s : GdbMiClient) : GdbMiClient :=
  s.sendMiCommand (qs "-stack-list-frames") (qs "stack-list")

/-- Model of `GdbMiClient::refreshLocals`. -/
def GdbMiClient.refreshLocals (s : GdbMiClient) : GdbMiClient :=
  s.sendMiCommand (qs "-stack-list-variables --simple-values") (qs "locals-list")

/-- Model of `GdbMiClient::refreshThreads`. -/
def GdbMiClient.refreshThreads (s : GdbMiClient) : GdbMiClient :=
  s.sendMiCommand (qs "-thread-info") (qs "threads-list")

/-- Result of `escaped.replace('"', "\\\"")`. -/
def GdbMiClient.escapeQuotes (text : QString) : QString :=
  text.flatMap (fun c => if c = '"' then ['\\', '"'] else [c])

/-- Model of `GdbMiClient::evaluateExpression`. -/
def GdbMiClient.evaluateExpression (s : GdbMiClient) (expr : QString) : GdbMiClient :=
  s.sendMiCommand (qs "-data-evaluate-expression \"" ++ GdbMiClient.escapeQuotes expr ++ qs "\"")
    (qs "eval|" ++ expr)

/-- Model of `GdbMiClient::sendConsoleCommand`. -/
def GdbMiClient.sendConsoleCommand (s : GdbMiClient) (cmd : QString) : GdbMiClient :=
  if (QString.trimmed cmd).isEmpty then s
  else
    s.sendMiCommand (qs "-interpreter-exec console \"" ++ GdbMiClient.escapeQuotes cmd ++ qs "\"")
      (qs "console")

/-- Model of `GdbMiClient::stop`. -/
def GdbMiClient.stop (s : GdbMiClient) : GdbMiClient :=
  if s.running = false then s
  else { s with written := s.written ++ [qs "-gdb-exit\n"], running := false }

/-- Model of `GdbMiClient::start`; `startedOk` is the result of
`process_.waitForStarted(3000)`. -/
def GdbMiClient.start (s : GdbMiClient) (workingDir : QString) (startedOk : Bool) : GdbMiClient :=
  let s1 := s.stop
  let s2 := { s1 with
    buffer_ := [], pendingTags_ := [], breakpoints_ := [], nextToken_ := 1,
    workingDirectory := if workingDir.isEmpty then s1.workingDirectory else workingDir }
  if startedOk = false then s2.emit (.consoleOutput (qs "无法启动 gdb。\n"))
  else
    GdbMiClient.refreshBreakpoints
      (GdbMiClient.sendMiCommand { s2 with running := true } (qs "-gdb-set target-async on")
        (qs "init"))

/-- Model of `GdbMiClient::handleFinished`, the slot run when the process has
finished. -/
def GdbMiClient.handleFinished (s : GdbMiClient) (code : Int) : GdbMiClient :=
  { s with running := false }.emit (.exited code)

/-! ## GdbMiClient: result parsers -/

/-- The file name of a record: `fullname`, else `file`, resolved against the
working directory of the process when it is not empty and not absolute. -/
def GdbMiClient.resolveFile (env : QtEnv) (s : GdbMiClient) (map : QVariantMap) : QString :=
  let file := (QVariantMap.value map (qs "fullname")).toQString
  let file := if file.isEmpty then (QVariantMap.value map (qs "file")).toQString else file
  if file.isEmpty = false ∧ env.isAbsolute file = false then
    env.absoluteFilePath s.workingDirectory file
  else file

/-- The breakpoint that `processBkpt` builds from a record. -/
def GdbMiClient.breakpointOf (env : QtEnv) (s : GdbMiClient) (map : QVariantMap) :
    GdbBreakpoint :=
  let enabledStr := (QVariantMap.value map (qs "enabled")).toQString
  { number := QString.toInt (QVariantMap.value map (qs "number")).toQString,
    line := QString.toInt (QVariantMap.value map (qs "line")).toQString,
    file := GdbMiClient.resolveFile env s map,
    enabled := enabledStr.isEmpty || enabledStr = qs "y" || enabledStr = qs "1" ||
      enabledStr = qs "true",
    condition := (QVariantMap.value map (qs "cond")).toQString,
    ignoreCount := QString.toInt (QVariantMap.value map (qs "ignore")).toQString }

/-- The lambda `processBkpt` applied to one entry of the list: the breakpoint
appended, if its number is positive. -/
def GdbMiClient.processEntry (env : QtEnv) (s : GdbMiClient) (entry : QVariant) :
    Option GdbBreakpoint :=
  let entryMap := entry.toMap
  let map := if Assoc.contains (qs "bkpt") entryMap then
    (QVariantMap.value entryMap (qs "bkpt")).toMap else entryMap
  let bp := GdbMiClient.breakpointOf env s map
  if 0 < bp.number then some bp else none

/-- The entries that `parseBreakpointList` takes from a parsed payload. -/
def GdbMiClient.bkptEntries (res : QVariantMap) : QVariantList :=
  if Assoc.contains (qs "BreakpointTable") res then
    (QVariantMap.value (QVariantMap.value res (qs "BreakpointTable")).toMap (qs "body")).toList
  else if Assoc.contains (qs "bkpt") res then
    let bkptVar := QVariantMap.value res (qs "bkpt")
    if bkptVar.isList then bkptVar.toList else [bkptVar]
  else []

/-- Model of `GdbMiClient::parseBreakpointList`. -/
def GdbMiClient.parseBreakpointList (env : QtEnv) (s : GdbMiClient) (line : QString) :
    Option GdbMiClient :=
  (GdbMiClient.parseMiResults (QString.afterFirstComma line)).map (fun res =>
    let bps := (GdbMiClient.bkptEntries res).filterMap (GdbMiClient.processEntry env s)
    { s with breakpoints_ := bps }.emit (.breakpointsUpdated bps))

/-- The frame that `parseStackList` builds from one element of the list. -/
def GdbMiClient.stackFrameOf (env : QtEnv) (s : GdbMiClient) (frameVar : QVariant) :
    GdbStackFrame :=
  let frameMap := frameVar.toMap
  let frameMap := if Assoc.contains (qs "frame") frameMap then
    (QVariantMap.value frameMap (qs "frame")).toMap else frameMap
  { level := QString.toInt (QVariantMap.value frameMap (qs "level")).toQString,
    func := (QVariantMap.value frameMap (qs "func")).toQString,
    file := GdbMiClient.resolveFile env s frameMap,
    line := QString.toInt (QVariantMap.value frameMap (qs "line")).toQString }

/-- Model of `GdbMiClient::parseStackList`. -/
def GdbMiClient.parseStackList (env : QtEnv) (s : GdbMiClient) (line : QString) :
    Option GdbMiClient :=
  (GdbMiClient.parseMiResults (QString.afterFirstComma line)).map (fun res =>
    s.emit (.stackUpdated
      ((QVariantMap.value res (qs "stack")).toList.map (GdbMiClient.stackFrameOf env s))))

/-- Model of `GdbMiClient::parseLocalsList`. -/
def GdbMiClient.parseLocalsList (s : GdbMiClient) (line : QString) : Option GdbMiClient :=
  (GdbMiClient.parseMiResults (QString.afterFirstComma line)).map (fun res =>
    s.emit (.localsUpdated
      ((QVariantMap.value res (qs "variables")).toList.map (fun vVar =>
        { name := (QVariantMap.value vVar.toMap (qs "name")).toQString,
          value := (QVariantMap.value vVar.toMap (qs "value")).toQString }))))

/-- The thread that `parseThreadsList` builds from one element of the list. -/
def GdbMiClient.threadOf (env : QtEnv) (s : GdbMiClient) (currentId : QString)
    (tVar : QVariant) : GdbThread :=
  let tMap := tVar.toMap
  let id := QString.toInt (QVariantMap.value tMap (qs "id")).toQString
  let frameMap := (QVariantMap.value tMap (qs "frame")).toMap
  { id := id,
    state := (QVariantMap.value tMap (qs "state")).toQString,
    current := QString.toInt currentId = id,
    file := if frameMap.isEmpty then [] else GdbMiClient.resolveFile env s frameMap,
    line := if frameMap.isEmpty then 0
      else QString.toInt (QVariantMap.value frameMap (qs "line")).toQString }

/-- Model of `GdbMiClient::parseThreadsList`. -/
def GdbMiClient.parseThreadsList (env : QtEnv) (s : GdbMiClient) (line : QString) :
    Option GdbMiClient :=
  (GdbMiClient.parseMiResults (QString.afterFirstComma line)).map (fun res =>
    let currentId := (QVariantMap.value res (qs "current-thread-id")).toQString
    s.emit (.threadsUpdated
      ((QVariantMap.value res (qs "threads")).toList.map (GdbMiClient.threadOf env s currentId))))

/-! ## GdbMiClient: record classification -/

/-- Model of `GdbMiClient::handleResultForTag`. -/
def GdbMiClient.handleResultForTag (env : QtEnv) (s : GdbMiClient) (tag line : QString) :
    Option GdbMiClient :=
  let handled : Option GdbMiClient :=
    if tag = qs "break-list" then GdbMiClient.parseBreakpointList env s line
    else if tag = qs "stack-list" then GdbMiClient.parseStackList env s line
    else if tag = qs "locals-list" then GdbMiClient.parseLocalsList s line
    else if tag = qs "threads-list" then GdbMiClient.parseThreadsList env s line
    else if (qs "eval|").isPrefixOf tag then
      (GdbMiClient.parseMiResults (QString.afterFirstComma line)).map (fun res =>
        s.emit (.expressionEvaluated (tag.drop 5) (QVariantMap.value res (qs "value")).toQString))
    else if tag = qs "thread-select" ∨ tag = qs "frame-select" then
      some s.refreshStack.refreshLocals.refreshThreads
    else if (qs "break").isPrefixOf tag then some s.refreshBreakpoints
    else some s
  handled.map (fun s1 => s1.emit (.consoleOutput (GdbMiClient.decodeMiString line ++ qs "\n")))

/-- The second group of the pattern `file="([^"]+)".*line="(\d+)"` when the
part from `line="` matches at the head of the text. -/
def GdbMiClient.matchLineHere (text : QString) : Option QString :=
  if (qs "line=\"").isPrefixOf text then
    let digits := (text.drop 6).takeWhile QChar.isAsciiDigit
    let after := (text.drop 6).dropWhile QChar.isAsciiDigit
    if digits.isEmpty = false ∧ after.head? = some '"' then some digits else none
  else none

/-- The second group for the greedy `.*` followed by `line="(\d+)"`: the last
place of the text that matches and is reached without crossing a line feed. -/
def GdbMiClient.matchLineLast : QString → Option QString
  | [] => none
  | c :: rest =>
    match (if c = '\n' then none else GdbMiClient.matchLineLast rest) with
    | some digits => some digits
    | none => GdbMiClient.matchLineHere (c :: rest)

/-- The two groups of the pattern when it matches at the head of the text. -/
def GdbMiClient.matchStoppedHere (text : QString) : Option (QString × QString) :=
  if (qs "file=\"").isPrefixOf text then
    let file := (text.drop 6).takeWhile (fun c => c != '"')
    let after := (text.drop 6).dropWhile (fun c => c != '"')
    if file.isEmpty = false ∧ after.head? = some '"' then
      (GdbMiClient.matchLineLast after.tail).map (fun digits => (file, digits))
    else none
  else none

/-- The groups of the first match of `file="([^"]+)".*line="(\d+)"` in a text. -/
def GdbMiClient.matchStopped : QString → Option (QString × QString)
  | [] => none
  | c :: rest =>
    match GdbMiClient.matchStoppedHere (c :: rest) with
    | some m => some m
    | none => GdbMiClient.matchStopped rest

/-- The two groups of the pattern `^(\d+)([\^\*].*)$` when the line matches;
the dot does not match a line feed and `$` also matches before a final one. -/
def GdbMiClient.matchToken (line : QString) : Option (QString × QString) :=
  let digits := line.takeWhile QChar.isAsciiDigit
  let rest := line.dropWhile QChar.isAsciiDigit
  if digits.isEmpty then none
  else if rest.head? = some '^' ∨ rest.head? = some '*' then
    if rest.contains '\n' = false then some (digits, rest)
    else if rest.getLast? = some '\n' ∧ rest.dropLast.contains '\n' = false then
      some (digits, rest.dropLast)
    else none
  else none

/-- Model of `GdbMiClient::parseLine`. -/
def GdbMiClient.parseLine (env : QtEnv) (s : GdbMiClient) (line : QString) :
    Option GdbMiClient :=
  let console := GdbEvent.consoleOutput (GdbMiClient.decodeMiString line ++ qs "\n")
  if line.head? = some '*' then
    let s1 :=
      if (qs "*stopped").isPrefixOf line then
        match GdbMiClient.matchStopped line with
        | some m => (s.emit (.stopped m.1 (QString.toInt m.2))).refreshStack.refreshLocals.refreshThreads
        | none => s
      else s
    some (s1.emit console)
  else if line.head? = some '~' ∨ line.head? = some '@' ∨ line.head? = some '&' then
    some (s.emit console)
  else
    match GdbMiClient.matchToken line with
    | some m =>
      let token := QString.toInt m.1
      let tag := (Assoc.find token s.pendingTags_).getD []
      GdbMiClient.handleResultForTag env
        { s with pendingTags_ := Assoc.erase token s.pendingTags_ } tag m.2
    | none => some (s.emit console)

/-- Position of the first line feed in a buffer, `none` standing for -1. -/
def QByteArray.indexOfLineFeed : QByteArray → Option Nat
  | [] => none
  | b :: rest => if b = 10 then some 0 else (QByteArray.indexOfLineFeed rest).map (fun i => i + 1)

/-- The loop of `GdbMiClient::handleReadyRead`. -/
def GdbMiClient.readLoop (env : QtEnv) : Nat → GdbMiClient → Option GdbMiClient
  | 0, _ => none
  | fuel + 1, s =>
    match QByteArray.indexOfLineFeed s.buffer_ with
    | none => some s
    | some idx =>
      let lineData := s.buffer_.take idx
      let s1 := { s with buffer_ := s.buffer_.drop (idx + 1) }
      let line := QString.trimmed (env.fromLocal8Bit lineData)
      if line.isEmpty then GdbMiClient.readLoop env fuel s1
      else (GdbMiClient.parseLine env s1 line).bind (GdbMiClient.readLoop env fuel)

/-- Model of `GdbMiClient::handleReadyRead` for a read that returns `bytes`. -/
def GdbMiClient.handleReadyRead (env : QtEnv) (s : GdbMiClient) (bytes : QByteArray) :
    Option GdbMiClient :=
  GdbMiClient.readLoop env ((s.buffer_ ++ bytes).length + 1) { s with buffer_ := s.buffer_ ++ bytes }

/-! ## Runs of the two engines -/

/-- The calls and process events that drive a `GdbMiClient`.  `command` stands
for the command methods that consist of one `sendMiCommand` call
(`continueExec`, `insertBreakpoint`, `deleteBreakpoint`, `refreshStack`, ...). -/
inductive GdbAction where
  | start (workingDir : QString) (startedOk : Bool)
  | stop
  | command (command tag : QString)
  | evaluateExpression (expr : QString)
  | sendConsoleCommand (cmd : QString)
  | readyRead (bytes : QByteArray)
  | finished (code : Int)

/-- The state after one call or event; `none` when a parser does not return. -/
def GdbMiClient.step (env : QtEnv) (s : GdbMiClient) : GdbAction → Option GdbMiClient
  | .start workingDir startedOk => some (s.start workingDir startedOk)
  | .stop => some s.stop
  | .command command tag => some (s.sendMiCommand command tag)
  | .evaluateExpression expr => some (s.evaluateExpression expr)
  | .sendConsoleCommand cmd => some (s.sendConsoleCommand cmd)
  | .readyRead bytes => GdbMiClient.handleReadyRead env s bytes
  | .finished code => some (s.handleFinished code)

/-- The state after a sequence of calls and events. -/
def GdbMiClient.run (env : QtEnv) : GdbMiClient → List GdbAction → Option GdbMiClient
  | s, [] => some s
  | s, a :: rest => (GdbMiClient.step env s a).bind (fun s1 => GdbMiClient.run env s1 rest)

/-- Whether a call is `start`, which opens a new session. -/
def GdbAction.isStart : GdbAction → Bool
  | .start _ _ => true
  | _ => false

/-- The lines of a list passed to `parseLine` one after the other. -/
def GdbMiClient.parseLines (env : QtEnv) : GdbMiClient → List QString → Option GdbMiClient
  | s, [] => some s
  | s, line :: rest =>
    (GdbMiClient.parseLine env s line).bind (fun s1 => GdbMiClient.parseLines env s1 rest)

/-- The commands of a list issued one after the other. -/
def GdbMiClient.sendAll (s : GdbMiClient) (cmds : List (QString × QString)) : GdbMiClient :=
  cmds.foldl (fun st c => st.sendMiCommand c.1 c.2) s

/-- A list of result records `(token, tag, text)` handled one after the other,
each under the tag given with it: the token leaves the pending table and
`handleResultForTag` runs with that tag. -/
def GdbMiClient.handleTagged (env : QtEnv) :
    GdbMiClient → List (Int × QString × QString) → Option GdbMiClient
  | s, [] => some s
  | s, (token, tag, text) :: rest =>
    (GdbMiClient.handleResultForTag env
      { s with pendingTags_ := Assoc.erase token s.pendingTags_ } tag text).bind
      (fun s1 => GdbMiClient.handleTagged env s1 rest)

/-- Model of `LspClient::handleError`. -/
def LspClient.handleError (s : LspClient) (error : Int) : LspClient :=
  s.emit (.serverLog (qs "clangd 进程错误：" ++ QString.number error))

/-- The calls and process events that drive an `LspClient`. -/
inductive LspAction where
  | start (rootDir : QString) (startedOk : Bool)
  | stop
  | setCurrentDocument (document : Option QTextDocument) (filePath : QString)
  | openDocument (filePath text : QString)
  | changeDocument (filePath text : QString)
  | saveDocument (filePath : QString)
  | requestCompletion (filePath : QString) (line character : Int)
  | requestDocumentSymbols (filePath : QString)
  | requestFoldingRanges (filePath : QString)
  | requestSemanticTokens (filePath : QString)
  | requestDefinition (filePath : QString) (line character : Int)
  | requestReferences (filePath : QString) (line character : Int)
  | requestRename (filePath : QString) (line character : Int) (newName : QString)
  | readyRead (bytes : QByteArray)
  | error (code : Int)
  | processExited

/-- The state after one call or event; `none` as for `parseBufferWith`. -/
def LspClient.step (env : QtEnv) (s : LspClient) : LspAction → Option LspClient
  | .start rootDir startedOk => some (LspClient.start env s rootDir startedOk)
  | .stop => some (LspClient.stop env s)
  | .setCurrentDocument document filePath => some (s.setCurrentDocument document filePath)
  | .openDocument filePath text => some (LspClient.openDocument env s filePath text)
  | .changeDocument filePath text => some (LspClient.changeDocument env s filePath text)
  | .saveDocument filePath => some (LspClient.saveDocument env s filePath)
  | .requestCompletion filePath line character =>
    some (LspClient.requestCompletion env s filePath line character)
  | .requestDocumentSymbols filePath => some (LspClient.requestDocumentSymbols env s filePath)
  | .requestFoldingRanges filePath => some (LspClient.requestFoldingRanges env s filePath)
  | .requestSemanticTokens filePath => some (LspClient.requestSemanticTokens env s filePath)
  | .requestDefinition filePath line character =>
    some (LspClient.requestDefinition env s filePath line character)
  | .requestReferences filePath line character =>
    some (LspClient.requestReferences env s filePath line character)
  | .requestRename filePath line character newName =>
    some (LspClient.requestRename env s filePath line character newName)
  | .readyRead bytes => LspClient.handleReadyRead env s bytes
  | .error code => some (s.handleError code)
  | .processExited => some { s with running := false }

/-- The state after a sequence of calls and events. -/
def LspClient.run (env : QtEnv) : LspClient → List LspAction → Option LspClient
  | s, [] => some s
  | s, a :: rest => (LspClient.step env s a).bind (fun s1 => LspClient.run env s1 rest)

/-- The invariant of a pending table with its counter: no key occurs twice and
every key is below the next value of the counter. -/
def pendingInv (table : List (Int × QString)) (next : Int) : Prop :=
  (Assoc.keys table).Nodup ∧ ∀ k ∈ Assoc.keys table, k < next

/-- Whether a signal of `LspClient` is one of the `...Ready` signals. -/
def LspEvent.isReady : LspEvent → Bool
  | .diagnosticsUpdated _ _ _ => false
  | .serverLog _ => false
  | _ => true

/-! ## Well-formed MI text -/

/-- Abstract syntax of the MI values that a debugger writes: a quoted string
(given by the text between its quotes), a tuple of results `name=value`, a list
of values and a list of results. -/
inductive MiValue where
  | cstring (raw : QString)
  | tuple (fields : List (QString × MiValue))
  | values (items : List MiValue)
  | results (items : List (QString × MiValue))

instance : Inhabited MiValue := ⟨MiValue.cstring []⟩

mutual

/-- The MI text of a value. -/
def MiValue.render : MiValue → QString
  | .cstring raw => '"' :: raw ++ ['"']
  | .tuple fields => '{' :: MiValue.renderResults fields ++ ['}']
  | .values items => '[' :: MiValue.renderValues items ++ [']']
  | .results items => '[' :: MiValue.renderResults items ++ [']']

/-- The MI text of a sequence of results, separated by commas. -/
def MiValue.renderResults : List (QString × MiValue) → QString
  | [] => []
  | (name, value) :: rest =>
    name ++ '=' :: MiValue.render value ++
      (if rest.isEmpty then [] else ',' :: MiValue.renderResults rest)

/-- The MI text of a sequence of values, separated by commas. -/
def MiValue.renderValues : List MiValue → QString
  | [] => []
  | value :: rest =>
    MiValue.render value ++ (if rest.isEmpty then [] else ',' :: MiValue.renderValues rest)

end

/-- The text that the body of a quoted MI string stands for, by the rule of
`parseMiValue`: backslash-n is a line feed, backslash-t a tab, and a backslash
before any other character stands for that character. -/
def MiValue.unescape : QString → QString
  | [] => []
  | [c] => [c]
  | c :: d :: rest =>
    if c = '\\' then
      (if d = 'n' then '\n' else if d = 't' then '\t' else d) :: MiValue.unescape rest
    else c :: MiValue.unescape (d :: rest)

/-- Whether a text can stand between the quotes of an MI string: every double
quote and every backslash in it is preceded by an escaping backslash. -/
def MiValue.wellEscaped : QString → Bool
  | [] => true
  | [c] => c != '"' && c != '\\'
  | c :: d :: rest =>
    if c = '"' then false
    else if c = '\\' then MiValue.wellEscaped rest
    else MiValue.wellEscaped (d :: rest)

/-- Whether a text is a bare word that can name a result: it is not empty, does
not start with white space and holds none of `=`, `,`, `}` and `]`. -/
def MiValue.isBareWord (name : QString) : Bool :=
  (match name with
    | [] => false
    | c :: _ => !QChar.isSpace c) && name.all (fun c => !GdbMiClient.isWordEnd c)

/-- Whether a bare word can name a result inside a list: it does not start
with a character that opens a value. -/
def MiValue.isListName (name : QString) : Bool :=
  MiValue.isBareWord name &&
    !(name.head? = some '{' || name.head? = some '[' || name.head? = some '"')

mutual

/-- Well-formed values: strings are well escaped and names are bare words. -/
def MiValue.wf : MiValue → Bool
  | .cstring raw => MiValue.wellEscaped raw
  | .tuple fields => MiValue.wfFields fields
  | .values items => MiValue.wfValues items
  | .results items => MiValue.wfListResults items

/-- Well-formed results of a tuple or of a payload. -/
def MiValue.wfFields : List (QString × MiValue) → Bool
  | [] => true
  | (name, value) :: rest => MiValue.isBareWord name && MiValue.wf value && MiValue.wfFields rest

/-- Well-formed values of a list. -/
def MiValue.wfValues : List MiValue → Bool
  | [] => true
  | value :: rest => MiValue.wf value && MiValue.wfValues rest

/-- Well-formed results of a list. -/
def MiValue.wfListResults : List (QString × MiValue) → Bool
  | [] => true
  | (name, value) :: rest =>
    MiValue.isListName name && MiValue.wf value && MiValue.wfListResults rest

end

mutual

/-- The variant that a value stands for: a string is unescaped, a tuple is the
mapping obtained by inserting its results in source order, a list of values is
the list of their variants and a list of results is the list of the
one-entry mappings of its results. -/
def MiValue.denote : MiValue → QVariant
  | .cstring raw => .string (MiValue.unescape raw)
  | .tuple fields => .map (MiValue.denoteFields fields [])
  | .values items => .list (MiValue.denoteValues items)
  | .results items => .list (MiValue.denoteResults items)

/-- The mapping obtained from `map` by inserting results in source order. -/
def MiValue.denoteFields : List (QString × MiValue) → QVariantMap → QVariantMap
  | [], map => map
  | (name, value) :: rest, map =>
    MiValue.denoteFields rest (Assoc.insert name (MiValue.denote value) map)

/-- The variants of the values of a list. -/
def MiValue.denoteValues : List MiValue → QVariantList
  | [] => []
  | value :: rest => MiValue.denote value :: MiValue.denoteValues rest

/-- The one-entry mappings of the results of a list. -/
def MiValue.denoteResults : List (QString × MiValue) → QVariantList
  | [] => []
  | (name, value) :: rest =>
    QVariant.map [(name, MiValue.denote value)] :: MiValue.denoteResults rest

end

/-- The tuple with quoted string values written `{k1="v1",...,kn="vn"}`. -/
def MiValue.flatTuple (kvs : List (QString × QString)) : MiValue :=
  .tuple (kvs.map (fun kv => (kv.1, MiValue.cstring kv.2)))

/-- The value of the last result named `name` in a sequence of results. -/
def MiValue.lastNamed (name : QString) (fields : List (QString × MiValue)) : Option MiValue :=
  Assoc.find name fields.reverse

/-- Whether `digits` followed by `text` is a result record in the sense of the
pattern `^(\d+)([\^\*].*)$`: a non-empty run of decimal digits, then a text
that starts with `^` or `*` and holds no line feed. -/
def GdbMiClient.isResultRecord (digits text : QString) : Bool :=
  !digits.isEmpty && digits.all QChar.isAsciiDigit &&
    (text.head? = some '^' || text.head? = some '*') && !text.contains '\n'

/-- A sample environment: the JSON decoder knows the empty object and the reply
`{"id":1,"result":{}}` only, URLs are paths, absolute paths start with a slash,
bytes are Latin-1 characters, and `std::sort` is an insertion sort. -/
def QtEnv.sample : QtEnv :=
  { toJson := fun _ => ascii "\x7b\x7d",
    fromJson := fun body =>
      if body = ascii "\x7b\x7d" then { noError := true, errorString := [], document := .object [] }
      else if body = ascii "\x7b\"id\":1,\"result\":\x7b\x7d\x7d" then
        { noError := true, errorString := [],
          document := .object [(qs "id", .number 1), (qs "result", .object [])] }
      else { noError := false, errorString := qs "illegal value", document := .null },
    pathToUri := fun path => qs "file://" ++ path,
    uriToLocalFile := fun uri => uri.drop 7,
    applicationPid := 1,
    isAbsolute := fun file => file.head? = some '/',
    absoluteFilePath := fun dir file => dir ++ qs "/" ++ file,
    fromLocal8Bit := fun bytes => bytes.map (fun b => Char.ofNat b.toNat),
    toLocal8Bit := fun text => text.map (fun c => c.toNat.toUInt8),
    stdSort := StdSort.insertionSort }

/-- The relation between a state of `GdbMiClient` and a later state of the same
session in which no pending entry has been consumed: the process state is the
same, the counter has not decreased, and every token below the old counter has
the entry it had. -/
def GdbMiClient.Extends (s s1 : GdbMiClient) : Prop :=
  s1.running = s.running ∧ s.nextToken_ ≤ s1.nextToken_ ∧
    (∀ k : Int, k < s.nextToken_ → Assoc.find k s1.pendingTags_ = Assoc.find k s.pendingTags_) ∧
    (pendingInv s.pendingTags_ s.nextToken_ → pendingInv s1.pendingTags_ s1.nextToken_)

/-- The tag of the command at a position of a list of commands. -/
def GdbMiClient.tagOfCommand (cmds : List (QString × QString)) (i : Nat) : QString :=
  (cmds.getD i ([], [])).2

/-- A pending table with its counter at a later point of the life of an engine:
the counter has not decreased, a value below the old counter that had no entry
has none, and the invariant is kept. -/
def pendingFollows (table : List (Int × QString)) (next : Int)
    (table1 : List (Int × QString)) (next1 : Int) : Prop :=
  next ≤ next1 ∧
    (∀ k : Int, k < next → Assoc.find k table = none → Assoc.find k table1 = none) ∧
    (pendingInv table next → pendingInv table1 next1)

/-- A started debugger session used in the examples: tokens 1 and 2 are taken
by `start`. -/
def GdbMiClient.sampleSession : GdbMiClient := GdbMiClient.init.start [] true

/-- Three commands issued in a row in the examples. -/
def GdbMiClient.sampleCommands : List (QString × QString) :=
  [(qs "-exec-next", qs "next"),
   (qs "-data-evaluate-expression \"x+1\"", qs "eval|x+1"),
   (qs "-stack-list-frames", qs "stack-list")]

/-- Result records for the three commands, as position of the command, token
text and rest of the record; the reply to the evaluation arrives last. -/
def GdbMiClient.sampleReplies : List (Nat × QString × QString) :=
  [(2, qs "5", qs "^done,stack=[]"), (0, qs "3", qs "^running"),
   (1, qs "4", qs "^done,value=\"2\"")]

/-- Whether a JSON message is a reply in the sense of `handleMessage`. -/
def LspClient.isReply (message : QJsonObject) : Bool :=
  Assoc.contains (qs "id") message &&
    (Assoc.contains (qs "result") message || Assoc.contains (qs "error") message)

/-- The id that `handleMessage` reads from a message. -/
def LspClient.replyId (message : QJsonObject) : Int :=
  (QJsonObject.value message (qs "id")).toInt 0

/-- Two states of `LspClient` with the same pending table and counter. -/
def LspClient.SamePending (s s1 : LspClient) : Prop :=
  s1.pendingRequests_ = s.pendingRequests_ ∧ s1.nextId_ = s.nextId_

instance (table : List (Int × QString)) (next : Int) : Decidable (pendingInv table next) := by
  unfold pendingInv
  infer_instance

/-- The sample debugger session after the result record `2^done` has been
handled (token 2 is the `-break-list` command issued by `start`). -/
def GdbMiClient.sampleAfterReply : GdbMiClient :=
  (GdbMiClient.parseLine QtEnv.sample GdbMiClient.sampleSession (qs "2^done")).getD
    GdbMiClient.init

/-- Calls made to the sample debugger session after that record. -/
def GdbMiClient.sampleActions : List GdbAction :=
  [.command (qs "-exec-run") (qs "run"), .readyRead (ascii "~\"hello\"\n3^running\n")]

/-- The sample debugger session after these calls. -/
def GdbMiClient.sampleLater : GdbMiClient :=
  (GdbMiClient.run QtEnv.sample GdbMiClient.sampleAfterReply GdbMiClient.sampleActions).getD
    GdbMiClient.init

/-- A language session in which `initialize` (id 1) has been answered and
document symbols for `a.cpp` have been requested (id 2). -/
def LspClient.sampleSession : LspClient :=
  LspClient.requestDocumentSymbols QtEnv.sample
    (LspClient.handleMessage QtEnv.sample (LspClient.start QtEnv.sample LspClient.init [] true)
      [(qs "id", .number 1), (qs "result", .object [])])
    (qs "a.cpp")

/-- A reply to request 2 of the sample language session. -/
def LspClient.sampleReply : QJsonObject := [(qs "id", .number 2), (qs "result", .array [])]

/-- Calls made to the sample language session after that reply. -/
def LspClient.sampleActions : List LspAction :=
  [.requestCompletion (qs "a.cpp") 1 2, .changeDocument (qs "a.cpp") (qs "int x;")]

/-- The sample language session after the reply and these calls. -/
def LspClient.sampleLater : LspClient :=
  (LspClient.run QtEnv.sample
    (LspClient.handleMessage QtEnv.sample LspClient.sampleSession LspClient.sampleReply)
    LspClient.sampleActions).getD LspClient.init

/-- Calls that lead a fresh `GdbMiClient` to a state with pending commands. -/
def GdbMiClient.sampleRun : List GdbAction :=
  [.start (qs "/w") true, .command (qs "-exec-run") (qs "run"),
   .readyRead (ascii "1^done\n"), .evaluateExpression (qs "x+1")]

/-- The state of a fresh `GdbMiClient` after `sampleRun`. -/
def GdbMiClient.sampleReached : GdbMiClient :=
  (GdbMiClient.run QtEnv.sample GdbMiClient.init GdbMiClient.sampleRun).getD GdbMiClient.init

/-- Calls that lead a fresh `LspClient` to a state with pending requests. -/
def LspClient.sampleRun : List LspAction :=
  [.start [] true, .openDocument (qs "a.cpp") (qs "int x;"),
   .readyRead (ascii "Content-Length: 20\r\n\r\n\x7b\"id\":1,\"result\":\x7b\x7d\x7d"),
   .requestRename (qs "a.cpp") 0 4 (qs "y")]

/-- The state of a fresh `LspClient` after `sampleRun`. -/
def LspClient.sampleReached : LspClient :=
  (LspClient.run QtEnv.sample LspClient.init LspClient.sampleRun).getD LspClient.init

mutual

/-- The nesting of parser calls that the MI text of a value needs: the fuel
that is enough for `parseMiValue` to return on it. -/
def MiValue.depth : MiValue → Nat
  | .cstring _ => 1
  | .tuple fields => MiValue.depthResults fields + 1
  | .values items => MiValue.depthValues items + 1
  | .results items => MiValue.depthResults items + 1

/-- The fuel that is enough for a loop over the text of a sequence of results. -/
def MiValue.depthResults : List (QString × MiValue) → Nat
  | [] => 1
  | (_, value) :: rest => max (MiValue.depth value) (MiValue.depthResults rest) + 1

/-- The fuel that is enough for a loop over the text of a sequence of values. -/
def MiValue.depthValues : List MiValue → Nat
  | [] => 1
  | value :: rest => max (MiValue.depth value) (MiValue.depthValues rest) + 1

end

/-- The text of the field `name` of a tuple given by its results: the unescaped
string of the last result with that name, empty when there is none or when its
value is not a string. -/
def MiValue.fieldText (fields : List (QString × MiValue)) (name : QString) : QString :=
  (QVariantMap.value (MiValue.denoteFields fields []) name).toQString

/-- The `BreakpointTable` tuple of a `-break-list` result: results `pre` (row
and column counts, header), then `body=[bkpt={...},...]` with one `bkpt` result
per entry, then results `post`. -/
def MiValue.breakpointTable (pre : List (QString × MiValue))
    (entries : List (List (QString × MiValue))) (post : List (QString × MiValue)) : MiValue :=
  .tuple (pre ++ [(qs "body", .results (entries.map (fun e => (qs "bkpt", MiValue.tuple e))))] ++
    post)

/-- The text of a `-break-list` result record after its token: the result class
`status` (for example `^done`), a comma and the `BreakpointTable` result. -/
def GdbMiClient.breakpointListRecord (status : QString) (pre : List (QString × MiValue))
    (entries : List (List (QString × MiValue))) (post : List (QString × MiValue)) : QString :=
  status ++ ',' :: (qs "BreakpointTable" ++
    '=' :: MiValue.render (MiValue.breakpointTable pre entries post))

/-- The file name of a breakpoint entry as `processBkpt` reads it: the field
`fullname`, or the field `file` when `fullname` is empty. -/
def GdbMiClient.entryFile (entry : List (QString × MiValue)) : QString :=
  if (MiValue.fieldText entry (qs "fullname")).isEmpty then MiValue.fieldText entry (qs "file")
  else MiValue.fieldText entry (qs "fullname")

/-- The text of a `-stack-list-frames` result record after its token: the
result class `status`, a comma and `stack=[frame={...},...]` with one `frame`
result per entry. -/
def GdbMiClient.stackListRecord (status : QString) (frames : List (List (QString × MiValue))) :
    QString :=
  status ++ ',' :: (qs "stack" ++
    '=' :: MiValue.render (.results (frames.map (fun f => (qs "frame", MiValue.tuple f)))))

/-- A breakpoint table with two entries, the second with a relative file name. -/
def GdbMiClient.sampleBreakpointEntries : List (List (QString × MiValue)) :=
  [[(qs "number", .cstring (qs "1")), (qs "type", .cstring (qs "breakpoint")),
    (qs "enabled", .cstring (qs "y")), (qs "file", .cstring (qs "a.cpp")),
    (qs "fullname", .cstring (qs "/w/a.cpp")), (qs "line", .cstring (qs "5")),
    (qs "thread-groups", .values [.cstring (qs "i1")])],
   [(qs "number", .cstring (qs "2")), (qs "enabled", .cstring (qs "n")),
    (qs "file", .cstring (qs "src/b.cpp")), (qs "line", .cstring (qs "7"))]]

/-- A stack list whose frames are not in ascending order of level. -/
def GdbMiClient.sampleStackFrames : List (List (QString × MiValue)) :=
  [[(qs "level", .cstring (qs "1")), (qs "func", .cstring (qs "main"))],
   [(qs "level", .cstring (qs "0")), (qs "func", .cstring (qs "f"))]]

/-! ## Completion replies -/

/-- The array that `handleMessage` reads from a completion reply: the member
`items` of an object result, the result itself when it is an array. -/
def LspClient.completionArray (message : QJsonObject) : QJsonArray :=
  if (QJsonObject.value message (qs "result")).isObject then
    (QJsonObject.value (QJsonObject.value message (qs "result")).toObject (qs "items")).toArray
  else if (QJsonObject.value message (qs "result")).isArray then
    (QJsonObject.value message (qs "result")).toArray
  else []

/-- The items received with a completion reply, in the order of the reply. -/
def LspClient.receivedItems (message : QJsonObject) : List LspCompletionItem :=
  (LspClient.completionArray message).map LspClient.completionItemOf

/-- A completion item as a JSON object with a label and a sort key; an empty
sort key stands for an item sent without one. -/
def LspClient.sampleItem (label sortText : QString) : QJsonValue :=
  .object [(qs "label", .string label), (qs "sortText", .string sortText)]

/-- The sample language session after a completion request for `a.cpp`, which
takes id 3. -/
def LspClient.sampleCompletionSession : LspClient :=
  LspClient.requestCompletion QtEnv.sample LspClient.sampleSession (qs "a.cpp") 1 2

/-- A reply to request 3 with three items whose sort keys are `10`, `9` and `02`. -/
def LspClient.sampleCompletionReply : QJsonObject :=
  [(qs "id", .number 3),
   (qs "result", .array [LspClient.sampleItem (qs "x") (qs "10"),
     LspClient.sampleItem (qs "y") (qs "9"), LspClient.sampleItem (qs "z") (qs "02")])]

/-- A reply to request 3 with three items without sort key. -/
def LspClient.sampleLabelReply : QJsonObject :=
  [(qs "id", .number 3),
   (qs "result", .object [(qs "items", .array [LspClient.sampleItem (qs "push") [],
     LspClient.sampleItem (qs "pop") [], LspClient.sampleItem (qs "peek") []])])]

/-- Three completion items of which the third has no sort key: labels `z`, `a`
and `m`, sort keys `1`, `2` and none. -/
def LspClient.sampleMixedItems : List LspCompletionItem :=
  [{ label := qs "z", insertText := [], sortText := qs "1", kind := 0 },
   { label := qs "a", insertText := [], sortText := qs "2", kind := 0 },
   { label := qs "m", insertText := [], sortText := [], kind := 0 }]

/-- A reply to request 3 that carries the three mixed items. -/
def LspClient.sampleMixedReply : QJsonObject :=
  [(qs "id", .number 3),
   (qs "result", .array [LspClient.sampleItem (qs "z") (qs "1"),
     LspClient.sampleItem (qs "a") (qs "2"),
     .object [(qs "label", .string (qs "m"))]])]

/-! ## MainWindow: semantic tokens -/

/-- The sum of two `int` values; `none` when it lies outside the range of `int`,
where the addition of the source has no defined result. -/
def intAdd (a b : Int) : Option Int :=
  if intMin ≤ a + b ∧ a + b ≤ intMax then some (a + b) else none

/-- The properties of a `QTextCharFormat` that `handleSemanticTokens` sets: the
foreground colour as red, green and blue, and the bold font weight. -/
structure QTextCharFormat where
  foreground : Option (Nat × Nat × Nat)
  bold : Bool
deriving DecidableEq

/-- A `QTextEdit::ExtraSelection` of the semantic highlighting: the cursor and
the format. -/
structure SemanticSelection where
  cursor : ExtraSelection
  format : QTextCharFormat
deriving DecidableEq

/-- The format that `handleSemanticTokens` builds for the name of a token type.
A default-constructed `QTextCharFormat` is a valid format, so the test
`fmt.isValid()` of the source holds for every name. -/
def MainWindow.semanticFormat (typeName : QString) : QTextCharFormat :=
  if typeName = qs "class" ∨ typeName = qs "struct" ∨ typeName = qs "enum" then
    { foreground := some (0, 70, 140), bold := true }
  else if typeName = qs "function" ∨ typeName = qs "method" then
    { foreground := some (20, 20, 20), bold := true }
  else if typeName = qs "namespace" then { foreground := some (100, 40, 140), bold := false }
  else if typeName = qs "macro" then { foreground := some (0, 110, 0), bold := true }
  else if typeName = qs "parameter" ∨ typeName = qs "variable" then
    { foreground := some (80, 80, 80), bold := false }
  else { foreground := none, bold := false }

/-- The part of the loop body of `handleSemanticTokens` after the update of
`line` and `character`: the selection appended for a token, `some none` when the
token is skipped, and `none` when `block.position() + character` or
`startPos + length` lies outside the range of `int`. -/
def MainWindow.tokenSelection (doc : QTextDocument) (tokenTypes : List QString)
    (line character length typeIdx : Int) : Option (Option SemanticSelection) :=
  if typeIdx < 0 ∨ (tokenTypes.length : Int) ≤ typeIdx then some none
  else if tokenTypes.getD typeIdx.toNat [] = qs "keyword" then some none
  else
    match doc.findBlockByNumber line with
    | none => some none
    | some block =>
      (intAdd block.1 character).bind (fun startPos =>
        (intAdd startPos length).map (fun endPos =>
          let cursor := QTextCursor.setPosition doc { anchor := 0, position := 0 } startPos false
          let cursor := QTextCursor.setPosition doc cursor endPos true
          some { cursor := cursor,
                 format := MainWindow.semanticFormat (tokenTypes.getD typeIdx.toNat []) }))

/-- The variables of the loop of `handleSemanticTokens`. -/
structure SemanticLoop where
  line : Int
  character : Int
  selections : List SemanticSelection
deriving DecidableEq

/-- The loop variables before the first iteration. -/
def SemanticLoop.init : SemanticLoop := { line := 0, character := 0, selections := [] }

/-- One iteration of the loop of `handleSemanticTokens` for the four values read
from the stream; `none` when a sum lies outside the range of `int`. -/
def MainWindow.semanticTokenStep (doc : QTextDocument) (tokenTypes : List QString)
    (st : SemanticLoop) (deltaLine deltaStart length typeIdx : Int) : Option SemanticLoop :=
  (intAdd st.line deltaLine).bind (fun line =>
    (if deltaLine = 0 then intAdd st.character deltaStart else some deltaStart).bind
      (fun character =>
        (MainWindow.tokenSelection doc tokenTypes line character length typeIdx).map
          (fun sel =>
            { line := line, character := character,
              selections := st.selections ++ sel.toList })))

/-- The loop `for (int i = 0; i + 4 < data.size(); i += 5)` of
`handleSemanticTokens` over the part of the stream from `i` on. -/
def MainWindow.semanticTokensLoop (doc : QTextDocument) (tokenTypes : List QString) :
    QJsonArray → SemanticLoop → Option SemanticLoop
  | deltaLine :: deltaStart :: length :: typeIdx :: _ :: rest, st =>
    (MainWindow.semanticTokenStep doc tokenTypes st (deltaLine.toInt 0) (deltaStart.toInt 0)
      (length.toInt 0) (typeIdx.toInt 0)).bind (MainWindow.semanticTokensLoop doc tokenTypes rest)
  | _, st => some st

/-- The members of `MainWindow::OpenTab` that the handlers read: the file path
and the document of the editor, `none` for a tab without editor. -/
structure OpenTab where
  filePath : QString
  editor : Option QTextDocument

/-- Model of `MainWindow::handleSemanticTokens`: `some (some selections)` when
`setSemanticSelections(selections)` is called, `some none` when the handler
returns before, `none` when a sum lies outside the range of `int`. -/
def MainWindow.handleSemanticTokens (currentFile : QString) (currentTab : Option OpenTab)
    (tokenTypes : List QString) (filePath : QString) (data : QJsonArray) :
    Option (Option (List SemanticSelection)) :=
  if filePath ≠ currentFile then some none
  else
    match currentTab with
    | none => some none
    | some tab =>
      if tab.filePath ≠ filePath then some none
      else
        match tab.editor with
        | none => some none
        | some doc =>
          if tokenTypes.isEmpty then some none
          else
            (MainWindow.semanticTokensLoop doc tokenTypes data SemanticLoop.init).map
              (fun st => some st.selections)

/-- One entry of a semantic token stream. -/
structure SemanticToken where
  deltaLine : Int
  deltaStart : Int
  length : Int
  tokenType : Int
  tokenModifiers : Int
deriving DecidableEq

/-- Whether the five numbers of an entry are values of `int`. -/
def SemanticToken.isInt (t : SemanticToken) : Prop :=
  (intMin ≤ t.deltaLine ∧ t.deltaLine ≤ intMax) ∧ (intMin ≤ t.deltaStart ∧ t.deltaStart ≤ intMax) ∧
  (intMin ≤ t.length ∧ t.length ≤ intMax) ∧ (intMin ≤ t.tokenType ∧ t.tokenType ≤ intMax) ∧
  (intMin ≤ t.tokenModifiers ∧ t.tokenModifiers ≤ intMax)

instance (t : SemanticToken) : Decidable t.isInt := by
  unfold SemanticToken.isInt
  infer_instance

/-- The flat stream of the entries of a list, five JSON numbers per entry. -/
def MainWindow.tokenStream (entries : List SemanticToken) : QJsonArray :=
  entries.flatMap (fun t => [.number t.deltaLine, .number t.deltaStart, .number t.length,
    .number t.tokenType, .number t.tokenModifiers])

/-- The absolute positions that a stream of relative entries stands for, as
pairs of line and start character, counted from the position `(line,
character)` of the entry before: the line is the sum of the line deltas, and the
start character is the start delta of an entry whose line delta is not zero and
the start character of the entry before plus the start delta otherwise. -/
def SemanticToken.positions : Int → Int → List SemanticToken → List (Int × Int)
  | _, _, [] => []
  | line, character, t :: rest =>
    (line + t.deltaLine, if t.deltaLine ≠ 0 then t.deltaStart else character + t.deltaStart) ::
      SemanticToken.positions (line + t.deltaLine)
        (if t.deltaLine ≠ 0 then t.deltaStart else character + t.deltaStart) rest

/-- Whether the sums that the loop forms for a list of entries, started with the
values `line` and `character`, all lie in the range of `int`. -/
def SemanticToken.defined (doc : QTextDocument) (tokenTypes : List QString) :
    Int → Int → List SemanticToken → Bool
  | _, _, [] => true
  | line, character, t :: rest =>
    (intAdd line t.deltaLine).isSome &&
      (t.deltaLine != 0 || (intAdd character t.deltaStart).isSome) &&
      (MainWindow.tokenSelection doc tokenTypes (line + t.deltaLine)
        (if t.deltaLine ≠ 0 then t.deltaStart else character + t.deltaStart)
        t.length t.tokenType).isSome &&
      SemanticToken.defined doc tokenTypes (line + t.deltaLine)
        (if t.deltaLine ≠ 0 then t.deltaStart else character + t.deltaStart) rest

/-- The stream `[0,0,5,0,0, 1,2,3,1,0]` as entries. -/
def MainWindow.sampleTokens : List SemanticToken :=
  [{ deltaLine := 0, deltaStart := 0, length := 5, tokenType := 0, tokenModifiers := 0 },
   { deltaLine := 1, deltaStart := 2, length := 3, tokenType := 1, tokenModifiers := 0 }]

/-- A document with two lines. -/
def MainWindow.sampleDocument : QTextDocument :=
  { blocks := [qs "Shape circle;", qs "  int area();"] }

/-- The start character of the entry before entry `k` in a list of absolute
positions; `character` for the first entry. -/
def SemanticToken.startBefore (character : Int) (positions : List (Int × Int)) : Nat → Int
  | 0 => character
  | j + 1 => (positions.getD j (0, 0)).2

/-! ## MainWindow: rename edits -/

/-- The difference of two `int` values; `none` when it lies outside the range
of `int`. -/
def intSub (a b : Int) : Option Int :=
  if intMin ≤ a - b ∧ a - b ≤ intMax then some (a - b) else none

/-- The local struct `EditItem` of `handleRenameEdits`. -/
structure EditItem where
  startPos : Int
  endPos : Int
  newText : QString
deriving DecidableEq

/-- The four numbers that `handleRenameEdits` reads from the range of an edit:
start line, start character, end line and end character. -/
def MainWindow.editRange (obj : QJsonObject) : Int × Int × Int × Int :=
  let range := (QJsonObject.value obj (qs "range")).toObject
  let start := (QJsonObject.value range (qs "start")).toObject
  let end_ := (QJsonObject.value range (qs "end")).toObject
  let startLine := (QJsonObject.value start (qs "line")).toInt 0
  let startChar := (QJsonObject.value start (qs "character")).toInt 0
  (startLine, startChar, (QJsonObject.value end_ (qs "line")).toInt startLine,
    (QJsonObject.value end_ (qs "character")).toInt startChar)

/-- Insertion of an item in front of the first item that the comparison
`a.startPos > b.startPos` does not put before it. -/
def MainWindow.editInsert (a : EditItem) : List EditItem → List EditItem
  | [] => [a]
  | b :: rest =>
    if b.startPos > a.startPos then b :: MainWindow.editInsert a rest else a :: b :: rest

/-- The call `std::sort(items.begin(), items.end(), ...)` with the comparison
`a.startPos > b.startPos`, as an insertion sort. -/
def MainWindow.sortEditItems (items : List EditItem) : List EditItem :=
  items.foldr MainWindow.editInsert []

/-- The loop that fills `lineOffsets` for the text from index `i` on. -/
def MainWindow.lineOffsetsFrom : Nat → QString → List Int
  | _, [] => []
  | i, c :: rest =>
    if c = '\n' then ((i : Int) + 1) :: MainWindow.lineOffsetsFrom (i + 1) rest
    else MainWindow.lineOffsetsFrom (i + 1) rest

/-- The table `lineOffsets` of `handleRenameEdits`: the offset of the first
character of every line of the text. -/
def MainWindow.lineOffsets (text : QString) : List Int := 0 :: MainWindow.lineOffsetsFrom 0 text

/-- The item that the on-disk branch of `handleRenameEdits` appends for one
element of the edit array: `some none` when the element is skipped, `none` when
a line number is negative (an index outside the table) or an offset lies outside
the range of `int`. -/
def MainWindow.diskItem (lineOffsets : List Int) (val : QJsonValue) : Option (Option EditItem) :=
  if val.isObject = false then some none
  else
    let r := MainWindow.editRange val.toObject
    if (lineOffsets.length : Int) ≤ r.1 ∨ (lineOffsets.length : Int) ≤ r.2.2.1 then some none
    else if r.1 < 0 ∨ r.2.2.1 < 0 then none
    else
      (intAdd (lineOffsets.getD r.1.toNat 0) r.2.1).bind (fun startPos =>
        (intAdd (lineOffsets.getD r.2.2.1.toNat 0) r.2.2.2).map (fun endPos =>
          some { startPos := startPos, endPos := endPos,
                 newText := (QJsonObject.value val.toObject (qs "newText")).toQString }))

/-- The items that a loop over the edit array collects with `itemOf`. -/
def MainWindow.collectItems (itemOf : QJsonValue → Option (Option EditItem)) :
    QJsonArray → Option (List EditItem)
  | [] => some []
  | val :: rest =>
    (itemOf val).bind (fun item =>
      (MainWindow.collectItems itemOf rest).map (fun items => item.toList ++ items))

/-- Result of `QString::replace(position, n, after)`: a position outside the
text leaves it as it is and `n` is cut at the end of the text.  `none` for a
negative `n`, for which the documentation fixes no result. -/
def QString.replaceAt (text : QString) (position n : Int) (after : QString) : Option QString :=
  if n < 0 then none
  else if position < 0 ∨ (text.length : Int) < position then some text
  else
    some (text.take position.toNat ++ after ++
      text.drop (position.toNat + (min n ((text.length : Int) - position)).toNat))

/-- The loop `for (const auto &item : items) text.replace(...)` of the on-disk
branch. -/
def MainWindow.applyDiskEdits : QString → List EditItem → Option QString
  | text, [] => some text
  | text, item :: rest =>
    (intSub item.endPos item.startPos).bind (fun n =>
      (QString.replaceAt text item.startPos n item.newText).bind (fun text1 =>
        MainWindow.applyDiskEdits text1 rest))

/-- The branch of `handleRenameEdits` for a file that is not open, from the
text read from the file to the text written back. -/
def MainWindow.renameOnDisk (text : QString) (editArray : QJsonArray) : Option QString :=
  (MainWindow.collectItems (MainWindow.diskItem (MainWindow.lineOffsets text)) editArray).bind
    (fun items => MainWindow.applyDiskEdits text (MainWindow.sortEditItems items))

/-- The text of a document: its blocks separated by line feeds. -/
def QTextDocument.plainText (doc : QTextDocument) : QString :=
  (doc.blocks.intersperse ['\n']).flatten

/-- The lines of a text: the parts between its line feeds. -/
def QString.lines : QString → List QString
  | [] => [[]]
  | c :: rest =>
    if c = '\n' then [] :: QString.lines rest
    else
      match QString.lines rest with
      | [] => [[c]]
      | line :: more => (c :: line) :: more

/-- Result of `QTextCursor::insertText(text)` on a document for a cursor with
the given anchor and position: the selected characters are removed and the text
is inserted in their place, a line feed starting a new block.  `stored` gives
the characters that Qt stores for a text (it turns the other paragraph
separators into block separators too). -/
def QTextDocument.insertText (stored : QString → QString) (doc : QTextDocument)
    (cur : ExtraSelection) (text : QString) : QTextDocument :=
  { blocks := QString.lines
      (doc.plainText.take (min cur.anchor cur.position).toNat ++ stored text ++
        doc.plainText.drop (max cur.anchor cur.position).toNat) }

/-- The item that the branch of `handleRenameEdits` for an open file appends
for one element of the edit array. -/
def MainWindow.liveItem (doc : QTextDocument) (val : QJsonValue) : Option (Option EditItem) :=
  if val.isObject = false then some none
  else
    let r := MainWindow.editRange val.toObject
    match doc.findBlockByNumber r.1, doc.findBlockByNumber r.2.2.1 with
    | some startBlock, some endBlock =>
      (intAdd startBlock.1 r.2.1).bind (fun startPos =>
        (intAdd endBlock.1 r.2.2.2).map (fun endPos =>
          some { startPos := startPos, endPos := endPos,
                 newText := (QJsonObject.value val.toObject (qs "newText")).toQString }))
    | _, _ => some none

/-- The loop over the sorted items in the branch for an open file: a cursor at
the start of the document is moved to `startPos`, then to `endPos` with the
anchor kept, and the text is inserted. -/
def MainWindow.applyLiveEdits (stored : QString → QString) :
    QTextDocument → List EditItem → QTextDocument
  | doc, [] => doc
  | doc, item :: rest =>
    let c := QTextCursor.setPosition doc { anchor := 0, position := 0 } item.startPos false
    let c := QTextCursor.setPosition doc c item.endPos true
    MainWindow.applyLiveEdits stored (QTextDocument.insertText stored doc c item.newText) rest

/-- The branch of `handleRenameEdits` for an open file, from the document of
the editor to the document after the edits. -/
def MainWindow.renameLive (stored : QString → QString) (doc : QTextDocument)
    (editArray : QJsonArray) : Option QTextDocument :=
  (MainWindow.collectItems (MainWindow.liveItem doc) editArray).map
    (fun items => MainWindow.applyLiveEdits stored doc (MainWindow.sortEditItems items))

/-- The text in which every range of a list of edits, given in ascending order
of start offset, is replaced by the new text of its edit (as stored by `stored`),
from offset `pos` of the original text on. -/
def MainWindow.replaceRanges (stored : QString → QString) (text : QString) :
    Nat → List EditItem → QString
  | pos, [] => text.drop pos
  | pos, item :: rest =>
    (text.drop pos).take (item.startPos.toNat - pos) ++ stored item.newText ++
      MainWindow.replaceRanges stored text item.endPos.toNat rest

/-- The conditions of the rename claim on the offsets of a list of edits: every
range lies inside the text, ranges with different start offsets do not overlap,
and no two edits start at the same offset. -/
def MainWindow.EditsFit (text : QString) (items : List EditItem) : Prop :=
  (∀ e ∈ items, 0 ≤ e.startPos ∧ e.startPos ≤ e.endPos ∧ e.endPos ≤ text.length) ∧
  (∀ a ∈ items, ∀ b ∈ items, a.startPos < b.startPos → a.endPos ≤ b.startPos) ∧
  (items.map (fun e => e.startPos)).Nodup

instance (text : QString) (items : List EditItem) : Decidable (MainWindow.EditsFit text items) := by
  unfold MainWindow.EditsFit
  infer_instance

/-- A rename edit as a JSON object. -/
def MainWindow.sampleEdit (startLine startChar endLine endChar : Int) (newText : QString) :
    QJsonValue :=
  .object [(qs "range", .object [
      (qs "start", .object [(qs "line", .number startLine), (qs "character", .number startChar)]),
      (qs "end", .object [(qs "line", .number endLine), (qs "character", .number endChar)])]),
    (qs "newText", .string newText)]

/-- The two rename edits of the example: characters 5 to 8 become `foo` and
characters 0 to 3 become `bar`. -/
def MainWindow.sampleEdits : QJsonArray :=
  [MainWindow.sampleEdit 0 5 0 8 (qs "foo"), MainWindow.sampleEdit 0 0 0 3 (qs "bar")]

/-! ## LspClient: queued opens and document versions -/

/-- The two byte strings that `sendMessage` writes for a message: the header
`Content-Length: <n>` with its empty line, and the body of `n` bytes. -/
def LspClient.frame (env : QtEnv) (message : QJsonObject) : List QByteArray :=
  [ascii "Content-Length: " ++ QByteArray.number (env.toJson message).length ++ ascii "\r\n\r\n",
   env.toJson message]

/-- The message that `sendNotification` builds for a method and its parameters. -/
def LspClient.notification (method : QString) (params : QJsonObject) : QJsonObject :=
  jsonObject [(qs "jsonrpc", .string (qs "2.0")), (qs "method", .string method),
    (qs "params", .object params)]

/-- The parameters of the `textDocument/didOpen` notification that
`openDocument` sends for a file, its text and a version. -/
def LspClient.didOpenParams (env : QtEnv) (filePath text : QString) (version : Int) :
    QJsonObject :=
  jsonObject [(qs "textDocument", .object (jsonObject [
    (qs "uri", .string (env.pathToUri filePath)), (qs "languageId", .string (qs "cpp")),
    (qs "version", .number version), (qs "text", .string text)]))]

/-- The parameters of the `textDocument/didChange` notification that
`changeDocument` sends for a file, its text and a version. -/
def LspClient.didChangeParams (env : QtEnv) (filePath text : QString) (version : Int) :
    QJsonObject :=
  jsonObject [(qs "textDocument", .object (jsonObject [
      (qs "uri", .string (env.pathToUri filePath)), (qs "version", .number version)])),
    (qs "contentChanges", .array [.object (jsonObject [(qs "text", .string text)])])]

/-- Whether a call is one of the document calls `openDocument`, `changeDocument`,
`saveDocument` or one of the request calls. -/
def LspAction.isDocumentCall : LspAction → Bool
  | .openDocument _ _ => true
  | .changeDocument _ _ => true
  | .saveDocument _ => true
  | .requestCompletion _ _ _ => true
  | .requestDocumentSymbols _ => true
  | .requestFoldingRanges _ => true
  | .requestSemanticTokens _ => true
  | .requestDefinition _ _ _ => true
  | .requestReferences _ _ _ => true
  | .requestRename _ _ _ _ => true
  | _ => false

/-- The file and text of a call of `openDocument`. -/
def LspAction.openedDocument : LspAction → Option (QString × QString)
  | .openDocument filePath text => some (filePath, text)
  | _ => none

/-- The file of a call of `openDocument` or `changeDocument`, the two calls that
send a notification with a version. -/
def LspAction.versionedFile : LspAction → Option QString
  | .openDocument filePath _ => some filePath
  | .changeDocument filePath _ => some filePath
  | _ => none

/-- The number of calls of a list that send a versioned notification for a file. -/
def LspAction.countFor (filePath : QString) (acts : List LspAction) : Nat :=
  (acts.filter (fun a => decide (a.versionedFile = some filePath))).length

/-- The number of entries for a file in a list of queued opens. -/
def LspClient.countQueued (filePath : QString) (queue : List (QString × QString)) : Nat :=
  (queue.filter (fun p => decide (p.1 = filePath))).length

/-- The byte strings of the `textDocument/didOpen` notifications for a list of
queued opens in order, after the opens `sent`: the version of an entry is
`versionOf` of its file plus the number of entries for that file up to and
including it. -/
def LspClient.didOpenFrames (env : QtEnv) (versionOf : QString → Int) :
    List (QString × QString) → List (QString × QString) → List QByteArray
  | _, [] => []
  | sent, p :: rest =>
    LspClient.frame env (LspClient.notification (qs "textDocument/didOpen")
      (LspClient.didOpenParams env p.1 p.2
        (versionOf p.1 + LspClient.countQueued p.1 sent + 1))) ++
      LspClient.didOpenFrames env versionOf (sent ++ [p]) rest

/-- Two states of `LspClient` that differ at most in the document versions and
in the bytes written. -/
def LspClient.SameSession (s r : LspClient) : Prop :=
  r.running = s.running ∧ r.buffer_ = s.buffer_ ∧ r.nextId_ = s.nextId_ ∧
  r.initialized_ = s.initialized_ ∧ r.rootDir_ = s.rootDir_ ∧
  r.semanticTokenTypes_ = s.semanticTokenTypes_ ∧ r.currentDocument_ = s.currentDocument_ ∧
  r.currentFilePath_ = s.currentFilePath_ ∧ r.pendingRequests_ = s.pendingRequests_ ∧
  r.pendingOpenDocs_ = s.pendingOpenDocs_ ∧ r.emitted = s.emitted

/-- The legend object that `handleMessage` reads from an `initialize` reply:
`result.capabilities.semanticTokensProvider.legend`. -/
def LspClient.replyLegend (message : QJsonObject) : QJsonObject :=
  (QJsonObject.value (QJsonObject.value (QJsonObject.value
    (QJsonObject.value message (qs "result")).toObject
    (qs "capabilities")).toObject (qs "semanticTokensProvider")).toObject (qs "legend")).toObject

/-- The state in which `handleMessage` sends the `initialized` notification
after an `initialize` reply: the session is marked as initialized and a legend
that is not empty has replaced the token types. -/
def LspClient.markInitialized (s : LspClient) (message : QJsonObject) : LspClient :=
  if (LspClient.replyLegend message).isEmpty = false then
    { s with
      initialized_ := true,
      semanticTokenTypes_ :=
        (QJsonObject.value (LspClient.replyLegend message) (qs "tokenTypes")).toArray.map
          QJsonValue.toQString }
  else { s with initialized_ := true }

/-- Whether a call is `start`, which opens a new session. -/
def LspAction.isStart : LspAction → Bool
  | .start _ _ => true
  | _ => false

/-- A language session that has been started and is waiting for the reply to
its `initialize` request, which has id 1. -/
def LspClient.sampleStarted : LspClient := LspClient.start QtEnv.sample LspClient.init [] true

/-- Calls made before the `initialize` reply: three opens, two of them for the
same file, with a change, a request and a save between them. -/
def LspClient.sampleEarlyCalls : List LspAction :=
  [.openDocument (qs "a.cpp") (qs "int x;"), .changeDocument (qs "a.cpp") (qs "int y;"),
   .requestCompletion (qs "a.cpp") 0 4, .openDocument (qs "b.cpp") (qs "int b;"),
   .saveDocument (qs "a.cpp"), .openDocument (qs "a.cpp") (qs "int z;")]

/-- The reply to the `initialize` request of the sample session. -/
def LspClient.sampleInitializeReply : QJsonObject :=
  [(qs "id", .number 1), (qs "result", .object [])]

/-- Two states of `LspClient` with the same document versions, the same
`initialized_` flag and the same process state. -/
def LspClient.SameDocs (s r : LspClient) : Prop :=
  r.docVersions_ = s.docVersions_ ∧ r.initialized_ = s.initialized_ ∧ r.running = s.running

/-- A state and a later one in which no document version is lower. -/
def LspClient.VersionsGrow (s r : LspClient) : Prop :=
  ∀ filePath, s.currentVersion filePath ≤ r.currentVersion filePath

/-- Calls made in the sample session after it has become ready. -/
def LspClient.sampleLaterCalls : List LspAction :=
  [.changeDocument (qs "a.cpp") (qs "int w;"), .requestCompletion (qs "a.cpp") 0 4,
   .openDocument (qs "c.cpp") (qs "int c;"), .saveDocument (qs "a.cpp")]

/-! ## LspClient: frames -/

/-- The bytes of a frame whose header line spells the field name as `name`
(with its colon): the name, a space, the decimal length of the body, the empty
line and the body. -/
def LspClient.frameBytes (name body : QByteArray) : QByteArray :=
  name ++ 32 :: QByteArray.number body.length ++ LspClient.headerTerminator ++ body

/-- Whether a line of a header block is a `Content-Length` line with a value
that `parseBuffer` accepts: a positive decimal number in the range of `int`. -/
def LspClient.isLengthLine (line : QByteArray) : Bool :=
  (ascii "content-length:").isPrefixOf (QByteArray.toLower (QByteArray.trimmed line)) &&
    decide (0 < QByteArray.toInt (QByteArray.trimmed ((QByteArray.trimmed line).drop 15)))

/-- A sample environment whose JSON codec knows two messages: the empty object,
written `{}`, and the `initialized` notification, written as in compact JSON. -/
def QtEnv.sampleCodec : QtEnv :=
  { QtEnv.sample with
    toJson := fun message =>
      if message.isEmpty then ascii "\x7b\x7d"
      else ascii "\x7b\"jsonrpc\":\"2.0\",\"method\":\"initialized\",\"params\":\x7b\x7d\x7d",
    fromJson := fun body =>
      if body = ascii "\x7b\x7d" then { noError := true, errorString := [], document := .object [] }
      else if body =
          ascii "\x7b\"jsonrpc\":\"2.0\",\"method\":\"initialized\",\"params\":\x7b\x7d\x7d" then
        { noError := true, errorString := [],
          document := .object (LspClient.notification (qs "initialized") []) }
      else { noError := false, errorString := qs "illegal value", document := .null } }

/-- Two frames with the field name in different letter case: the empty object
and the `initialized` notification. -/
def LspClient.sampleFrames : List (QByteArray × QJsonObject) :=
  [(ascii "Content-Length:", []),
   (ascii "content-LENGTH:", LspClient.notification (qs "initialized") [])]

/-- A header block with two lines of which none gives a valid length. -/
def LspClient.sampleBadHeader : QByteArray := ascii "X-Junk: 1\r\nContent-Length: abc"

/-! ## Restarting a session -/

/-- A reply to the `initialize` request with id 1 whose capabilities carry a
semantic token legend with the token types `class` and `function`. -/
def LspClient.sampleLegendReply : QJsonObject :=
  [(qs "id", .number 1),
   (qs "result", .object [(qs "capabilities", .object [(qs "semanticTokensProvider",
     .object [(qs "legend", .object [(qs "tokenTypes",
       .array [.string (qs "class"), .string (qs "function")])])])])])]

/-- The sample session after the reply with the legend has been handled. -/
def LspClient.sampleWithLegend : LspClient :=
  LspClient.handleMessage QtEnv.sample LspClient.sampleStarted LspClient.sampleLegendReply

/-- The session that `start` opens from the sample session with a legend. -/
def LspClient.sampleRestarted : LspClient :=
  LspClient.start QtEnv.sample LspClient.sampleWithLegend [] true

/-! ## GdbMiClient: breakpoint mutation commands

The commands build their text with `QString::arg`, a library function whose
result the sources do not fix; it is the parameter `arg` (pattern, then
argument).  An `int` argument is passed as its decimal text. -/

/-- Model of `GdbMiClient::insertBreakpoint`. -/
def GdbMiClient.insertBreakpoint (arg : QString → QString → QString) (s : GdbMiClient)
    (file : QString) (line : Int) : GdbMiClient :=
  s.sendMiCommand (arg (arg (qs "-break-insert %1:%2") file) (QString.number line))
    (qs "break-insert")

/-- Model of `GdbMiClient::deleteBreakpoint`. -/
def GdbMiClient.deleteBreakpoint (arg : QString → QString → QString) (s : GdbMiClient)
    (number : Int) : GdbMiClient :=
  s.sendMiCommand (arg (qs "-break-delete %1") (QString.number number)) (qs "break-delete")

/-- Model of `GdbMiClient::setBreakpointEnabled`. -/
def GdbMiClient.setBreakpointEnabled (arg : QString → QString → QString) (s : GdbMiClient)
    (number : Int) (enabled : Bool) : GdbMiClient :=
  s.sendMiCommand
    (arg (arg (qs "-break-%1 %2") (if enabled then qs "enable" else qs "disable"))
      (QString.number number))
    (qs "break-toggle")

/-- Model of `GdbMiClient::setBreakpointCondition`. -/
def GdbMiClient.setBreakpointCondition (arg : QString → QString → QString) (s : GdbMiClient)
    (number : Int) (condition : QString) : GdbMiClient :=
  if (QString.trimmed condition).isEmpty then
    s.sendMiCommand (arg (qs "-break-condition %1") (QString.number number)) (qs "break-cond")
  else
    s.sendMiCommand
      (arg (arg (qs "-break-condition %1 \"%2\"") (QString.number number))
        (GdbMiClient.escapeQuotes condition))
      (qs "break-cond")

/-- Model of `GdbMiClient::setBreakpointIgnoreCount`. -/
def GdbMiClient.setBreakpointIgnoreCount (arg : QString → QString → QString) (s : GdbMiClient)
    (number count : Int) : GdbMiClient :=
  s.sendMiCommand (arg (arg (qs "-break-after %1 %2") (QString.number number))
    (QString.number count)) (qs "break-after")

/-- The console command that `setBreakpointLogMessage` builds. -/
def GdbMiClient.logMessageCommand (arg : QString → QString → QString) (number : Int)
    (message : QString) : QString :=
  arg (arg (qs "commands %1\nsilent\nprintf \"%2\\n\"\ncontinue\nend") (QString.number number))
    (GdbMiClient.escapeQuotes message)

/-- Model of `GdbMiClient::setBreakpointLogMessage`. -/
def GdbMiClient.setBreakpointLogMessage (arg : QString → QString → QString) (s : GdbMiClient)
    (number : Int) (message : QString) : GdbMiClient :=
  (s.sendConsoleCommand (GdbMiClient.logMessageCommand arg number message)).refreshBreakpoints

/-- The calls that change the breakpoints of the debugger. -/
inductive BreakpointMutation where
  | insert (file : QString) (line : Int)
  | delete (number : Int)
  | setEnabled (number : Int) (enabled : Bool)
  | setCondition (number : Int) (condition : QString)
  | setIgnoreCount (number count : Int)
  | setLogMessage (number : Int) (message : QString)

/-- The state after a breakpoint mutation call. -/
def GdbMiClient.mutate (arg : QString → QString → QString) (s : GdbMiClient) :
    BreakpointMutation → GdbMiClient
  | .insert file line => GdbMiClient.insertBreakpoint arg s file line
  | .delete number => GdbMiClient.deleteBreakpoint arg s number
  | .setEnabled number enabled => GdbMiClient.setBreakpointEnabled arg s number enabled
  | .setCondition number condition => GdbMiClient.setBreakpointCondition arg s number condition
  | .setIgnoreCount number count => GdbMiClient.setBreakpointIgnoreCount arg s number count
  | .setLogMessage number message => GdbMiClient.setBreakpointLogMessage arg s number message

/-- Whether a mutation is the log-message call. -/
def BreakpointMutation.isLogMessage : BreakpointMutation → Bool
  | .setLogMessage _ _ => true
  | _ => false

/-- The tags under which the mutation commands other than the log-message call
are recorded. -/
def GdbMiClient.mutationTags : List QString :=
  [qs "break-insert", qs "break-delete", qs "break-toggle", qs "break-cond", qs "break-after"]

/-- The text with every occurrence of the marker `%` followed by `digit`
replaced by `a`. -/
def QString.replaceMarker (digit : Char) (a : QString) : QString → QString
  | [] => []
  | [c] => [c]
  | c :: d :: rest =>
    if c = '%' ∧ d = digit then a ++ QString.replaceMarker digit a rest
    else c :: QString.replaceMarker digit a (d :: rest)

/-- Whether the marker `%` followed by `digit` occurs in a text. -/
def QString.hasMarker (digit : Char) : QString → Bool
  | [] => false
  | [_] => false
  | c :: d :: rest => (c = '%' ∧ d = digit) || QString.hasMarker digit (d :: rest)

/-- A sample of `QString::arg` for patterns with the markers `%1` to `%9`: the
marker with the lowest number that occurs is replaced by the argument. -/
def QString.sampleArg (pattern a : QString) : QString :=
  match ['1', '2', '3', '4', '5', '6', '7', '8', '9'].find? (fun d => QString.hasMarker d pattern) with
  | some d => QString.replaceMarker d a pattern
  | none => pattern

/-! ## GdbMiClient: payloads on which the value parser does not advance -/

/-- A session in which token 3 waits for the reply of `-stack-list-frames`. -/
def GdbMiClient.sampleStackPending : GdbMiClient := GdbMiClient.sampleSession.refreshStack

/-! ## GdbMiClient: quoted strings written and read -/

/-- The quoted argument in the command lines of `evaluateExpression` and
`sendConsoleCommand`: the text with a backslash put before each double quote,
between double quotes. -/
def GdbMiClient.quotedArgument (text : QString) : QString :=
  qs "\"" ++ GdbMiClient.escapeQuotes text ++ qs "\""

/-- Whether gdb writes a character of a c-string as an escape sequence: the
control characters below U+0020 and those from U+007F to U+009F. -/
def MiValue.isControl (c : Char) : Bool :=
  decide (c.toNat < 0x20) || (decide (0x7F ≤ c.toNat) && decide (c.toNat < 0xA0))

/-- The last octal digit of a number. -/
def MiValue.octalDigit (n : Nat) : Char :=
  (qs "01234567").getD (n % 8) '0'

/-- The c-string encoding of one character in the MI output of gdb.  A control
character is written as a backslash followed by `n` (line feed), `b`
(backspace), `t` (tab), `f` (form feed), `r` (carriage return), `e` (escape),
`a` (bell) or, for the others, by its code in three octal digits; a backslash
and a double quote are written after a backslash; every other character is
written as it is. -/
def MiValue.escapeChar (c : Char) : QString :=
  if MiValue.isControl c then
    '\\' ::
      (if c = '\n' then ['n']
        else if c.toNat = 8 then ['b']
        else if c = '\t' then ['t']
        else if c.toNat = 12 then ['f']
        else if c = '\r' then ['r']
        else if c.toNat = 27 then ['e']
        else if c.toNat = 7 then ['a']
        else [MiValue.octalDigit (c.toNat / 64), MiValue.octalDigit (c.toNat / 8),
          MiValue.octalDigit c.toNat])
  else if c = '\\' ∨ c = '"' then ['\\', c]
  else [c]

/-- The c-string encoding of a text in the MI output of gdb: the encodings of
its characters. -/
def MiValue.escape (v : QString) : QString :=
  v.flatMap MiValue.escapeChar

/-- Whether a text holds no control character other than line feed and tab. -/
def MiValue.plainValue (v : QString) : Bool :=
  v.all (fun c => !MiValue.isControl c || c = '\n' || c = '\t')

/-- Whether the body of a quoted string holds no escapes but backslash-n,
backslash-t and backslash-quote, and no double quote outside an escape. -/
def MiValue.simpleEscapes : QString → Bool
  | [] => true
  | [c] => c != '\\' && c != '"'
  | c :: d :: rest =>
    if c = '\\' then (d = 'n' || d = 't' || d = '"') && MiValue.simpleEscapes rest
    else c != '"' && MiValue.simpleEscapes (d :: rest)

/-- A stream record: the prefix character and the body between double quotes. -/
def GdbMiClient.streamRecord (p : Char) (body : QString) : QString :=
  p :: '"' :: body ++ ['"']

/-! ## LspClient: diagnostics of a tracked document -/

/-- An engine that tracks a document of the two lines `ab` and `cd`. -/
def LspClient.sampleTracking : LspClient :=
  LspClient.init.setCurrentDocument (some { blocks := [qs "ab", qs "cd"] }) (qs "/w/a.cpp")

/-- A diagnostic whose range has a start and an end. -/
def LspClient.diagnostic (startLine startChar endLine endChar : Int) : QJsonValue :=
  .object (jsonObject [(qs "message", .string (qs "m")),
    (qs "range", .object (jsonObject
      [(qs "start", LspClient.positionParam startLine startChar),
       (qs "end", LspClient.positionParam endLine endChar)]))])

/-- A diagnostic whose range has a start only. -/
def LspClient.diagnosticAt (startLine startChar : Int) : QJsonValue :=
  .object (jsonObject [(qs "message", .string (qs "m")),
    (qs "range", .object (jsonObject
      [(qs "start", LspClient.positionParam startLine startChar)]))])

/-! ## LspClient: requests that record a file path -/

/-- The method and the file path of the calls that record the tag
`<method>|<filePath>`. -/
def LspAction.pathRequest : LspAction → Option (QString × QString)
  | .requestDocumentSymbols filePath => some (qs "textDocument/documentSymbol", filePath)
  | .requestFoldingRanges filePath => some (qs "textDocument/foldingRange", filePath)
  | .requestSemanticTokens filePath => some (qs "textDocument/semanticTokens/full", filePath)
  | .requestDefinition filePath _ _ => some (qs "textDocument/definition", filePath)
  | .requestReferences filePath _ _ => some (qs "textDocument/references", filePath)
  | .requestRename filePath _ _ _ => some (qs "textDocument/rename", filePath)
  | _ => none

/-- The methods of these calls. -/
def LspClient.pathMethods : List QString :=
  [qs "textDocument/documentSymbol", qs "textDocument/foldingRange",
   qs "textDocument/semanticTokens/full", qs "textDocument/definition",
   qs "textDocument/references", qs "textDocument/rename"]

/-- The file path that a signal carries, for the signals that answer these
calls. -/
def LspEvent.replyFilePath : LspEvent → Option QString
  | .documentSymbolsReady filePath _ => some filePath
  | .foldingRangesReady filePath _ => some filePath
  | .semanticTokensReady filePath _ => some filePath
  | .definitionLocationsReady filePath _ => some filePath
  | .referencesLocationsReady filePath _ => some filePath
  | .renameEditsReady filePath _ => some filePath
  | _ => none

/-- An initialized session: the sample session after the reply to its
`initialize` request. -/
def LspClient.sampleReady : LspClient :=
  LspClient.handleMessage QtEnv.sample LspClient.sampleStarted LspClient.sampleInitializeReply

/-! ## MainWindow: skipped semantic tokens -/

/-- The test by which `handleSemanticTokens` skips an entry for its type: the
type index is negative or not below the size of the legend, or the legend names
the type `keyword`. -/
def SemanticToken.skippedType (tokenTypes : List QString) (t : SemanticToken) : Bool :=
  decide (t.tokenType < 0 ∨ (tokenTypes.length : Int) ≤ t.tokenType) ||
    decide (tokenTypes.getD t.tokenType.toNat [] = qs "keyword")

/-- The position of the last entry of a list of relative entries counted from
`(line, character)`; that position itself for the empty list. -/
def SemanticToken.endPosition (line character : Int) (entries : List SemanticToken) : Int × Int :=
  (SemanticToken.positions line character entries).getLast?.getD (line, character)

/-- The selections that the loop body builds for a list of entries counted from
`(line, character)`, in order. -/
def MainWindow.selectionsFrom (doc : QTextDocument) (tokenTypes : List QString)
    (line character : Int) (entries : List SemanticToken) : List SemanticSelection :=
  (entries.zip (SemanticToken.positions line character entries)).filterMap
    (fun tp => (MainWindow.tokenSelection doc tokenTypes tp.2.1 tp.2.2
      tp.1.length tp.1.tokenType).getD none)

/-- The entry for `int` in the second line of the sample document. -/
def MainWindow.sampleKeyword : SemanticToken :=
  { deltaLine := 1, deltaStart := 2, length := 3, tokenType := 1, tokenModifiers := 0 }

/-- The entry for `area` in the second line of the sample document, relative
to the entry for `int`. -/
def MainWindow.sampleFunction : SemanticToken :=
  { deltaLine := 0, deltaStart := 4, length := 4, tokenType := 2, tokenModifiers := 0 }

/-- The entry for `Shape` in the first line of the sample document. -/
def MainWindow.sampleClass : SemanticToken :=
  { deltaLine := 0, deltaStart := 0, length := 5, tokenType := 0, tokenModifiers := 0 }

/-- The update of `line` and `character` at the head of the loop body of
`handleSemanticTokens`, for the position `p` before the entry. -/
def SemanticToken.advance (p : Int × Int) (t : SemanticToken) : Int × Int :=
  (p.1 + t.deltaLine, if t.deltaLine ≠ 0 then t.deltaStart else p.2 + t.deltaStart)

/-! ## GdbMiClient: replies to `-data-evaluate-expression` -/

/-- The result record `^done,value="<raw>"` without its token. -/
def GdbMiClient.valueRecord (raw : QString) : QString :=
  qs "^done,value=\"" ++ raw ++ qs "\""

/-! ## GdbMiClient: `*stopped` records -/

/-- A line that holds `file="<file>"` and later `line="<digits>"`: the text
`pre`, the file part, the text `mid`, the line part and the text `post`. -/
def GdbMiClient.stoppedLine (pre file mid digits post : QString) : QString :=
  pre ++ (qs "file=\"" ++ file ++ '"' :: (mid ++ (qs "line=\"" ++ digits ++ '"' :: post)))

/-- A `*stopped` record as the debugger writes it at a breakpoint. -/
def GdbMiClient.sampleStopped : QString :=
  GdbMiClient.stoppedLine (qs "*stopped,reason=\"breakpoint-hit\",frame=\x7baddr=\"0x1\",")
    (qs "a.cpp") (qs ",fullname=\"/w/a.cpp\",") (qs "5") (qs ",arch=\"i386\"\x7d,thread-id=\"1\"")

/-! ## GdbMiClient: line framing -/

/-- The loop of `GdbMiClient::handleReadyRead` over the buffer, with the call
`parseLine(line)` as the parameter `onLine`.  The result is the state after the
loop and the bytes left in the buffer; `none` when a call of `onLine` does not
return or the fuel is used up (it is not when the fuel exceeds the length of the
buffer). -/
def GdbMiClient.readLoopWith {σ : Type} (env : QtEnv) (onLine : σ → QString → Option σ) :
    Nat → σ → QByteArray → Option (σ × QByteArray)
  | 0, _, _ => none
  | fuel + 1, st, buffer =>
    match QByteArray.indexOfLineFeed buffer with
    | none => some (st, buffer)
    | some idx =>
      let line := QString.trimmed (env.fromLocal8Bit (buffer.take idx))
      if line.isEmpty then GdbMiClient.readLoopWith env onLine fuel st (buffer.drop (idx + 1))
      else
        (onLine st line).bind
          (fun st1 => GdbMiClient.readLoopWith env onLine fuel st1 (buffer.drop (idx + 1)))

/-- The state with the content of its buffer replaced. -/
def GdbMiClient.withBuffer (s : GdbMiClient) (buffer : QByteArray) : GdbMiClient :=
  { s with buffer_ := buffer }

/-- The record of a line passed to `parseLine`. -/
def GdbMiClient.recordLine (acc : List QString) (line : QString) : Option (List QString) :=
  some (acc ++ [line])

/-- The lines passed to `parseLine`, appended to `acc`, and the buffer left,
when a read appends `bytes` to a buffer holding `buffer`. -/
def GdbMiClient.linesRead (env : QtEnv) (acc : List QString) (buffer bytes : QByteArray) :
    Option (List QString × QByteArray) :=
  GdbMiClient.readLoopWith env GdbMiClient.recordLine ((buffer ++ bytes).length + 1) acc
    (buffer ++ bytes)

/-- Successive reads `chunks` split into lines one after the other. -/
def GdbMiClient.linesReads (env : QtEnv) :
    List QString × QByteArray → List QByteArray → Option (List QString × QByteArray)
  | st, [] => some st
  | st, chunk :: rest =>
    (GdbMiClient.linesRead env st.1 st.2 chunk).bind
      (fun st1 => GdbMiClient.linesReads env st1 rest)

/-- Successive reads `chunks` handled by the engine one after the other. -/
def GdbMiClient.handleReads (env : QtEnv) : GdbMiClient → List QByteArray → Option GdbMiClient
  | s, [] => some s
  | s, chunk :: rest =>
    (GdbMiClient.handleReadyRead env s chunk).bind (fun s1 => GdbMiClient.handleReads env s1 rest)

/-- The bytes after the last line feed of a byte string; all of it when it
holds no line feed. -/
def QByteArray.afterLastLineFeed (a : QByteArray) : QByteArray :=
  (a.reverse.takeWhile (fun b => b != 10)).reverse

/-! ## LspClient: what `parseBuffer` leaves in the buffer -/

/-- Whether no complete frame stands at the head of a buffer: it holds no header
terminator, or the header before the first terminator declares a positive length
and the body has not fully arrived. -/
def LspClient.drained (buffer : QByteArray) : Bool :=
  match QByteArray.indexOf LspClient.headerTerminator buffer with
  | none => true
  | some headerEnd =>
    decide (0 < LspClient.contentLength (buffer.take headerEnd)) &&
      decide (buffer.length <
        headerEnd + 4 + (LspClient.contentLength (buffer.take headerEnd)).toNat)

/-- A header that declares the largest length that `toInt` reads. -/
def LspClient.sampleHugeHeader : QByteArray := ascii "Content-Length: 2147483647\r\n\r\n"

/-- The value of an `int` sum after wrap-around to 32 bits in two's
complement. -/
def intWrap (n : Int) : Int := (n + 2147483648) % 4294967296 - 2147483648

/-- Result of `buffer.remove(0, len)`: nothing is removed when `len` is not
positive. -/
def QByteArray.removeFront (buffer : QByteArray) (len : Int) : QByteArray :=
  if len ≤ 0 then buffer else buffer.drop len.toNat

/-- The loop of `LspClient::parseBuffer` as `parseBufferWith`, with the sum
`headerEnd + 4 + contentLength` wrapped around instead of left without a result:
the comparison with the size of the buffer and the call `remove(0, totalLength)`
use the wrapped value, the body is `mid(headerEnd + 4, contentLength)`. -/
def LspClient.parseBufferWrapWith {σ : Type} (onBody : σ → QByteArray → σ) :
    Nat → σ → QByteArray → Option (σ × QByteArray)
  | 0, _, _ => none
  | fuel + 1, st, buffer =>
    match QByteArray.indexOf LspClient.headerTerminator buffer with
    | none => some (st, buffer)
    | some headerEnd =>
      if intMax < (headerEnd : Int) + 4 then none
      else
        let contentLength := LspClient.contentLength (buffer.take headerEnd)
        if contentLength ≤ 0 then
          LspClient.parseBufferWrapWith onBody fuel st (buffer.drop (headerEnd + 4))
        else
          let totalLength := intWrap ((headerEnd : Int) + 4 + contentLength)
          if (buffer.length : Int) < totalLength then some (st, buffer)
          else
            let body := (buffer.drop (headerEnd + 4)).take contentLength.toNat
            LspClient.parseBufferWrapWith onBody fuel (onBody st body)
              (QByteArray.removeFront buffer totalLength)

theorem QByteArray.indexOf_bound (pat : QByteArray) :
    ∀ (a : QByteArray) (i : Nat), QByteArray.indexOf pat a = some i → i + pat.length ≤ a.length := by
  intro a
  induction a with
  | nil =>
    intro i h
    simp only [QByteArray.indexOf] at h
    split at h
    · rename_i hp
      cases pat with
      | nil => simp at h; subst h; simp
      | cons p ps => simp [List.isPrefixOf] at hp
    · exact absurd h (by simp)
  | cons x xs ih =>
    intro i h
    simp only [QByteArray.indexOf] at h
    split at h
    · rename_i hp
      have hpre : pat <+: x :: xs := List.isPrefixOf_iff_prefix.mp hp
      have := hpre.length_le
      simp at h; subst h; simpa using this
    · cases hx : QByteArray.indexOf pat xs with
      | none => simp [hx] at h
      | some j =>
        simp [hx] at h
        have := ih j hx
        subst h
        simp; omega

theorem QByteArray.indexOf_append (pat : QByteArray) :
    ∀ (a b : QByteArray) (i : Nat), QByteArray.indexOf pat a = some i →
      QByteArray.indexOf pat (a ++ b) = some i := by
  intro a
  induction a with
  | nil =>
    intro b i h
    simp only [QByteArray.indexOf] at h
    split at h
    · rename_i hp
      cases pat with
      | nil =>
        simp at h; subst h
        cases b <;> simp [QByteArray.indexOf, List.isPrefixOf]
      | cons p ps => simp [List.isPrefixOf] at hp
    · exact absurd h (by simp)
  | cons x xs ih =>
    intro b i h
    simp only [QByteArray.indexOf] at h
    have e : QByteArray.indexOf pat ((x :: xs) ++ b) =
        (if pat.isPrefixOf (x :: (xs ++ b)) then some 0
         else (QByteArray.indexOf pat (xs ++ b)).map (fun i => i + 1)) := rfl
    rw [e]
    split at h
    · rename_i hp
      have hpre : pat <+: x :: xs := List.isPrefixOf_iff_prefix.mp hp
      have hpre2 : pat <+: x :: (xs ++ b) := by
        have := hpre.trans (List.prefix_append (x :: xs) b)
        simpa using this
      rw [if_pos (List.isPrefixOf_iff_prefix.mpr hpre2)]
      exact h
    · rename_i hp
      cases hx : QByteArray.indexOf pat xs with
      | none => simp [hx] at h
      | some j =>
        simp [hx] at h
        have hb := QByteArray.indexOf_bound pat xs j hx
        have hnot : ¬ (pat.isPrefixOf (x :: (xs ++ b)) = true) := by
          intro hq
          have hq2 : pat <+: (x :: xs) ++ b := by
            simpa using List.isPrefixOf_iff_prefix.mp hq
          have : pat <+: x :: xs :=
            List.prefix_of_prefix_length_le hq2 (List.prefix_append (x :: xs) b) (by simp; omega)
          exact hp (List.isPrefixOf_iff_prefix.mpr this)
        rw [if_neg hnot, ih b j hx]
        simp [h]

theorem LspClient.parseBufferWith_length {σ : Type} (onBody : σ → QByteArray → σ) :
    ∀ (fuel : Nat) (st : σ) (buf : QByteArray) (r : σ × QByteArray),
      LspClient.parseBufferWith onBody fuel st buf = some r → r.2.length ≤ buf.length := by
  intro fuel
  induction fuel with
  | zero => intro st buf r h; simp [LspClient.parseBufferWith] at h
  | succ n ih =>
    intro st buf r h
    rw [LspClient.parseBufferWith] at h
    cases hi : QByteArray.indexOf LspClient.headerTerminator buf with
    | none => simp [hi] at h; subst h; simp
    | some i =>
      simp only [hi] at h
      split at h
      · simp at h
      · split at h
        · have := ih _ _ _ h
          simp at this
          omega
        · split at h
          · simp at h
          · split at h
            · simp at h; subst h; simp
            · have := ih _ _ _ h
              simp at this
              omega

theorem LspClient.parseBufferWith_fuel {σ : Type} (onBody : σ → QByteArray → σ) :
    ∀ (fuel fuel2 : Nat) (st : σ) (buf : QByteArray), buf.length < fuel → buf.length < fuel2 →
      LspClient.parseBufferWith onBody fuel st buf =
        LspClient.parseBufferWith onBody fuel2 st buf := by
  intro fuel
  induction fuel with
  | zero => intro fuel2 st buf h; omega
  | succ n ih =>
    intro fuel2 st buf h h2
    cases fuel2 with
    | zero => omega
    | succ m =>
      rw [LspClient.parseBufferWith, LspClient.parseBufferWith]
      cases hi : QByteArray.indexOf LspClient.headerTerminator buf with
      | none => rfl
      | some i =>
        have hb := QByteArray.indexOf_bound _ _ _ hi
        have h4 : LspClient.headerTerminator.length = 4 := rfl
        rw [h4] at hb
        simp only []
        split
        · rfl
        · split
          · apply ih <;> simp <;> omega
          · split
            · rfl
            · split
              · rfl
              · apply ih <;> simp <;> omega

theorem LspClient.parseBufferWith_append {σ : Type} (onBody : σ → QByteArray → σ) :
    ∀ (fuel : Nat) (st : σ) (a b : QByteArray), a.length < fuel →
      LspClient.parseBufferWith onBody (fuel + b.length) st (a ++ b) =
        (LspClient.parseBufferWith onBody fuel st a).bind
          (fun r => LspClient.parseBufferWith onBody (fuel + b.length) r.1 (r.2 ++ b)) := by
  intro fuel
  induction fuel with
  | zero => intro st a b h; omega
  | succ n ih =>
    intro st a b h
    have step : ∀ (st1 : σ) (a1 : QByteArray), a1.length < n →
        LspClient.parseBufferWith onBody (n + b.length) st1 (a1 ++ b) =
          (LspClient.parseBufferWith onBody n st1 a1).bind
            (fun r => LspClient.parseBufferWith onBody (n + 1 + b.length) r.1 (r.2 ++ b)) := by
      intro st1 a1 h1
      rw [ih st1 a1 b h1]
      cases hr : LspClient.parseBufferWith onBody n st1 a1 with
      | none => rfl
      | some r =>
        have hl := LspClient.parseBufferWith_length onBody n st1 a1 r hr
        simp only [Option.bind]
        apply LspClient.parseBufferWith_fuel <;> simp <;> omega
    cases hi : QByteArray.indexOf LspClient.headerTerminator a with
    | none =>
      have : LspClient.parseBufferWith onBody (n + 1) st a = some (st, a) := by
        rw [LspClient.parseBufferWith]; simp [hi]
      rw [this]; rfl
    | some i =>
      have hb := QByteArray.indexOf_bound _ _ _ hi
      have h4 : LspClient.headerTerminator.length = 4 := rfl
      rw [h4] at hb
      have hi2 := QByteArray.indexOf_append _ a b i hi
      have htake : (a ++ b).take i = a.take i := List.take_append_of_le_length (by omega)
      by_cases hwait : 0 < LspClient.contentLength (a.take i) ∧
          ¬ intMax < (i : Int) + 4 + LspClient.contentLength (a.take i) ∧ ¬ intMax < (i : Int) + 4 ∧
          a.length < i + 4 + (LspClient.contentLength (a.take i)).toNat
      · obtain ⟨h1, h2, h3, h5⟩ := hwait
        have : LspClient.parseBufferWith onBody (n + 1) st a = some (st, a) := by
          rw [LspClient.parseBufferWith]
          simp only [hi]
          rw [if_neg h3, if_neg (by omega), if_neg h2, if_pos h5]
        rw [this]; rfl
      · have e : n + 1 + b.length = (n + b.length) + 1 := by omega
        rw [e, LspClient.parseBufferWith, LspClient.parseBufferWith]
        simp only [hi, hi2, htake]
        split
        · rfl
        · split
          · rw [List.drop_append_of_le_length (by omega)]
            rw [← e]
            apply step; simp; omega
          · split
            · rfl
            · rename_i h3 h1 h2
              have h5 : ¬ a.length < i + 4 + (LspClient.contentLength (a.take i)).toNat := by
                intro h5
                exact hwait ⟨by omega, h2, h3, h5⟩
              rw [if_neg h5, if_neg (by simp; omega)]
              rw [List.drop_append_of_le_length (by omega),
                List.drop_append_of_le_length (by omega),
                List.take_append_of_le_length (by simp; omega)]
              rw [← e]
              apply step; simp; omega

theorem LspClient.parseBufferWith_read {σ : Type} (onBody : σ → QByteArray → σ)
    (st : σ) (buf c d : QByteArray) :
    LspClient.parseBufferWith onBody ((buf ++ (c ++ d)).length + 1) st (buf ++ (c ++ d)) =
      (LspClient.parseBufferWith onBody ((buf ++ c).length + 1) st (buf ++ c)).bind
        (fun r => LspClient.parseBufferWith onBody ((r.2 ++ d).length + 1) r.1 (r.2 ++ d)) := by
  have h := LspClient.parseBufferWith_append onBody ((buf ++ c).length + 1) st (buf ++ c) d
    (by omega)
  have e : (buf ++ (c ++ d)).length + 1 = (buf ++ c).length + 1 + d.length := by
    simp; omega
  rw [e, ← List.append_assoc, h]
  cases hr : LspClient.parseBufferWith onBody ((buf ++ c).length + 1) st (buf ++ c) with
  | none => rfl
  | some r =>
    have hl := LspClient.parseBufferWith_length onBody _ st _ r hr
    simp only [Option.bind]
    apply LspClient.parseBufferWith_fuel <;> simp at hl ⊢ <;> omega

theorem LspClient.decodeRead_append (env : QtEnv) (acc : List QJsonObject)
    (buffer c d : QByteArray) :
    LspClient.decodeRead env acc buffer (c ++ d) =
      (LspClient.decodeRead env acc buffer c).bind
        (fun r => LspClient.decodeRead env r.1 r.2 d) :=
  LspClient.parseBufferWith_read (LspClient.recordMessage env) acc buffer c d

theorem LspClient.decodeReads_eq (env : QtEnv) :
    ∀ (chunks : List QByteArray) (acc : List QJsonObject) (buffer chunk : QByteArray),
      LspClient.decodeReads env (acc, buffer) (chunk :: chunks) =
        LspClient.decodeRead env acc buffer (chunk ++ chunks.flatten) := by
  intro chunks
  induction chunks with
  | nil =>
    intro acc buffer chunk
    simp only [LspClient.decodeReads, List.flatten, List.append_nil]
    cases LspClient.decodeRead env acc buffer chunk <;> rfl
  | cons c cs ih =>
    intro acc buffer chunk
    rw [LspClient.decodeReads]
    simp only [List.flatten]
    rw [LspClient.decodeRead_append]
    cases hr : LspClient.decodeRead env acc buffer chunk with
    | none => rfl
    | some r =>
      simp only [Option.bind]
      exact ih r.1 r.2 c

theorem LspClient.emit_withBuffer (s : LspClient) (x : QByteArray) (e : LspEvent) :
    (s.withBuffer x).emit e = (s.emit e).withBuffer x := rfl

theorem LspClient.write_withBuffer (s : LspClient) (x : QByteArray) (d : QByteArray) :
    (s.withBuffer x).write d = (s.write d).withBuffer x := by
  cases hr : s.running <;> simp [LspClient.write, LspClient.withBuffer, hr]

theorem LspClient.sendMessage_withBuffer (env : QtEnv) (s : LspClient) (x : QByteArray)
    (m : QJsonObject) :
    LspClient.sendMessage env (s.withBuffer x) m = (LspClient.sendMessage env s m).withBuffer x := by
  simp [LspClient.sendMessage, LspClient.write_withBuffer]

theorem LspClient.sendNotification_withBuffer (env : QtEnv) (s : LspClient) (x : QByteArray)
    (m : QString) (p : QJsonObject) :
    LspClient.sendNotification env (s.withBuffer x) m p =
      (LspClient.sendNotification env s m p).withBuffer x := by
  simp [LspClient.sendNotification, LspClient.sendMessage_withBuffer]

theorem LspClient.openDocument_withBuffer (env : QtEnv) (s : LspClient) (x : QByteArray)
    (f t : QString) :
    LspClient.openDocument env (s.withBuffer x) f t =
      (LspClient.openDocument env s f t).withBuffer x := by
  unfold LspClient.openDocument
  cases hi : s.initialized_
  · simp [LspClient.withBuffer, hi]
  · have h1 : (s.withBuffer x).initialized_ = true := hi
    have h2 : (s.withBuffer x).bumpVersion f =
        ((s.bumpVersion f).1.withBuffer x, (s.bumpVersion f).2) := rfl
    simp only [h1, h2, Bool.true_eq_false, if_false]
    exact LspClient.sendNotification_withBuffer env _ x _ _

theorem LspClient.openAll_withBuffer (env : QtEnv) (docs : List (QString × QString)) :
    ∀ (s : LspClient) (x : QByteArray),
      docs.foldl (fun st pair => LspClient.openDocument env st pair.1 pair.2) (s.withBuffer x) =
        (docs.foldl (fun st pair => LspClient.openDocument env st pair.1 pair.2) s).withBuffer x := by
  induction docs with
  | nil => intro s x; rfl
  | cons d ds ih =>
    intro s x
    simp only [List.foldl]
    rw [LspClient.openDocument_withBuffer, ih]

theorem LspClient.flushPendingOpenDocs_withBuffer (env : QtEnv) (s : LspClient)
    (x : QByteArray) :
    LspClient.flushPendingOpenDocs env (s.withBuffer x) =
      (LspClient.flushPendingOpenDocs env s).withBuffer x := by
  unfold LspClient.flushPendingOpenDocs
  have h1 : (s.withBuffer x).pendingOpenDocs_ = s.pendingOpenDocs_ := rfl
  rw [h1, LspClient.openAll_withBuffer]
  rfl

theorem LspClient.handleReply_withBuffer (env : QtEnv) (s : LspClient) (x : QByteArray)
    (m f : QString) (msg : QJsonObject) :
    LspClient.handleReply env (s.withBuffer x) m f msg =
      (LspClient.handleReply env s m f msg).withBuffer x := by
  unfold LspClient.handleReply
  simp only []
  split
  · split
    · rw [← LspClient.flushPendingOpenDocs_withBuffer, ← LspClient.sendNotification_withBuffer]
      rfl
    · rw [← LspClient.flushPendingOpenDocs_withBuffer, ← LspClient.sendNotification_withBuffer]
      rfl
  · repeat (first | rfl | split)

theorem LspClient.handleMessage_withBuffer (env : QtEnv) (s : LspClient) (x : QByteArray)
    (msg : QJsonObject) :
    LspClient.handleMessage env (s.withBuffer x) msg =
      (LspClient.handleMessage env s msg).withBuffer x := by
  unfold LspClient.handleMessage
  have e1 : (s.withBuffer x).pendingRequests_ = s.pendingRequests_ := rfl
  have e2 : (s.withBuffer x).currentFilePath_ = s.currentFilePath_ := rfl
  have e3 : (s.withBuffer x).currentDocument_ = s.currentDocument_ := rfl
  have e4 : ∀ d, (s.withBuffer x).buildDiagnosticSelections d = s.buildDiagnosticSelections d :=
    fun _ => rfl
  simp only [e1, e2, e3, e4]
  split
  · exact LspClient.handleReply_withBuffer env
      { s with pendingRequests_ :=
          Assoc.erase ((QJsonObject.value msg (qs "id")).toInt 0) s.pendingRequests_ } x _ _ _
  · split
    · rfl
    · split
      · split
        · rfl
        · rfl
      · split
        · rfl
        · rfl

theorem LspClient.onFrame_withBuffer (env : QtEnv) (s : LspClient) (x : QByteArray)
    (body : QByteArray) :
    LspClient.onFrame env (s.withBuffer x) body = (LspClient.onFrame env s body).withBuffer x := by
  unfold LspClient.onFrame
  simp only []
  split
  · rfl
  · exact LspClient.handleMessage_withBuffer env s x _

theorem LspClient.parseBufferWith_withBuffer (env : QtEnv) :
    ∀ (fuel : Nat) (s : LspClient) (buf x : QByteArray),
      LspClient.parseBufferWith (LspClient.onFrame env) fuel (s.withBuffer x) buf =
        (LspClient.parseBufferWith (LspClient.onFrame env) fuel s buf).map
          (fun r => (r.1.withBuffer x, r.2)) := by
  intro fuel
  induction fuel with
  | zero => intro s buf x; rfl
  | succ n ih =>
    intro s buf x
    rw [LspClient.parseBufferWith, LspClient.parseBufferWith]
    cases hi : QByteArray.indexOf LspClient.headerTerminator buf with
    | none => rfl
    | some i =>
      simp only []
      split
      · rfl
      · split
        · exact ih _ _ _
        · split
          · rfl
          · split
            · rfl
            · rw [LspClient.onFrame_withBuffer]
              exact ih _ _ _

theorem LspClient.handleReadyRead_append (env : QtEnv) (s : LspClient) (c d : QByteArray) :
    LspClient.handleReadyRead env s (c ++ d) =
      (LspClient.handleReadyRead env s c).bind (fun s1 => LspClient.handleReadyRead env s1 d) := by
  unfold LspClient.handleReadyRead
  rw [LspClient.parseBufferWith_read]
  cases hr : LspClient.parseBufferWith (LspClient.onFrame env) ((s.buffer_ ++ c).length + 1) s
      (s.buffer_ ++ c) with
  | none => rfl
  | some r =>
    change (LspClient.parseBufferWith (LspClient.onFrame env) ((r.2 ++ d).length + 1) r.1
        (r.2 ++ d)).map (fun q => q.1.withBuffer q.2) =
      (LspClient.parseBufferWith (LspClient.onFrame env) ((r.2 ++ d).length + 1)
        (r.1.withBuffer r.2) (r.2 ++ d)).map (fun q => q.1.withBuffer q.2)
    rw [LspClient.parseBufferWith_withBuffer]
    cases LspClient.parseBufferWith (LspClient.onFrame env) ((r.2 ++ d).length + 1) r.1 (r.2 ++ d) with
    | none => rfl
    | some q => rfl

theorem LspClient.handleReads_eq (env : QtEnv) :
    ∀ (chunks : List QByteArray) (s : LspClient) (chunk : QByteArray),
      LspClient.handleReads env s (chunk :: chunks) =
        LspClient.handleReadyRead env s (chunk ++ chunks.flatten) := by
  intro chunks
  induction chunks with
  | nil =>
    intro s chunk
    simp only [LspClient.handleReads, List.flatten, List.append_nil]
    cases LspClient.handleReadyRead env s chunk <;> rfl
  | cons c cs ih =>
    intro s chunk
    rw [LspClient.handleReads]
    simp only [List.flatten]
    rw [LspClient.handleReadyRead_append]
    cases hr : LspClient.handleReadyRead env s chunk with
    | none => rfl
    | some r =>
      simp only [Option.bind]
      exact ih r c

/-- Claim C1.  Framing in `LspClient` does not depend on how the byte stream is
cut into reads.  For every stream cut into consecutive chunks `chunk :: chunks`,
handling the chunks one read at a time (append to the buffer, run
`parseBuffer`) passes the same sequence of JSON objects to `handleMessage` and
leaves the same bytes in the buffer as one read that delivers the whole stream;
the same holds for the complete engine state.  Both sides are `none` together
when a header announces a frame whose end lies beyond the range of `int`. -/
theorem LspClient.framing_chunk_independent (env : QtEnv) (chunk : QByteArray)
    (chunks : List QByteArray) :
    (∀ (acc : List QJsonObject) (buffer : QByteArray),
      LspClient.decodeReads env (acc, buffer) (chunk :: chunks) =
        LspClient.decodeRead env acc buffer (chunk ++ chunks.flatten)) ∧
    (∀ s : LspClient,
      LspClient.handleReads env s (chunk :: chunks) =
        LspClient.handleReadyRead env s (chunk ++ chunks.flatten)) :=
  ⟨fun acc buffer => LspClient.decodeReads_eq env chunks acc buffer chunk,
   fun s => LspClient.handleReads_eq env chunks s chunk⟩

section AssocLemmas

variable {κ ν : Type} [DecidableEq κ]

theorem Assoc.find_insert_self (k : κ) (v : ν) (m : List (κ × ν)) :
    Assoc.find k (Assoc.insert k v m) = some v := by
  induction m with
  | nil => simp [Assoc.insert, Assoc.find]
  | cons e rest ih =>
    obtain ⟨k1, v1⟩ := e
    by_cases h : k1 = k
    · simp [Assoc.insert, Assoc.find, h]
    · simp [Assoc.insert, Assoc.find, h, ih]

theorem Assoc.find_insert_ne (k k2 : κ) (v : ν) (m : List (κ × ν)) (hne : k2 ≠ k) :
    Assoc.find k2 (Assoc.insert k v m) = Assoc.find k2 m := by
  induction m with
  | nil => simp [Assoc.insert, Assoc.find, Ne.symm hne]
  | cons e rest ih =>
    obtain ⟨k1, v1⟩ := e
    by_cases h : k1 = k
    · subst h
      simp [Assoc.insert, Assoc.find, Ne.symm hne]
    · by_cases h2 : k1 = k2
      · subst h2
        simp [Assoc.insert, Assoc.find, h]
      · simp [Assoc.insert, Assoc.find, h, h2, ih]

theorem Assoc.find_erase_self (k : κ) (m : List (κ × ν)) :
    Assoc.find k (Assoc.erase k m) = none := by
  induction m with
  | nil => simp [Assoc.erase, Assoc.find]
  | cons e rest ih =>
    obtain ⟨k1, v1⟩ := e
    by_cases h : k1 = k
    · simp [Assoc.erase, h, ih]
    · simp [Assoc.erase, Assoc.find, h, ih]

theorem Assoc.find_erase_ne (k k2 : κ) (m : List (κ × ν)) (hne : k2 ≠ k) :
    Assoc.find k2 (Assoc.erase k m) = Assoc.find k2 m := by
  induction m with
  | nil => simp [Assoc.erase, Assoc.find]
  | cons e rest ih =>
    obtain ⟨k1, v1⟩ := e
    by_cases h : k1 = k
    · subst h
      simp [Assoc.erase, Assoc.find, Ne.symm hne, ih]
    · by_cases h2 : k1 = k2
      · subst h2
        simp [Assoc.erase, Assoc.find, h]
      · simp [Assoc.erase, Assoc.find, h, h2, ih]

theorem Assoc.find_eq_none_iff (k : κ) (m : List (κ × ν)) :
    Assoc.find k m = none ↔ k ∉ Assoc.keys m := by
  induction m with
  | nil => simp [Assoc.find, Assoc.keys]
  | cons e rest ih =>
    obtain ⟨k1, v1⟩ := e
    by_cases h : k1 = k
    · simp [Assoc.find, Assoc.keys, h]
    · simp only [Assoc.find, h, if_false, ih]
      simp [Assoc.keys, Ne.symm h]

theorem Assoc.erase_of_find_none (k : κ) (m : List (κ × ν)) (h : Assoc.find k m = none) :
    Assoc.erase k m = m := by
  induction m with
  | nil => rfl
  | cons e rest ih =>
    obtain ⟨k1, v1⟩ := e
    by_cases h1 : k1 = k
    · simp [Assoc.find, h1] at h
    · simp only [Assoc.find, h1, if_false] at h
      simp [Assoc.erase, h1, ih h]

theorem Assoc.mem_keys_insert (k k2 : κ) (v : ν) (m : List (κ × ν)) :
    k2 ∈ Assoc.keys (Assoc.insert k v m) ↔ k2 = k ∨ k2 ∈ Assoc.keys m := by
  induction m with
  | nil => simp [Assoc.insert, Assoc.keys]
  | cons e rest ih =>
    obtain ⟨k1, v1⟩ := e
    by_cases h : k1 = k
    · subst h
      simp [Assoc.insert, Assoc.keys]
    · simp only [Assoc.insert, h, if_false]
      simp only [Assoc.keys, List.map_cons, List.mem_cons] at ih ⊢
      rw [ih]
      tauto

theorem Assoc.mem_keys_erase (k k2 : κ) (m : List (κ × ν)) :
    k2 ∈ Assoc.keys (Assoc.erase k m) ↔ k2 ≠ k ∧ k2 ∈ Assoc.keys m := by
  induction m with
  | nil => simp [Assoc.erase, Assoc.keys]
  | cons e rest ih =>
    obtain ⟨k1, v1⟩ := e
    by_cases h : k1 = k
    · subst h
      simp only [Assoc.erase, if_true, ih]
      simp only [Assoc.keys, List.map_cons, List.mem_cons]
      constructor
      · rintro ⟨h1, h2⟩; exact ⟨h1, Or.inr h2⟩
      · rintro ⟨h1, h2 | h2⟩
        · exact absurd h2 h1
        · exact ⟨h1, h2⟩
    · simp only [Assoc.erase, h, if_false]
      simp only [Assoc.keys, List.map_cons, List.mem_cons] at ih ⊢
      rw [ih]
      constructor
      · rintro (h1 | ⟨h1, h2⟩)
        · subst h1; exact ⟨h, Or.inl rfl⟩
        · exact ⟨h1, Or.inr h2⟩
      · rintro ⟨h1, h2 | h2⟩
        · exact Or.inl h2
        · exact Or.inr ⟨h1, h2⟩

theorem Assoc.nodup_keys_insert (k : κ) (v : ν) (m : List (κ × ν))
    (h : (Assoc.keys m).Nodup) : (Assoc.keys (Assoc.insert k v m)).Nodup := by
  induction m with
  | nil => simp [Assoc.insert, Assoc.keys]
  | cons e rest ih =>
    obtain ⟨k1, v1⟩ := e
    have h1 : k1 ∉ Assoc.keys rest ∧ (Assoc.keys rest).Nodup := by
      simpa [Assoc.keys] using h
    by_cases hk : k1 = k
    · subst hk
      simpa [Assoc.insert, Assoc.keys] using h
    · simp only [Assoc.insert, hk, if_false]
      have : Assoc.keys ((k1, v1) :: Assoc.insert k v rest) =
          k1 :: Assoc.keys (Assoc.insert k v rest) := rfl
      rw [this, List.nodup_cons]
      refine ⟨?_, ih h1.2⟩
      rw [Assoc.mem_keys_insert]
      rintro (h2 | h2)
      · exact hk h2
      · exact h1.1 h2

theorem Assoc.nodup_keys_erase (k : κ) (m : List (κ × ν))
    (h : (Assoc.keys m).Nodup) : (Assoc.keys (Assoc.erase k m)).Nodup := by
  induction m with
  | nil => simp [Assoc.erase, Assoc.keys]
  | cons e rest ih =>
    obtain ⟨k1, v1⟩ := e
    have h1 : k1 ∉ Assoc.keys rest ∧ (Assoc.keys rest).Nodup := by
      simpa [Assoc.keys] using h
    by_cases hk : k1 = k
    · simp only [Assoc.erase, hk, if_true]
      exact ih h1.2
    · simp only [Assoc.erase, hk, if_false]
      have : Assoc.keys ((k1, v1) :: Assoc.erase k rest) =
          k1 :: Assoc.keys (Assoc.erase k rest) := rfl
      rw [this, List.nodup_cons]
      refine ⟨?_, ih h1.2⟩
      rw [Assoc.mem_keys_erase]
      rintro ⟨_, h2⟩
      exact h1.1 h2

theorem Assoc.length_insert_new (k : κ) (v : ν) (m : List (κ × ν))
    (h : k ∉ Assoc.keys m) : (Assoc.insert k v m).length = m.length + 1 := by
  induction m with
  | nil => rfl
  | cons e rest ih =>
    obtain ⟨k1, v1⟩ := e
    have h1 : ¬ k = k1 ∧ k ∉ Assoc.keys rest := by
      simpa [Assoc.keys] using h
    have h2 : ¬ k1 = k := fun e => h1.1 e.symm
    simp [Assoc.insert, h2, ih h1.2]

theorem Assoc.length_insert_present (k : κ) (v : ν) (m : List (κ × ν))
    (h : k ∈ Assoc.keys m) : (Assoc.insert k v m).length = m.length := by
  induction m with
  | nil => simp [Assoc.keys] at h
  | cons e rest ih =>
    obtain ⟨k1, v1⟩ := e
    by_cases hk : k1 = k
    · simp [Assoc.insert, hk]
    · have : k ∈ Assoc.keys rest := by
        have h1 : k = k1 ∨ k ∈ Assoc.keys rest := by simpa [Assoc.keys] using h
        rcases h1 with h1 | h1
        · exact absurd h1.symm hk
        · exact h1
      simp [Assoc.insert, hk, ih this]

end AssocLemmas

theorem GdbMiClient.Extends.reflE (s : GdbMiClient) : GdbMiClient.Extends s s :=
  ⟨rfl, le_refl _, fun _ _ => rfl, fun h => h⟩

theorem GdbMiClient.Extends.transE {s s1 s2 : GdbMiClient} (h1 : GdbMiClient.Extends s s1)
    (h2 : GdbMiClient.Extends s1 s2) : GdbMiClient.Extends s s2 := by
  obtain ⟨a1, b1, c1, d1⟩ := h1
  obtain ⟨a2, b2, c2, d2⟩ := h2
  refine ⟨a2.trans a1, le_trans b1 b2, ?_, fun h => d2 (d1 h)⟩
  intro k hk
  rw [c2 k (lt_of_lt_of_le hk b1), c1 k hk]

theorem GdbMiClient.Extends.emit (s : GdbMiClient) (e : GdbEvent) :
    GdbMiClient.Extends s (s.emit e) :=
  ⟨rfl, le_refl _, fun _ _ => rfl, fun h => h⟩

theorem GdbMiClient.pendingInv_insert (table : List (Int × QString)) (next : Int) (tag : QString)
    (h : pendingInv table next) : pendingInv (Assoc.insert next tag table) (next + 1) := by
  obtain ⟨h1, h2⟩ := h
  refine ⟨Assoc.nodup_keys_insert _ _ _ h1, ?_⟩
  intro k hk
  rw [Assoc.mem_keys_insert] at hk
  rcases hk with hk | hk
  · omega
  · have := h2 k hk
    omega

theorem GdbMiClient.pendingInv_erase (table : List (Int × QString)) (next k : Int)
    (h : pendingInv table next) : pendingInv (Assoc.erase k table) next := by
  obtain ⟨h1, h2⟩ := h
  refine ⟨Assoc.nodup_keys_erase _ _ h1, ?_⟩
  intro j hj
  rw [Assoc.mem_keys_erase] at hj
  exact h2 j hj.2

theorem GdbMiClient.Extends.send (s : GdbMiClient) (command tag : QString) :
    GdbMiClient.Extends s (s.sendMiCommand command tag) := by
  unfold GdbMiClient.sendMiCommand
  split
  · exact GdbMiClient.Extends.reflE s
  · refine ⟨rfl, ?_, ?_, ?_⟩
    · show s.nextToken_ ≤ s.nextToken_ + 1
      omega
    · intro k hk
      show Assoc.find k (Assoc.insert s.nextToken_ tag s.pendingTags_) = _
      exact Assoc.find_insert_ne _ _ _ _ (by omega)
    · intro h
      exact GdbMiClient.pendingInv_insert _ _ _ h

theorem GdbMiClient.Extends.refresh3 (s : GdbMiClient) :
    GdbMiClient.Extends s s.refreshStack.refreshLocals.refreshThreads :=
  ((GdbMiClient.Extends.send s _ _).transE (GdbMiClient.Extends.send _ _ _)).transE
    (GdbMiClient.Extends.send _ _ _)

theorem GdbMiClient.handleResultForTag_extends (env : QtEnv) (s s1 : GdbMiClient)
    (tag line : QString) (h : GdbMiClient.handleResultForTag env s tag line = some s1) :
    GdbMiClient.Extends s s1 := by
  unfold GdbMiClient.handleResultForTag at h
  simp only [Option.map_eq_some'] at h
  obtain ⟨s2, h2, rfl⟩ := h
  refine GdbMiClient.Extends.transE ?_ (GdbMiClient.Extends.emit _ _)
  split at h2
  · simp only [GdbMiClient.parseBreakpointList, Option.map_eq_some'] at h2
    obtain ⟨res, _, rfl⟩ := h2
    exact ⟨rfl, le_refl _, fun _ _ => rfl, fun h => h⟩
  · split at h2
    · simp only [GdbMiClient.parseStackList, Option.map_eq_some'] at h2
      obtain ⟨res, _, rfl⟩ := h2
      exact GdbMiClient.Extends.emit _ _
    · split at h2
      · simp only [GdbMiClient.parseLocalsList, Option.map_eq_some'] at h2
        obtain ⟨res, _, rfl⟩ := h2
        exact GdbMiClient.Extends.emit _ _
      · split at h2
        · simp only [GdbMiClient.parseThreadsList, Option.map_eq_some'] at h2
          obtain ⟨res, _, rfl⟩ := h2
          exact GdbMiClient.Extends.emit _ _
        · split at h2
          · simp only [Option.map_eq_some'] at h2
            obtain ⟨res, _, rfl⟩ := h2
            exact GdbMiClient.Extends.emit _ _
          · split at h2
            · cases h2
              exact GdbMiClient.Extends.refresh3 s
            · split at h2
              · cases h2
                exact GdbMiClient.Extends.send _ _ _
              · cases h2
                exact GdbMiClient.Extends.reflE s

theorem GdbMiClient.matchToken_record (digits text : QString)
    (h : GdbMiClient.isResultRecord digits text = true) :
    GdbMiClient.matchToken (digits ++ text) = some (digits, text) := by
  unfold GdbMiClient.isResultRecord at h
  simp only [Bool.and_eq_true, Bool.not_eq_true', Bool.or_eq_true, decide_eq_true_eq,
    List.all_eq_true] at h
  obtain ⟨⟨⟨h1, h2⟩, h3⟩, h4⟩ := h
  have ht : text.takeWhile QChar.isAsciiDigit = [] ∧ text.dropWhile QChar.isAsciiDigit = text := by
    cases text with
    | nil => simp at h3
    | cons c r =>
      have hc : QChar.isAsciiDigit c = false := by
        rcases h3 with h3 | h3 <;> simp at h3 <;> subst h3 <;> rfl
      simp [List.takeWhile, List.dropWhile, hc]
  have e1 : (digits ++ text).takeWhile QChar.isAsciiDigit = digits := by
    rw [List.takeWhile_append_of_pos h2, ht.1, List.append_nil]
  have e2 : (digits ++ text).dropWhile QChar.isAsciiDigit = text := by
    rw [List.dropWhile_append_of_pos h2, ht.2]
  unfold GdbMiClient.matchToken
  simp only [e1, e2, h1, h4]
  simp [h3]

theorem GdbMiClient.parseLine_record (env : QtEnv) (s : GdbMiClient) (digits text : QString)
    (h : GdbMiClient.isResultRecord digits text = true) :
    GdbMiClient.parseLine env s (digits ++ text) =
      GdbMiClient.handleResultForTag env
        { s with pendingTags_ := Assoc.erase (QString.toInt digits) s.pendingTags_ }
        ((Assoc.find (QString.toInt digits) s.pendingTags_).getD []) text := by
  have hm := GdbMiClient.matchToken_record digits text h
  unfold GdbMiClient.isResultRecord at h
  simp only [Bool.and_eq_true, Bool.not_eq_true', Bool.or_eq_true, decide_eq_true_eq,
    List.all_eq_true] at h
  obtain ⟨⟨⟨h1, h2⟩, h3⟩, h4⟩ := h
  cases digits with
  | nil => simp at h1
  | cons c r =>
    have hc : QChar.isAsciiDigit c = true := h2 c (List.mem_cons_self _ _)
    have n1 : c ≠ '*' := by intro e; subst e; exact absurd hc (by decide)
    have n2 : c ≠ '~' := by intro e; subst e; exact absurd hc (by decide)
    have n3 : c ≠ '@' := by intro e; subst e; exact absurd hc (by decide)
    have n4 : c ≠ '&' := by intro e; subst e; exact absurd hc (by decide)
    unfold GdbMiClient.parseLine
    simp only [hm]
    simp [n1, n2, n3, n4]

theorem GdbMiClient.sendAll_extends (cmds : List (QString × QString)) :
    ∀ s : GdbMiClient, GdbMiClient.Extends s (s.sendAll cmds) := by
  induction cmds with
  | nil => intro s; exact GdbMiClient.Extends.reflE s
  | cons c cs ih =>
    intro s
    exact (GdbMiClient.Extends.send s c.1 c.2).transE (ih _)

theorem GdbMiClient.sendAll_next (cmds : List (QString × QString)) :
    ∀ s : GdbMiClient, s.running = true →
      (s.sendAll cmds).nextToken_ = s.nextToken_ + cmds.length := by
  induction cmds with
  | nil => intro s _; simp [GdbMiClient.sendAll]
  | cons c cs ih =>
    intro s hr
    have h1 : (s.sendMiCommand c.1 c.2).running = true := by
      rw [(GdbMiClient.Extends.send s c.1 c.2).1]; exact hr
    have h2 : (s.sendMiCommand c.1 c.2).nextToken_ = s.nextToken_ + 1 := by
      simp [GdbMiClient.sendMiCommand, hr]
    have := ih _ h1
    simp only [GdbMiClient.sendAll, List.foldl] at this ⊢
    rw [this, h2]
    simp only [List.length_cons, Nat.cast_add, Nat.cast_one]
    omega

theorem GdbMiClient.sendAll_find (cmds : List (QString × QString)) :
    ∀ (s : GdbMiClient) (i : Nat), s.running = true → i < cmds.length →
      Assoc.find (s.nextToken_ + i) (s.sendAll cmds).pendingTags_ =
        some (GdbMiClient.tagOfCommand cmds i) := by
  induction cmds with
  | nil => intro s i _ hi; simp at hi
  | cons c cs ih =>
    intro s i hr hi
    have h1 : (s.sendMiCommand c.1 c.2).running = true := by
      rw [(GdbMiClient.Extends.send s c.1 c.2).1]; exact hr
    have h2 : (s.sendMiCommand c.1 c.2).nextToken_ = s.nextToken_ + 1 := by
      simp [GdbMiClient.sendMiCommand, hr]
    have e : s.sendAll (c :: cs) = (s.sendMiCommand c.1 c.2).sendAll cs := rfl
    rw [e]
    cases i with
    | zero =>
      have hx := (GdbMiClient.sendAll_extends cs (s.sendMiCommand c.1 c.2)).2.2.1 s.nextToken_
        (by rw [h2]; omega)
      simp only [Nat.cast_zero, add_zero]
      rw [hx]
      simp [GdbMiClient.sendMiCommand, hr, Assoc.find_insert_self, GdbMiClient.tagOfCommand]
    | succ j =>
      have := ih (s.sendMiCommand c.1 c.2) j h1 (by simpa using hi)
      rw [h2] at this
      have e2 : s.nextToken_ + ((j + 1 : Nat) : Int) = s.nextToken_ + 1 + (j : Int) := by
        push_cast; omega
      rw [e2, this]
      simp [GdbMiClient.tagOfCommand]

theorem GdbMiClient.routed_aux (env : QtEnv) (base : Int) (cmds : List (QString × QString)) :
    ∀ (replies : List (Nat × QString × QString)) (st : GdbMiClient),
      (replies.map (fun r => r.1)).Nodup →
      (∀ r ∈ replies, r.1 < cmds.length ∧ GdbMiClient.isResultRecord r.2.1 r.2.2 = true ∧
        QString.toInt r.2.1 = base + r.1) →
      base + cmds.length ≤ st.nextToken_ →
      (∀ r ∈ replies, Assoc.find (base + r.1) st.pendingTags_ =
        some (GdbMiClient.tagOfCommand cmds r.1)) →
      GdbMiClient.parseLines env st (replies.map (fun r => r.2.1 ++ r.2.2)) =
        GdbMiClient.handleTagged env st
          (replies.map (fun r => (base + r.1, GdbMiClient.tagOfCommand cmds r.1, r.2.2))) := by
  intro replies
  induction replies with
  | nil => intro st _ _ _ _; rfl
  | cons r rs ih =>
    intro st hnd hrec hnext hfind
    obtain ⟨hlt, hrr, htok⟩ := hrec r (List.mem_cons_self _ _)
    have hf := hfind r (List.mem_cons_self _ _)
    simp only [List.map_cons, GdbMiClient.parseLines, GdbMiClient.handleTagged]
    rw [GdbMiClient.parseLine_record env st _ _ hrr, htok, hf]
    simp only [Option.getD_some]
    cases hres : GdbMiClient.handleResultForTag env
        { st with pendingTags_ := Assoc.erase (base + r.1) st.pendingTags_ }
        (GdbMiClient.tagOfCommand cmds r.1) r.2.2 with
    | none => rfl
    | some st1 =>
      simp only [Option.bind]
      have hext := GdbMiClient.handleResultForTag_extends env _ _ _ _ hres
      have hnd2 : r.1 ∉ rs.map (fun r => r.1) ∧ (rs.map (fun r => r.1)).Nodup := by
        simpa using hnd
      apply ih st1 hnd2.2
      · intro q hq
        exact hrec q (List.mem_cons_of_mem _ hq)
      · exact le_trans hnext hext.2.1
      · intro q hq
        have hq1 := (hrec q (List.mem_cons_of_mem _ hq)).1
        have hne : q.1 ≠ r.1 := by
          intro e
          exact hnd2.1 (by rw [← e]; exact List.mem_map_of_mem _ hq)
        rw [hext.2.2.1 (base + q.1) (by
          show base + (q.1 : Int) < st.nextToken_
          have : (q.1 : Int) < cmds.length := by exact_mod_cast hq1
          omega)]
        show Assoc.find (base + q.1) (Assoc.erase (base + r.1) st.pendingTags_) = _
        rw [Assoc.find_erase_ne _ _ _ (by
          intro e
          apply hne
          have : (q.1 : Int) = r.1 := by omega
          exact_mod_cast this)]
        exact hfind q (List.mem_cons_of_mem _ hq)

/-- Claim C2.  Result records are correlated by token, not by order.  Let the
commands `cmds` be issued in a running session and let `replies` be result
records for pairwise different commands of that batch, in any order; the record
for the command at position `i` carries the token `nextToken_ + i` that the
command received.  Then handling the records with `parseLine` is the same as
running `handleResultForTag` for each record under the tag recorded for its own
command when it was issued. -/
theorem GdbMiClient.results_routed_by_token (env : QtEnv) (s : GdbMiClient)
    (cmds : List (QString × QString)) (replies : List (Nat × QString × QString))
    (hrun : s.running = true)
    (hdistinct : (replies.map (fun r => r.1)).Nodup)
    (hrec : ∀ r ∈ replies, r.1 < cmds.length ∧ GdbMiClient.isResultRecord r.2.1 r.2.2 = true ∧
      QString.toInt r.2.1 = s.nextToken_ + r.1) :
    GdbMiClient.parseLines env (s.sendAll cmds) (replies.map (fun r => r.2.1 ++ r.2.2)) =
      GdbMiClient.handleTagged env (s.sendAll cmds)
        (replies.map (fun r => (s.nextToken_ + r.1, GdbMiClient.tagOfCommand cmds r.1, r.2.2))) := by
  apply GdbMiClient.routed_aux env s.nextToken_ cmds replies (s.sendAll cmds) hdistinct hrec
  · rw [GdbMiClient.sendAll_next cmds s hrun]
  · intro r hr
    exact GdbMiClient.sendAll_find cmds s r.1 hrun (hrec r hr).1

theorem GdbMiClient.results_routed_by_token_witness :
    (GdbMiClient.sampleSession.running = true ∧
      (GdbMiClient.sampleReplies.map (fun r => r.1)).Nodup ∧
      (∀ r ∈ GdbMiClient.sampleReplies, r.1 < GdbMiClient.sampleCommands.length ∧
        GdbMiClient.isResultRecord r.2.1 r.2.2 = true ∧
        QString.toInt r.2.1 = GdbMiClient.sampleSession.nextToken_ + r.1)) ∧
    GdbMiClient.parseLines QtEnv.sample
        (GdbMiClient.sampleSession.sendAll GdbMiClient.sampleCommands)
        (GdbMiClient.sampleReplies.map (fun r => r.2.1 ++ r.2.2)) =
      GdbMiClient.handleTagged QtEnv.sample
        (GdbMiClient.sampleSession.sendAll GdbMiClient.sampleCommands)
        (GdbMiClient.sampleReplies.map (fun r =>
          (GdbMiClient.sampleSession.nextToken_ + r.1,
            GdbMiClient.tagOfCommand GdbMiClient.sampleCommands r.1, r.2.2))) ∧
    (GdbMiClient.parseLines QtEnv.sample
        (GdbMiClient.sampleSession.sendAll GdbMiClient.sampleCommands)
        (GdbMiClient.sampleReplies.map (fun r => r.2.1 ++ r.2.2))).map (fun s => s.emitted) =
      some [.stackUpdated [], .consoleOutput (qs "^done,stack=[]\n"),
        .consoleOutput (qs "^running\n"),
        .expressionEvaluated (qs "x+1") (qs "2"),
        .consoleOutput (qs "^done,value=\"2\"\n")] :=
  ⟨⟨by decide, by decide, by decide⟩,
    GdbMiClient.results_routed_by_token QtEnv.sample GdbMiClient.sampleSession
      GdbMiClient.sampleCommands GdbMiClient.sampleReplies (by decide) (by decide) (by decide),
    by decide⟩

theorem pendingFollows.reflF (table : List (Int × QString)) (next : Int) :
    pendingFollows table next table next :=
  ⟨le_refl _, fun _ _ h => h, fun h => h⟩

theorem pendingFollows.transF {t0 t1 t2 : List (Int × QString)} {n0 n1 n2 : Int}
    (h1 : pendingFollows t0 n0 t1 n1) (h2 : pendingFollows t1 n1 t2 n2) :
    pendingFollows t0 n0 t2 n2 := by
  obtain ⟨a1, b1, c1⟩ := h1
  obtain ⟨a2, b2, c2⟩ := h2
  exact ⟨le_trans a1 a2, fun k hk h => b2 k (lt_of_lt_of_le hk a1) (b1 k hk h), fun h => c2 (c1 h)⟩

theorem pendingFollows.insert (table : List (Int × QString)) (next : Int) (tag : QString) :
    pendingFollows table next (Assoc.insert next tag table) (next + 1) := by
  refine ⟨by omega, ?_, GdbMiClient.pendingInv_insert table next tag⟩
  intro k hk h
  rw [Assoc.find_insert_ne _ _ _ _ (by omega)]
  exact h

theorem pendingFollows.erase (table : List (Int × QString)) (next k : Int) :
    pendingFollows table next (Assoc.erase k table) next := by
  refine ⟨le_refl _, ?_, GdbMiClient.pendingInv_erase table next k⟩
  intro j _ h
  by_cases e : j = k
  · subst e; exact Assoc.find_erase_self _ _
  · rw [Assoc.find_erase_ne _ _ _ e]; exact h

theorem pendingFollows.clear (table : List (Int × QString)) (next next1 : Int)
    (h : next ≤ next1) : pendingFollows table next [] next1 :=
  ⟨h, fun _ _ _ => rfl, fun _ => ⟨List.nodup_nil, fun _ hk => by simp [Assoc.keys] at hk⟩⟩

theorem GdbMiClient.Extends.followsE {s s1 : GdbMiClient} (h : GdbMiClient.Extends s s1) :
    pendingFollows s.pendingTags_ s.nextToken_ s1.pendingTags_ s1.nextToken_ :=
  ⟨h.2.1, fun k hk hn => by rw [h.2.2.1 k hk]; exact hn, h.2.2.2⟩

theorem GdbMiClient.parseLine_follows (env : QtEnv) (s s1 : GdbMiClient) (line : QString)
    (h : GdbMiClient.parseLine env s line = some s1) :
    pendingFollows s.pendingTags_ s.nextToken_ s1.pendingTags_ s1.nextToken_ := by
  unfold GdbMiClient.parseLine at h
  simp only [] at h
  split at h
  · cases h
    refine GdbMiClient.Extends.followsE (GdbMiClient.Extends.transE ?_ (GdbMiClient.Extends.emit _ _))
    split
    · split
      · exact (GdbMiClient.Extends.emit _ _).transE (GdbMiClient.Extends.refresh3 _)
      · exact GdbMiClient.Extends.reflE _
    · exact GdbMiClient.Extends.reflE _
  · split at h
    · cases h
      exact GdbMiClient.Extends.followsE (GdbMiClient.Extends.emit _ _)
    · split at h
      · have := GdbMiClient.handleResultForTag_extends env _ _ _ _ h
        exact (pendingFollows.erase _ _ _).transF this.followsE
      · cases h
        exact GdbMiClient.Extends.followsE (GdbMiClient.Extends.emit _ _)

theorem GdbMiClient.readLoop_follows (env : QtEnv) :
    ∀ (fuel : Nat) (s s1 : GdbMiClient), GdbMiClient.readLoop env fuel s = some s1 →
      pendingFollows s.pendingTags_ s.nextToken_ s1.pendingTags_ s1.nextToken_ := by
  intro fuel
  induction fuel with
  | zero => intro s s1 h; simp [GdbMiClient.readLoop] at h
  | succ n ih =>
    intro s s1 h
    rw [GdbMiClient.readLoop] at h
    split at h
    · cases h; exact pendingFollows.reflF _ _
    · simp only [] at h
      split at h
      · have := ih _ _ h
        exact this
      · simp only [Option.bind_eq_some] at h
        obtain ⟨s2, h2, h3⟩ := h
        have h4 := GdbMiClient.parseLine_follows env _ _ _ h2
        exact pendingFollows.transF h4 (ih _ _ h3)

theorem GdbMiClient.step_follows (env : QtEnv) (s s1 : GdbMiClient) (a : GdbAction)
    (ha : a.isStart = false) (h : GdbMiClient.step env s a = some s1) :
    pendingFollows s.pendingTags_ s.nextToken_ s1.pendingTags_ s1.nextToken_ := by
  cases a with
  | start w ok => simp [GdbAction.isStart] at ha
  | stop =>
    simp only [GdbMiClient.step, Option.some.injEq] at h
    subst h
    unfold GdbMiClient.stop
    split <;> exact pendingFollows.reflF _ _
  | command c t =>
    simp only [GdbMiClient.step, Option.some.injEq] at h
    subst h
    exact (GdbMiClient.Extends.send s c t).followsE
  | evaluateExpression e =>
    simp only [GdbMiClient.step, Option.some.injEq] at h
    subst h
    exact (GdbMiClient.Extends.send s _ _).followsE
  | sendConsoleCommand c =>
    simp only [GdbMiClient.step, Option.some.injEq] at h
    subst h
    unfold GdbMiClient.sendConsoleCommand
    split
    · exact pendingFollows.reflF _ _
    · exact (GdbMiClient.Extends.send s _ _).followsE
  | readyRead b =>
    simp only [GdbMiClient.step, GdbMiClient.handleReadyRead] at h
    have := GdbMiClient.readLoop_follows env _ _ _ h
    exact this
  | finished c =>
    simp only [GdbMiClient.step, Option.some.injEq] at h
    subst h
    exact pendingFollows.reflF _ _

theorem GdbMiClient.run_follows (env : QtEnv) :
    ∀ (acts : List GdbAction) (s s1 : GdbMiClient), (∀ a ∈ acts, a.isStart = false) →
      GdbMiClient.run env s acts = some s1 →
      pendingFollows s.pendingTags_ s.nextToken_ s1.pendingTags_ s1.nextToken_ := by
  intro acts
  induction acts with
  | nil =>
    intro s s1 _ h
    simp only [GdbMiClient.run, Option.some.injEq] at h
    subst h
    exact pendingFollows.reflF _ _
  | cons a rest ih =>
    intro s s1 hs h
    simp only [GdbMiClient.run, Option.bind_eq_some] at h
    obtain ⟨s2, h2, h3⟩ := h
    exact (GdbMiClient.step_follows env s s2 a (hs a (List.mem_cons_self _ _)) h2).transF
      (ih s2 s1 (fun b hb => hs b (List.mem_cons_of_mem _ hb)) h3)

theorem GdbMiClient.start_inv (s : GdbMiClient) (w : QString) (ok : Bool) :
    pendingInv (s.start w ok).pendingTags_ (s.start w ok).nextToken_ := by
  unfold GdbMiClient.start
  simp only []
  have h0 : pendingInv ([] : List (Int × QString)) 1 :=
    ⟨List.nodup_nil, fun _ hk => by simp [Assoc.keys] at hk⟩
  split
  · exact h0
  · exact ((GdbMiClient.Extends.send _ _ _).transE (GdbMiClient.Extends.send _ _ _)).2.2.2 h0

theorem GdbMiClient.step_inv (env : QtEnv) (s s1 : GdbMiClient) (a : GdbAction)
    (h : GdbMiClient.step env s a = some s1) (hi : pendingInv s.pendingTags_ s.nextToken_) :
    pendingInv s1.pendingTags_ s1.nextToken_ := by
  cases ha : a.isStart with
  | false => exact (GdbMiClient.step_follows env s s1 a ha h).2.2 hi
  | true =>
    cases a with
    | start w ok =>
      simp only [GdbMiClient.step, Option.some.injEq] at h
      subst h
      exact GdbMiClient.start_inv s w ok
    | _ => simp [GdbAction.isStart] at ha

theorem GdbMiClient.run_inv (env : QtEnv) :
    ∀ (acts : List GdbAction) (s s1 : GdbMiClient), GdbMiClient.run env s acts = some s1 →
      pendingInv s.pendingTags_ s.nextToken_ → pendingInv s1.pendingTags_ s1.nextToken_ := by
  intro acts
  induction acts with
  | nil =>
    intro s s1 h hi
    simp only [GdbMiClient.run, Option.some.injEq] at h
    subst h
    exact hi
  | cons a rest ih =>
    intro s s1 h hi
    simp only [GdbMiClient.run, Option.bind_eq_some] at h
    obtain ⟨s2, h2, h3⟩ := h
    exact ih s2 s1 h3 (GdbMiClient.step_inv env s s2 a h2 hi)

theorem LspClient.SamePending.reflS (s : LspClient) : LspClient.SamePending s s := ⟨rfl, rfl⟩

theorem LspClient.SamePending.transS {s s1 s2 : LspClient} (h1 : LspClient.SamePending s s1)
    (h2 : LspClient.SamePending s1 s2) : LspClient.SamePending s s2 :=
  ⟨h2.1.trans h1.1, h2.2.trans h1.2⟩

theorem LspClient.SamePending.followsS {s s1 : LspClient} (h : LspClient.SamePending s s1) :
    pendingFollows s.pendingRequests_ s.nextId_ s1.pendingRequests_ s1.nextId_ := by
  rw [h.1, h.2]
  exact pendingFollows.reflF _ _

theorem LspClient.write_same (s : LspClient) (d : QByteArray) :
    LspClient.SamePending s (s.write d) := by
  unfold LspClient.write
  split
  · exact ⟨rfl, rfl⟩
  · exact ⟨rfl, rfl⟩

theorem LspClient.sendMessage_same (env : QtEnv) (s : LspClient) (m : QJsonObject) :
    LspClient.SamePending s (LspClient.sendMessage env s m) :=
  (LspClient.write_same s _).transS (LspClient.write_same _ _)

theorem LspClient.sendNotification_same (env : QtEnv) (s : LspClient) (m : QString)
    (p : QJsonObject) : LspClient.SamePending s (LspClient.sendNotification env s m p) :=
  LspClient.sendMessage_same env s _

theorem LspClient.openDocument_same (env : QtEnv) (s : LspClient) (f t : QString) :
    LspClient.SamePending s (LspClient.openDocument env s f t) := by
  unfold LspClient.openDocument
  split
  · exact ⟨rfl, rfl⟩
  · exact @LspClient.SamePending.transS s (s.bumpVersion f).1 _ ⟨rfl, rfl⟩
      (LspClient.sendNotification_same env _ _ _)

theorem LspClient.changeDocument_same (env : QtEnv) (s : LspClient) (f t : QString) :
    LspClient.SamePending s (LspClient.changeDocument env s f t) := by
  unfold LspClient.changeDocument
  split
  · exact ⟨rfl, rfl⟩
  · exact @LspClient.SamePending.transS s (s.bumpVersion f).1 _ ⟨rfl, rfl⟩
      (LspClient.sendNotification_same env _ _ _)

theorem LspClient.saveDocument_same (env : QtEnv) (s : LspClient) (f : QString) :
    LspClient.SamePending s (LspClient.saveDocument env s f) := by
  unfold LspClient.saveDocument
  split
  · exact ⟨rfl, rfl⟩
  · exact LspClient.sendNotification_same env _ _ _

theorem LspClient.openAll_same (env : QtEnv) (docs : List (QString × QString)) :
    ∀ s : LspClient, LspClient.SamePending s
      (docs.foldl (fun st pair => LspClient.openDocument env st pair.1 pair.2) s) := by
  induction docs with
  | nil => intro s; exact ⟨rfl, rfl⟩
  | cons d ds ih =>
    intro s
    exact (LspClient.openDocument_same env s d.1 d.2).transS (ih _)

theorem LspClient.flushPendingOpenDocs_same (env : QtEnv) (s : LspClient) :
    LspClient.SamePending s (LspClient.flushPendingOpenDocs env s) := by
  have h := LspClient.openAll_same env s.pendingOpenDocs_ s
  exact ⟨h.1, h.2⟩

theorem LspClient.flushAfterNotification_same (env : QtEnv) (s t : LspClient) (m : QString)
    (p : QJsonObject) (h : LspClient.SamePending s t) :
    LspClient.SamePending s
      (LspClient.flushPendingOpenDocs env (LspClient.sendNotification env t m p)) :=
  (h.transS (LspClient.sendNotification_same env t m p)).transS
    (LspClient.flushPendingOpenDocs_same env _)

theorem LspClient.handleReply_same (env : QtEnv) (s : LspClient) (m f : QString)
    (msg : QJsonObject) : LspClient.SamePending s (LspClient.handleReply env s m f msg) := by
  unfold LspClient.handleReply
  simp only []
  split
  · split
    · exact LspClient.flushAfterNotification_same env s _ _ _ ⟨rfl, rfl⟩
    · exact LspClient.flushAfterNotification_same env s _ _ _ ⟨rfl, rfl⟩
  · repeat (first | exact ⟨rfl, rfl⟩ | split)

theorem LspClient.handleMessage_follows (env : QtEnv) (s : LspClient) (msg : QJsonObject) :
    pendingFollows s.pendingRequests_ s.nextId_ (LspClient.handleMessage env s msg).pendingRequests_
      (LspClient.handleMessage env s msg).nextId_ := by
  unfold LspClient.handleMessage
  simp only []
  split
  · have h1 := LspClient.handleReply_same env
      { s with pendingRequests_ :=
          Assoc.erase ((QJsonObject.value msg (qs "id")).toInt 0) s.pendingRequests_ }
      (LspClient.tagMethod ((Assoc.find ((QJsonObject.value msg (qs "id")).toInt 0)
        s.pendingRequests_).getD []))
      (LspClient.tagFilePath ((Assoc.find ((QJsonObject.value msg (qs "id")).toInt 0)
        s.pendingRequests_).getD [])) msg
    exact pendingFollows.transF (pendingFollows.erase s.pendingRequests_ s.nextId_
      ((QJsonObject.value msg (qs "id")).toInt 0)) h1.followsS
  · repeat (first | exact pendingFollows.reflF _ _ | split)

theorem LspClient.onFrame_follows (env : QtEnv) (s : LspClient) (body : QByteArray) :
    pendingFollows s.pendingRequests_ s.nextId_ (LspClient.onFrame env s body).pendingRequests_
      (LspClient.onFrame env s body).nextId_ := by
  unfold LspClient.onFrame
  simp only []
  split
  · exact pendingFollows.reflF _ _
  · exact LspClient.handleMessage_follows env s _

theorem LspClient.parseBufferWith_follows (env : QtEnv) :
    ∀ (fuel : Nat) (s : LspClient) (buf : QByteArray) (r : LspClient × QByteArray),
      LspClient.parseBufferWith (LspClient.onFrame env) fuel s buf = some r →
      pendingFollows s.pendingRequests_ s.nextId_ r.1.pendingRequests_ r.1.nextId_ := by
  intro fuel
  induction fuel with
  | zero => intro s buf r h; simp [LspClient.parseBufferWith] at h
  | succ n ih =>
    intro s buf r h
    rw [LspClient.parseBufferWith] at h
    split at h
    · cases h; exact pendingFollows.reflF _ _
    · simp only [] at h
      split at h
      · simp at h
      · split at h
        · exact ih _ _ _ h
        · split at h
          · simp at h
          · split at h
            · cases h; exact pendingFollows.reflF _ _
            · exact (LspClient.onFrame_follows env s _).transF (ih _ _ _ h)

theorem LspClient.handleReadyRead_follows (env : QtEnv) (s s1 : LspClient) (bytes : QByteArray)
    (h : LspClient.handleReadyRead env s bytes = some s1) :
    pendingFollows s.pendingRequests_ s.nextId_ s1.pendingRequests_ s1.nextId_ := by
  unfold LspClient.handleReadyRead at h
  simp only [Option.map_eq_some'] at h
  obtain ⟨r, hr, rfl⟩ := h
  exact LspClient.parseBufferWith_follows env _ _ _ _ hr

theorem LspClient.sendRequest_follows (env : QtEnv) (s : LspClient) (m : QString)
    (p : QJsonObject) :
    pendingFollows s.pendingRequests_ s.nextId_
      (LspClient.sendRequest env s m p).1.pendingRequests_
      (LspClient.sendRequest env s m p).1.nextId_ := by
  unfold LspClient.sendRequest
  simp only []
  have h := LspClient.sendMessage_same env
    { s with nextId_ := s.nextId_ + 1,
             pendingRequests_ := Assoc.insert s.nextId_ m s.pendingRequests_ }
    (jsonObject [(qs "jsonrpc", .string (qs "2.0")), (qs "id", .number s.nextId_),
      (qs "method", .string m), (qs "params", .object p)])
  exact (pendingFollows.insert s.pendingRequests_ s.nextId_ m).transF h.followsS

theorem LspClient.sendRequest_fields (env : QtEnv) (s : LspClient) (m : QString)
    (p : QJsonObject) :
    (LspClient.sendRequest env s m p).1.pendingRequests_ =
        Assoc.insert s.nextId_ m s.pendingRequests_ ∧
      (LspClient.sendRequest env s m p).1.nextId_ = s.nextId_ + 1 ∧
      (LspClient.sendRequest env s m p).2 = s.nextId_ := by
  have h := LspClient.sendMessage_same env
    { s with nextId_ := s.nextId_ + 1,
             pendingRequests_ := Assoc.insert s.nextId_ m s.pendingRequests_ }
    (jsonObject [(qs "jsonrpc", .string (qs "2.0")), (qs "id", .number s.nextId_),
      (qs "method", .string m), (qs "params", .object p)])
  exact ⟨h.1, h.2, rfl⟩

theorem LspClient.requestWithPath_fields (env : QtEnv) (s : LspClient) (m f : QString)
    (p : QJsonObject) :
    (LspClient.requestWithPath env s m f p).pendingRequests_ =
        Assoc.insert s.nextId_ (m ++ qs "|" ++ f) (Assoc.insert s.nextId_ m s.pendingRequests_) ∧
      (LspClient.requestWithPath env s m f p).nextId_ = s.nextId_ + 1 := by
  obtain ⟨h1, h2, h3⟩ := LspClient.sendRequest_fields env s m p
  unfold LspClient.requestWithPath
  simp only []
  rw [h3, h1]
  exact ⟨rfl, h2⟩

theorem pendingFollows.insertTwice (table : List (Int × QString)) (next : Int)
    (tag tag2 : QString) :
    pendingFollows table next (Assoc.insert next tag2 (Assoc.insert next tag table))
      (next + 1) := by
  refine ⟨by omega, ?_, ?_⟩
  · intro k hk h
    rw [Assoc.find_insert_ne _ _ _ _ (by omega), Assoc.find_insert_ne _ _ _ _ (by omega)]
    exact h
  · intro h
    have h1 := GdbMiClient.pendingInv_insert table next tag h
    refine ⟨Assoc.nodup_keys_insert _ _ _ h1.1, ?_⟩
    intro k hk
    rw [Assoc.mem_keys_insert] at hk
    rcases hk with hk | hk
    · omega
    · exact h1.2 k hk

theorem LspClient.requestWithPath_follows (env : QtEnv) (s : LspClient) (m f : QString)
    (p : QJsonObject) :
    pendingFollows s.pendingRequests_ s.nextId_
      (LspClient.requestWithPath env s m f p).pendingRequests_
      (LspClient.requestWithPath env s m f p).nextId_ := by
  obtain ⟨h1, h2⟩ := LspClient.requestWithPath_fields env s m f p
  rw [h1, h2]
  exact pendingFollows.insertTwice _ _ _ _

theorem LspClient.stop_follows (env : QtEnv) (s : LspClient) :
    pendingFollows s.pendingRequests_ s.nextId_ (LspClient.stop env s).pendingRequests_
      (LspClient.stop env s).nextId_ := by
  unfold LspClient.stop
  split
  · exact pendingFollows.reflF _ _
  · simp only []
    split
    · exact (LspClient.sendRequest_follows env s _ _).transF
        (LspClient.sendNotification_same env _ _ _).followsS
    · exact pendingFollows.reflF _ _

theorem LspClient.start_follows (env : QtEnv) (s : LspClient) (rootDir : QString) (ok : Bool) :
    pendingFollows s.pendingRequests_ s.nextId_
      (LspClient.start env s rootDir ok).pendingRequests_
      (LspClient.start env s rootDir ok).nextId_ := by
  unfold LspClient.start
  simp only []
  have h1 := LspClient.stop_follows env s
  split
  · exact h1.transF (pendingFollows.clear _ _ _ (le_refl _))
  · refine (h1.transF (pendingFollows.clear _ _ _ (le_refl _))).transF ?_
    exact LspClient.sendRequest_follows env
      { (LspClient.stop env s) with
        rootDir_ := rootDir, initialized_ := false, buffer_ := [],
        pendingRequests_ := [], docVersions_ := [], pendingOpenDocs_ := [], running := true } _ _

theorem LspClient.lsp_step_follows (env : QtEnv) (s s1 : LspClient) (a : LspAction)
    (h : LspClient.step env s a = some s1) :
    pendingFollows s.pendingRequests_ s.nextId_ s1.pendingRequests_ s1.nextId_ := by
  cases a with
  | readyRead b => exact LspClient.handleReadyRead_follows env s s1 b h
  | start r ok =>
    simp only [LspClient.step, Option.some.injEq] at h
    subst h
    exact LspClient.start_follows env s r ok
  | stop =>
    simp only [LspClient.step, Option.some.injEq] at h
    subst h
    exact LspClient.stop_follows env s
  | setCurrentDocument d f =>
    simp only [LspClient.step, Option.some.injEq] at h
    subst h
    exact pendingFollows.reflF _ _
  | openDocument f t =>
    simp only [LspClient.step, Option.some.injEq] at h
    subst h
    exact (LspClient.openDocument_same env s f t).followsS
  | changeDocument f t =>
    simp only [LspClient.step, Option.some.injEq] at h
    subst h
    exact (LspClient.changeDocument_same env s f t).followsS
  | saveDocument f =>
    simp only [LspClient.step, Option.some.injEq] at h
    subst h
    exact (LspClient.saveDocument_same env s f).followsS
  | requestCompletion f l c =>
    simp only [LspClient.step, Option.some.injEq] at h
    subst h
    unfold LspClient.requestCompletion
    split
    · exact pendingFollows.reflF _ _
    · exact LspClient.sendRequest_follows env s _ _
  | requestDocumentSymbols f =>
    simp only [LspClient.step, Option.some.injEq] at h
    subst h
    unfold LspClient.requestDocumentSymbols
    split
    · exact pendingFollows.reflF _ _
    · exact LspClient.requestWithPath_follows env s _ _ _
  | requestFoldingRanges f =>
    simp only [LspClient.step, Option.some.injEq] at h
    subst h
    unfold LspClient.requestFoldingRanges
    split
    · exact pendingFollows.reflF _ _
    · exact LspClient.requestWithPath_follows env s _ _ _
  | requestSemanticTokens f =>
    simp only [LspClient.step, Option.some.injEq] at h
    subst h
    unfold LspClient.requestSemanticTokens
    split
    · exact pendingFollows.reflF _ _
    · exact LspClient.requestWithPath_follows env s _ _ _
  | requestDefinition f l c =>
    simp only [LspClient.step, Option.some.injEq] at h
    subst h
    unfold LspClient.requestDefinition
    split
    · exact pendingFollows.reflF _ _
    · exact LspClient.requestWithPath_follows env s _ _ _
  | requestReferences f l c =>
    simp only [LspClient.step, Option.some.injEq] at h
    subst h
    unfold LspClient.requestReferences
    split
    · exact pendingFollows.reflF _ _
    · exact LspClient.requestWithPath_follows env s _ _ _
  | requestRename f l c n =>
    simp only [LspClient.step, Option.some.injEq] at h
    subst h
    unfold LspClient.requestRename
    split
    · exact pendingFollows.reflF _ _
    · exact LspClient.requestWithPath_follows env s _ _ _
  | error c =>
    simp only [LspClient.step, Option.some.injEq] at h
    subst h
    exact pendingFollows.reflF _ _
  | processExited =>
    simp only [LspClient.step, Option.some.injEq] at h
    subst h
    exact pendingFollows.reflF _ _

theorem LspClient.lsp_run_follows (env : QtEnv) :
    ∀ (acts : List LspAction) (s s1 : LspClient), LspClient.run env s acts = some s1 →
      pendingFollows s.pendingRequests_ s.nextId_ s1.pendingRequests_ s1.nextId_ := by
  intro acts
  induction acts with
  | nil =>
    intro s s1 h
    simp only [LspClient.run, Option.some.injEq] at h
    subst h
    exact pendingFollows.reflF _ _
  | cons a rest ih =>
    intro s s1 h
    simp only [LspClient.run, Option.bind_eq_some] at h
    obtain ⟨s2, h2, h3⟩ := h
    exact (LspClient.lsp_step_follows env s s2 a h2).transF (ih s2 s1 h3)

theorem GdbMiClient.handleResultForTag_noTag (env : QtEnv) (s : GdbMiClient) (line : QString) :
    GdbMiClient.handleResultForTag env s [] line =
      some (s.emit (.consoleOutput (GdbMiClient.decodeMiString line ++ qs "\n"))) := by
  unfold GdbMiClient.handleResultForTag
  rw [if_neg (by decide), if_neg (by decide), if_neg (by decide), if_neg (by decide),
    if_neg (by decide), if_neg (by decide), if_neg (by decide)]
  rfl

theorem GdbMiClient.withPending_self (s : GdbMiClient) :
    ({ s with pendingTags_ := s.pendingTags_ } : GdbMiClient) = s := rfl

theorem GdbMiClient.parseLine_unknown (env : QtEnv) (s : GdbMiClient) (digits text : QString)
    (hrec : GdbMiClient.isResultRecord digits text = true)
    (hnone : Assoc.find (QString.toInt digits) s.pendingTags_ = none) :
    GdbMiClient.parseLine env s (digits ++ text) =
      some (s.emit (.consoleOutput (GdbMiClient.decodeMiString text ++ qs "\n"))) := by
  rw [GdbMiClient.parseLine_record env s digits text hrec, hnone,
    Assoc.erase_of_find_none _ _ hnone, GdbMiClient.withPending_self]
  exact GdbMiClient.handleResultForTag_noTag env s text

theorem LspClient.handleReply_noTag (env : QtEnv) (s : LspClient) (f : QString)
    (msg : QJsonObject) : LspClient.handleReply env s [] f msg = s := by
  unfold LspClient.handleReply
  simp only []
  rw [if_neg (by decide), if_neg (by decide), if_neg (by decide), if_neg (by decide),
    if_neg (by decide), if_neg (by decide), if_neg (by decide), if_neg (by decide)]

theorem LspClient.handleMessage_reply (env : QtEnv) (s : LspClient) (msg : QJsonObject)
    (h : LspClient.isReply msg = true) :
    LspClient.handleMessage env s msg =
      LspClient.handleReply env
        { s with pendingRequests_ := Assoc.erase (LspClient.replyId msg) s.pendingRequests_ }
        (LspClient.tagMethod ((Assoc.find (LspClient.replyId msg) s.pendingRequests_).getD []))
        (LspClient.tagFilePath ((Assoc.find (LspClient.replyId msg) s.pendingRequests_).getD []))
        msg := by
  unfold LspClient.isReply at h
  simp only [Bool.and_eq_true, Bool.or_eq_true] at h
  unfold LspClient.handleMessage
  simp only []
  rw [if_pos h]
  rfl

theorem LspClient.handleMessage_unknown (env : QtEnv) (s : LspClient) (msg : QJsonObject)
    (h : LspClient.isReply msg = true)
    (hnone : Assoc.find (LspClient.replyId msg) s.pendingRequests_ = none) :
    LspClient.handleMessage env s msg = s := by
  rw [LspClient.handleMessage_reply env s msg h, hnone, Assoc.erase_of_find_none _ _ hnone]
  have e : LspClient.tagMethod ((none : Option QString).getD []) = [] := rfl
  rw [e]
  exact LspClient.handleReply_noTag env s _ msg

theorem Assoc.find_of_contains_false {κ ν : Type} [DecidableEq κ] (k : κ) (m : List (κ × ν))
    (h : Assoc.contains k m = false) : Assoc.find k m = none := by
  unfold Assoc.contains at h
  cases hf : Assoc.find k m with
  | none => rfl
  | some v => simp [hf] at h

theorem Assoc.mem_keys_of_contains {κ ν : Type} [DecidableEq κ] (k : κ) (m : List (κ × ν))
    (h : Assoc.contains k m = true) : k ∈ Assoc.keys m := by
  by_contra hn
  have := (Assoc.find_eq_none_iff k m).mpr hn
  simp [Assoc.contains, this] at h

/-- Claim C5, amended.  A reply whose id has no entry in the pending table
changes nothing in `LspClient` and emits nothing there; in `GdbMiClient` the
record is echoed by one `consoleOutput` signal, no other signal is emitted and
the rest of the state is unchanged. -/
theorem unknown_reply_ignored (env : QtEnv) (g : GdbMiClient) (digits text : QString)
    (l : LspClient) (msg : QJsonObject)
    (hg_rec : GdbMiClient.isResultRecord digits text = true)
    (hg_none : Assoc.contains (QString.toInt digits) g.pendingTags_ = false)
    (hl_reply : LspClient.isReply msg = true)
    (hl_none : Assoc.contains (LspClient.replyId msg) l.pendingRequests_ = false) :
    GdbMiClient.parseLine env g (digits ++ text) =
        some (g.emit (.consoleOutput (GdbMiClient.decodeMiString text ++ qs "\n"))) ∧
      LspClient.handleMessage env l msg = l :=
  ⟨GdbMiClient.parseLine_unknown env g digits text hg_rec
      (Assoc.find_of_contains_false _ _ hg_none),
    LspClient.handleMessage_unknown env l msg hl_reply (Assoc.find_of_contains_false _ _ hl_none)⟩

theorem unknown_reply_ignored_witness :
    (GdbMiClient.isResultRecord (qs "9") (qs "^done,value=\"1\"") = true ∧
      Assoc.contains (QString.toInt (qs "9")) GdbMiClient.sampleSession.pendingTags_ = false ∧
      LspClient.isReply [(qs "id", .number 9), (qs "result", .array [])] = true ∧
      Assoc.contains (LspClient.replyId [(qs "id", .number 9), (qs "result", .array [])])
        LspClient.sampleSession.pendingRequests_ = false) ∧
    (GdbMiClient.parseLine QtEnv.sample GdbMiClient.sampleSession
        (qs "9" ++ qs "^done,value=\"1\"") =
        some (GdbMiClient.sampleSession.emit
          (.consoleOutput (GdbMiClient.decodeMiString (qs "^done,value=\"1\"") ++ qs "\n"))) ∧
      LspClient.handleMessage QtEnv.sample LspClient.sampleSession
        [(qs "id", .number 9), (qs "result", .array [])] = LspClient.sampleSession) :=
  ⟨⟨by decide, by decide, by decide, by decide⟩,
    unknown_reply_ignored QtEnv.sample GdbMiClient.sampleSession (qs "9")
      (qs "^done,value=\"1\"") LspClient.sampleSession
      [(qs "id", .number 9), (qs "result", .array [])] (by decide) (by decide) (by decide)
      (by decide)⟩

/-- Claim C5 as stated fails in `GdbMiClient`: token 9 has no pending entry in
the sample session, and handling the record `9^done` emits a `consoleOutput`
signal. -/
theorem unknown_reply_counterexample :
    Assoc.contains 9 GdbMiClient.sampleSession.pendingTags_ = false ∧
      GdbMiClient.sampleSession.emitted = [] ∧
      (GdbMiClient.parseLine QtEnv.sample GdbMiClient.sampleSession (qs "9^done")).map
        (fun s => s.emitted) = some [.consoleOutput (qs "^done\n")] := by
  decide

/-- Claim C3.  A reply is consumed once.  In a state that satisfies the
invariant of the pending table, handling a reply for a pending id removes the
id from the table; after any further calls and events (for `GdbMiClient`: none
of them `start`, which opens a new session and restarts the tokens) a second
reply with the same id finds no tag: `GdbMiClient` only echoes the record by
`consoleOutput` and `LspClient` emits nothing and keeps its state. -/
theorem reply_consumed_once (env : QtEnv)
    (g g1 g2 : GdbMiClient) (digits text digits2 text2 : QString) (gacts : List GdbAction)
    (l l2 : LspClient) (msg msg2 : QJsonObject) (lacts : List LspAction)
    (hg_inv : pendingInv g.pendingTags_ g.nextToken_)
    (hg_pending : Assoc.contains (QString.toInt digits) g.pendingTags_ = true)
    (hg_rec : GdbMiClient.isResultRecord digits text = true)
    (hg_first : GdbMiClient.parseLine env g (digits ++ text) = some g1)
    (hg_nostart : ∀ a ∈ gacts, a.isStart = false)
    (hg_run : GdbMiClient.run env g1 gacts = some g2)
    (hg_rec2 : GdbMiClient.isResultRecord digits2 text2 = true)
    (hg_same : QString.toInt digits2 = QString.toInt digits)
    (hl_inv : pendingInv l.pendingRequests_ l.nextId_)
    (hl_pending : Assoc.contains (LspClient.replyId msg) l.pendingRequests_ = true)
    (hl_reply : LspClient.isReply msg = true)
    (hl_run : LspClient.run env (LspClient.handleMessage env l msg) lacts = some l2)
    (hl_reply2 : LspClient.isReply msg2 = true)
    (hl_same : LspClient.replyId msg2 = LspClient.replyId msg) :
    (Assoc.find (QString.toInt digits) g1.pendingTags_ = none ∧
      GdbMiClient.parseLine env g2 (digits2 ++ text2) =
        some (g2.emit (.consoleOutput (GdbMiClient.decodeMiString text2 ++ qs "\n")))) ∧
    (Assoc.find (LspClient.replyId msg) (LspClient.handleMessage env l msg).pendingRequests_ = none ∧
      LspClient.handleMessage env l2 msg2 = l2) := by
  have hg_lt : QString.toInt digits < g.nextToken_ :=
    hg_inv.2 _ (Assoc.mem_keys_of_contains _ _ hg_pending)
  have hl_lt : LspClient.replyId msg < l.nextId_ :=
    hl_inv.2 _ (Assoc.mem_keys_of_contains _ _ hl_pending)
  have hg1 : Assoc.find (QString.toInt digits) g1.pendingTags_ = none := by
    rw [GdbMiClient.parseLine_record env g digits text hg_rec] at hg_first
    have hext := GdbMiClient.handleResultForTag_extends env _ _ _ _ hg_first
    rw [hext.2.2.1 _ hg_lt]
    exact Assoc.find_erase_self _ _
  have hg1n : QString.toInt digits < g1.nextToken_ :=
    lt_of_lt_of_le hg_lt (GdbMiClient.parseLine_follows env g g1 _ hg_first).1
  have hg2 : Assoc.find (QString.toInt digits) g2.pendingTags_ = none :=
    (GdbMiClient.run_follows env gacts g1 g2 hg_nostart hg_run).2.1 _ hg1n hg1
  have hl1 : Assoc.find (LspClient.replyId msg)
      (LspClient.handleMessage env l msg).pendingRequests_ = none := by
    rw [LspClient.handleMessage_reply env l msg hl_reply]
    rw [(LspClient.handleReply_same env _ _ _ msg).1]
    exact Assoc.find_erase_self _ _
  have hl1n : LspClient.replyId msg < (LspClient.handleMessage env l msg).nextId_ :=
    lt_of_lt_of_le hl_lt (LspClient.handleMessage_follows env l msg).1
  have hl2 : Assoc.find (LspClient.replyId msg) l2.pendingRequests_ = none :=
    (LspClient.lsp_run_follows env lacts _ l2 hl_run).2.1 _ hl1n hl1
  refine ⟨⟨hg1, ?_⟩, hl1, ?_⟩
  · exact GdbMiClient.parseLine_unknown env g2 digits2 text2 hg_rec2 (by rw [hg_same]; exact hg2)
  · exact LspClient.handleMessage_unknown env l2 msg2 hl_reply2 (by rw [hl_same]; exact hl2)

theorem reply_consumed_once_witness :
    (pendingInv GdbMiClient.sampleSession.pendingTags_ GdbMiClient.sampleSession.nextToken_ ∧
      Assoc.contains (QString.toInt (qs "2")) GdbMiClient.sampleSession.pendingTags_ = true ∧
      GdbMiClient.isResultRecord (qs "2") (qs "^done") = true ∧
      GdbMiClient.parseLine QtEnv.sample GdbMiClient.sampleSession (qs "2" ++ qs "^done") =
        some GdbMiClient.sampleAfterReply ∧
      (∀ a ∈ GdbMiClient.sampleActions, a.isStart = false) ∧
      GdbMiClient.run QtEnv.sample GdbMiClient.sampleAfterReply GdbMiClient.sampleActions =
        some GdbMiClient.sampleLater ∧
      GdbMiClient.isResultRecord (qs "02") (qs "^done,bkpt=\x7bnumber=\"1\"\x7d") = true ∧
      QString.toInt (qs "02") = QString.toInt (qs "2") ∧
      pendingInv LspClient.sampleSession.pendingRequests_ LspClient.sampleSession.nextId_ ∧
      Assoc.contains (LspClient.replyId LspClient.sampleReply)
        LspClient.sampleSession.pendingRequests_ = true ∧
      LspClient.isReply LspClient.sampleReply = true ∧
      LspClient.run QtEnv.sample
        (LspClient.handleMessage QtEnv.sample LspClient.sampleSession LspClient.sampleReply)
        LspClient.sampleActions = some LspClient.sampleLater) ∧
    ((Assoc.find (QString.toInt (qs "2")) GdbMiClient.sampleAfterReply.pendingTags_ = none ∧
      GdbMiClient.parseLine QtEnv.sample GdbMiClient.sampleLater
          (qs "02" ++ qs "^done,bkpt=\x7bnumber=\"1\"\x7d") =
        some (GdbMiClient.sampleLater.emit (.consoleOutput
          (GdbMiClient.decodeMiString (qs "^done,bkpt=\x7bnumber=\"1\"\x7d") ++ qs "\n")))) ∧
    (Assoc.find (LspClient.replyId LspClient.sampleReply)
        (LspClient.handleMessage QtEnv.sample LspClient.sampleSession
          LspClient.sampleReply).pendingRequests_ = none ∧
      LspClient.handleMessage QtEnv.sample LspClient.sampleLater LspClient.sampleReply =
        LspClient.sampleLater)) :=
  ⟨⟨by decide, by decide, by decide, by rfl, by decide, by rfl, by decide, by decide,
      by decide, by decide, by decide, by rfl⟩,
    reply_consumed_once QtEnv.sample GdbMiClient.sampleSession GdbMiClient.sampleAfterReply
      GdbMiClient.sampleLater (qs "2") (qs "^done") (qs "02")
      (qs "^done,bkpt=\x7bnumber=\"1\"\x7d") GdbMiClient.sampleActions
      LspClient.sampleSession LspClient.sampleLater LspClient.sampleReply LspClient.sampleReply
      LspClient.sampleActions
      (by decide) (by decide) (by decide) (by rfl) (by decide) (by rfl) (by decide) (by decide)
      (by decide) (by decide) (by decide) (by rfl) (by decide) rfl⟩

theorem LspClient.lsp_run_inv (env : QtEnv) (acts : List LspAction) (l : LspClient)
    (h : LspClient.run env LspClient.init acts = some l) :
    pendingInv l.pendingRequests_ l.nextId_ :=
  (LspClient.lsp_run_follows env acts LspClient.init l h).2.2
    ⟨List.nodup_nil, fun _ hk => by simp [LspClient.init, Assoc.keys] at hk⟩

theorem pendingInv.not_mem_next {table : List (Int × QString)} {next : Int}
    (h : pendingInv table next) : next ∉ Assoc.keys table := by
  intro hk
  have := h.2 next hk
  omega

/-- Claim C4.  In every state that either engine reaches from its initial
state, no id has two entries in the pending table and every key is below the
next value of the counter; issuing a request takes the current value of the
counter as its id, advances the counter by one and makes the table one entry
larger, also for the `LspClient` requests that record the tag twice. -/
theorem pending_table_invariant (env : QtEnv) (gacts : List GdbAction) (g : GdbMiClient)
    (lacts : List LspAction) (l : LspClient)
    (hg : GdbMiClient.run env GdbMiClient.init gacts = some g)
    (hl : LspClient.run env LspClient.init lacts = some l) :
    (pendingInv g.pendingTags_ g.nextToken_ ∧
      ∀ command tag : QString, g.running = true →
        (g.sendMiCommand command tag).nextToken_ = g.nextToken_ + 1 ∧
        Assoc.find g.nextToken_ (g.sendMiCommand command tag).pendingTags_ = some tag ∧
        (g.sendMiCommand command tag).pendingTags_.length = g.pendingTags_.length + 1 ∧
        pendingInv (g.sendMiCommand command tag).pendingTags_
          (g.sendMiCommand command tag).nextToken_) ∧
    (pendingInv l.pendingRequests_ l.nextId_ ∧
      (∀ (method : QString) (params : QJsonObject),
        (LspClient.sendRequest env l method params).2 = l.nextId_ ∧
        (LspClient.sendRequest env l method params).1.nextId_ = l.nextId_ + 1 ∧
        Assoc.find l.nextId_ (LspClient.sendRequest env l method params).1.pendingRequests_ =
          some method ∧
        (LspClient.sendRequest env l method params).1.pendingRequests_.length =
          l.pendingRequests_.length + 1) ∧
      (∀ (method filePath : QString) (params : QJsonObject),
        (LspClient.requestWithPath env l method filePath params).nextId_ = l.nextId_ + 1 ∧
        Assoc.find l.nextId_ (LspClient.requestWithPath env l method filePath params).pendingRequests_ =
          some (method ++ qs "|" ++ filePath) ∧
        (LspClient.requestWithPath env l method filePath params).pendingRequests_.length =
          l.pendingRequests_.length + 1 ∧
        pendingInv (LspClient.requestWithPath env l method filePath params).pendingRequests_
          (LspClient.requestWithPath env l method filePath params).nextId_)) := by
  have hgi : pendingInv g.pendingTags_ g.nextToken_ :=
    GdbMiClient.run_inv env gacts GdbMiClient.init g hg
      ⟨List.nodup_nil, fun _ hk => by simp [GdbMiClient.init, Assoc.keys] at hk⟩
  have hli := LspClient.lsp_run_inv env lacts l hl
  refine ⟨⟨hgi, ?_⟩, hli, ?_, ?_⟩
  · intro command tag hr
    have e1 : (g.sendMiCommand command tag).nextToken_ = g.nextToken_ + 1 := by
      simp [GdbMiClient.sendMiCommand, hr]
    have e2 : (g.sendMiCommand command tag).pendingTags_ =
        Assoc.insert g.nextToken_ tag g.pendingTags_ := by
      simp [GdbMiClient.sendMiCommand, hr]
    rw [e1, e2]
    exact ⟨rfl, Assoc.find_insert_self _ _ _,
      Assoc.length_insert_new _ _ _ hgi.not_mem_next, GdbMiClient.pendingInv_insert _ _ _ hgi⟩
  · intro method params
    obtain ⟨h1, h2, h3⟩ := LspClient.sendRequest_fields env l method params
    rw [h1, h2, h3]
    exact ⟨rfl, rfl, Assoc.find_insert_self _ _ _, Assoc.length_insert_new _ _ _ hli.not_mem_next⟩
  · intro method filePath params
    obtain ⟨h1, h2⟩ := LspClient.requestWithPath_fields env l method filePath params
    rw [h1, h2]
    refine ⟨rfl, Assoc.find_insert_self _ _ _, ?_, (pendingFollows.insertTwice _ _ _ _).2.2 hli⟩
    rw [Assoc.length_insert_present _ _ _ (by rw [Assoc.mem_keys_insert]; exact Or.inl rfl)]
    exact Assoc.length_insert_new _ _ _ hli.not_mem_next

theorem pending_table_invariant_witness :
    (GdbMiClient.run QtEnv.sample GdbMiClient.init GdbMiClient.sampleRun =
        some GdbMiClient.sampleReached ∧
      LspClient.run QtEnv.sample LspClient.init LspClient.sampleRun =
        some LspClient.sampleReached) ∧
    ((pendingInv GdbMiClient.sampleReached.pendingTags_ GdbMiClient.sampleReached.nextToken_ ∧
      ∀ command tag : QString, GdbMiClient.sampleReached.running = true →
        (GdbMiClient.sampleReached.sendMiCommand command tag).nextToken_ =
          GdbMiClient.sampleReached.nextToken_ + 1 ∧
        Assoc.find GdbMiClient.sampleReached.nextToken_
          (GdbMiClient.sampleReached.sendMiCommand command tag).pendingTags_ = some tag ∧
        (GdbMiClient.sampleReached.sendMiCommand command tag).pendingTags_.length =
          GdbMiClient.sampleReached.pendingTags_.length + 1 ∧
        pendingInv (GdbMiClient.sampleReached.sendMiCommand command tag).pendingTags_
          (GdbMiClient.sampleReached.sendMiCommand command tag).nextToken_) ∧
    (pendingInv LspClient.sampleReached.pendingRequests_ LspClient.sampleReached.nextId_ ∧
      (∀ (method : QString) (params : QJsonObject),
        (LspClient.sendRequest QtEnv.sample LspClient.sampleReached method params).2 =
          LspClient.sampleReached.nextId_ ∧
        (LspClient.sendRequest QtEnv.sample LspClient.sampleReached method params).1.nextId_ =
          LspClient.sampleReached.nextId_ + 1 ∧
        Assoc.find LspClient.sampleReached.nextId_
          (LspClient.sendRequest QtEnv.sample LspClient.sampleReached method
            params).1.pendingRequests_ = some method ∧
        (LspClient.sendRequest QtEnv.sample LspClient.sampleReached method
          params).1.pendingRequests_.length = LspClient.sampleReached.pendingRequests_.length + 1) ∧
      (∀ (method filePath : QString) (params : QJsonObject),
        (LspClient.requestWithPath QtEnv.sample LspClient.sampleReached method filePath
          params).nextId_ = LspClient.sampleReached.nextId_ + 1 ∧
        Assoc.find LspClient.sampleReached.nextId_
          (LspClient.requestWithPath QtEnv.sample LspClient.sampleReached method filePath
            params).pendingRequests_ = some (method ++ qs "|" ++ filePath) ∧
        (LspClient.requestWithPath QtEnv.sample LspClient.sampleReached method filePath
          params).pendingRequests_.length = LspClient.sampleReached.pendingRequests_.length + 1 ∧
        pendingInv
          (LspClient.requestWithPath QtEnv.sample LspClient.sampleReached method filePath
            params).pendingRequests_
          (LspClient.requestWithPath QtEnv.sample LspClient.sampleReached method filePath
            params).nextId_))) ∧
    GdbMiClient.sampleReached.pendingTags_ =
      [(2, qs "break-list"), (3, qs "run"), (4, qs "eval|x+1")] ∧
    LspClient.sampleReached.pendingRequests_ = [(2, qs "textDocument/rename|a.cpp")] :=
  ⟨⟨by rfl, by rfl⟩,
    pending_table_invariant QtEnv.sample GdbMiClient.sampleRun GdbMiClient.sampleReached
      LspClient.sampleRun LspClient.sampleReached (by rfl) (by rfl),
    by decide, by decide⟩

theorem skipDelimiters_cons (c : Char) (rest : QString) (h : QChar.isSpace c = false) :
    skipDelimiters (c :: rest) = c :: rest := by
  simp [skipDelimiters, List.dropWhile, h]

theorem skipDelimiters_nil : skipDelimiters [] = [] := rfl

theorem MiValue.isBareWord_cons (name : QString) (h : MiValue.isBareWord name = true) :
    ∃ c r, name = c :: r ∧ QChar.isSpace c = false ∧ GdbMiClient.isWordEnd c = false ∧
      ∀ x ∈ name, GdbMiClient.isWordEnd x = false := by
  unfold MiValue.isBareWord at h
  cases name with
  | nil => simp at h
  | cons c r =>
    simp only [Bool.and_eq_true, Bool.not_eq_true', List.all_eq_true] at h
    exact ⟨c, r, rfl, h.1, h.2 c (List.mem_cons_self _ _), h.2⟩

theorem GdbMiClient.parseMiWord_name (name rest : QString) (d : Char)
    (h : MiValue.isBareWord name = true) (hd : GdbMiClient.isWordEnd d = true) :
    GdbMiClient.parseMiWord (name ++ d :: rest) = (name, d :: rest) := by
  obtain ⟨c, r, rfl, hs, _, hall⟩ := MiValue.isBareWord_cons name h
  unfold GdbMiClient.parseMiWord
  have e : skipDelimiters ((c :: r) ++ d :: rest) = (c :: r) ++ d :: rest :=
    skipDelimiters_cons c _ hs
  simp only [e]
  have hp : ∀ x ∈ c :: r, (fun x => !GdbMiClient.isWordEnd x) x = true := by
    intro x hx
    simp [hall x hx]
  rw [List.takeWhile_append_of_pos hp, List.dropWhile_append_of_pos hp]
  simp [List.takeWhile, List.dropWhile, hd]

theorem GdbMiClient.parseMiQuoted_raw :
    ∀ (n : Nat) (raw rest out : QString), raw.length ≤ n → MiValue.wellEscaped raw = true →
      GdbMiClient.parseMiQuoted (raw ++ '"' :: rest) out = (out ++ MiValue.unescape raw, rest) := by
  intro n
  induction n with
  | zero =>
    intro raw rest out hl _
    have : raw = [] := List.length_eq_zero.mp (by omega)
    subst this
    cases rest with
    | nil => simp [GdbMiClient.parseMiQuoted, MiValue.unescape]
    | cons x xs => simp [GdbMiClient.parseMiQuoted, MiValue.unescape]
  | succ n ih =>
    intro raw rest out hl hw
    match raw, hl, hw with
    | [], _, _ =>
      cases rest with
      | nil => simp [GdbMiClient.parseMiQuoted, MiValue.unescape]
      | cons x xs => simp [GdbMiClient.parseMiQuoted, MiValue.unescape]
    | [c], _, hw =>
      simp only [MiValue.wellEscaped, Bool.and_eq_true, bne_iff_ne, ne_eq] at hw
      have h0 := ih [] rest (out ++ [c]) (by simp) rfl
      simp only [List.nil_append] at h0
      simp only [List.singleton_append, GdbMiClient.parseMiQuoted, hw.1, hw.2, if_false, h0,
        MiValue.unescape, List.append_nil]
    | c :: d :: r, hl, hw =>
      simp only [MiValue.wellEscaped] at hw
      by_cases hq : c = '"'
      · simp [hq] at hw
      · simp only [hq, if_false] at hw
        by_cases hb : c = '\\'
        · simp only [hb, if_true] at hw
          have h0 := ih r rest
            (out ++ [if d = 'n' then '\n' else if d = 't' then '\t' else d])
            (by simp at hl; omega) hw
          subst hb
          cases r with
          | nil =>
            simp only [List.nil_append] at h0
            simp [GdbMiClient.parseMiQuoted, MiValue.unescape, h0]
          | cons x xs =>
            simp only [List.cons_append] at h0
            simp [GdbMiClient.parseMiQuoted, MiValue.unescape, h0]
        · simp only [hb, if_false] at hw
          have h0 := ih (d :: r) rest (out ++ [c]) (by simp at hl ⊢; omega) hw
          simp only [List.cons_append] at h0
          simp [GdbMiClient.parseMiQuoted, MiValue.unescape, hq, hb, h0]

theorem MiValue.renderResults_cons_append (k : QString) (v : MiValue)
    (r : List (QString × MiValue)) (tail : QString) :
    MiValue.renderResults ((k, v) :: r) ++ tail =
      k ++ '=' :: (MiValue.render v ++
        ((if r.isEmpty then [] else ',' :: MiValue.renderResults r) ++ tail)) := by
  simp [MiValue.renderResults, List.append_assoc]

theorem MiValue.renderValues_cons_append (v : MiValue) (r : List MiValue) (tail : QString) :
    MiValue.renderValues (v :: r) ++ tail =
      MiValue.render v ++ ((if r.isEmpty then [] else ',' :: MiValue.renderValues r) ++ tail) := by
  simp [MiValue.renderValues, List.append_assoc]

/-- The text of a well-formed sequence of results followed by a closing
character starts with a character that is not white space. -/
theorem MiValue.skip_renderResults (fs : List (QString × MiValue)) (d : Char) (tail : QString)
    (hw : MiValue.wfFields fs = true) (hd : QChar.isSpace d = false) :
    skipDelimiters (MiValue.renderResults fs ++ d :: tail) =
      MiValue.renderResults fs ++ d :: tail := by
  cases fs with
  | nil => simpa [MiValue.renderResults] using skipDelimiters_cons d tail hd
  | cons f r =>
    obtain ⟨k, v⟩ := f
    simp only [MiValue.wfFields, Bool.and_eq_true] at hw
    obtain ⟨c, cs, rfl, hs, _, _⟩ := MiValue.isBareWord_cons k hw.1.1
    rw [MiValue.renderResults_cons_append]
    exact skipDelimiters_cons c _ hs

theorem MiValue.isListName_bare (k : QString) (h : MiValue.isListName k = true) :
    MiValue.isBareWord k = true := by
  unfold MiValue.isListName at h
  simp only [Bool.and_eq_true] at h
  exact h.1

theorem MiValue.skip_renderListResults (fs : List (QString × MiValue)) (d : Char)
    (tail : QString) (hw : MiValue.wfListResults fs = true) (hd : QChar.isSpace d = false) :
    skipDelimiters (MiValue.renderResults fs ++ d :: tail) =
      MiValue.renderResults fs ++ d :: tail := by
  cases fs with
  | nil => simpa [MiValue.renderResults] using skipDelimiters_cons d tail hd
  | cons f r =>
    obtain ⟨k, v⟩ := f
    simp only [MiValue.wfListResults, Bool.and_eq_true] at hw
    obtain ⟨c, cs, rfl, hs, _, _⟩ := MiValue.isBareWord_cons k (MiValue.isListName_bare k hw.1.1)
    rw [MiValue.renderResults_cons_append]
    exact skipDelimiters_cons c _ hs

/-- The text of a value starts with a quote, a brace or a bracket. -/
theorem MiValue.render_head (v : MiValue) :
    ∃ c t, MiValue.render v = c :: t ∧ (c = '"' ∨ c = '{' ∨ c = '[') := by
  cases v with
  | cstring raw => exact ⟨'"', raw ++ ['"'], by simp [MiValue.render], Or.inl rfl⟩
  | tuple fs =>
    exact ⟨'{', MiValue.renderResults fs ++ ['}'], by simp [MiValue.render], Or.inr (Or.inl rfl)⟩
  | values vs =>
    exact ⟨'[', MiValue.renderValues vs ++ [']'], by simp [MiValue.render], Or.inr (Or.inr rfl)⟩
  | results rs =>
    exact ⟨'[', MiValue.renderResults rs ++ [']'], by simp [MiValue.render], Or.inr (Or.inr rfl)⟩

theorem MiValue.skip_render (v : MiValue) (tail : QString) :
    skipDelimiters (MiValue.render v ++ tail) = MiValue.render v ++ tail := by
  obtain ⟨c, t, e, hc⟩ := MiValue.render_head v
  rw [e]
  apply skipDelimiters_cons
  rcases hc with h | h | h <;> subst h <;> rfl

theorem MiValue.skip_renderValues (vs : List MiValue) (d : Char) (tail : QString)
    (hd : QChar.isSpace d = false) :
    skipDelimiters (MiValue.renderValues vs ++ d :: tail) =
      MiValue.renderValues vs ++ d :: tail := by
  cases vs with
  | nil => simpa [MiValue.renderValues] using skipDelimiters_cons d tail hd
  | cons v r =>
    rw [MiValue.renderValues_cons_append]
    exact MiValue.skip_render v _

/-- After an item of a loop: white space, an optional comma and white space are
skipped, which leaves the text of the remaining results. -/
theorem MiValue.next_results (r : List (QString × MiValue)) (d : Char) (tail : QString)
    (hw : MiValue.wfFields r = true ∨ MiValue.wfListResults r = true)
    (hd : QChar.isSpace d = false) (hc : d ≠ ',') :
    skipDelimiters (GdbMiClient.skipComma (skipDelimiters
      ((if r.isEmpty then [] else ',' :: MiValue.renderResults r) ++ d :: tail))) =
      MiValue.renderResults r ++ d :: tail := by
  have hskip : skipDelimiters (MiValue.renderResults r ++ d :: tail) =
      MiValue.renderResults r ++ d :: tail := by
    rcases hw with hw | hw
    · exact MiValue.skip_renderResults r d tail hw hd
    · exact MiValue.skip_renderListResults r d tail hw hd
  cases r with
  | nil =>
    simp only [List.isEmpty_nil, if_true, List.nil_append, MiValue.renderResults]
    rw [skipDelimiters_cons d tail hd]
    have : GdbMiClient.skipComma (d :: tail) = d :: tail := by
      simp [GdbMiClient.skipComma, hc]
    rw [this, skipDelimiters_cons d tail hd]
  | cons f r2 =>
    simp only [List.isEmpty_cons, Bool.false_eq_true, if_false, List.cons_append]
    rw [skipDelimiters_cons ',' _ (by rfl)]
    have : GdbMiClient.skipComma (',' :: (MiValue.renderResults (f :: r2) ++ d :: tail)) =
        MiValue.renderResults (f :: r2) ++ d :: tail := by
      simp [GdbMiClient.skipComma]
    rw [this, hskip]

theorem MiValue.next_values (r : List MiValue) (d : Char) (tail : QString)
    (hd : QChar.isSpace d = false) (hc : d ≠ ',') :
    skipDelimiters (GdbMiClient.skipComma (skipDelimiters
      ((if r.isEmpty then [] else ',' :: MiValue.renderValues r) ++ d :: tail))) =
      MiValue.renderValues r ++ d :: tail := by
  have hskip := MiValue.skip_renderValues r d tail hd
  cases r with
  | nil =>
    simp only [List.isEmpty_nil, if_true, List.nil_append, MiValue.renderValues]
    rw [skipDelimiters_cons d tail hd]
    have : GdbMiClient.skipComma (d :: tail) = d :: tail := by
      simp [GdbMiClient.skipComma, hc]
    rw [this, skipDelimiters_cons d tail hd]
  | cons f r2 =>
    simp only [List.isEmpty_cons, Bool.false_eq_true, if_false, List.cons_append]
    rw [skipDelimiters_cons ',' _ (by rfl)]
    have : GdbMiClient.skipComma (',' :: (MiValue.renderValues (f :: r2) ++ d :: tail)) =
        MiValue.renderValues (f :: r2) ++ d :: tail := by
      simp [GdbMiClient.skipComma]
    rw [this, hskip]

theorem GdbMiClient.parseMiValue_succ (fuel : Nat) (text : QString) :
    GdbMiClient.parseMiValue (fuel + 1) text =
      (match skipDelimiters text with
      | [] => some (.invalid, [])
      | c :: rest =>
        if c = '"' then
          let r := GdbMiClient.parseMiQuoted rest []
          some (.string r.1, r.2)
        else if c = '{' then
          (GdbMiClient.parseMiTupleLoop fuel [] (skipDelimiters rest)).map
            (fun r => (QVariant.map r.1, r.2))
        else if c = '[' then
          (GdbMiClient.parseMiListLoop fuel [] (skipDelimiters rest)).map
            (fun r => (QVariant.list r.1, r.2))
        else
          let w := GdbMiClient.parseMiWord (c :: rest)
          some (.string w.1, w.2)) := by
  rfl

theorem GdbMiClient.parseMiTupleLoop_succ (fuel : Nat) (map : QVariantMap) (text : QString) :
    GdbMiClient.parseMiTupleLoop (fuel + 1) map text =
      (match text with
      | [] => some (map, [])
      | c :: rest =>
        if c = '}' then some (map, rest)
        else
          let w := GdbMiClient.parseMiWord text
          let valueAndText :=
            if w.2.head? = some '=' then GdbMiClient.parseMiValue fuel w.2.tail
            else some (QVariant.invalid, w.2)
          match valueAndText with
          | none => none
          | some (value, text1) =>
            let map1 := if w.1.isEmpty then map else Assoc.insert w.1 value map
            GdbMiClient.parseMiTupleLoop fuel map1
              (skipDelimiters (GdbMiClient.skipComma (skipDelimiters text1)))) := by
  rfl

theorem GdbMiClient.parseMiListLoop_succ (fuel : Nat) (list : QVariantList) (text : QString) :
    GdbMiClient.parseMiListLoop (fuel + 1) list text =
      (match text with
      | [] => some (list, [])
      | c :: rest =>
        if c = ']' then some (list, rest)
        else
          let t := skipDelimiters text
          let itemAndText : Option (QVariant × QString) :=
            if t.head? = some '{' ∨ t.head? = some '[' ∨ t.head? = some '"' then
              GdbMiClient.parseMiValue fuel t
            else
              let w := GdbMiClient.parseMiWord t
              let t1 := skipDelimiters w.2
              if t1.head? = some '=' then
                (GdbMiClient.parseMiValue fuel t1.tail).map
                  (fun r => (QVariant.map (Assoc.insert w.1 r.1 []), r.2))
              else GdbMiClient.parseMiValue fuel t
          match itemAndText with
          | none => none
          | some (item, text1) =>
            GdbMiClient.parseMiListLoop fuel (list ++ [item])
              (skipDelimiters (GdbMiClient.skipComma (skipDelimiters text1)))) := by
  rfl

theorem GdbMiClient.parseMiResultsLoop_succ (fuel : Nat) (map : QVariantMap) (text : QString) :
    GdbMiClient.parseMiResultsLoop (fuel + 1) map text =
      (match text with
      | [] => some map
      | _ :: _ =>
        let w := GdbMiClient.parseMiWord text
        let valueAndText :=
          if w.2.head? = some '=' then GdbMiClient.parseMiValue fuel w.2.tail
          else some (QVariant.invalid, w.2)
        match valueAndText with
        | none => none
        | some (value, text1) =>
          let map1 := if w.1.isEmpty then map else Assoc.insert w.1 value map
          GdbMiClient.parseMiResultsLoop fuel map1
            (skipDelimiters (GdbMiClient.skipComma (skipDelimiters text1)))) := by
  rfl

theorem GdbMiClient.isWordEnd_eq (c : Char) : GdbMiClient.isWordEnd '=' = true ∧
    (GdbMiClient.isWordEnd c = false → c ≠ '}' ∧ c ≠ ']' ∧ c ≠ '=' ∧ c ≠ ',') := by
  refine ⟨by decide, ?_⟩
  intro h
  unfold GdbMiClient.isWordEnd at h
  simp only [Bool.or_eq_false_iff, decide_eq_false_iff_not] at h
  exact ⟨h.1.2, h.2, h.1.1.1, h.1.1.2⟩

theorem GdbMiClient.tupleLoop_step (n : Nat) (map : QVariantMap) (k vt text1 : QString)
    (val : QVariant) (hk : MiValue.isBareWord k = true)
    (hv : GdbMiClient.parseMiValue n vt = some (val, text1)) :
    GdbMiClient.parseMiTupleLoop (n + 1) map (k ++ '=' :: vt) =
      GdbMiClient.parseMiTupleLoop n (Assoc.insert k val map)
        (skipDelimiters (GdbMiClient.skipComma (skipDelimiters text1))) := by
  have hw := GdbMiClient.parseMiWord_name k vt '=' hk (by decide)
  obtain ⟨c, cs, rfl, _, hc, _⟩ := MiValue.isBareWord_cons k hk
  have hne := ((GdbMiClient.isWordEnd_eq c).2 hc).1
  rw [List.cons_append] at hw ⊢
  rw [GdbMiClient.parseMiTupleLoop_succ]
  simp only [hne, if_false, hw, List.head?_cons, List.tail_cons, if_true, hv]
  simp

theorem GdbMiClient.resultsLoop_step (n : Nat) (map : QVariantMap) (k vt text1 : QString)
    (val : QVariant) (hk : MiValue.isBareWord k = true)
    (hv : GdbMiClient.parseMiValue n vt = some (val, text1)) :
    GdbMiClient.parseMiResultsLoop (n + 1) map (k ++ '=' :: vt) =
      GdbMiClient.parseMiResultsLoop n (Assoc.insert k val map)
        (skipDelimiters (GdbMiClient.skipComma (skipDelimiters text1))) := by
  have hw := GdbMiClient.parseMiWord_name k vt '=' hk (by decide)
  obtain ⟨c, cs, rfl, _, hc, _⟩ := MiValue.isBareWord_cons k hk
  rw [List.cons_append] at hw ⊢
  rw [GdbMiClient.parseMiResultsLoop_succ]
  simp only [hw, List.head?_cons, List.tail_cons, if_true, hv]
  simp

theorem GdbMiClient.listLoop_value_step (n : Nat) (acc : QVariantList) (v : MiValue)
    (tail text1 : QString) (val : QVariant)
    (hv : GdbMiClient.parseMiValue n (MiValue.render v ++ tail) = some (val, text1)) :
    GdbMiClient.parseMiListLoop (n + 1) acc (MiValue.render v ++ tail) =
      GdbMiClient.parseMiListLoop n (acc ++ [val])
        (skipDelimiters (GdbMiClient.skipComma (skipDelimiters text1))) := by
  have hs := MiValue.skip_render v tail
  obtain ⟨c, t, e, hc⟩ := MiValue.render_head v
  rw [e, List.cons_append] at hv hs ⊢
  have hne : c ≠ ']' := by rcases hc with h | h | h <;> subst h <;> decide
  rw [GdbMiClient.parseMiListLoop_succ]
  simp only [hne, if_false, hs, List.head?_cons]
  have hcond : (some c = some '{' ∨ some c = some '[' ∨ some c = some '"') := by
    rcases hc with h | h | h <;> subst h <;> simp
  rw [if_pos hcond, hv]

theorem GdbMiClient.listLoop_result_step (n : Nat) (acc : QVariantList) (k vt text1 : QString)
    (val : QVariant) (hk : MiValue.isListName k = true)
    (hv : GdbMiClient.parseMiValue n vt = some (val, text1)) :
    GdbMiClient.parseMiListLoop (n + 1) acc (k ++ '=' :: vt) =
      GdbMiClient.parseMiListLoop n (acc ++ [QVariant.map [(k, val)]])
        (skipDelimiters (GdbMiClient.skipComma (skipDelimiters text1))) := by
  have hb := MiValue.isListName_bare k hk
  have hw := GdbMiClient.parseMiWord_name k vt '=' hb (by decide)
  unfold MiValue.isListName at hk
  obtain ⟨c, cs, rfl, hsp, hc, _⟩ := MiValue.isBareWord_cons k hb
  simp only [Bool.and_eq_true, Bool.not_eq_true', List.head?_cons, Bool.or_eq_false_iff,
    decide_eq_false_iff_not, Option.some.injEq] at hk
  have hne := ((GdbMiClient.isWordEnd_eq c).2 hc).2.1
  rw [List.cons_append] at hw ⊢
  rw [GdbMiClient.parseMiListLoop_succ]
  have hs : skipDelimiters (c :: (cs ++ '=' :: vt)) = c :: (cs ++ '=' :: vt) :=
    skipDelimiters_cons c _ hsp
  have hs2 : skipDelimiters ('=' :: vt) = '=' :: vt := skipDelimiters_cons '=' _ (by rfl)
  simp only [hne, if_false, hs, List.head?_cons, hw, hs2, List.tail_cons]
  have hcond : ¬ (some c = some '{' ∨ some c = some '[' ∨ some c = some '"') := by
    simp only [Option.some.injEq]
    rintro (h | h | h)
    · exact hk.2.1.1 h
    · exact hk.2.1.2 h
    · exact hk.2.2 h
  rw [if_neg hcond]
  simp [hv, Assoc.insert]

mutual

theorem GdbMiClient.parseMiValue_render :
    ∀ (v : MiValue) (fuel : Nat) (rest : QString), MiValue.wf v = true →
      MiValue.depth v ≤ fuel →
      GdbMiClient.parseMiValue fuel (MiValue.render v ++ rest) = some (MiValue.denote v, rest)
  | .cstring raw, fuel, rest, hw, hf => by
    cases fuel with
    | zero => simp [MiValue.depth] at hf
    | succ n =>
      simp only [MiValue.wf] at hw
      have hq := GdbMiClient.parseMiQuoted_raw raw.length raw rest [] (le_refl _) hw
      rw [GdbMiClient.parseMiValue_succ]
      simp only [MiValue.render, List.cons_append, List.append_assoc, List.singleton_append,
        List.nil_append]
      rw [skipDelimiters_cons '"' _ (by rfl)]
      simp [hq, MiValue.denote]
  | .tuple fs, fuel, rest, hw, hf => by
    cases fuel with
    | zero => simp [MiValue.depth] at hf
    | succ n =>
      simp only [MiValue.wf] at hw
      simp only [MiValue.depth, Nat.add_le_add_iff_right] at hf
      have hl := GdbMiClient.parseMiTupleLoop_render fs n [] rest hw hf
      rw [GdbMiClient.parseMiValue_succ]
      simp only [MiValue.render, List.cons_append, List.append_assoc, List.singleton_append,
        List.nil_append]
      rw [skipDelimiters_cons '{' _ (by rfl)]
      simp only [show ('{' : Char) ≠ '"' by decide, if_false, if_true]
      rw [MiValue.skip_renderResults fs '}' rest hw (by rfl), hl]
      simp [MiValue.denote]
  | .values vs, fuel, rest, hw, hf => by
    cases fuel with
    | zero => simp [MiValue.depth] at hf
    | succ n =>
      simp only [MiValue.wf] at hw
      simp only [MiValue.depth, Nat.add_le_add_iff_right] at hf
      have hl := GdbMiClient.parseMiListLoop_values vs n [] rest hw hf
      rw [GdbMiClient.parseMiValue_succ]
      simp only [MiValue.render, List.cons_append, List.append_assoc, List.singleton_append,
        List.nil_append]
      rw [skipDelimiters_cons '[' _ (by rfl)]
      simp only [show ('[' : Char) ≠ '"' by decide, show ('[' : Char) ≠ '{' by decide, if_false,
        if_true]
      rw [MiValue.skip_renderValues vs ']' rest (by rfl), hl]
      simp [MiValue.denote]
  | .results rs, fuel, rest, hw, hf => by
    cases fuel with
    | zero => simp [MiValue.depth] at hf
    | succ n =>
      simp only [MiValue.wf] at hw
      simp only [MiValue.depth, Nat.add_le_add_iff_right] at hf
      have hl := GdbMiClient.parseMiListLoop_results rs n [] rest hw hf
      rw [GdbMiClient.parseMiValue_succ]
      simp only [MiValue.render, List.cons_append, List.append_assoc, List.singleton_append,
        List.nil_append]
      rw [skipDelimiters_cons '[' _ (by rfl)]
      simp only [show ('[' : Char) ≠ '"' by decide, show ('[' : Char) ≠ '{' by decide, if_false,
        if_true]
      rw [MiValue.skip_renderListResults rs ']' rest hw (by rfl), hl]
      simp [MiValue.denote]

theorem GdbMiClient.parseMiTupleLoop_render :
    ∀ (fs : List (QString × MiValue)) (fuel : Nat) (map : QVariantMap) (rest : QString),
      MiValue.wfFields fs = true → MiValue.depthResults fs ≤ fuel →
      GdbMiClient.parseMiTupleLoop fuel map (MiValue.renderResults fs ++ '}' :: rest) =
        some (MiValue.denoteFields fs map, rest)
  | [], fuel, map, rest, _, hf => by
    cases fuel with
    | zero => simp [MiValue.depthResults] at hf
    | succ n =>
      rw [GdbMiClient.parseMiTupleLoop_succ]
      simp [MiValue.renderResults, MiValue.denoteFields]
  | (k, v) :: r, fuel, map, rest, hw, hf => by
    cases fuel with
    | zero => simp [MiValue.depthResults] at hf
    | succ n =>
      simp only [MiValue.wfFields, Bool.and_eq_true] at hw
      simp only [MiValue.depthResults, Nat.add_le_add_iff_right, max_le_iff] at hf
      have hv := GdbMiClient.parseMiValue_render v n
        ((if r.isEmpty then [] else ',' :: MiValue.renderResults r) ++ '}' :: rest) hw.1.2 hf.1
      have hr := GdbMiClient.parseMiTupleLoop_render r n
        (Assoc.insert k (MiValue.denote v) map) rest hw.2 hf.2
      rw [MiValue.renderResults_cons_append, GdbMiClient.tupleLoop_step n map k _ _ _ hw.1.1 hv,
        MiValue.next_results r '}' rest (Or.inl hw.2) (by rfl) (by decide), hr]
      simp [MiValue.denoteFields]

theorem GdbMiClient.parseMiListLoop_values :
    ∀ (vs : List MiValue) (fuel : Nat) (acc : QVariantList) (rest : QString),
      MiValue.wfValues vs = true → MiValue.depthValues vs ≤ fuel →
      GdbMiClient.parseMiListLoop fuel acc (MiValue.renderValues vs ++ ']' :: rest) =
        some (acc ++ MiValue.denoteValues vs, rest)
  | [], fuel, acc, rest, _, hf => by
    cases fuel with
    | zero => simp [MiValue.depthValues] at hf
    | succ n =>
      rw [GdbMiClient.parseMiListLoop_succ]
      simp [MiValue.renderValues, MiValue.denoteValues]
  | v :: r, fuel, acc, rest, hw, hf => by
    cases fuel with
    | zero => simp [MiValue.depthValues] at hf
    | succ n =>
      simp only [MiValue.wfValues, Bool.and_eq_true] at hw
      simp only [MiValue.depthValues, Nat.add_le_add_iff_right, max_le_iff] at hf
      have hv := GdbMiClient.parseMiValue_render v n
        ((if r.isEmpty then [] else ',' :: MiValue.renderValues r) ++ ']' :: rest) hw.1 hf.1
      have hr := GdbMiClient.parseMiListLoop_values r n (acc ++ [MiValue.denote v]) rest hw.2 hf.2
      rw [MiValue.renderValues_cons_append, GdbMiClient.listLoop_value_step n acc v _ _ _ hv,
        MiValue.next_values r ']' rest (by rfl) (by decide), hr]
      simp [MiValue.denoteValues]

theorem GdbMiClient.parseMiListLoop_results :
    ∀ (rs : List (QString × MiValue)) (fuel : Nat) (acc : QVariantList) (rest : QString),
      MiValue.wfListResults rs = true → MiValue.depthResults rs ≤ fuel →
      GdbMiClient.parseMiListLoop fuel acc (MiValue.renderResults rs ++ ']' :: rest) =
        some (acc ++ MiValue.denoteResults rs, rest)
  | [], fuel, acc, rest, _, hf => by
    cases fuel with
    | zero => simp [MiValue.depthResults] at hf
    | succ n =>
      rw [GdbMiClient.parseMiListLoop_succ]
      simp [MiValue.renderResults, MiValue.denoteResults]
  | (k, v) :: r, fuel, acc, rest, hw, hf => by
    cases fuel with
    | zero => simp [MiValue.depthResults] at hf
    | succ n =>
      simp only [MiValue.wfListResults, Bool.and_eq_true] at hw
      simp only [MiValue.depthResults, Nat.add_le_add_iff_right, max_le_iff] at hf
      have hv := GdbMiClient.parseMiValue_render v n
        ((if r.isEmpty then [] else ',' :: MiValue.renderResults r) ++ ']' :: rest) hw.1.2 hf.1
      have hr := GdbMiClient.parseMiListLoop_results r n
        (acc ++ [QVariant.map [(k, MiValue.denote v)]]) rest hw.2 hf.2
      rw [MiValue.renderResults_cons_append,
        GdbMiClient.listLoop_result_step n acc k _ _ _ hw.1.1 hv,
        MiValue.next_results r ']' rest (Or.inr hw.2) (by rfl) (by decide), hr]
      simp [MiValue.denoteResults]

end

mutual

theorem MiValue.depth_le : ∀ v : MiValue, MiValue.depth v ≤ (MiValue.render v).length
  | .cstring raw => by simp [MiValue.depth, MiValue.render]
  | .tuple fs => by
    have := MiValue.depthResults_le fs
    simp [MiValue.depth, MiValue.render]; omega
  | .values vs => by
    have := MiValue.depthValues_le vs
    simp [MiValue.depth, MiValue.render]; omega
  | .results rs => by
    have := MiValue.depthResults_le rs
    simp [MiValue.depth, MiValue.render]; omega

theorem MiValue.depthResults_le :
    ∀ fs : List (QString × MiValue), MiValue.depthResults fs ≤ (MiValue.renderResults fs).length + 1
  | [] => by simp [MiValue.depthResults, MiValue.renderResults]
  | (k, v) :: r => by
    have h1 := MiValue.depth_le v
    have h2 := MiValue.depthResults_le r
    cases r with
    | nil =>
      simp only [MiValue.depthResults] at h2 ⊢
      simp only [MiValue.renderResults, List.isEmpty_nil, if_true, List.append_nil,
        List.length_append, List.length_cons]
      omega
    | cons f r2 =>
      simp only [MiValue.depthResults] at h2 ⊢
      simp only [MiValue.renderResults, List.isEmpty_cons, Bool.false_eq_true, if_false,
        List.length_append, List.length_cons] at h2 ⊢
      omega

theorem MiValue.depthValues_le :
    ∀ vs : List MiValue, MiValue.depthValues vs ≤ (MiValue.renderValues vs).length + 1
  | [] => by simp [MiValue.depthValues, MiValue.renderValues]
  | v :: r => by
    have h1 := MiValue.depth_le v
    have h2 := MiValue.depthValues_le r
    have h3 : 1 ≤ (MiValue.render v).length := by
      obtain ⟨c, t, e, _⟩ := MiValue.render_head v
      rw [e]; simp
    cases r with
    | nil =>
      simp only [MiValue.depthValues] at h2 ⊢
      simp only [MiValue.renderValues, List.isEmpty_nil, if_true, List.append_nil]
      omega
    | cons f r2 =>
      simp only [MiValue.depthValues] at h2 ⊢
      simp only [MiValue.renderValues, List.isEmpty_cons, Bool.false_eq_true, if_false,
        List.length_append, List.length_cons] at h2 ⊢
      omega

end

theorem MiValue.next_results_end (r : List (QString × MiValue))
    (hw : MiValue.wfFields r = true) :
    skipDelimiters (GdbMiClient.skipComma (skipDelimiters
      (if r.isEmpty then [] else ',' :: MiValue.renderResults r))) = MiValue.renderResults r := by
  cases r with
  | nil => rfl
  | cons f r2 =>
    obtain ⟨k, v⟩ := f
    simp only [List.isEmpty_cons, Bool.false_eq_true, if_false]
    rw [skipDelimiters_cons ',' _ (by rfl)]
    have : GdbMiClient.skipComma (',' :: MiValue.renderResults ((k, v) :: r2)) =
        MiValue.renderResults ((k, v) :: r2) := by
      simp [GdbMiClient.skipComma]
    rw [this]
    simp only [MiValue.wfFields, Bool.and_eq_true] at hw
    obtain ⟨c, cs, rfl, hs, _, _⟩ := MiValue.isBareWord_cons k hw.1.1
    have e := MiValue.renderResults_cons_append (c :: cs) v r2 []
    simp only [List.append_nil] at e
    rw [e]
    exact skipDelimiters_cons c _ hs

theorem GdbMiClient.parseMiResultsLoop_render :
    ∀ (fs : List (QString × MiValue)) (fuel : Nat) (map : QVariantMap),
      MiValue.wfFields fs = true → MiValue.depthResults fs ≤ fuel →
      GdbMiClient.parseMiResultsLoop fuel map (MiValue.renderResults fs) =
        some (MiValue.denoteFields fs map) := by
  intro fs
  induction fs with
  | nil =>
    intro fuel map _ hf
    cases fuel with
    | zero => simp [MiValue.depthResults] at hf
    | succ n =>
      rw [GdbMiClient.parseMiResultsLoop_succ]
      simp [MiValue.renderResults, MiValue.denoteFields]
  | cons f r ih =>
    intro fuel map hw hf
    obtain ⟨k, v⟩ := f
    cases fuel with
    | zero => simp [MiValue.depthResults] at hf
    | succ n =>
      simp only [MiValue.wfFields, Bool.and_eq_true] at hw
      simp only [MiValue.depthResults, Nat.add_le_add_iff_right, max_le_iff] at hf
      have hv := GdbMiClient.parseMiValue_render v n
        (if r.isEmpty then [] else ',' :: MiValue.renderResults r) hw.1.2 hf.1
      have e := MiValue.renderResults_cons_append k v r []
      simp only [List.append_nil] at e
      rw [e, GdbMiClient.resultsLoop_step n map k _ _ _ hw.1.1 hv,
        MiValue.next_results_end r hw.2, ih n _ hw.2 hf.2]
      simp [MiValue.denoteFields]

theorem GdbMiClient.parseMiResults_render (fs : List (QString × MiValue))
    (hw : MiValue.wfFields fs = true) :
    GdbMiClient.parseMiResults (MiValue.renderResults fs) =
      some (MiValue.denoteFields fs []) := by
  unfold GdbMiClient.parseMiResults
  have hs : skipDelimiters (MiValue.renderResults fs) = MiValue.renderResults fs := by
    have := MiValue.next_results_end fs hw
    cases fs with
    | nil => rfl
    | cons f r =>
      obtain ⟨k, v⟩ := f
      simp only [MiValue.wfFields, Bool.and_eq_true] at hw
      obtain ⟨c, cs, rfl, hs, _, _⟩ := MiValue.isBareWord_cons k hw.1.1
      have e := MiValue.renderResults_cons_append (c :: cs) v r []
      simp only [List.append_nil] at e
      rw [e]
      exact skipDelimiters_cons c _ hs
  rw [hs]
  apply GdbMiClient.parseMiResultsLoop_render fs _ [] hw
  have := MiValue.depthResults_le fs
  omega

theorem GdbMiClient.parseMiValueAt_render (v : MiValue) (pre rest : QString)
    (hw : MiValue.wf v = true) :
    GdbMiClient.parseMiValueAt (pre ++ MiValue.render v ++ rest) pre.length =
      some (MiValue.denote v, pre.length + (MiValue.render v).length) := by
  unfold GdbMiClient.parseMiValueAt
  have hd : (pre ++ MiValue.render v ++ rest).drop pre.length = MiValue.render v ++ rest := by
    rw [List.append_assoc, List.drop_left]
  rw [hd, GdbMiClient.parseMiValue_render v _ rest hw (by
    have := MiValue.depth_le v
    simp only [List.length_append]
    omega)]
  simp only [Option.map_some', List.length_append, Option.some.injEq, Prod.mk.injEq, true_and]
  omega

theorem MiValue.plain_escape :
    ∀ (n : Nat) (v : QString), v.length ≤ n → (∀ c ∈ v, c ≠ '"' ∧ c ≠ '\\') →
      MiValue.wellEscaped v = true ∧ MiValue.unescape v = v := by
  intro n
  induction n with
  | zero =>
    intro v hl _
    have : v = [] := List.length_eq_zero.mp (by omega)
    subst this
    exact ⟨rfl, rfl⟩
  | succ n ih =>
    intro v hl hv
    match v, hl, hv with
    | [], _, _ => exact ⟨rfl, rfl⟩
    | [c], _, hv =>
      have := hv c (List.mem_singleton.mpr rfl)
      simp [MiValue.wellEscaped, MiValue.unescape, this.1, this.2]
    | c :: d :: r, hl, hv =>
      have hc := hv c (List.mem_cons_self _ _)
      have hr := ih (d :: r) (by simp at hl ⊢; omega)
        (fun x hx => hv x (List.mem_cons_of_mem _ hx))
      simp [MiValue.wellEscaped, MiValue.unescape, hc.1, hc.2, hr.1, hr.2]

theorem Assoc.insert_new {κ ν : Type} [DecidableEq κ] (k : κ) (v : ν) (m : List (κ × ν))
    (h : k ∉ Assoc.keys m) : Assoc.insert k v m = m ++ [(k, v)] := by
  induction m with
  | nil => rfl
  | cons e rest ih =>
    obtain ⟨k1, v1⟩ := e
    have h1 : ¬ k = k1 ∧ k ∉ Assoc.keys rest := by
      simpa [Assoc.keys] using h
    have h2 : ¬ k1 = k := fun e => h1.1 e.symm
    simp [Assoc.insert, h2, ih h1.2]

theorem Assoc.find_append {κ ν : Type} [DecidableEq κ] (k : κ) (a b : List (κ × ν)) :
    Assoc.find k (a ++ b) = (Assoc.find k a).orElse (fun _ => Assoc.find k b) := by
  induction a with
  | nil => rfl
  | cons e rest ih =>
    obtain ⟨k1, v1⟩ := e
    by_cases h : k1 = k
    · simp [Assoc.find, h]
    · simp [Assoc.find, h, ih]

theorem MiValue.find_denoteFields (name : QString) :
    ∀ (fs : List (QString × MiValue)) (map : QVariantMap),
      Assoc.find name (MiValue.denoteFields fs map) =
        ((MiValue.lastNamed name fs).map MiValue.denote).orElse (fun _ => Assoc.find name map) := by
  intro fs
  induction fs with
  | nil => intro map; rfl
  | cons f r ih =>
    intro map
    obtain ⟨k, v⟩ := f
    simp only [MiValue.denoteFields]
    rw [ih]
    have e : MiValue.lastNamed name ((k, v) :: r) =
        (MiValue.lastNamed name r).orElse (fun _ => if k = name then some v else none) := by
      simp only [MiValue.lastNamed, List.reverse_cons, Assoc.find_append]
      rfl
    rw [e]
    cases hl : MiValue.lastNamed name r with
    | some x => rfl
    | none =>
      simp only [Option.map_none', Option.none_orElse]
      by_cases hk : k = name
      · subst hk
        simp [Assoc.find_insert_self]
      · have hk2 : name ≠ k := fun e => hk e.symm
        simp [hk, Assoc.find_insert_ne _ _ _ _ hk2]

theorem MiValue.nodup_denoteFields :
    ∀ (fs : List (QString × MiValue)) (map : QVariantMap), (Assoc.keys map).Nodup →
      (Assoc.keys (MiValue.denoteFields fs map)).Nodup := by
  intro fs
  induction fs with
  | nil => intro map h; exact h
  | cons f r ih =>
    intro map h
    obtain ⟨k, v⟩ := f
    exact ih _ (Assoc.nodup_keys_insert _ _ _ h)

theorem MiValue.mem_keys_denoteFields (name : QString) :
    ∀ (fs : List (QString × MiValue)) (map : QVariantMap),
      name ∈ Assoc.keys (MiValue.denoteFields fs map) ↔
        name ∈ fs.map Prod.fst ∨ name ∈ Assoc.keys map := by
  intro fs
  induction fs with
  | nil => intro map; simp [MiValue.denoteFields]
  | cons f r ih =>
    intro map
    obtain ⟨k, v⟩ := f
    simp only [MiValue.denoteFields, ih, Assoc.mem_keys_insert, List.map_cons, List.mem_cons]
    tauto

theorem MiValue.denoteFields_flat :
    ∀ (kvs : List (QString × QString)) (map : QVariantMap),
      (kvs.map Prod.fst).Nodup → (∀ kv ∈ kvs, kv.1 ∉ Assoc.keys map) →
      (∀ kv ∈ kvs, ∀ c ∈ kv.2, c ≠ '"' ∧ c ≠ '\\') →
      MiValue.denoteFields (kvs.map (fun kv => (kv.1, MiValue.cstring kv.2))) map =
        map ++ kvs.map (fun kv => (kv.1, QVariant.string kv.2)) := by
  intro kvs
  induction kvs with
  | nil => intro map _ _ _; simp [MiValue.denoteFields]
  | cons kv r ih =>
    intro map hn hd hv
    have hn2 : kv.1 ∉ r.map Prod.fst ∧ (r.map Prod.fst).Nodup := by simpa using hn
    have hu := (MiValue.plain_escape kv.2.length kv.2 (le_refl _)
      (hv kv (List.mem_cons_self _ _))).2
    simp only [List.map_cons, MiValue.denoteFields, MiValue.denote, hu]
    rw [Assoc.insert_new _ _ _ (hd kv (List.mem_cons_self _ _))]
    have hdis : ∀ x ∈ r, x.1 ∉ Assoc.keys (map ++ [(kv.1, QVariant.string kv.2)]) := by
      intro x hx hmem
      have : x.1 ∈ Assoc.keys map ∨ x.1 = kv.1 := by
        simpa [Assoc.keys] using hmem
      rcases this with h | h
      · exact hd x (List.mem_cons_of_mem _ hx) h
      · exact hn2.1 (by rw [← h]; exact List.mem_map_of_mem _ hx)
    exact (ih (map ++ [(kv.1, QVariant.string kv.2)]) hn2.2 hdis
      (fun x hx => hv x (List.mem_cons_of_mem _ hx))).trans (by simp)

theorem MiValue.wf_flatTuple (kvs : List (QString × QString))
    (hkeys : ∀ kv ∈ kvs, MiValue.isBareWord kv.1 = true)
    (hvals : ∀ kv ∈ kvs, ∀ c ∈ kv.2, c ≠ '"' ∧ c ≠ '\\') :
    MiValue.wf (MiValue.flatTuple kvs) = true := by
  unfold MiValue.flatTuple
  simp only [MiValue.wf]
  induction kvs with
  | nil => rfl
  | cons kv r ih =>
    simp only [List.map_cons, MiValue.wfFields, MiValue.wf, Bool.and_eq_true]
    exact ⟨⟨hkeys kv (List.mem_cons_self _ _),
      (MiValue.plain_escape kv.2.length kv.2 (le_refl _) (hvals kv (List.mem_cons_self _ _))).1⟩,
      ih (fun x hx => hkeys x (List.mem_cons_of_mem _ hx))
        (fun x hx => hvals x (List.mem_cons_of_mem _ hx))⟩

/-- Claim C6.  For every tuple text `{k1="v1",...,kn="vn"}` whose keys are
pairwise different bare words and whose values hold no double quote and no
backslash, standing anywhere in a text, `parseMiValue` started at its opening
brace returns the mapping with exactly the entries `ki -> vi`, each value as
text, and leaves the position just after the closing brace. -/
theorem GdbMiClient.parse_flat_tuple (kvs : List (QString × QString)) (pre rest : QString)
    (hkeys : ∀ kv ∈ kvs, MiValue.isBareWord kv.1 = true)
    (hvals : ∀ kv ∈ kvs, ∀ c ∈ kv.2, c ≠ '"' ∧ c ≠ '\\')
    (hdistinct : (kvs.map Prod.fst).Nodup) :
    GdbMiClient.parseMiValueAt (pre ++ MiValue.render (MiValue.flatTuple kvs) ++ rest)
        pre.length =
      some (QVariant.map (kvs.map (fun kv => (kv.1, QVariant.string kv.2))),
        pre.length + (MiValue.render (MiValue.flatTuple kvs)).length) := by
  rw [GdbMiClient.parseMiValueAt_render _ pre rest (MiValue.wf_flatTuple kvs hkeys hvals)]
  have e : MiValue.denote (MiValue.flatTuple kvs) =
      QVariant.map (kvs.map (fun kv => (kv.1, QVariant.string kv.2))) := by
    unfold MiValue.flatTuple
    simp only [MiValue.denote]
    rw [MiValue.denoteFields_flat kvs [] hdistinct (fun _ _ h => by simp [Assoc.keys] at h) hvals]
    rfl
  rw [e]

theorem GdbMiClient.parse_flat_tuple_witness :
    ((∀ kv ∈ [(qs "number", qs "1"), (qs "line", qs "5"), (qs "file", qs "a.cpp"),
        (qs "enabled", qs "y")], MiValue.isBareWord kv.1 = true) ∧
      (∀ kv ∈ [(qs "number", qs "1"), (qs "line", qs "5"), (qs "file", qs "a.cpp"),
        (qs "enabled", qs "y")], ∀ c ∈ kv.2, c ≠ '"' ∧ c ≠ '\\') ∧
      ([(qs "number", qs "1"), (qs "line", qs "5"), (qs "file", qs "a.cpp"),
        (qs "enabled", qs "y")].map Prod.fst).Nodup) ∧
    MiValue.render (MiValue.flatTuple [(qs "number", qs "1"), (qs "line", qs "5"),
      (qs "file", qs "a.cpp"), (qs "enabled", qs "y")]) =
      qs "\x7bnumber=\"1\",line=\"5\",file=\"a.cpp\",enabled=\"y\"\x7d" ∧
    GdbMiClient.parseMiValueAt
        ([] ++ MiValue.render (MiValue.flatTuple [(qs "number", qs "1"), (qs "line", qs "5"),
          (qs "file", qs "a.cpp"), (qs "enabled", qs "y")]) ++ [])
        ([] : QString).length =
      some (QVariant.map ([(qs "number", qs "1"), (qs "line", qs "5"), (qs "file", qs "a.cpp"),
          (qs "enabled", qs "y")].map (fun kv => (kv.1, QVariant.string kv.2))),
        ([] : QString).length + (MiValue.render (MiValue.flatTuple [(qs "number", qs "1"),
          (qs "line", qs "5"), (qs "file", qs "a.cpp"), (qs "enabled", qs "y")])).length) :=
  ⟨⟨by decide, by decide, by decide⟩, by rfl,
    GdbMiClient.parse_flat_tuple [(qs "number", qs "1"), (qs "line", qs "5"),
      (qs "file", qs "a.cpp"), (qs "enabled", qs "y")] [] [] (by decide) (by decide) (by decide)⟩

theorem MiValue.wfValues_tuples (ts : List (List (QString × MiValue)))
    (hwf : ∀ fs ∈ ts, MiValue.wfFields fs = true) :
    MiValue.wfValues (ts.map MiValue.tuple) = true := by
  induction ts with
  | nil => rfl
  | cons t r ih =>
    simp only [List.map_cons, MiValue.wfValues, MiValue.wf, Bool.and_eq_true]
    exact ⟨hwf t (List.mem_cons_self _ _), ih (fun x hx => hwf x (List.mem_cons_of_mem _ hx))⟩

theorem MiValue.denoteValues_tuples (ts : List (List (QString × MiValue))) :
    MiValue.denoteValues (ts.map MiValue.tuple) =
      ts.map (fun fs => QVariant.map (MiValue.denoteFields fs [])) := by
  induction ts with
  | nil => rfl
  | cons t r ih => simp [MiValue.denoteValues, MiValue.denote, ih]

/-- Claim C7.  For every list text `[T1,...,Tn]` of well-formed tuples, standing
anywhere in a text, `parseMiValue` started at its opening bracket returns a list
with one mapping per tuple, in source order, the mapping at each place being
what `parseMiValue` returns for that tuple alone, and leaves the position just
after the closing bracket. -/
theorem GdbMiClient.parse_tuple_list (ts : List (List (QString × MiValue)))
    (pre rest : QString) (hwf : ∀ fs ∈ ts, MiValue.wfFields fs = true) :
    GdbMiClient.parseMiValueAt
        (pre ++ MiValue.render (MiValue.values (ts.map MiValue.tuple)) ++ rest) pre.length =
      some (QVariant.list (ts.map (fun fs => QVariant.map (MiValue.denoteFields fs []))),
        pre.length + (MiValue.render (MiValue.values (ts.map MiValue.tuple))).length) ∧
    (ts.map (fun fs => QVariant.map (MiValue.denoteFields fs []))).length = ts.length ∧
    ∀ fs ∈ ts, GdbMiClient.parseMiValueAt (MiValue.render (MiValue.tuple fs)) 0 =
      some (QVariant.map (MiValue.denoteFields fs []), (MiValue.render (MiValue.tuple fs)).length) := by
  refine ⟨?_, by simp, ?_⟩
  · rw [GdbMiClient.parseMiValueAt_render _ pre rest (by
      simp only [MiValue.wf]; exact MiValue.wfValues_tuples ts hwf)]
    simp only [MiValue.denote, MiValue.denoteValues_tuples]
  · intro fs hfs
    have h := GdbMiClient.parseMiValueAt_render (MiValue.tuple fs) [] [] (by
      simp only [MiValue.wf]; exact hwf fs hfs)
    simpa [MiValue.denote] using h

theorem GdbMiClient.parse_tuple_list_witness :
    (∀ fs ∈ [[(qs "name", MiValue.cstring (qs "x")), (qs "value", MiValue.cstring (qs "1"))],
        [(qs "name", MiValue.cstring (qs "y")), (qs "value", MiValue.cstring (qs "2"))]],
      MiValue.wfFields fs = true) ∧
    MiValue.render (MiValue.values
      ([[(qs "name", MiValue.cstring (qs "x")), (qs "value", MiValue.cstring (qs "1"))],
        [(qs "name", MiValue.cstring (qs "y")), (qs "value", MiValue.cstring (qs "2"))]].map
        MiValue.tuple)) =
      qs "[\x7bname=\"x\",value=\"1\"\x7d,\x7bname=\"y\",value=\"2\"\x7d]" ∧
    GdbMiClient.parseMiValueAt
        (qs "[\x7bname=\"x\",value=\"1\"\x7d,\x7bname=\"y\",value=\"2\"\x7d]") 0 =
      some (QVariant.list [QVariant.map [(qs "name", .string (qs "x")), (qs "value", .string (qs "1"))],
        QVariant.map [(qs "name", .string (qs "y")), (qs "value", .string (qs "2"))]], 43) ∧
    (GdbMiClient.parseMiValueAt
        ([] ++ MiValue.render (MiValue.values
          ([[(qs "name", MiValue.cstring (qs "x")), (qs "value", MiValue.cstring (qs "1"))],
            [(qs "name", MiValue.cstring (qs "y")), (qs "value", MiValue.cstring (qs "2"))]].map
            MiValue.tuple)) ++ []) ([] : QString).length =
      some (QVariant.list
        ([[(qs "name", MiValue.cstring (qs "x")), (qs "value", MiValue.cstring (qs "1"))],
          [(qs "name", MiValue.cstring (qs "y")), (qs "value", MiValue.cstring (qs "2"))]].map
          (fun fs => QVariant.map (MiValue.denoteFields fs []))),
        ([] : QString).length + (MiValue.render (MiValue.values
          ([[(qs "name", MiValue.cstring (qs "x")), (qs "value", MiValue.cstring (qs "1"))],
            [(qs "name", MiValue.cstring (qs "y")), (qs "value", MiValue.cstring (qs "2"))]].map
            MiValue.tuple))).length)) :=
  ⟨by decide, by rfl, by rfl,
    (GdbMiClient.parse_tuple_list
      [[(qs "name", MiValue.cstring (qs "x")), (qs "value", MiValue.cstring (qs "1"))],
        [(qs "name", MiValue.cstring (qs "y")), (qs "value", MiValue.cstring (qs "2"))]] [] []
      (by decide)).1⟩

theorem MiValue.lastNamed_of_mem (name : QString) (fs : List (QString × MiValue))
    (h : name ∈ fs.map Prod.fst) : ∃ v, MiValue.lastNamed name fs = some v := by
  cases hl : MiValue.lastNamed name fs with
  | some v => exact ⟨v, rfl⟩
  | none =>
    exfalso
    unfold MiValue.lastNamed at hl
    rw [Assoc.find_eq_none_iff] at hl
    apply hl
    simp only [Assoc.keys, List.map_reverse, List.mem_reverse]
    exact h

theorem Assoc.one_entry {κ ν : Type} [DecidableEq κ] (k : κ) (m : List (κ × ν))
    (hn : (Assoc.keys m).Nodup) (hk : k ∈ Assoc.keys m) :
    (m.filter (fun e => decide (e.1 = k))).length = 1 := by
  induction m with
  | nil => simp [Assoc.keys] at hk
  | cons e rest ih =>
    obtain ⟨k1, v1⟩ := e
    have h1 : k1 ∉ Assoc.keys rest ∧ (Assoc.keys rest).Nodup := by
      simpa [Assoc.keys] using hn
    by_cases h : k1 = k
    · subst h
      have : rest.filter (fun e => decide (e.1 = k1)) = [] := by
        rw [List.filter_eq_nil_iff]
        intro x hx
        simp only [decide_eq_true_eq]
        intro e
        exact h1.1 (by rw [← e]; exact List.mem_map_of_mem _ hx)
      simp [List.filter, this]
    · have hk2 : k ∈ Assoc.keys rest := by
        have : k = k1 ∨ k ∈ Assoc.keys rest := by simpa [Assoc.keys] using hk
        rcases this with h2 | h2
        · exact absurd h2.symm h
        · exact h2
      simp [List.filter, h, ih h1.2 hk2]

/-- Claim C8.  When a name occurs more than once among the results of an MI
tuple, or at the top level of a result payload, the mapping returned by the
parser holds exactly one entry for that name, and its value is the value of the
last result with that name in the source text. -/
theorem GdbMiClient.duplicate_key_last_wins (fs : List (QString × MiValue))
    (pre rest name : QString) (hwf : MiValue.wfFields fs = true)
    (hmem : name ∈ fs.map Prod.fst) :
    GdbMiClient.parseMiValueAt (pre ++ MiValue.render (MiValue.tuple fs) ++ rest) pre.length =
      some (QVariant.map (MiValue.denoteFields fs []),
        pre.length + (MiValue.render (MiValue.tuple fs)).length) ∧
    GdbMiClient.parseMiResults (MiValue.renderResults fs) =
      some (MiValue.denoteFields fs []) ∧
    ((MiValue.denoteFields fs []).filter (fun e => decide (e.1 = name))).length = 1 ∧
    ∃ v, MiValue.lastNamed name fs = some v ∧
      Assoc.find name (MiValue.denoteFields fs []) = some (MiValue.denote v) := by
  refine ⟨?_, GdbMiClient.parseMiResults_render fs hwf, ?_, ?_⟩
  · have h := GdbMiClient.parseMiValueAt_render (MiValue.tuple fs) pre rest (by
      simp only [MiValue.wf]; exact hwf)
    simpa [MiValue.denote] using h
  · apply Assoc.one_entry
    · exact MiValue.nodup_denoteFields fs [] (by simp [Assoc.keys])
    · rw [MiValue.mem_keys_denoteFields]
      exact Or.inl hmem
  · obtain ⟨v, hv⟩ := MiValue.lastNamed_of_mem name fs hmem
    refine ⟨v, hv, ?_⟩
    rw [MiValue.find_denoteFields, hv]
    rfl

theorem GdbMiClient.duplicate_key_last_wins_witness :
    (MiValue.wfFields [(qs "a", MiValue.cstring (qs "1")), (qs "b", MiValue.cstring (qs "2")),
        (qs "a", MiValue.cstring (qs "3"))] = true ∧
      qs "a" ∈ [(qs "a", MiValue.cstring (qs "1")), (qs "b", MiValue.cstring (qs "2")),
        (qs "a", MiValue.cstring (qs "3"))].map Prod.fst) ∧
    GdbMiClient.parseMiResults (qs "a=\"1\",b=\"2\",a=\"3\"") =
      some [(qs "a", .string (qs "3")), (qs "b", .string (qs "2"))] ∧
    GdbMiClient.parseMiValueAt (qs "\x7ba=\"1\",b=\"2\",a=\"3\"\x7d") 0 =
      some (QVariant.map [(qs "a", .string (qs "3")), (qs "b", .string (qs "2"))], 19) ∧
    ((MiValue.denoteFields [(qs "a", MiValue.cstring (qs "1")),
      (qs "b", MiValue.cstring (qs "2")), (qs "a", MiValue.cstring (qs "3"))] []).filter
        (fun e => decide (e.1 = qs "a"))).length = 1 :=
  ⟨⟨by decide, by decide⟩, by rfl, by rfl,
    (GdbMiClient.duplicate_key_last_wins [(qs "a", MiValue.cstring (qs "1")),
      (qs "b", MiValue.cstring (qs "2")), (qs "a", MiValue.cstring (qs "3"))] [] [] (qs "a")
      (by decide) (by decide)).2.2.1⟩

theorem QString.afterFirstComma_append (status rest : QString) (h : ',' ∉ status) :
    QString.afterFirstComma (status ++ ',' :: rest) = rest := by
  unfold QString.afterFirstComma
  rw [List.dropWhile_append_of_pos (by
    intro c hc
    simp only [bne_iff_ne, ne_eq]
    intro e
    subst e
    exact h hc)]
  simp [List.dropWhile]

theorem MiValue.wfFields_append (a b : List (QString × MiValue)) :
    MiValue.wfFields (a ++ b) = (MiValue.wfFields a && MiValue.wfFields b) := by
  induction a with
  | nil => simp [MiValue.wfFields]
  | cons f r ih =>
    obtain ⟨k, v⟩ := f
    simp [MiValue.wfFields, ih, Bool.and_assoc]

theorem MiValue.wfListResults_named (name : QString) (items : List (List (QString × MiValue)))
    (hn : MiValue.isListName name = true) (hw : ∀ e ∈ items, MiValue.wfFields e = true) :
    MiValue.wfListResults (items.map (fun e => (name, MiValue.tuple e))) = true := by
  induction items with
  | nil => rfl
  | cons e r ih =>
    simp only [List.map_cons, MiValue.wfListResults, MiValue.wf, Bool.and_eq_true]
    exact ⟨⟨hn, hw e (List.mem_cons_self _ _)⟩,
      ih (fun x hx => hw x (List.mem_cons_of_mem _ hx))⟩

theorem MiValue.denoteResults_named (name : QString) (items : List (List (QString × MiValue))) :
    MiValue.denoteResults (items.map (fun e => (name, MiValue.tuple e))) =
      items.map (fun e => QVariant.map [(name, QVariant.map (MiValue.denoteFields e []))]) := by
  induction items with
  | nil => rfl
  | cons e r ih => simp [MiValue.denoteResults, MiValue.denote, ih]

theorem MiValue.lastNamed_middle (name : QString) (v : MiValue)
    (pre post : List (QString × MiValue)) (h : name ∉ post.map Prod.fst) :
    MiValue.lastNamed name (pre ++ [(name, v)] ++ post) = some v := by
  unfold MiValue.lastNamed
  simp only [List.reverse_append, List.reverse_cons, List.reverse_nil, List.nil_append,
    Assoc.find_append]
  have h1 : Assoc.find name post.reverse = none := by
    rw [Assoc.find_eq_none_iff]
    simpa [Assoc.keys] using h
  rw [h1]
  simp [Assoc.find]

theorem GdbMiClient.processEntry_bkpt (env : QtEnv) (s : GdbMiClient)
    (e : List (QString × MiValue))
    (h : 0 < QString.toInt (MiValue.fieldText e (qs "number"))) :
    GdbMiClient.processEntry env s
        (QVariant.map [(qs "bkpt", QVariant.map (MiValue.denoteFields e []))]) =
      some (GdbMiClient.breakpointOf env s (MiValue.denoteFields e [])) := by
  have h1 : Assoc.contains (qs "bkpt")
      [(qs "bkpt", QVariant.map (MiValue.denoteFields e []))] = true := by
    simp [Assoc.contains, Assoc.find]
  have h2 : (QVariantMap.value [(qs "bkpt", QVariant.map (MiValue.denoteFields e []))]
      (qs "bkpt")).toMap = MiValue.denoteFields e [] := by
    simp [QVariantMap.value, Assoc.find, QVariant.toMap]
  have h0 : (QVariant.map [(qs "bkpt", QVariant.map (MiValue.denoteFields e []))]).toMap =
      [(qs "bkpt", QVariant.map (MiValue.denoteFields e []))] := rfl
  unfold GdbMiClient.processEntry
  simp only [h0, h1, if_true, h2]
  have h3 : (GdbMiClient.breakpointOf env s (MiValue.denoteFields e [])).number =
      QString.toInt (MiValue.fieldText e (qs "number")) := rfl
  rw [h3, if_pos h]

theorem GdbMiClient.processEntries_bkpt (env : QtEnv) (s : GdbMiClient)
    (entries : List (List (QString × MiValue)))
    (h : ∀ e ∈ entries, 0 < QString.toInt (MiValue.fieldText e (qs "number"))) :
    (entries.map (fun e => QVariant.map
        [(qs "bkpt", QVariant.map (MiValue.denoteFields e []))])).filterMap
        (GdbMiClient.processEntry env s) =
      entries.map (fun e => GdbMiClient.breakpointOf env s (MiValue.denoteFields e [])) := by
  induction entries with
  | nil => rfl
  | cons e r ih =>
    simp only [List.map_cons, List.filterMap_cons,
      GdbMiClient.processEntry_bkpt env s e (h e (List.mem_cons_self _ _))]
    rw [ih (fun x hx => h x (List.mem_cons_of_mem _ hx))]

theorem GdbMiClient.parseMiResults_single (name : QString) (v : MiValue)
    (hn : MiValue.isBareWord name = true) (hv : MiValue.wf v = true) :
    GdbMiClient.parseMiResults (name ++ '=' :: MiValue.render v) =
      some [(name, MiValue.denote v)] := by
  have h := GdbMiClient.parseMiResults_render [(name, v)] (by
    simp [MiValue.wfFields, hn, hv])
  simpa [MiValue.renderResults, MiValue.denoteFields, Assoc.insert] using h

/-- Claim C9.  For every breakpoint-list result record whose `BreakpointTable`
body holds N well-formed entries (well-formed MI tuples whose `number` field is
a positive decimal), `parseBreakpointList` stores and emits a collection with
exactly N breakpoints, the breakpoint at each place built from the entry at
that place, and a file name that is not empty and not absolute is replaced by
its resolution against the working directory of the process. -/
theorem GdbMiClient.breakpoint_list_in_order (env : QtEnv) (s : GdbMiClient) (status : QString)
    (pre post : List (QString × MiValue)) (entries : List (List (QString × MiValue)))
    (hstatus : ',' ∉ status)
    (hpre : MiValue.wfFields pre = true) (hpost : MiValue.wfFields post = true)
    (hbody : qs "body" ∉ post.map Prod.fst)
    (hentries : ∀ e ∈ entries, MiValue.wfFields e = true ∧
      0 < QString.toInt (MiValue.fieldText e (qs "number"))) :
    GdbMiClient.parseBreakpointList env s
        (GdbMiClient.breakpointListRecord status pre entries post) =
      some ({ s with breakpoints_ :=
          entries.map (fun e => GdbMiClient.breakpointOf env s (MiValue.denoteFields e [])) }.emit
        (.breakpointsUpdated
          (entries.map (fun e => GdbMiClient.breakpointOf env s (MiValue.denoteFields e []))))) ∧
    (entries.map (fun e =>
      GdbMiClient.breakpointOf env s (MiValue.denoteFields e []))).length = entries.length ∧
    ∀ e ∈ entries, (GdbMiClient.entryFile e).isEmpty = false →
      env.isAbsolute (GdbMiClient.entryFile e) = false →
      (GdbMiClient.breakpointOf env s (MiValue.denoteFields e [])).file =
        env.absoluteFilePath s.workingDirectory (GdbMiClient.entryFile e) := by
  refine ⟨?_, by simp, ?_⟩
  · have hwfT : MiValue.wf (MiValue.breakpointTable pre entries post) = true := by
      unfold MiValue.breakpointTable
      simp only [MiValue.wf, MiValue.wfFields_append, MiValue.wfFields, hpre, hpost,
        Bool.and_true, Bool.true_and, Bool.and_eq_true]
      exact ⟨by decide, MiValue.wfListResults_named _ entries (by decide)
        (fun e he => (hentries e he).1)⟩
    unfold GdbMiClient.parseBreakpointList GdbMiClient.breakpointListRecord
    rw [QString.afterFirstComma_append status _ hstatus,
      GdbMiClient.parseMiResults_single _ _ (by decide) hwfT]
    simp only [Option.map_some']
    have hentriesEq : GdbMiClient.bkptEntries
        [(qs "BreakpointTable", MiValue.denote (MiValue.breakpointTable pre entries post))] =
        entries.map (fun e => QVariant.map
          [(qs "bkpt", QVariant.map (MiValue.denoteFields e []))]) := by
      unfold GdbMiClient.bkptEntries
      have c1 : Assoc.contains (qs "BreakpointTable")
          [(qs "BreakpointTable", MiValue.denote (MiValue.breakpointTable pre entries post))] =
          true := by simp [Assoc.contains, Assoc.find]
      rw [if_pos c1]
      have c2 : (QVariantMap.value
          [(qs "BreakpointTable", MiValue.denote (MiValue.breakpointTable pre entries post))]
          (qs "BreakpointTable")).toMap =
          MiValue.denoteFields (pre ++ [(qs "body",
            .results (entries.map (fun e => (qs "bkpt", MiValue.tuple e))))] ++ post) [] := by
        simp [QVariantMap.value, Assoc.find, MiValue.breakpointTable, MiValue.denote,
          QVariant.toMap]
      rw [c2]
      unfold QVariantMap.value
      rw [MiValue.find_denoteFields, MiValue.lastNamed_middle _ _ pre post hbody]
      simp only [Option.map_some', MiValue.denote, MiValue.denoteResults_named]
      rfl
    rw [hentriesEq, GdbMiClient.processEntries_bkpt env s entries
      (fun e he => (hentries e he).2)]
  · intro e _ h1 h2
    show GdbMiClient.resolveFile env s (MiValue.denoteFields e []) = _
    unfold GdbMiClient.resolveFile
    have e1 : (if (QVariantMap.value (MiValue.denoteFields e []) (qs "fullname")).toQString.isEmpty
        = true then (QVariantMap.value (MiValue.denoteFields e []) (qs "file")).toQString
        else (QVariantMap.value (MiValue.denoteFields e []) (qs "fullname")).toQString) =
        GdbMiClient.entryFile e := rfl
    simp only [e1, h1, h2, and_self, if_true]

set_option maxRecDepth 8000 in
theorem GdbMiClient.breakpoint_list_in_order_witness :
    (',' ∉ qs "^done" ∧
      MiValue.wfFields [(qs "nr_rows", .cstring (qs "2")),
        (qs "hdr", .values [.tuple [(qs "col_name", .cstring (qs "number"))]])] = true ∧
      MiValue.wfFields [] = true ∧
      qs "body" ∉ ([] : List (QString × MiValue)).map Prod.fst ∧
      (∀ e ∈ GdbMiClient.sampleBreakpointEntries, MiValue.wfFields e = true ∧
        0 < QString.toInt (MiValue.fieldText e (qs "number")))) ∧
    GdbMiClient.breakpointListRecord (qs "^done")
        [(qs "nr_rows", .cstring (qs "2")),
          (qs "hdr", .values [.tuple [(qs "col_name", .cstring (qs "number"))]])]
        GdbMiClient.sampleBreakpointEntries [] =
      qs "^done,BreakpointTable=\x7bnr_rows=\"2\",hdr=[\x7bcol_name=\"number\"\x7d],body=[bkpt=\x7bnumber=\"1\",type=\"breakpoint\",enabled=\"y\",file=\"a.cpp\",fullname=\"/w/a.cpp\",line=\"5\",thread-groups=[\"i1\"]\x7d,bkpt=\x7bnumber=\"2\",enabled=\"n\",file=\"src/b.cpp\",line=\"7\"\x7d]\x7d" ∧
    GdbMiClient.sampleBreakpointEntries.map (fun e =>
        GdbMiClient.breakpointOf QtEnv.sample (GdbMiClient.init.start (qs "/w") true)
          (MiValue.denoteFields e [])) =
      [{ number := 1, file := qs "/w/a.cpp", line := 5, enabled := true, condition := [],
         ignoreCount := 0 },
       { number := 2, file := qs "/w/src/b.cpp", line := 7, enabled := false, condition := [],
         ignoreCount := 0 }] ∧
    GdbMiClient.parseBreakpointList QtEnv.sample (GdbMiClient.init.start (qs "/w") true)
        (GdbMiClient.breakpointListRecord (qs "^done")
          [(qs "nr_rows", .cstring (qs "2")),
            (qs "hdr", .values [.tuple [(qs "col_name", .cstring (qs "number"))]])]
          GdbMiClient.sampleBreakpointEntries []) =
      some ({ (GdbMiClient.init.start (qs "/w") true) with
        breakpoints_ := GdbMiClient.sampleBreakpointEntries.map (fun e =>
            GdbMiClient.breakpointOf QtEnv.sample (GdbMiClient.init.start (qs "/w") true)
              (MiValue.denoteFields e [])) }.emit
        (.breakpointsUpdated
          (GdbMiClient.sampleBreakpointEntries.map (fun e =>
            GdbMiClient.breakpointOf QtEnv.sample (GdbMiClient.init.start (qs "/w") true)
              (MiValue.denoteFields e []))))) :=
  ⟨⟨by decide, by decide, by decide, by decide, by decide⟩, by rfl, by decide,
    (GdbMiClient.breakpoint_list_in_order QtEnv.sample (GdbMiClient.init.start (qs "/w") true)
      (qs "^done")
      [(qs "nr_rows", .cstring (qs "2")),
        (qs "hdr", .values [.tuple [(qs "col_name", .cstring (qs "number"))]])] []
      GdbMiClient.sampleBreakpointEntries (by decide) (by decide) (by decide) (by decide)
      (by decide)).1⟩

theorem GdbMiClient.stackFrameOf_frame (env : QtEnv) (s : GdbMiClient)
    (f : List (QString × MiValue)) :
    GdbMiClient.stackFrameOf env s
        (QVariant.map [(qs "frame", QVariant.map (MiValue.denoteFields f []))]) =
      { level := QString.toInt (MiValue.fieldText f (qs "level")),
        func := MiValue.fieldText f (qs "func"),
        file := GdbMiClient.resolveFile env s (MiValue.denoteFields f []),
        line := QString.toInt (MiValue.fieldText f (qs "line")) } := by
  have h0 : (QVariant.map [(qs "frame", QVariant.map (MiValue.denoteFields f []))]).toMap =
      [(qs "frame", QVariant.map (MiValue.denoteFields f []))] := rfl
  have h1 : Assoc.contains (qs "frame")
      [(qs "frame", QVariant.map (MiValue.denoteFields f []))] = true := by
    simp [Assoc.contains, Assoc.find]
  have h2 : (QVariantMap.value [(qs "frame", QVariant.map (MiValue.denoteFields f []))]
      (qs "frame")).toMap = MiValue.denoteFields f [] := by
    simp [QVariantMap.value, Assoc.find, QVariant.toMap]
  unfold GdbMiClient.stackFrameOf
  simp only [h0, h1, if_true, h2]
  rfl

/-- Claim C10, amended.  `parseStackList` does not sort: for every stack-list
result record with well-formed `frame` entries it emits one frame per entry in
the order of the payload, the level of each frame being the `level` field of its
entry; so the emitted list is in ascending order of level whenever the payload
lists its frames in that order. -/
theorem GdbMiClient.stack_frames_in_payload_order (env : QtEnv) (s : GdbMiClient)
    (status : QString) (frames : List (List (QString × MiValue)))
    (hstatus : ',' ∉ status) (hframes : ∀ f ∈ frames, MiValue.wfFields f = true) :
    GdbMiClient.parseStackList env s (GdbMiClient.stackListRecord status frames) =
      some (s.emit (.stackUpdated (frames.map (fun f =>
        GdbMiClient.stackFrameOf env s
          (QVariant.map [(qs "frame", QVariant.map (MiValue.denoteFields f []))]))))) ∧
    (frames.map (fun f => GdbMiClient.stackFrameOf env s
        (QVariant.map [(qs "frame", QVariant.map (MiValue.denoteFields f []))]))).map
        (fun frame => frame.level) =
      frames.map (fun f => QString.toInt (MiValue.fieldText f (qs "level"))) ∧
    ((frames.map (fun f => QString.toInt (MiValue.fieldText f (qs "level")))).Pairwise
        (fun a b => a ≤ b) →
      ((frames.map (fun f => GdbMiClient.stackFrameOf env s
        (QVariant.map [(qs "frame", QVariant.map (MiValue.denoteFields f []))]))).map
        (fun frame => frame.level)).Pairwise (fun a b => a ≤ b)) := by
  have hlev : (frames.map (fun f => GdbMiClient.stackFrameOf env s
        (QVariant.map [(qs "frame", QVariant.map (MiValue.denoteFields f []))]))).map
        (fun frame => frame.level) =
      frames.map (fun f => QString.toInt (MiValue.fieldText f (qs "level"))) := by
    simp only [List.map_map]
    apply List.map_congr_left
    intro f _
    simp only [Function.comp, GdbMiClient.stackFrameOf_frame]
  refine ⟨?_, hlev, fun h => by rw [hlev]; exact h⟩
  unfold GdbMiClient.parseStackList GdbMiClient.stackListRecord
  rw [QString.afterFirstComma_append status _ hstatus,
    GdbMiClient.parseMiResults_single _ _ (by decide) (by
      simp only [MiValue.wf]
      exact MiValue.wfListResults_named _ frames (by decide) hframes)]
  simp only [Option.map_some', MiValue.denote, MiValue.denoteResults_named]
  have e : (QVariantMap.value
      [(qs "stack", QVariant.list (frames.map (fun e =>
        QVariant.map [(qs "frame", QVariant.map (MiValue.denoteFields e []))])))]
      (qs "stack")).toList =
      frames.map (fun e =>
        QVariant.map [(qs "frame", QVariant.map (MiValue.denoteFields e []))]) := by
    simp [QVariantMap.value, Assoc.find, QVariant.toList]
  rw [e, List.map_map]
  rfl

theorem GdbMiClient.stack_frames_in_payload_order_witness :
    (',' ∉ qs "^done" ∧ ∀ f ∈ [[(qs "level", MiValue.cstring (qs "0")),
        (qs "func", MiValue.cstring (qs "f")), (qs "file", MiValue.cstring (qs "a.cpp")),
        (qs "line", MiValue.cstring (qs "3"))],
        [(qs "level", MiValue.cstring (qs "1")), (qs "func", MiValue.cstring (qs "main"))]],
      MiValue.wfFields f = true) ∧
    GdbMiClient.parseStackList QtEnv.sample (GdbMiClient.init.start (qs "/w") true)
        (qs "^done,stack=[frame=\x7blevel=\"0\",func=\"f\",file=\"a.cpp\",line=\"3\"\x7d,frame=\x7blevel=\"1\",func=\"main\"\x7d]") =
      some ((GdbMiClient.init.start (qs "/w") true).emit (.stackUpdated
        [{ level := 0, func := qs "f", file := qs "/w/a.cpp", line := 3 },
         { level := 1, func := qs "main", file := [], line := 0 }])) ∧
    ([[(qs "level", MiValue.cstring (qs "0")),
        (qs "func", MiValue.cstring (qs "f")), (qs "file", MiValue.cstring (qs "a.cpp")),
        (qs "line", MiValue.cstring (qs "3"))],
        [(qs "level", MiValue.cstring (qs "1")), (qs "func", MiValue.cstring (qs "main"))]].map
        (fun f => GdbMiClient.stackFrameOf QtEnv.sample (GdbMiClient.init.start (qs "/w") true)
          (QVariant.map [(qs "frame", QVariant.map (MiValue.denoteFields f []))]))).map
        (fun frame => frame.level) =
      [[(qs "level", MiValue.cstring (qs "0")),
        (qs "func", MiValue.cstring (qs "f")), (qs "file", MiValue.cstring (qs "a.cpp")),
        (qs "line", MiValue.cstring (qs "3"))],
        [(qs "level", MiValue.cstring (qs "1")), (qs "func", MiValue.cstring (qs "main"))]].map
        (fun f => QString.toInt (MiValue.fieldText f (qs "level"))) :=
  ⟨⟨by decide, by decide⟩, by rfl,
    (GdbMiClient.stack_frames_in_payload_order QtEnv.sample
      (GdbMiClient.init.start (qs "/w") true) (qs "^done")
      [[(qs "level", MiValue.cstring (qs "0")),
        (qs "func", MiValue.cstring (qs "f")), (qs "file", MiValue.cstring (qs "a.cpp")),
        (qs "line", MiValue.cstring (qs "3"))],
        [(qs "level", MiValue.cstring (qs "1")), (qs "func", MiValue.cstring (qs "main"))]]
      (by decide) (by decide)).2.1⟩

/-- Claim C10 as stated fails: for the stack-list record
`^done,stack=[frame={level="1",func="main"},frame={level="0",func="f"}]`
`parseStackList` emits the frame of level 1 before the frame of level 0. -/
theorem GdbMiClient.stack_order_counterexample :
    GdbMiClient.stackListRecord (qs "^done") GdbMiClient.sampleStackFrames =
      qs "^done,stack=[frame=\x7blevel=\"1\",func=\"main\"\x7d,frame=\x7blevel=\"0\",func=\"f\"\x7d]" ∧
    (GdbMiClient.parseStackList QtEnv.sample GdbMiClient.sampleSession
        (qs "^done,stack=[frame=\x7blevel=\"1\",func=\"main\"\x7d,frame=\x7blevel=\"0\",func=\"f\"\x7d]")).map
        (fun s => s.emitted) =
      some [.stackUpdated [{ level := 1, func := qs "main", file := [], line := 0 },
        { level := 0, func := qs "f", file := [], line := 0 }]] ∧
    ¬ ([1, 0] : List Int).Pairwise (fun a b => a ≤ b) := by
  refine ⟨by rfl, by decide, by decide⟩

/-! ## Completion items are sorted -/

theorem StdSort.sortedInsert_perm (less : LspCompletionItem → LspCompletionItem → Bool)
    (a : LspCompletionItem) (l : List LspCompletionItem) :
    (StdSort.sortedInsert less a l).Perm (a :: l) := by
  induction l with
  | nil => exact List.Perm.refl _
  | cons b rest ih =>
    unfold StdSort.sortedInsert
    split
    · exact ((List.Perm.cons b ih).trans (List.Perm.swap a b rest))
    · exact List.Perm.refl _

theorem StdSort.insertionSort_perm (less : LspCompletionItem → LspCompletionItem → Bool)
    (items : List LspCompletionItem) :
    (StdSort.insertionSort less items).Perm items := by
  induction items with
  | nil => exact List.Perm.refl _
  | cons a rest ih =>
    show (StdSort.sortedInsert less a (StdSort.insertionSort less rest)).Perm (a :: rest)
    exact (StdSort.sortedInsert_perm less a _).trans (List.Perm.cons a ih)

/-- A strict weak order is asymmetric. -/
theorem StdSort.strictWeakOn_asymm {less : LspCompletionItem → LspCompletionItem → Bool}
    {items : List LspCompletionItem} (h : StdSort.strictWeakOn less items)
    {a b : LspCompletionItem} (ha : a ∈ items) (hb : b ∈ items) (hab : less a b = true) :
    less b a = false := by
  cases hba : less b a with
  | false => rfl
  | true =>
    have haa := h.2.1 a ha b hb a ha hab hba
    rw [h.1 a ha] at haa
    cases haa

/-- In a strict weak order the relation "not less" is transitive. -/
theorem StdSort.strictWeakOn_not_less {less : LspCompletionItem → LspCompletionItem → Bool}
    {items : List LspCompletionItem} (h : StdSort.strictWeakOn less items)
    {a b c : LspCompletionItem} (ha : a ∈ items) (hb : b ∈ items) (hc : c ∈ items)
    (hba : less b a = false) (hcb : less c b = false) : less c a = false := by
  cases hab : less a b with
  | true =>
    cases hca : less c a with
    | false => rfl
    | true =>
      have := h.2.1 c hc a ha b hb hca hab
      rw [hcb] at this
      cases this
  | false =>
    cases hbc : less b c with
    | true =>
      cases hca : less c a with
      | false => rfl
      | true =>
        have := h.2.1 b hb c hc a ha hbc hca
        rw [hba] at this
        cases this
    | false => exact (h.2.2 a ha b hb c hc hab hba hbc hcb).2

theorem StdSort.sortedInsert_sorted {less : LspCompletionItem → LspCompletionItem → Bool}
    {items : List LspCompletionItem} (h : StdSort.strictWeakOn less items)
    (a : LspCompletionItem) (l : List LspCompletionItem) (ha : a ∈ items)
    (hsub : ∀ x ∈ l, x ∈ items) (hl : l.Pairwise (fun x y => less y x = false)) :
    (StdSort.sortedInsert less a l).Pairwise (fun x y => less y x = false) := by
  induction l with
  | nil => simp [StdSort.sortedInsert]
  | cons b rest ih =>
    have hb := hsub b (List.mem_cons_self _ _)
    have hrest := List.pairwise_cons.mp hl
    unfold StdSort.sortedInsert
    split
    · rename_i hlt
      refine List.pairwise_cons.mpr
        ⟨?_, ih (fun x hx => hsub x (List.mem_cons_of_mem _ hx)) hrest.2⟩
      intro y hy
      rcases (List.mem_cons.mp ((StdSort.sortedInsert_perm less a rest).subset hy)) with e | e
      · rw [e]; exact StdSort.strictWeakOn_asymm h hb ha hlt
      · exact hrest.1 y e
    · rename_i hnlt
      have hba : less b a = false := by
        cases hv : less b a with
        | false => rfl
        | true => exact absurd hv hnlt
      refine List.pairwise_cons.mpr ⟨?_, hl⟩
      intro y hy
      rcases List.mem_cons.mp hy with e | e
      · rw [e]; exact hba
      · exact StdSort.strictWeakOn_not_less h ha hb (hsub y (List.mem_cons_of_mem _ e)) hba
          (hrest.1 y e)

theorem StdSort.insertionSort_sorted {less : LspCompletionItem → LspCompletionItem → Bool}
    {items : List LspCompletionItem} (h : StdSort.strictWeakOn less items)
    (l : List LspCompletionItem) (hsub : ∀ x ∈ l, x ∈ items) :
    (StdSort.insertionSort less l).Pairwise (fun x y => less y x = false) := by
  induction l with
  | nil => exact List.Pairwise.nil
  | cons a rest ih =>
    show (StdSort.sortedInsert less a (StdSort.insertionSort less rest)).Pairwise _
    apply StdSort.sortedInsert_sorted h
    · exact hsub a (List.mem_cons_self _ _)
    · intro x hx
      exact hsub x (List.mem_cons_of_mem _ ((StdSort.insertionSort_perm less rest).subset hx))
    · exact ih (fun x hx => hsub x (List.mem_cons_of_mem _ hx))

/-- The insertion sort returns a list that `std::sort` may return. -/
theorem StdSort.insertionSort_mayReturn (less : LspCompletionItem → LspCompletionItem → Bool)
    (items : List LspCompletionItem) :
    StdSort.mayReturn less items (StdSort.insertionSort less items) :=
  fun h => ⟨StdSort.insertionSort_perm less items,
    StdSort.insertionSort_sorted h items (fun _ hx => hx)⟩

/-- The sort of the sample environment is a `std::sort` of the C++ standard. -/
theorem QtEnv.sample_sortContract : QtEnv.sample.sortContract :=
  fun less items => StdSort.insertionSort_mayReturn less items

theorem LspClient.completionLess_keys (a b : LspCompletionItem)
    (ha : a.sortText ≠ []) (hb : b.sortText ≠ []) :
    LspClient.completionLess a b = decide (a.sortText < b.sortText) := by
  unfold LspClient.completionLess
  rw [if_pos ⟨ha, hb⟩]

theorem LspClient.completionLess_labels (a b : LspCompletionItem)
    (h : a.sortText = [] ∨ b.sortText = []) :
    LspClient.completionLess a b = decide (a.label < b.label) := by
  unfold LspClient.completionLess
  rw [if_neg]
  intro hab
  rcases h with h | h
  · exact hab.1 h
  · exact hab.2 h


/-- On a list whose items are compared by one key, the comparison is a strict
weak order. -/
theorem LspClient.completionLess_strictWeak (key : LspCompletionItem → QString)
    (items : List LspCompletionItem)
    (hless : ∀ x ∈ items, ∀ y ∈ items,
      LspClient.completionLess x y = decide (key x < key y)) :
    StdSort.strictWeakOn LspClient.completionLess items := by
  refine ⟨?_, ?_, ?_⟩
  · intro a ha
    rw [hless a ha a ha]
    exact decide_eq_false (lt_irrefl _)
  · intro a ha b hb c hc hab hbc
    rw [hless a ha b hb] at hab
    rw [hless b hb c hc] at hbc
    rw [hless a ha c hc]
    exact decide_eq_true (lt_trans (of_decide_eq_true hab) (of_decide_eq_true hbc))
  · intro a ha b hb c hc hab hba hbc hcb
    rw [hless a ha b hb] at hab
    rw [hless b hb a ha] at hba
    rw [hless b hb c hc] at hbc
    rw [hless c hc b hb] at hcb
    have e1 : key a = key b :=
      le_antisymm (not_lt.mp (of_decide_eq_false hba)) (not_lt.mp (of_decide_eq_false hab))
    have e2 : key b = key c :=
      le_antisymm (not_lt.mp (of_decide_eq_false hcb)) (not_lt.mp (of_decide_eq_false hbc))
    rw [hless a ha c hc, hless c hc a ha, e1, e2]
    exact ⟨decide_eq_false (lt_irrefl _), decide_eq_false (lt_irrefl _)⟩

/-- Every list that `std::sort` may return for items compared by one key is a
permutation of the items in non-decreasing order of the key. -/
theorem LspClient.mayReturn_sorted (key : LspCompletionItem → QString)
    (items out : List LspCompletionItem)
    (hless : ∀ x ∈ items, ∀ y ∈ items,
      LspClient.completionLess x y = decide (key x < key y))
    (hout : StdSort.mayReturn LspClient.completionLess items out) :
    StdSort.strictWeakOn LspClient.completionLess items ∧ out.Perm items ∧
      out.Pairwise (fun a b => key a ≤ key b) := by
  have hweak := LspClient.completionLess_strictWeak key items hless
  obtain ⟨hperm, hsorted⟩ := hout hweak
  refine ⟨hweak, hperm, ?_⟩
  refine List.Pairwise.imp_of_mem ?_ hsorted
  intro a b ha hb hba
  rw [hless b (hperm.subset hb) a (hperm.subset ha)] at hba
  exact not_lt.mp (of_decide_eq_false hba)

theorem LspClient.handleReply_completion (env : QtEnv) (s : LspClient) (filePath : QString)
    (message : QJsonObject) :
    LspClient.handleReply env s (qs "textDocument/completion") filePath message =
      s.emit (.completionItemsReady
        (env.stdSort LspClient.completionLess (LspClient.receivedItems message))) := by
  unfold LspClient.handleReply
  simp only []
  rw [if_neg (by decide)]
  rfl

/-- Claim C11.  A reply to a completion request makes `handleMessage` emit one
`completionItemsReady` signal with the list that `std::sort` leaves for the
items received and the comparison `completionLess`.  For every `std::sort` of
the C++ standard, whatever order it gives to equivalent items: when every
received item has a non-empty sort key the comparison is a strict weak order on
the items and the emitted list is a permutation of them in non-decreasing
lexical order of sort key, and when no received item has a sort key the
comparison is a strict weak order on the items and the emitted list is a
permutation of them in non-decreasing lexical order of label. -/
theorem LspClient.completion_items_sorted (env : QtEnv) (s : LspClient) (message : QJsonObject)
    (hsort : env.sortContract)
    (hreply : LspClient.isReply message = true)
    (htag : Assoc.find (LspClient.replyId message) s.pendingRequests_ =
      some (qs "textDocument/completion")) :
    LspClient.handleMessage env s message =
      { s with pendingRequests_ :=
          Assoc.erase (LspClient.replyId message) s.pendingRequests_ }.emit
        (.completionItemsReady
          (env.stdSort LspClient.completionLess (LspClient.receivedItems message))) ∧
    ((∀ item ∈ LspClient.receivedItems message, item.sortText ≠ []) →
      StdSort.strictWeakOn LspClient.completionLess (LspClient.receivedItems message) ∧
      (env.stdSort LspClient.completionLess (LspClient.receivedItems message)).Perm
        (LspClient.receivedItems message) ∧
      (env.stdSort LspClient.completionLess (LspClient.receivedItems message)).Pairwise
        (fun a b => a.sortText ≤ b.sortText)) ∧
    ((∀ item ∈ LspClient.receivedItems message, item.sortText = []) →
      StdSort.strictWeakOn LspClient.completionLess (LspClient.receivedItems message) ∧
      (env.stdSort LspClient.completionLess (LspClient.receivedItems message)).Perm
        (LspClient.receivedItems message) ∧
      (env.stdSort LspClient.completionLess (LspClient.receivedItems message)).Pairwise
        (fun a b => a.label ≤ b.label)) := by
  refine ⟨?_, ?_, ?_⟩
  · rw [LspClient.handleMessage_reply env s message hreply, htag]
    exact LspClient.handleReply_completion env _ _ message
  · intro h
    exact LspClient.mayReturn_sorted (fun item => item.sortText) _ _
      (fun x hx y hy => LspClient.completionLess_keys x y (h x hx) (h y hy)) (hsort _ _)
  · intro h
    exact LspClient.mayReturn_sorted (fun item => item.label) _ _
      (fun x hx _ _ => LspClient.completionLess_labels x _ (Or.inl (h x hx))) (hsort _ _)

theorem LspClient.completion_items_sorted_witness :
    (QtEnv.sample.sortContract ∧
      LspClient.isReply LspClient.sampleCompletionReply = true ∧
      Assoc.find (LspClient.replyId LspClient.sampleCompletionReply)
        LspClient.sampleCompletionSession.pendingRequests_ =
          some (qs "textDocument/completion") ∧
      ∀ item ∈ LspClient.receivedItems LspClient.sampleCompletionReply, item.sortText ≠ []) ∧
    (LspClient.receivedItems LspClient.sampleCompletionReply).map
      (fun item => (item.label, item.sortText)) =
        [(qs "x", qs "10"), (qs "y", qs "9"), (qs "z", qs "02")] ∧
    LspClient.handleMessage QtEnv.sample LspClient.sampleCompletionSession
        LspClient.sampleCompletionReply =
      { LspClient.sampleCompletionSession with
        pendingRequests_ := Assoc.erase (LspClient.replyId LspClient.sampleCompletionReply)
          LspClient.sampleCompletionSession.pendingRequests_ }.emit
        (.completionItemsReady (QtEnv.sample.stdSort LspClient.completionLess
          (LspClient.receivedItems LspClient.sampleCompletionReply))) ∧
    (QtEnv.sample.stdSort LspClient.completionLess
      (LspClient.receivedItems LspClient.sampleCompletionReply)).Perm
        (LspClient.receivedItems LspClient.sampleCompletionReply) ∧
    (QtEnv.sample.stdSort LspClient.completionLess
      (LspClient.receivedItems LspClient.sampleCompletionReply)).Pairwise
        (fun a b => a.sortText ≤ b.sortText) :=
  ⟨⟨QtEnv.sample_sortContract, by decide, by decide, by decide⟩,
    by decide,
    (LspClient.completion_items_sorted QtEnv.sample LspClient.sampleCompletionSession
      LspClient.sampleCompletionReply QtEnv.sample_sortContract (by decide) (by decide)).1,
    ((LspClient.completion_items_sorted QtEnv.sample LspClient.sampleCompletionSession
      LspClient.sampleCompletionReply QtEnv.sample_sortContract (by decide)
        (by decide)).2.1 (by decide)).2⟩

/-- The three items of the sample completion reply have the sort keys `10`, `9`
and `02`: every list that `std::sort` may return for them has the item with key
`02` first, the item with key `10` second and the item with key `9` last. -/
theorem LspClient.sample_completion_order (out : List LspCompletionItem)
    (hout : StdSort.mayReturn LspClient.completionLess
      (LspClient.receivedItems LspClient.sampleCompletionReply) out) :
    out.map (fun item => item.sortText) = [qs "02", qs "10", qs "9"] := by
  have h := LspClient.mayReturn_sorted (fun item => item.sortText) _ out
    (fun x hx y hy => LspClient.completionLess_keys x y
      ((by decide : ∀ item ∈ LspClient.receivedItems LspClient.sampleCompletionReply,
        item.sortText ≠ []) x hx)
      ((by decide : ∀ item ∈ LspClient.receivedItems LspClient.sampleCompletionReply,
        item.sortText ≠ []) y hy)) hout
  have hperm : (out.map (fun item => item.sortText)).Perm [qs "02", qs "10", qs "9"] :=
    (h.2.1.map _).trans (by decide)
  have hsorted : (out.map (fun item => item.sortText)).Sorted (fun a b => a ≤ b) :=
    List.pairwise_map.mpr h.2.2
  exact List.eq_of_perm_of_sorted hperm hsorted (by decide)

/-- Claim C12 fails for replies that mix items with and without a sort key.
For the items (label `z`, key `1`), (label `a`, key `2`) and (label `m`, no
key) the comparison passed to `std::sort` puts the first before the second (by
key), the second before the third (by label) and the third before the first (by
label): it is not transitive, hence not a strict weak order on the three items,
and no arrangement of the three items is in order: each has an item that the
comparison puts before an item in front of it. -/
theorem LspClient.completion_order_cycle :
    LspClient.receivedItems LspClient.sampleMixedReply = LspClient.sampleMixedItems ∧
    (∀ z a m : LspCompletionItem, LspClient.sampleMixedItems = [z, a, m] →
      LspClient.completionLess z a = true ∧ LspClient.completionLess a m = true ∧
      LspClient.completionLess m z = true ∧ LspClient.completionLess z m = false) ∧
    ¬ (∀ x ∈ LspClient.sampleMixedItems, ∀ y ∈ LspClient.sampleMixedItems,
        ∀ w ∈ LspClient.sampleMixedItems,
        LspClient.completionLess x y = true → LspClient.completionLess y w = true →
          LspClient.completionLess x w = true) ∧
    ¬ StdSort.strictWeakOn LspClient.completionLess LspClient.sampleMixedItems ∧
    (∀ out : List LspCompletionItem, out.Perm LspClient.sampleMixedItems →
      ¬ out.Pairwise (fun a b => LspClient.completionLess b a = false)) := by
  refine ⟨by decide, ?_, by decide, by decide, ?_⟩
  · intro z a m h
    simp only [LspClient.sampleMixedItems, List.cons.injEq, and_true] at h
    obtain ⟨rfl, rfl, rfl⟩ := h
    decide
  · intro out hperm
    obtain ⟨p, q, r, rfl⟩ := List.length_eq_three.mp hperm.length_eq
    have hp := hperm.subset (List.mem_cons_self p _)
    have hq := hperm.subset (List.mem_cons_of_mem p (List.mem_cons_self q _))
    have hr := hperm.subset
      (List.mem_cons_of_mem p (List.mem_cons_of_mem q (List.mem_cons_self r _)))
    simp only [LspClient.sampleMixedItems, List.mem_cons, List.mem_singleton,
      List.not_mem_nil, or_false] at hp hq hr
    rcases hp with rfl | rfl | rfl <;> rcases hq with rfl | rfl | rfl <;>
      rcases hr with rfl | rfl | rfl <;> revert hperm <;> decide

/-! ## Semantic tokens -/

theorem QJsonValue.toInt_of_number (n : Int) (h : intMin ≤ n ∧ n ≤ intMax) :
    (QJsonValue.number n).toInt 0 = n := by
  simp [QJsonValue.toInt, h]

theorem intAdd_eq_some (a b : Int) (h : (intAdd a b).isSome = true) : intAdd a b = some (a + b) := by
  unfold intAdd at h ⊢
  split
  · rfl
  · rename_i hn
    rw [if_neg hn] at h
    cases h

theorem MainWindow.semanticTokensLoop_short (doc : QTextDocument) (tokenTypes : List QString)
    (tail : QJsonArray) (st : SemanticLoop) (h : tail.length < 5) :
    MainWindow.semanticTokensLoop doc tokenTypes tail st = some st := by
  match tail, h with
  | [], _ => rfl
  | [_], _ => rfl
  | [_, _], _ => rfl
  | [_, _, _], _ => rfl
  | [_, _, _, _], _ => rfl
  | _ :: _ :: _ :: _ :: _ :: _, h => simp at h; omega

theorem MainWindow.semanticTokensLoop_cons (doc : QTextDocument) (tokenTypes : List QString)
    (t : SemanticToken) (rest : List SemanticToken) (tail : QJsonArray) (st : SemanticLoop)
    (ht : t.isInt) :
    MainWindow.semanticTokensLoop doc tokenTypes (MainWindow.tokenStream (t :: rest) ++ tail) st =
      (MainWindow.semanticTokenStep doc tokenTypes st t.deltaLine t.deltaStart t.length
        t.tokenType).bind
        (MainWindow.semanticTokensLoop doc tokenTypes (MainWindow.tokenStream rest ++ tail)) := by
  have e : MainWindow.tokenStream (t :: rest) ++ tail =
      .number t.deltaLine :: .number t.deltaStart :: .number t.length :: .number t.tokenType ::
        .number t.tokenModifiers :: (MainWindow.tokenStream rest ++ tail) := by
    simp [MainWindow.tokenStream]
  rw [e]
  unfold SemanticToken.isInt at ht
  show (MainWindow.semanticTokenStep doc tokenTypes st ((QJsonValue.number t.deltaLine).toInt 0)
    ((QJsonValue.number t.deltaStart).toInt 0) ((QJsonValue.number t.length).toInt 0)
    ((QJsonValue.number t.tokenType).toInt 0)).bind _ = _
  rw [QJsonValue.toInt_of_number _ ht.1, QJsonValue.toInt_of_number _ ht.2.1,
    QJsonValue.toInt_of_number _ ht.2.2.1, QJsonValue.toInt_of_number _ ht.2.2.2.1]

/-- The selections that the loop appends for a list of entries whose absolute
positions are given with them. -/
theorem MainWindow.semanticTokensLoop_stream (doc : QTextDocument) (tokenTypes : List QString)
    (tail : QJsonArray) (htail : tail.length < 5) (entries : List SemanticToken) :
    ∀ (line character : Int) (sels : List SemanticSelection),
      (∀ t ∈ entries, t.isInt) →
      SemanticToken.defined doc tokenTypes line character entries = true →
      MainWindow.semanticTokensLoop doc tokenTypes (MainWindow.tokenStream entries ++ tail)
          { line := line, character := character, selections := sels } =
        some { line := ((SemanticToken.positions line character entries).getLast?.getD
                  (line, character)).1,
               character := ((SemanticToken.positions line character entries).getLast?.getD
                  (line, character)).2,
               selections := sels ++
                 (entries.zip (SemanticToken.positions line character entries)).filterMap
                   (fun tp => (MainWindow.tokenSelection doc tokenTypes tp.2.1 tp.2.2
                     tp.1.length tp.1.tokenType).getD none) } := by
  induction entries with
  | nil =>
    intro line character sels _ _
    simp [MainWindow.tokenStream, SemanticToken.positions,
      MainWindow.semanticTokensLoop_short doc tokenTypes tail _ htail]
  | cons t rest ih =>
    intro line character sels hint hdef
    rw [MainWindow.semanticTokensLoop_cons doc tokenTypes t rest tail _
      (hint t (List.mem_cons_self _ _))]
    simp only [SemanticToken.defined, Bool.and_eq_true, Bool.or_eq_true, bne_iff_ne] at hdef
    obtain ⟨⟨⟨h1, h2⟩, h3⟩, h4⟩ := hdef
    have e1 := intAdd_eq_some _ _ h1
    have e2 : (if t.deltaLine = 0 then intAdd character t.deltaStart else some t.deltaStart) =
        some (if t.deltaLine ≠ 0 then t.deltaStart else character + t.deltaStart) := by
      by_cases hz : t.deltaLine = 0
      · rcases h2 with h2 | h2
        · exact absurd hz h2
        · simp [hz, intAdd_eq_some _ _ h2]
      · simp [hz]
    obtain ⟨sel, hsel⟩ := Option.isSome_iff_exists.mp h3
    unfold MainWindow.semanticTokenStep
    simp only [e1, e2, Option.some_bind, hsel, Option.map_some']
    rw [ih _ _ _ (fun x hx => hint x (List.mem_cons_of_mem _ hx)) h4]
    simp only [SemanticToken.positions, List.zip_cons_cons, List.filterMap_cons, hsel,
      Option.getD_some]
    congr 1
    have e3 : ∀ (l : List (Int × Int)) (p q : Int × Int),
        ((p :: l).getLast?.getD q) = (l.getLast?.getD p) := by
      intro l p q
      cases l with
      | nil => rfl
      | cons x xs => simp [List.getLast?_cons_cons, List.getLast?_eq_getLast _ (List.cons_ne_nil x xs)]
    rw [e3]
    cases sel <;> simp

theorem SemanticToken.positions_take (entries : List SemanticToken) :
    ∀ (line character : Int) (n : Nat),
      SemanticToken.positions line character (entries.take n) =
        (SemanticToken.positions line character entries).take n := by
  induction entries with
  | nil => intro _ _ n; simp [SemanticToken.positions]
  | cons t rest ih =>
    intro line character n
    cases n with
    | zero => simp [SemanticToken.positions]
    | succ n => simp [SemanticToken.positions, ih]

theorem SemanticToken.defined_take (doc : QTextDocument) (tokenTypes : List QString)
    (entries : List SemanticToken) :
    ∀ (line character : Int) (n : Nat),
      SemanticToken.defined doc tokenTypes line character entries = true →
      SemanticToken.defined doc tokenTypes line character (entries.take n) = true := by
  induction entries with
  | nil => intro _ _ n h; simpa using h
  | cons t rest ih =>
    intro line character n h
    cases n with
    | zero => rfl
    | succ n =>
      simp only [SemanticToken.defined, Bool.and_eq_true, List.take_succ_cons] at h ⊢
      exact ⟨h.1, ih _ _ n h.2⟩

theorem SemanticToken.positions_get (entries : List SemanticToken) :
    ∀ (line character : Int) (k : Nat) (t : SemanticToken), entries[k]? = some t →
      (SemanticToken.positions line character entries)[k]? =
        some (line + ((entries.take (k + 1)).map (fun e => e.deltaLine)).sum,
          if t.deltaLine ≠ 0 then t.deltaStart
          else SemanticToken.startBefore character
            (SemanticToken.positions line character entries) k + t.deltaStart) := by
  induction entries with
  | nil => intro _ _ k t h; simp at h
  | cons e rest ih =>
    intro line character k t h
    cases k with
    | zero =>
      simp only [List.getElem?_cons_zero, Option.some.injEq] at h
      subst h
      simp [SemanticToken.positions, SemanticToken.startBefore]
    | succ j =>
      simp only [List.getElem?_cons_succ] at h
      have hj := ih (line + e.deltaLine)
        (if e.deltaLine ≠ 0 then e.deltaStart else character + e.deltaStart) j t h
      simp only [SemanticToken.positions, List.getElem?_cons_succ, hj, List.take_succ_cons,
        List.map_cons, List.sum_cons, Option.some.injEq, Prod.mk.injEq]
      refine ⟨by ring, ?_⟩
      cases j with
      | zero => simp [SemanticToken.startBefore]
      | succ i => simp [SemanticToken.startBefore]

theorem SemanticToken.positions_length (entries : List SemanticToken) :
    ∀ (line character : Int), (SemanticToken.positions line character entries).length =
      entries.length := by
  induction entries with
  | nil => intro _ _; rfl
  | cons t rest ih => intro _ _; simp [SemanticToken.positions, ih]

theorem MainWindow.tokenSelection_inside (doc : QTextDocument) (tokenTypes : List QString)
    (line character length typeIdx position blockLength : Int)
    (hsize : (doc.characterCount : Int) ≤ intMax)
    (htype : 0 ≤ typeIdx ∧ typeIdx < tokenTypes.length)
    (hname : tokenTypes.getD typeIdx.toNat [] ≠ qs "keyword")
    (hblock : doc.findBlockByNumber line = some (position, blockLength))
    (hstart : 0 ≤ position + character ∧ position + character < doc.characterCount)
    (hend : 0 ≤ position + character + length ∧
      position + character + length < doc.characterCount) :
    MainWindow.tokenSelection doc tokenTypes line character length typeIdx =
      some (some { cursor := { anchor := position + character,
                               position := position + character + length },
                   format := MainWindow.semanticFormat (tokenTypes.getD typeIdx.toNat []) }) := by
  unfold MainWindow.tokenSelection
  rw [if_neg (by omega), if_neg hname, hblock]
  have i1 : intAdd position character = some (position + character) := by
    unfold intAdd intMin
    rw [if_pos (by omega)]
  have i2 : intAdd (position + character) length = some (position + character + length) := by
    unfold intAdd intMin
    rw [if_pos (by omega)]
  simp only [i1, i2, Option.some_bind, Option.map_some']
  have n1 : ¬ (position + character < 0 ∨ (doc.characterCount : Int) ≤ position + character) := by
    omega
  have n2 : ¬ (position + character + length < 0 ∨
      (doc.characterCount : Int) ≤ position + character + length) := by
    omega
  simp [QTextCursor.setPosition, n1, n2]

/-- Claim C13.  Let a semantic token stream consist of the quintuples `entries`
(values of `int`), possibly followed by fewer than five further values, and let
no sum formed by the loop leave the range of `int`.  After the iteration for
entry `k` the loop variable `line` is the sum of the line deltas of the entries 0
to `k`, and `character` is the start delta of entry `k` when its line delta is
not zero and the start character of the entry before plus the start delta
otherwise.  The selections passed to `setSemanticSelections` are those built at
these positions, in order, and the selection of a token that is not skipped and
lies inside the document has its anchor at `position of the block + character`
and its position `length` characters further. -/
theorem MainWindow.semantic_tokens_decode (doc : QTextDocument) (tokenTypes : List QString)
    (entries : List SemanticToken) (tail : QJsonArray)
    (hint : ∀ t ∈ entries, t.isInt) (htail : tail.length < 5)
    (hdefined : SemanticToken.defined doc tokenTypes 0 0 entries = true) :
    (∀ (k : Nat) (t : SemanticToken), entries[k]? = some t →
      ∃ st, MainWindow.semanticTokensLoop doc tokenTypes
          (MainWindow.tokenStream (entries.take (k + 1))) SemanticLoop.init = some st ∧
        st.line = ((entries.take (k + 1)).map (fun e => e.deltaLine)).sum ∧
        st.character = (if t.deltaLine ≠ 0 then t.deltaStart
          else SemanticToken.startBefore 0 (SemanticToken.positions 0 0 entries) k +
            t.deltaStart) ∧
        (SemanticToken.positions 0 0 entries)[k]? = some (st.line, st.character)) ∧
    (∀ (filePath : QString), tokenTypes.isEmpty = false →
      MainWindow.handleSemanticTokens filePath (some { filePath := filePath, editor := some doc })
          tokenTypes filePath (MainWindow.tokenStream entries ++ tail) =
        some (some ((entries.zip (SemanticToken.positions 0 0 entries)).filterMap
          (fun tp => (MainWindow.tokenSelection doc tokenTypes tp.2.1 tp.2.2
            tp.1.length tp.1.tokenType).getD none)))) ∧
    (∀ (line character length typeIdx position blockLength : Int),
      (doc.characterCount : Int) ≤ intMax →
      (0 ≤ typeIdx ∧ typeIdx < tokenTypes.length) →
      tokenTypes.getD typeIdx.toNat [] ≠ qs "keyword" →
      doc.findBlockByNumber line = some (position, blockLength) →
      (0 ≤ position + character ∧ position + character < doc.characterCount) →
      (0 ≤ position + character + length ∧
        position + character + length < doc.characterCount) →
      MainWindow.tokenSelection doc tokenTypes line character length typeIdx =
        some (some { cursor := { anchor := position + character,
                                 position := position + character + length },
                     format := MainWindow.semanticFormat (tokenTypes.getD typeIdx.toNat []) })) := by
  refine ⟨?_, ?_, ?_⟩
  · intro k t hk
    have hlt : k < entries.length := by
      rcases Nat.lt_or_ge k entries.length with h | h
      · exact h
      · rw [List.getElem?_eq_none h] at hk; cases hk
    have hloop := MainWindow.semanticTokensLoop_stream doc tokenTypes [] (by decide)
      (entries.take (k + 1)) 0 0 []
      (fun x hx => hint x (List.mem_of_mem_take hx))
      (SemanticToken.defined_take doc tokenTypes entries 0 0 (k + 1) hdefined)
    rw [List.append_nil] at hloop
    have hpos := SemanticToken.positions_get entries 0 0 k t hk
    have hlast : (SemanticToken.positions 0 0 (entries.take (k + 1))).getLast? =
        (SemanticToken.positions 0 0 entries)[k]? := by
      rw [SemanticToken.positions_take, List.getLast?_eq_getElem?, List.length_take,
        SemanticToken.positions_length, Nat.min_eq_left (by omega), Nat.add_sub_cancel,
        List.getElem?_take_of_lt (Nat.lt_succ_self k)]
    rw [hlast, hpos] at hloop
    refine ⟨_, hloop, ?_, ?_, ?_⟩
    · simp
    · simp
    · rw [hpos]
      simp
  · intro filePath hne
    unfold MainWindow.handleSemanticTokens
    simp only [ne_eq, not_true_eq_false, if_false, hne, Bool.false_eq_true]
    have hloop := MainWindow.semanticTokensLoop_stream doc tokenTypes tail htail entries 0 0 []
      hint hdefined
    unfold SemanticLoop.init
    rw [hloop]
    simp
  · intro line character length typeIdx position blockLength h1 h2 h3 h4 h5 h6
    exact MainWindow.tokenSelection_inside doc tokenTypes line character length typeIdx position
      blockLength h1 h2 h3 h4 h5 h6

theorem MainWindow.semantic_tokens_decode_witness :
    ((∀ t ∈ MainWindow.sampleTokens, t.isInt) ∧ ([] : QJsonArray).length < 5 ∧
      SemanticToken.defined MainWindow.sampleDocument [qs "class", qs "function"] 0 0
        MainWindow.sampleTokens = true) ∧
    MainWindow.tokenStream MainWindow.sampleTokens ++ [] =
      [.number 0, .number 0, .number 5, .number 0, .number 0,
       .number 1, .number 2, .number 3, .number 1, .number 0] ∧
    SemanticToken.positions 0 0 MainWindow.sampleTokens = [(0, 0), (1, 2)] ∧
    MainWindow.handleSemanticTokens (qs "a.cpp")
        (some { filePath := qs "a.cpp", editor := some MainWindow.sampleDocument })
        [qs "class", qs "function"] (qs "a.cpp")
        (MainWindow.tokenStream MainWindow.sampleTokens ++ []) =
      some (some [{ cursor := { anchor := 0, position := 5 },
                    format := { foreground := some (0, 70, 140), bold := true } },
                  { cursor := { anchor := 16, position := 19 },
                    format := { foreground := some (20, 20, 20), bold := true } }]) :=
  ⟨⟨by decide, by decide, by decide⟩, by rfl, by decide,
    ((MainWindow.semantic_tokens_decode MainWindow.sampleDocument [qs "class", qs "function"]
      MainWindow.sampleTokens [] (by decide) (by decide) (by decide)).2.1 (qs "a.cpp")
      (by decide)).trans (by decide)⟩

/-! ## Rename edits -/

theorem MainWindow.editInsert_perm (a : EditItem) (l : List EditItem) :
    (MainWindow.editInsert a l).Perm (a :: l) := by
  induction l with
  | nil => exact List.Perm.refl _
  | cons b rest ih =>
    unfold MainWindow.editInsert
    split
    · exact ((List.Perm.cons b ih).trans (List.Perm.swap a b rest))
    · exact List.Perm.refl _

theorem MainWindow.sortEditItems_perm (items : List EditItem) :
    (MainWindow.sortEditItems items).Perm items := by
  induction items with
  | nil => exact List.Perm.refl _
  | cons a rest ih =>
    show (MainWindow.editInsert a (MainWindow.sortEditItems rest)).Perm (a :: rest)
    exact (MainWindow.editInsert_perm a _).trans (List.Perm.cons a ih)

theorem MainWindow.editInsert_sorted (a : EditItem) (l : List EditItem)
    (hl : l.Pairwise (fun x y => y.startPos ≤ x.startPos)) :
    (MainWindow.editInsert a l).Pairwise (fun x y => y.startPos ≤ x.startPos) := by
  induction l with
  | nil => simp [MainWindow.editInsert]
  | cons b rest ih =>
    have hrest := List.pairwise_cons.mp hl
    unfold MainWindow.editInsert
    split
    · rename_i h
      refine List.pairwise_cons.mpr ⟨?_, ih hrest.2⟩
      intro y hy
      rcases (List.mem_cons.mp ((MainWindow.editInsert_perm a rest).subset hy)) with e | e
      · rw [e]; omega
      · exact hrest.1 y e
    · rename_i h
      refine List.pairwise_cons.mpr ⟨?_, hl⟩
      intro y hy
      rcases List.mem_cons.mp hy with e | e
      · rw [e]; omega
      · have := hrest.1 y e
        omega

theorem MainWindow.sortEditItems_sorted (items : List EditItem) :
    (MainWindow.sortEditItems items).Pairwise (fun x y => y.startPos ≤ x.startPos) := by
  induction items with
  | nil => exact List.Pairwise.nil
  | cons a rest ih => exact MainWindow.editInsert_sorted a _ ih

theorem MainWindow.sortEditItems_strict (items : List EditItem)
    (hnodup : (items.map (fun e => e.startPos)).Nodup) :
    (MainWindow.sortEditItems items).Pairwise (fun x y => x.startPos > y.startPos) := by
  have h1 := MainWindow.sortEditItems_sorted items
  have h2 : ((MainWindow.sortEditItems items).map (fun e => e.startPos)).Nodup :=
    ((MainWindow.sortEditItems_perm items).map _).nodup_iff.mpr hnodup
  have h3 : (MainWindow.sortEditItems items).Pairwise
      (fun x y => x.startPos ≠ y.startPos) := by
    rw [List.Nodup, List.pairwise_map] at h2
    exact h2
  exact (h1.and h3).imp (fun h => by omega)

theorem MainWindow.sortEditItems_unique (items asc : List EditItem)
    (hnodup : (items.map (fun e => e.startPos)).Nodup)
    (hperm : asc.Perm items)
    (hsorted : asc.Pairwise (fun a b => a.startPos < b.startPos)) :
    MainWindow.sortEditItems items = asc.reverse := by
  have h1 := MainWindow.sortEditItems_strict items hnodup
  have h2 : asc.reverse.Pairwise (fun x y => x.startPos > y.startPos) :=
    List.pairwise_reverse.mpr hsorted
  have hp : (MainWindow.sortEditItems items).Perm asc.reverse :=
    (MainWindow.sortEditItems_perm items).trans
      (hperm.symm.trans (List.reverse_perm asc).symm)
  haveI : IsAntisymm EditItem (fun x y => x.startPos > y.startPos) :=
    ⟨fun a b hab hba => absurd hab (by omega)⟩
  exact List.eq_of_perm_of_sorted hp h1 h2

theorem MainWindow.collectItems_cons (itemOf : QJsonValue → Option (Option EditItem))
    (val : QJsonValue) (rest : QJsonArray) :
    MainWindow.collectItems itemOf (val :: rest) =
      (itemOf val).bind (fun item =>
        (MainWindow.collectItems itemOf rest).map (fun items => item.toList ++ items)) := rfl

theorem MainWindow.collectItems_perm (itemOf : QJsonValue → Option (Option EditItem))
    (edits1 edits : QJsonArray) (hperm : edits1.Perm edits) :
    ∀ items, MainWindow.collectItems itemOf edits = some items →
      ∃ items1, MainWindow.collectItems itemOf edits1 = some items1 ∧ items1.Perm items := by
  induction hperm with
  | nil => intro items h; exact ⟨items, h, List.Perm.refl _⟩
  | cons x _ ih =>
    intro items h
    rw [MainWindow.collectItems_cons] at h ⊢
    cases hx : itemOf x with
    | none => rw [hx] at h; cases h
    | some item =>
      rw [hx] at h
      simp only [Option.some_bind, Option.map_eq_some'] at h ⊢
      obtain ⟨l, hl, rfl⟩ := h
      obtain ⟨l1, hl1, hp⟩ := ih l hl
      exact ⟨item.toList ++ l1, ⟨l1, hl1, rfl⟩, List.Perm.append_left _ hp⟩
  | swap x y l =>
    intro items h
    rw [MainWindow.collectItems_cons, MainWindow.collectItems_cons] at h ⊢
    cases hx : itemOf x with
    | none => rw [hx] at h; cases hy : itemOf y <;> rw [hy] at h <;> cases h
    | some ix =>
      cases hy : itemOf y with
      | none => rw [hx, hy] at h; cases h
      | some iy =>
        rw [hx, hy] at h
        cases hl : MainWindow.collectItems itemOf l with
        | none => rw [hl] at h; cases h
        | some items0 =>
          rw [hl] at h
          simp only [Option.some_bind, Option.map_some', Option.some.injEq] at h ⊢
          subst h
          rw [← List.append_assoc, ← List.append_assoc]
          exact ⟨_, rfl, List.Perm.append_right _ List.perm_append_comm⟩
  | trans _ _ ih1 ih2 =>
    intro items h
    obtain ⟨l2, h2, p2⟩ := ih2 items h
    obtain ⟨l1, h1, p1⟩ := ih1 l2 h2
    exact ⟨l1, h1, p1.trans p2⟩

theorem List.splice_step {α : Type} (t R new : List α) (pos s e : Nat)
    (h1 : pos ≤ s) (h2 : s ≤ e) (h3 : e ≤ t.length) :
    (t.take e ++ R).take s ++ new ++ (t.take e ++ R).drop e =
      t.take pos ++ ((t.drop pos).take (s - pos) ++ new ++ R) := by
  have e1 : (t.take e ++ R).take s = t.take s := by
    rw [List.take_append_of_le_length (by rw [List.length_take]; omega), List.take_take,
      Nat.min_eq_left h2]
  have e2 : (t.take e ++ R).drop e = R := by
    have hl : (t.take e).length = e := by rw [List.length_take]; omega
    rw [List.drop_append_of_le_length (by omega)]
    rw [List.drop_of_length_le (by omega)]
    rfl
  have e3 : t.take s = t.take pos ++ (t.drop pos).take (s - pos) := by
    have : s = pos + (s - pos) := by omega
    conv_lhs => rw [this]
    exact List.take_add t pos (s - pos)
  rw [e1, e2, e3]
  simp [List.append_assoc]

theorem MainWindow.applyDiskEdits_append (l : List EditItem) (a : EditItem) :
    ∀ text, MainWindow.applyDiskEdits text (l ++ [a]) =
      (MainWindow.applyDiskEdits text l).bind (fun t1 => MainWindow.applyDiskEdits t1 [a]) := by
  induction l with
  | nil => intro text; rfl
  | cons b rest ih =>
    intro text
    simp only [List.cons_append, MainWindow.applyDiskEdits]
    cases intSub b.endPos b.startPos with
    | none => rfl
    | some n =>
      simp only [Option.some_bind]
      cases QString.replaceAt text b.startPos n b.newText with
      | none => rfl
      | some t1 => simp only [Option.some_bind]; exact ih t1

theorem MainWindow.applyDiskEdits_one (text : QString) (a : EditItem)
    (hmax : a.endPos ≤ intMax)
    (ha : 0 ≤ a.startPos ∧ a.startPos ≤ a.endPos ∧ a.endPos ≤ (text.length : Int)) :
    MainWindow.applyDiskEdits text [a] =
      some (text.take a.startPos.toNat ++ a.newText ++ text.drop a.endPos.toNat) := by
  have e1 : intSub a.endPos a.startPos = some (a.endPos - a.startPos) := by
    unfold intSub intMin
    rw [if_pos (by omega)]
  simp only [MainWindow.applyDiskEdits, e1, Option.some_bind]
  unfold QString.replaceAt
  rw [if_neg (by omega), if_neg (by omega)]
  have e2 : a.startPos.toNat +
      (min (a.endPos - a.startPos) ((text.length : Int) - a.startPos)).toNat = a.endPos.toNat := by
    rw [min_eq_left (by omega)]
    omega
  rw [e2]
  rfl

theorem MainWindow.applyDiskEdits_ascending (text : QString)
    (hsize : (text.length : Int) ≤ intMax) (asc : List EditItem) :
    ∀ (pos : Nat), asc.Pairwise (fun a b => a.endPos ≤ b.startPos) →
      (∀ e ∈ asc, (pos : Int) ≤ e.startPos ∧ e.startPos ≤ e.endPos ∧
        e.endPos ≤ (text.length : Int)) →
      MainWindow.applyDiskEdits text asc.reverse =
        some (text.take pos ++ MainWindow.replaceRanges id text pos asc) := by
  induction asc with
  | nil =>
    intro pos _ _
    simp [MainWindow.applyDiskEdits, MainWindow.replaceRanges]
  | cons a rest ih =>
    intro pos hchain hin
    have ha := hin a (List.mem_cons_self _ _)
    have hc := List.pairwise_cons.mp hchain
    rw [List.reverse_cons, MainWindow.applyDiskEdits_append,
      ih a.endPos.toNat hc.2 (fun e he => by
        have h1 := hc.1 e he
        have h2 := hin e (List.mem_cons_of_mem _ he)
        exact ⟨by omega, h2.2.1, h2.2.2⟩)]
    simp only [Option.some_bind]
    rw [MainWindow.applyDiskEdits_one _ _ (by omega) (by
        refine ⟨by omega, ha.2.1, ?_⟩
        rw [List.length_append, List.length_take]
        omega)]
    rw [List.splice_step text _ a.newText pos a.startPos.toNat a.endPos.toNat (by omega)
      (by omega) (by omega)]
    rfl

theorem QString.lines_spec (x : QString) :
    QString.lines x ≠ [] ∧ ((QString.lines x).intersperse ['\n']).flatten = x := by
  induction x with
  | nil => exact ⟨by simp [QString.lines], by simp [QString.lines]⟩
  | cons c rest ih =>
    obtain ⟨hne, hflat⟩ := ih
    cases hl : QString.lines rest with
    | nil => exact absurd hl hne
    | cons line more =>
      rw [hl] at hflat
      by_cases hc : c = '\n'
      · have e : QString.lines (c :: rest) = [] :: line :: more := by
          simp [QString.lines, hc, hl]
        rw [e]
        refine ⟨by simp, ?_⟩
        rw [List.intersperse_cons_cons, List.flatten_cons, List.flatten_cons, hflat, hc]
        rfl
      · have e : QString.lines (c :: rest) = (c :: line) :: more := by
          simp [QString.lines, hc, hl]
        rw [e]
        refine ⟨by simp, ?_⟩
        cases more with
        | nil =>
          simp only [List.intersperse_single, List.flatten_cons, List.flatten_nil,
            List.append_nil] at hflat ⊢
          rw [hflat]
        | cons m ms =>
          rw [List.intersperse_cons_cons, List.flatten_cons] at hflat ⊢
          rw [List.cons_append, hflat]

theorem QTextDocument.characterCount_eq (doc : QTextDocument) (h : doc.blocks ≠ []) :
    doc.characterCount = doc.plainText.length + 1 := by
  unfold QTextDocument.characterCount QTextDocument.plainText
  generalize doc.blocks = blocks at h
  induction blocks with
  | nil => exact absurd rfl h
  | cons b rest ih =>
    cases rest with
    | nil => simp
    | cons c more =>
      have := ih (by simp)
      rw [List.intersperse_cons_cons, List.flatten_cons, List.flatten_cons]
      simp only [List.map_cons, List.sum_cons, List.length_append, List.length_cons,
        List.length_nil] at this ⊢
      omega

theorem QTextDocument.insertText_range (stored : QString → QString) (doc : QTextDocument)
    (a : EditItem) (hne : doc.blocks ≠ [])
    (ha : 0 ≤ a.startPos ∧ a.startPos ≤ a.endPos ∧ a.endPos ≤ (doc.plainText.length : Int)) :
    (QTextDocument.insertText stored doc
      (QTextCursor.setPosition doc
        (QTextCursor.setPosition doc { anchor := 0, position := 0 } a.startPos false)
        a.endPos true) a.newText).blocks =
      QString.lines (doc.plainText.take a.startPos.toNat ++ stored a.newText ++
        doc.plainText.drop a.endPos.toNat) := by
  have hc := QTextDocument.characterCount_eq doc hne
  have n1 : ¬ (a.startPos < 0 ∨ (doc.characterCount : Int) ≤ a.startPos) := by omega
  have n2 : ¬ (a.endPos < 0 ∨ (doc.characterCount : Int) ≤ a.endPos) := by omega
  simp only [QTextCursor.setPosition, n1, n2, if_false, Bool.false_eq_true, if_true,
    QTextDocument.insertText]
  rw [min_eq_left ha.2.1, max_eq_right ha.2.1]

theorem MainWindow.applyLiveEdits_append (stored : QString → QString) (l : List EditItem)
    (a : EditItem) :
    ∀ doc, MainWindow.applyLiveEdits stored doc (l ++ [a]) =
      MainWindow.applyLiveEdits stored (MainWindow.applyLiveEdits stored doc l) [a] := by
  induction l with
  | nil => intro doc; rfl
  | cons b rest ih =>
    intro doc
    simp only [List.cons_append, MainWindow.applyLiveEdits]
    exact ih _

theorem MainWindow.applyLiveEdits_ascending (stored : QString → QString) (doc : QTextDocument)
    (hne : doc.blocks ≠ []) (asc : List EditItem) :
    ∀ (pos : Nat), asc.Pairwise (fun a b => a.endPos ≤ b.startPos) →
      (∀ e ∈ asc, (pos : Int) ≤ e.startPos ∧ e.startPos ≤ e.endPos ∧
        e.endPos ≤ (doc.plainText.length : Int)) →
      (MainWindow.applyLiveEdits stored doc asc.reverse).blocks ≠ [] ∧
      (MainWindow.applyLiveEdits stored doc asc.reverse).plainText =
        doc.plainText.take pos ++ MainWindow.replaceRanges stored doc.plainText pos asc := by
  induction asc with
  | nil =>
    intro pos _ _
    simp [MainWindow.applyLiveEdits, MainWindow.replaceRanges, hne]
  | cons a rest ih =>
    intro pos hchain hin
    have ha := hin a (List.mem_cons_self _ _)
    have hc := List.pairwise_cons.mp hchain
    obtain ⟨h1, h2⟩ := ih a.endPos.toNat hc.2 (fun e he => by
        have h1 := hc.1 e he
        have h2 := hin e (List.mem_cons_of_mem _ he)
        exact ⟨by omega, h2.2.1, h2.2.2⟩)
    rw [List.reverse_cons, MainWindow.applyLiveEdits_append]
    have hstep := QTextDocument.insertText_range stored
      (MainWindow.applyLiveEdits stored doc rest.reverse) a h1 (by
        refine ⟨by omega, ha.2.1, ?_⟩
        rw [h2, List.length_append, List.length_take]
        omega)
    have hb : (MainWindow.applyLiveEdits stored
        (MainWindow.applyLiveEdits stored doc rest.reverse) [a]).blocks =
        QString.lines ((MainWindow.applyLiveEdits stored doc rest.reverse).plainText.take
          a.startPos.toNat ++ stored a.newText ++
          (MainWindow.applyLiveEdits stored doc rest.reverse).plainText.drop a.endPos.toNat) :=
      hstep
    refine ⟨by rw [hb]; exact (QString.lines_spec _).1, ?_⟩
    show ((MainWindow.applyLiveEdits stored
        (MainWindow.applyLiveEdits stored doc rest.reverse) [a]).blocks.intersperse
          ['\n']).flatten = _
    rw [hb, (QString.lines_spec _).2, h2]
    rw [List.splice_step _ _ (stored a.newText) pos a.startPos.toNat a.endPos.toNat (by omega)
      (by omega) (by omega)]
    rfl

theorem MainWindow.EditsFit.perm {text : QString} {items items1 : List EditItem}
    (hfit : MainWindow.EditsFit text items) (hperm : items1.Perm items) :
    MainWindow.EditsFit text items1 :=
  ⟨fun e he => hfit.1 e (hperm.subset he),
    fun a ha b hb => hfit.2.1 a (hperm.subset ha) b (hperm.subset hb),
    (hperm.map _).nodup_iff.mpr hfit.2.2⟩

theorem MainWindow.EditsFit.chain {text : QString} {items asc : List EditItem}
    (hfit : MainWindow.EditsFit text items) (hperm : asc.Perm items)
    (hsorted : asc.Pairwise (fun a b => a.startPos < b.startPos)) :
    asc.Pairwise (fun a b => a.endPos ≤ b.startPos) ∧
    ∀ e ∈ asc, ((0 : Nat) : Int) ≤ e.startPos ∧ e.startPos ≤ e.endPos ∧
      e.endPos ≤ (text.length : Int) :=
  ⟨hsorted.imp_of_mem (fun ha hb h => hfit.2.1 _ (hperm.subset ha) _ (hperm.subset hb) h),
    fun e he => by
      have := hfit.1 e (hperm.subset he)
      exact ⟨by simpa using this.1, this.2⟩⟩

theorem MainWindow.renameOnDisk_items (text : QString) (edits : QJsonArray)
    (items asc : List EditItem) (hsize : (text.length : Int) ≤ intMax)
    (hitems : MainWindow.collectItems (MainWindow.diskItem (MainWindow.lineOffsets text)) edits =
      some items)
    (hfit : MainWindow.EditsFit text items) (hasc : asc.Perm items)
    (hsorted : asc.Pairwise (fun a b => a.startPos < b.startPos)) :
    MainWindow.renameOnDisk text edits = some (MainWindow.replaceRanges id text 0 asc) := by
  unfold MainWindow.renameOnDisk
  rw [hitems, Option.some_bind, MainWindow.sortEditItems_unique items asc hfit.2.2 hasc hsorted]
  have hc := hfit.chain hasc hsorted
  rw [MainWindow.applyDiskEdits_ascending text hsize asc 0 hc.1 hc.2]
  simp

theorem MainWindow.renameLive_items (stored : QString → QString) (doc : QTextDocument)
    (edits : QJsonArray) (items asc : List EditItem) (hne : doc.blocks ≠ [])
    (hitems : MainWindow.collectItems (MainWindow.liveItem doc) edits = some items)
    (hfit : MainWindow.EditsFit doc.plainText items) (hasc : asc.Perm items)
    (hsorted : asc.Pairwise (fun a b => a.startPos < b.startPos)) :
    (MainWindow.renameLive stored doc edits).map QTextDocument.plainText =
      some (MainWindow.replaceRanges stored doc.plainText 0 asc) := by
  unfold MainWindow.renameLive
  rw [hitems, Option.map_some', Option.map_some',
    MainWindow.sortEditItems_unique items asc hfit.2.2 hasc hsorted]
  have hc := hfit.chain hasc hsorted
  rw [(MainWindow.applyLiveEdits_ascending stored doc hne asc 0 hc.1 hc.2).2]
  simp

/-- Claim C14.  Let the edits of a rename reply for a file give items whose
ranges lie inside the text of the file, do not overlap and start at different
offsets, and let `asc` list these items in ascending order of start offset.
`handleRenameEdits` applies the items in the reverse of that order, which is
strictly decreasing in the start offset.  The text that the on-disk branch
writes back, and the text of the document after the branch for an open file, is
the original text with every range replaced by the new text of its edit, and it
is the same for every order in which the reply lists the edits. -/
theorem MainWindow.rename_edits_descending (stored : QString → QString) (text : QString)
    (doc : QTextDocument) (edits edits1 : QJsonArray) (items asc : List EditItem)
    (hsize : (text.length : Int) ≤ intMax) (hperm : edits1.Perm edits)
    (hfit : MainWindow.EditsFit text items) (hasc : asc.Perm items)
    (hsorted : asc.Pairwise (fun a b => a.startPos < b.startPos)) :
    (MainWindow.sortEditItems items = asc.reverse ∧
      (MainWindow.sortEditItems items).Pairwise (fun a b => a.startPos > b.startPos)) ∧
    (MainWindow.collectItems (MainWindow.diskItem (MainWindow.lineOffsets text)) edits =
        some items →
      MainWindow.renameOnDisk text edits = some (MainWindow.replaceRanges id text 0 asc) ∧
      MainWindow.renameOnDisk text edits1 = some (MainWindow.replaceRanges id text 0 asc)) ∧
    (doc.blocks ≠ [] → doc.plainText = text →
      MainWindow.collectItems (MainWindow.liveItem doc) edits = some items →
      (MainWindow.renameLive stored doc edits).map QTextDocument.plainText =
        some (MainWindow.replaceRanges stored text 0 asc) ∧
      (MainWindow.renameLive stored doc edits1).map QTextDocument.plainText =
        some (MainWindow.replaceRanges stored text 0 asc)) := by
  refine ⟨⟨MainWindow.sortEditItems_unique items asc hfit.2.2 hasc hsorted,
    MainWindow.sortEditItems_strict items hfit.2.2⟩, ?_, ?_⟩
  · intro hitems
    obtain ⟨items1, h1, p1⟩ := MainWindow.collectItems_perm _ edits1 edits hperm items hitems
    exact ⟨MainWindow.renameOnDisk_items text edits items asc hsize hitems hfit hasc hsorted,
      MainWindow.renameOnDisk_items text edits1 items1 asc hsize h1 (hfit.perm p1)
        (hasc.trans p1.symm) hsorted⟩
  · intro hne htext hitems
    subst htext
    obtain ⟨items1, h1, p1⟩ := MainWindow.collectItems_perm _ edits1 edits hperm items hitems
    exact ⟨MainWindow.renameLive_items stored doc edits items asc hne hitems hfit hasc hsorted,
      MainWindow.renameLive_items stored doc edits1 items1 asc hne h1 (hfit.perm p1)
        (hasc.trans p1.symm) hsorted⟩

theorem MainWindow.rename_edits_descending_witness :
    ((((qs "old one two").length : Int) ≤ intMax ∧
      MainWindow.sampleEdits.reverse.Perm MainWindow.sampleEdits ∧
      MainWindow.EditsFit (qs "old one two")
        [{ startPos := 5, endPos := 8, newText := qs "foo" },
         { startPos := 0, endPos := 3, newText := qs "bar" }] ∧
      ([{ startPos := 0, endPos := 3, newText := qs "bar" },
        { startPos := 5, endPos := 8, newText := qs "foo" }] : List EditItem).Perm
        [{ startPos := 5, endPos := 8, newText := qs "foo" },
         { startPos := 0, endPos := 3, newText := qs "bar" }] ∧
      ([{ startPos := 0, endPos := 3, newText := qs "bar" },
        { startPos := 5, endPos := 8, newText := qs "foo" }] : List EditItem).Pairwise
        (fun a b => a.startPos < b.startPos)) ∧
      MainWindow.collectItems (MainWindow.diskItem (MainWindow.lineOffsets (qs "old one two")))
        MainWindow.sampleEdits =
          some [{ startPos := 5, endPos := 8, newText := qs "foo" },
                { startPos := 0, endPos := 3, newText := qs "bar" }] ∧
      MainWindow.replaceRanges id (qs "old one two") 0
        [{ startPos := 0, endPos := 3, newText := qs "bar" },
         { startPos := 5, endPos := 8, newText := qs "foo" }] = qs "bar ofootwo") ∧
    MainWindow.sortEditItems [{ startPos := 0, endPos := 3, newText := qs "bar" },
        { startPos := 5, endPos := 8, newText := qs "foo" }] =
      [{ startPos := 5, endPos := 8, newText := qs "foo" },
       { startPos := 0, endPos := 3, newText := qs "bar" }] ∧
    MainWindow.renameOnDisk (qs "old one two") MainWindow.sampleEdits = some (qs "bar ofootwo") ∧
    MainWindow.renameOnDisk (qs "old one two") MainWindow.sampleEdits.reverse =
      some (qs "bar ofootwo") ∧
    (MainWindow.renameLive id { blocks := [qs "old one two"] } MainWindow.sampleEdits).map
      QTextDocument.plainText = some (qs "bar ofootwo") :=
  have h := MainWindow.rename_edits_descending id (qs "old one two")
    { blocks := [qs "old one two"] } MainWindow.sampleEdits MainWindow.sampleEdits.reverse
    [{ startPos := 5, endPos := 8, newText := qs "foo" },
     { startPos := 0, endPos := 3, newText := qs "bar" }]
    [{ startPos := 0, endPos := 3, newText := qs "bar" },
     { startPos := 5, endPos := 8, newText := qs "foo" }]
    (by decide) (List.reverse_perm _) (by decide) (by decide) (by decide)
  ⟨⟨⟨by decide, List.reverse_perm _, by decide, by decide, by decide⟩, by decide, by decide⟩,
    by decide, (h.2.1 (by decide)).1, (h.2.1 (by decide)).2,
    (h.2.2 (by decide) (by decide) (by decide)).1⟩

/-! ## Queued opens and document versions -/

theorem LspClient.sendMessage_running (env : QtEnv) (s : LspClient) (message : QJsonObject)
    (hrun : s.running = true) :
    LspClient.sendMessage env s message =
      { s with written := s.written ++ LspClient.frame env message } := by
  unfold LspClient.sendMessage LspClient.write LspClient.frame
  simp [hrun]

theorem LspClient.sendNotification_running (env : QtEnv) (s : LspClient) (method : QString)
    (params : QJsonObject) (hrun : s.running = true) :
    LspClient.sendNotification env s method params =
      { s with written := s.written ++
          LspClient.frame env (LspClient.notification method params) } :=
  LspClient.sendMessage_running env s _ hrun

theorem LspClient.openDocument_ready (env : QtEnv) (s : LspClient) (filePath text : QString)
    (hinit : s.initialized_ = true) (hrun : s.running = true) :
    LspClient.openDocument env s filePath text =
      { s with
        docVersions_ := Assoc.insert filePath (s.currentVersion filePath + 1) s.docVersions_,
        written := s.written ++ LspClient.frame env
          (LspClient.notification (qs "textDocument/didOpen")
            (LspClient.didOpenParams env filePath text (s.currentVersion filePath + 1))) } := by
  unfold LspClient.openDocument
  rw [if_neg (by simp [hinit])]
  exact LspClient.sendNotification_running env _ _ _ hrun

theorem LspClient.changeDocument_ready (env : QtEnv) (s : LspClient) (filePath text : QString)
    (hinit : s.initialized_ = true) (hrun : s.running = true) :
    LspClient.changeDocument env s filePath text =
      { s with
        docVersions_ := Assoc.insert filePath (s.currentVersion filePath + 1) s.docVersions_,
        written := s.written ++ LspClient.frame env
          (LspClient.notification (qs "textDocument/didChange")
            (LspClient.didChangeParams env filePath text (s.currentVersion filePath + 1))) } := by
  unfold LspClient.changeDocument
  rw [if_neg (by simp [hinit])]
  exact LspClient.sendNotification_running env _ _ _ hrun

theorem LspClient.currentVersion_insert (s : LspClient) (filePath g : QString) (v : Int)
    (written : List QByteArray) :
    LspClient.currentVersion
        { s with docVersions_ := Assoc.insert filePath v s.docVersions_, written := written } g =
      if g = filePath then v else s.currentVersion g := by
  unfold LspClient.currentVersion
  by_cases h : g = filePath
  · subst h
    simp [Assoc.find_insert_self]
  · simp [h, Assoc.find_insert_ne filePath g v s.docVersions_ h]

theorem LspClient.countQueued_append (g : QString) (sent : List (QString × QString))
    (p : QString × QString) :
    LspClient.countQueued g (sent ++ [p]) =
      LspClient.countQueued g sent + (if g = p.1 then 1 else 0) := by
  unfold LspClient.countQueued
  rw [List.filter_append, List.length_append]
  by_cases h : g = p.1
  · simp [List.filter, h]
  · have h2 : ¬ p.1 = g := fun e => h e.symm
    simp [List.filter, h, h2]

theorem LspClient.SameSession.transN {s r u : LspClient} (h1 : LspClient.SameSession s r)
    (h2 : LspClient.SameSession r u) : LspClient.SameSession s u := by
  unfold LspClient.SameSession at *
  obtain ⟨a1, a2, a3, a4, a5, a6, a7, a8, a9, a10, a11⟩ := h1
  obtain ⟨b1, b2, b3, b4, b5, b6, b7, b8, b9, b10, b11⟩ := h2
  exact ⟨b1.trans a1, b2.trans a2, b3.trans a3, b4.trans a4, b5.trans a5, b6.trans a6,
    b7.trans a7, b8.trans a8, b9.trans a9, b10.trans a10, b11.trans a11⟩

theorem LspClient.openDocument_facts (env : QtEnv) (s : LspClient) (filePath text : QString)
    (hinit : s.initialized_ = true) (hrun : s.running = true) :
    LspClient.SameSession s (LspClient.openDocument env s filePath text) ∧
    (LspClient.openDocument env s filePath text).written =
      s.written ++ LspClient.frame env (LspClient.notification (qs "textDocument/didOpen")
        (LspClient.didOpenParams env filePath text (s.currentVersion filePath + 1))) ∧
    ∀ g, (LspClient.openDocument env s filePath text).currentVersion g =
      if g = filePath then s.currentVersion filePath + 1 else s.currentVersion g := by
  rw [LspClient.openDocument_ready env s filePath text hinit hrun]
  exact ⟨⟨rfl, rfl, rfl, rfl, rfl, rfl, rfl, rfl, rfl, rfl, rfl⟩, rfl,
    fun g => LspClient.currentVersion_insert s filePath g _ _⟩

theorem LspClient.changeDocument_facts (env : QtEnv) (s : LspClient) (filePath text : QString)
    (hinit : s.initialized_ = true) (hrun : s.running = true) :
    LspClient.SameSession s (LspClient.changeDocument env s filePath text) ∧
    (LspClient.changeDocument env s filePath text).written =
      s.written ++ LspClient.frame env (LspClient.notification (qs "textDocument/didChange")
        (LspClient.didChangeParams env filePath text (s.currentVersion filePath + 1))) ∧
    ∀ g, (LspClient.changeDocument env s filePath text).currentVersion g =
      if g = filePath then s.currentVersion filePath + 1 else s.currentVersion g := by
  rw [LspClient.changeDocument_ready env s filePath text hinit hrun]
  exact ⟨⟨rfl, rfl, rfl, rfl, rfl, rfl, rfl, rfl, rfl, rfl, rfl⟩, rfl,
    fun g => LspClient.currentVersion_insert s filePath g _ _⟩

theorem LspClient.openAll_ready (env : QtEnv) (versionOf : QString → Int)
    (queue : List (QString × QString)) :
    ∀ (sent : List (QString × QString)) (t : LspClient),
      t.initialized_ = true → t.running = true →
      (∀ g, t.currentVersion g = versionOf g + LspClient.countQueued g sent) →
      LspClient.SameSession t
          (queue.foldl (fun st pair => LspClient.openDocument env st pair.1 pair.2) t) ∧
        (queue.foldl (fun st pair => LspClient.openDocument env st pair.1 pair.2) t).written =
          t.written ++ LspClient.didOpenFrames env versionOf sent queue ∧
        ∀ g, (queue.foldl (fun st pair => LspClient.openDocument env st pair.1 pair.2)
            t).currentVersion g = versionOf g + LspClient.countQueued g (sent ++ queue) := by
  induction queue with
  | nil =>
    intro sent t _ _ hv
    refine ⟨⟨rfl, rfl, rfl, rfl, rfl, rfl, rfl, rfl, rfl, rfl, rfl⟩, ?_, ?_⟩
    · simp [LspClient.didOpenFrames]
    · simpa using hv
  | cons p rest ih =>
    intro sent t hinit hrun hv
    obtain ⟨f1, f2, f3⟩ := LspClient.openDocument_facts env t p.1 p.2 hinit hrun
    rw [List.foldl_cons]
    obtain ⟨h1, h2, h3⟩ := ih (sent ++ [p]) (LspClient.openDocument env t p.1 p.2)
      (f1.2.2.2.1.trans hinit) (f1.1.trans hrun) (fun g => by
        rw [f3 g, LspClient.countQueued_append, hv g, hv p.1]
        by_cases h : g = p.1
        · subst h
          simp
          ring
        · simp [h])
    refine ⟨f1.transN h1, ?_, ?_⟩
    · rw [h2, f2, hv p.1]
      simp [LspClient.didOpenFrames, List.append_assoc]
    · intro g
      rw [h3 g]
      simp [List.append_assoc]

theorem LspClient.step_before_ready (env : QtEnv) (s : LspClient) (a : LspAction)
    (hnot : s.initialized_ = false) (ha : a.isDocumentCall = true) :
    LspClient.step env s a =
      some { s with pendingOpenDocs_ := s.pendingOpenDocs_ ++ a.openedDocument.toList } := by
  cases s
  simp only at hnot
  subst hnot
  cases a <;> first
    | (simp [LspAction.isDocumentCall] at ha; done)
    | (simp [LspClient.step, LspClient.openDocument, LspClient.changeDocument,
        LspClient.saveDocument, LspClient.requestCompletion, LspClient.requestDocumentSymbols,
        LspClient.requestFoldingRanges, LspClient.requestSemanticTokens,
        LspClient.requestDefinition, LspClient.requestReferences, LspClient.requestRename,
        LspAction.openedDocument])

theorem LspClient.run_before_ready (env : QtEnv) (acts : List LspAction) :
    ∀ (s : LspClient), s.initialized_ = false → (∀ a ∈ acts, a.isDocumentCall = true) →
      LspClient.run env s acts =
        some { s with pendingOpenDocs_ :=
          s.pendingOpenDocs_ ++ acts.filterMap LspAction.openedDocument } := by
  induction acts with
  | nil => intro s _ _; simp [LspClient.run]
  | cons a rest ih =>
    intro s hnot hcalls
    rw [LspClient.run, LspClient.step_before_ready env s a hnot (hcalls a (List.mem_cons_self _ _)),
      Option.some_bind,
      ih { s with pendingOpenDocs_ := s.pendingOpenDocs_ ++ a.openedDocument.toList } hnot
        (fun b hb => hcalls b (List.mem_cons_of_mem _ hb))]
    cases h : a.openedDocument <;> simp [List.filterMap_cons, h]

theorem LspClient.tagMethod_initialize :
    LspClient.tagMethod (qs "initialize") = qs "initialize" := by decide

theorem LspClient.handleReply_initialize_eq (env : QtEnv) (s : LspClient) (filePath : QString)
    (message : QJsonObject) :
    LspClient.handleReply env s (qs "initialize") filePath message =
      LspClient.flushPendingOpenDocs env
        (LspClient.sendNotification env (s.markInitialized message) (qs "initialized") []) := by
  unfold LspClient.handleReply LspClient.markInitialized LspClient.replyLegend
  simp only [if_true]

theorem LspClient.markInitialized_fields (s : LspClient) (message : QJsonObject) :
    (s.markInitialized message).running = s.running ∧
    (s.markInitialized message).written = s.written ∧
    (s.markInitialized message).docVersions_ = s.docVersions_ ∧
    (s.markInitialized message).initialized_ = true ∧
    (s.markInitialized message).pendingOpenDocs_ = s.pendingOpenDocs_ ∧
    (s.markInitialized message).emitted = s.emitted ∧
    (s.markInitialized message).pendingRequests_ = s.pendingRequests_ ∧
    (s.markInitialized message).nextId_ = s.nextId_ := by
  unfold LspClient.markInitialized
  split <;> exact ⟨rfl, rfl, rfl, rfl, rfl, rfl, rfl, rfl⟩

theorem LspClient.handleReply_initialize (env : QtEnv) (s : LspClient) (filePath : QString)
    (message : QJsonObject) (hrun : s.running = true) :
    (LspClient.handleReply env s (qs "initialize") filePath message).written =
      s.written ++ LspClient.frame env (LspClient.notification (qs "initialized") []) ++
        LspClient.didOpenFrames env s.currentVersion [] s.pendingOpenDocs_ ∧
    (LspClient.handleReply env s (qs "initialize") filePath message).pendingOpenDocs_ = [] ∧
    (LspClient.handleReply env s (qs "initialize") filePath message).initialized_ = true ∧
    (LspClient.handleReply env s (qs "initialize") filePath message).running = true ∧
    (LspClient.handleReply env s (qs "initialize") filePath message).emitted = s.emitted ∧
    (LspClient.handleReply env s (qs "initialize") filePath message).pendingRequests_ =
      s.pendingRequests_ ∧
    (LspClient.handleReply env s (qs "initialize") filePath message).nextId_ = s.nextId_ ∧
    ∀ g, (LspClient.handleReply env s (qs "initialize") filePath message).currentVersion g =
      s.currentVersion g + LspClient.countQueued g s.pendingOpenDocs_ := by
  rw [LspClient.handleReply_initialize_eq]
  obtain ⟨k1, k2, k3, k4, k5, k6, k7, k8⟩ := LspClient.markInitialized_fields s message
  rw [LspClient.sendNotification_running env _ _ _ (k1.trans hrun)]
  obtain ⟨t, ht⟩ : ∃ t : LspClient, t = { s.markInitialized message with
      written := (s.markInitialized message).written ++
        LspClient.frame env (LspClient.notification (qs "initialized") []) } := ⟨_, rfl⟩
  rw [← ht]
  have q1 : t.running = true := by rw [ht]; exact k1.trans hrun
  have q2 : t.written = s.written ++
      LspClient.frame env (LspClient.notification (qs "initialized") []) := by
    rw [ht]; show (s.markInitialized message).written ++ _ = _; rw [k2]
  have q3 : t.docVersions_ = s.docVersions_ := by rw [ht]; exact k3
  have q4 : t.initialized_ = true := by rw [ht]; exact k4
  have q5 : t.pendingOpenDocs_ = s.pendingOpenDocs_ := by rw [ht]; exact k5
  have q6 : t.emitted = s.emitted := by rw [ht]; exact k6
  have q7 : t.pendingRequests_ = s.pendingRequests_ := by rw [ht]; exact k7
  have q8 : t.nextId_ = s.nextId_ := by rw [ht]; exact k8
  obtain ⟨h1, h2, h3⟩ := LspClient.openAll_ready env s.currentVersion t.pendingOpenDocs_ [] t
    q4 q1 (fun g => by
      show (Assoc.find g t.docVersions_).getD 0 = _
      rw [q3]
      simp [LspClient.currentVersion, LspClient.countQueued])
  unfold LspClient.flushPendingOpenDocs
  refine ⟨?_, rfl, ?_, ?_, ?_, ?_, ?_, ?_⟩
  · show (List.foldl _ t t.pendingOpenDocs_).written = _
    rw [h2, q2, q5]
  · exact h1.2.2.2.1.trans q4
  · exact h1.1.trans q1
  · exact h1.2.2.2.2.2.2.2.2.2.2.trans q6
  · exact h1.2.2.2.2.2.2.2.2.1.trans q7
  · exact h1.2.2.1.trans q8
  · intro g
    have h4 := h3 g
    rw [List.nil_append] at h4
    show (Assoc.find g (List.foldl _ t t.pendingOpenDocs_).docVersions_).getD 0 = _
    rw [← q5]
    exact h4

/-- Claim C15.  Let a running session wait for the reply to `initialize`.  A
sequence of `openDocument`, `changeDocument`, `saveDocument` and request calls
appends the opens to the queue and changes nothing else: the other calls leave
the state as it is and nothing is written.  When the reply to `initialize` is
then handled, the `initialized` notification is written first and after it one
`textDocument/didOpen` notification for every queued open, in the order of the
calls, and the queue is empty afterwards. -/
theorem LspClient.queued_opens_replayed (env : QtEnv) (s : LspClient) (acts : List LspAction)
    (message : QJsonObject)
    (hrun : s.running = true) (hnot : s.initialized_ = false)
    (hcalls : ∀ a ∈ acts, a.isDocumentCall = true)
    (hreply : LspClient.isReply message = true)
    (htag : Assoc.find (LspClient.replyId message) s.pendingRequests_ = some (qs "initialize")) :
    LspClient.run env s acts =
      some { s with pendingOpenDocs_ :=
        s.pendingOpenDocs_ ++ acts.filterMap LspAction.openedDocument } ∧
    ∃ r, (LspClient.run env s acts).map (fun s1 => LspClient.handleMessage env s1 message) =
        some r ∧
      r.written = s.written ++
        LspClient.frame env (LspClient.notification (qs "initialized") []) ++
        LspClient.didOpenFrames env s.currentVersion []
          (s.pendingOpenDocs_ ++ acts.filterMap LspAction.openedDocument) ∧
      r.pendingOpenDocs_ = [] ∧ r.initialized_ = true ∧ r.emitted = s.emitted ∧
      r.nextId_ = s.nextId_ ∧
      r.pendingRequests_ = Assoc.erase (LspClient.replyId message) s.pendingRequests_ := by
  have h1 := LspClient.run_before_ready env acts s hnot hcalls
  refine ⟨h1, _, by rw [h1]; rfl, ?_⟩
  simp only []
  rw [LspClient.handleMessage_reply env _ message hreply]
  simp only [htag, Option.getD_some, LspClient.tagMethod_initialize]
  obtain ⟨k1, k2, k3, _, k5, k6, k7, _⟩ := LspClient.handleReply_initialize env
    { s with
      pendingOpenDocs_ := s.pendingOpenDocs_ ++ acts.filterMap LspAction.openedDocument,
      pendingRequests_ := Assoc.erase (LspClient.replyId message) s.pendingRequests_ }
    (LspClient.tagFilePath (qs "initialize")) message hrun
  exact ⟨k1, k2, k3, k5, k7, k6⟩

theorem LspClient.queued_opens_replayed_witness :
    (LspClient.sampleStarted.running = true ∧ LspClient.sampleStarted.initialized_ = false ∧
      (∀ a ∈ LspClient.sampleEarlyCalls, a.isDocumentCall = true) ∧
      LspClient.isReply LspClient.sampleInitializeReply = true ∧
      Assoc.find (LspClient.replyId LspClient.sampleInitializeReply)
        LspClient.sampleStarted.pendingRequests_ = some (qs "initialize")) ∧
    LspClient.sampleEarlyCalls.filterMap LspAction.openedDocument =
      [(qs "a.cpp", qs "int x;"), (qs "b.cpp", qs "int b;"), (qs "a.cpp", qs "int z;")] ∧
    LspClient.run QtEnv.sample LspClient.sampleStarted LspClient.sampleEarlyCalls =
      some { LspClient.sampleStarted with
        pendingOpenDocs_ := LspClient.sampleStarted.pendingOpenDocs_ ++
          LspClient.sampleEarlyCalls.filterMap LspAction.openedDocument } ∧
    LspClient.didOpenFrames QtEnv.sample LspClient.sampleStarted.currentVersion []
        [(qs "a.cpp", qs "int x;"), (qs "b.cpp", qs "int b;"), (qs "a.cpp", qs "int z;")] =
      LspClient.frame QtEnv.sample (LspClient.notification (qs "textDocument/didOpen")
        (LspClient.didOpenParams QtEnv.sample (qs "a.cpp") (qs "int x;") 1)) ++
      LspClient.frame QtEnv.sample (LspClient.notification (qs "textDocument/didOpen")
        (LspClient.didOpenParams QtEnv.sample (qs "b.cpp") (qs "int b;") 1)) ++
      LspClient.frame QtEnv.sample (LspClient.notification (qs "textDocument/didOpen")
        (LspClient.didOpenParams QtEnv.sample (qs "a.cpp") (qs "int z;") 2)) :=
  ⟨⟨by decide, by decide, by decide, by decide, by decide⟩, by decide,
    (LspClient.queued_opens_replayed QtEnv.sample LspClient.sampleStarted
      LspClient.sampleEarlyCalls LspClient.sampleInitializeReply (by decide) (by decide)
      (by decide) (by decide) (by decide)).1,
    by decide⟩

/-! ## Document versions -/

theorem LspClient.SameDocs.reflD (s : LspClient) : LspClient.SameDocs s s := ⟨rfl, rfl, rfl⟩

theorem LspClient.SameDocs.transD {s r u : LspClient} (h1 : LspClient.SameDocs s r)
    (h2 : LspClient.SameDocs r u) : LspClient.SameDocs s u :=
  ⟨h2.1.trans h1.1, h2.2.1.trans h1.2.1, h2.2.2.trans h1.2.2⟩

theorem LspClient.write_docs (s : LspClient) (d : QByteArray) :
    LspClient.SameDocs s (s.write d) := by
  unfold LspClient.write
  split <;> exact ⟨rfl, rfl, rfl⟩

theorem LspClient.sendMessage_docs (env : QtEnv) (s : LspClient) (m : QJsonObject) :
    LspClient.SameDocs s (LspClient.sendMessage env s m) :=
  (LspClient.write_docs s _).transD (LspClient.write_docs _ _)

theorem LspClient.sendNotification_docs (env : QtEnv) (s : LspClient) (m : QString)
    (p : QJsonObject) : LspClient.SameDocs s (LspClient.sendNotification env s m p) :=
  LspClient.sendMessage_docs env s _

theorem LspClient.sendRequest_docs (env : QtEnv) (s : LspClient) (m : QString)
    (p : QJsonObject) : LspClient.SameDocs s (LspClient.sendRequest env s m p).1 := by
  have h := LspClient.sendMessage_docs env
    { s with nextId_ := s.nextId_ + 1,
             pendingRequests_ := Assoc.insert s.nextId_ m s.pendingRequests_ }
    (jsonObject [(qs "jsonrpc", .string (qs "2.0")), (qs "id", .number s.nextId_),
      (qs "method", .string m), (qs "params", .object p)])
  exact h

theorem LspClient.requestWithPath_docs (env : QtEnv) (s : LspClient) (m f : QString)
    (p : QJsonObject) : LspClient.SameDocs s (LspClient.requestWithPath env s m f p) := by
  have h := LspClient.sendRequest_docs env s m p
  unfold LspClient.requestWithPath
  exact h

theorem LspClient.saveDocument_docs (env : QtEnv) (s : LspClient) (f : QString) :
    LspClient.SameDocs s (LspClient.saveDocument env s f) := by
  unfold LspClient.saveDocument
  split
  · exact LspClient.SameDocs.reflD s
  · exact LspClient.sendNotification_docs env s _ _

theorem LspClient.request_docs (env : QtEnv) (s : LspClient) (a : LspAction)
    (ha : a.isDocumentCall = true) (hv : a.versionedFile = none) :
    ∃ r, LspClient.step env s a = some r ∧ LspClient.SameDocs s r := by
  cases a with
  | openDocument f t => cases hv
  | changeDocument f t => cases hv
  | saveDocument f => exact ⟨_, rfl, LspClient.saveDocument_docs env s f⟩
  | requestCompletion f l c =>
    refine ⟨_, rfl, ?_⟩
    unfold LspClient.requestCompletion
    split
    · exact LspClient.SameDocs.reflD s
    · exact LspClient.sendRequest_docs env s _ _
  | requestDocumentSymbols f =>
    refine ⟨_, rfl, ?_⟩
    unfold LspClient.requestDocumentSymbols
    split
    · exact LspClient.SameDocs.reflD s
    · exact LspClient.requestWithPath_docs env s _ _ _
  | requestFoldingRanges f =>
    refine ⟨_, rfl, ?_⟩
    unfold LspClient.requestFoldingRanges
    split
    · exact LspClient.SameDocs.reflD s
    · exact LspClient.requestWithPath_docs env s _ _ _
  | requestSemanticTokens f =>
    refine ⟨_, rfl, ?_⟩
    unfold LspClient.requestSemanticTokens
    split
    · exact LspClient.SameDocs.reflD s
    · exact LspClient.requestWithPath_docs env s _ _ _
  | requestDefinition f l c =>
    refine ⟨_, rfl, ?_⟩
    unfold LspClient.requestDefinition
    split
    · exact LspClient.SameDocs.reflD s
    · exact LspClient.requestWithPath_docs env s _ _ _
  | requestReferences f l c =>
    refine ⟨_, rfl, ?_⟩
    unfold LspClient.requestReferences
    split
    · exact LspClient.SameDocs.reflD s
    · exact LspClient.requestWithPath_docs env s _ _ _
  | requestRename f l c n =>
    refine ⟨_, rfl, ?_⟩
    unfold LspClient.requestRename
    split
    · exact LspClient.SameDocs.reflD s
    · exact LspClient.requestWithPath_docs env s _ _ _
  | start r ok => cases ha
  | stop => cases ha
  | setCurrentDocument d f => cases ha
  | readyRead b => cases ha
  | error c => cases ha
  | processExited => cases ha

theorem LspClient.SameDocs.version {s r : LspClient} (h : LspClient.SameDocs s r)
    (g : QString) : r.currentVersion g = s.currentVersion g := by
  unfold LspClient.currentVersion
  rw [h.1]

/-- One document call in a session that is ready: the session stays ready and
the version of the file of an open or change call grows by one. -/
theorem LspClient.step_ready (env : QtEnv) (s : LspClient) (a : LspAction)
    (hinit : s.initialized_ = true) (hrun : s.running = true)
    (ha : a.isDocumentCall = true) :
    ∃ r, LspClient.step env s a = some r ∧ r.initialized_ = true ∧ r.running = true ∧
      ∀ g, r.currentVersion g =
        s.currentVersion g + (if a.versionedFile = some g then 1 else 0) := by
  cases hv : a.versionedFile with
  | none =>
    obtain ⟨r, h1, h2⟩ := LspClient.request_docs env s a ha hv
    exact ⟨r, h1, h2.2.1.trans hinit, h2.2.2.trans hrun, fun g => by simp [h2.version g]⟩
  | some f =>
    cases a with
    | openDocument f1 t =>
      simp only [LspAction.versionedFile, Option.some.injEq] at hv
      subst hv
      obtain ⟨k1, _, k3⟩ := LspClient.openDocument_facts env s f1 t hinit hrun
      refine ⟨_, rfl, k1.2.2.2.1.trans hinit, k1.1.trans hrun, fun g => ?_⟩
      rw [k3 g]
      by_cases h : g = f1
      · subst h; simp
      · have h2 : ¬ f1 = g := fun e => h e.symm
        simp [h, h2]
    | changeDocument f1 t =>
      simp only [LspAction.versionedFile, Option.some.injEq] at hv
      subst hv
      obtain ⟨k1, _, k3⟩ := LspClient.changeDocument_facts env s f1 t hinit hrun
      refine ⟨_, rfl, k1.2.2.2.1.trans hinit, k1.1.trans hrun, fun g => ?_⟩
      rw [k3 g]
      by_cases h : g = f1
      · subst h; simp
      · have h2 : ¬ f1 = g := fun e => h e.symm
        simp [h, h2]
    | saveDocument f => cases hv
    | requestCompletion f l c => cases hv
    | requestDocumentSymbols f => cases hv
    | requestFoldingRanges f => cases hv
    | requestSemanticTokens f => cases hv
    | requestDefinition f l c => cases hv
    | requestReferences f l c => cases hv
    | requestRename f l c n => cases hv
    | start r ok => cases hv
    | stop => cases hv
    | setCurrentDocument d f => cases hv
    | readyRead b => cases hv
    | error c => cases hv
    | processExited => cases hv

theorem LspAction.countFor_cons (g : QString) (a : LspAction) (rest : List LspAction) :
    (LspAction.countFor g (a :: rest) : Int) =
      (if a.versionedFile = some g then 1 else 0) + LspAction.countFor g rest := by
  unfold LspAction.countFor
  by_cases h : a.versionedFile = some g
  · simp [List.filter, h]; ring
  · simp [List.filter, h]

theorem LspClient.run_ready (env : QtEnv) (acts : List LspAction) :
    ∀ (s : LspClient), s.initialized_ = true → s.running = true →
      (∀ a ∈ acts, a.isDocumentCall = true) →
      ∃ r, LspClient.run env s acts = some r ∧ r.initialized_ = true ∧ r.running = true ∧
        ∀ g, r.currentVersion g = s.currentVersion g + LspAction.countFor g acts := by
  induction acts with
  | nil => intro s hinit hrun _; exact ⟨s, rfl, hinit, hrun, fun g => by simp [LspAction.countFor]⟩
  | cons a rest ih =>
    intro s hinit hrun hcalls
    obtain ⟨r1, h1, i1, r1run, v1⟩ := LspClient.step_ready env s a hinit hrun
      (hcalls a (List.mem_cons_self _ _))
    obtain ⟨r, h2, i2, r2run, v2⟩ := ih r1 i1 r1run
      (fun b hb => hcalls b (List.mem_cons_of_mem _ hb))
    refine ⟨r, by rw [LspClient.run, h1]; exact h2, i2, r2run, fun g => ?_⟩
    rw [v2 g, v1 g, LspAction.countFor_cons]
    ring

theorem LspClient.VersionsGrow.reflG (s : LspClient) : LspClient.VersionsGrow s s :=
  fun _ => le_refl _

theorem LspClient.VersionsGrow.transG {s r u : LspClient} (h1 : LspClient.VersionsGrow s r)
    (h2 : LspClient.VersionsGrow r u) : LspClient.VersionsGrow s u :=
  fun g => le_trans (h1 g) (h2 g)

theorem LspClient.SameDocs.grow {s r : LspClient} (h : LspClient.SameDocs s r) :
    LspClient.VersionsGrow s r :=
  fun g => le_of_eq (h.version g).symm

theorem LspClient.bumpVersion_grow (s : LspClient) (f : QString) :
    LspClient.VersionsGrow s (s.bumpVersion f).1 := by
  intro g
  show s.currentVersion g ≤ (Assoc.find g (Assoc.insert f (s.currentVersion f + 1)
    s.docVersions_)).getD 0
  by_cases h : g = f
  · subst h
    rw [Assoc.find_insert_self]
    simp
  · rw [Assoc.find_insert_ne f g _ s.docVersions_ h]
    exact le_refl _

theorem LspClient.openDocument_grow (env : QtEnv) (s : LspClient) (f t : QString) :
    LspClient.VersionsGrow s (LspClient.openDocument env s f t) := by
  unfold LspClient.openDocument
  split
  · exact LspClient.VersionsGrow.reflG s
  · exact (LspClient.bumpVersion_grow s f).transG (LspClient.sendNotification_docs env _ _ _).grow

theorem LspClient.changeDocument_grow (env : QtEnv) (s : LspClient) (f t : QString) :
    LspClient.VersionsGrow s (LspClient.changeDocument env s f t) := by
  unfold LspClient.changeDocument
  split
  · exact LspClient.VersionsGrow.reflG s
  · exact (LspClient.bumpVersion_grow s f).transG (LspClient.sendNotification_docs env _ _ _).grow

theorem LspClient.openAll_grow (env : QtEnv) (docs : List (QString × QString)) :
    ∀ s : LspClient, LspClient.VersionsGrow s
      (docs.foldl (fun st pair => LspClient.openDocument env st pair.1 pair.2) s) := by
  induction docs with
  | nil => intro s; exact LspClient.VersionsGrow.reflG s
  | cons d ds ih =>
    intro s
    exact (LspClient.openDocument_grow env s d.1 d.2).transG (ih _)

theorem LspClient.flushPendingOpenDocs_grow (env : QtEnv) (s : LspClient) :
    LspClient.VersionsGrow s (LspClient.flushPendingOpenDocs env s) :=
  LspClient.openAll_grow env s.pendingOpenDocs_ s

theorem LspClient.handleReply_grow (env : QtEnv) (s : LspClient) (m f : QString)
    (msg : QJsonObject) : LspClient.VersionsGrow s (LspClient.handleReply env s m f msg) := by
  by_cases hm : m = qs "initialize"
  · subst hm
    rw [LspClient.handleReply_initialize_eq]
    have h1 : LspClient.VersionsGrow s (s.markInitialized msg) := by
      intro g
      unfold LspClient.currentVersion
      rw [(LspClient.markInitialized_fields s msg).2.2.1]
    exact (h1.transG (LspClient.sendNotification_docs env _ _ _).grow).transG
      (LspClient.flushPendingOpenDocs_grow env _)
  · unfold LspClient.handleReply
    simp only []
    rw [if_neg hm]
    repeat (first | exact LspClient.VersionsGrow.reflG _ | split)

theorem LspClient.handleMessage_grow (env : QtEnv) (s : LspClient) (msg : QJsonObject) :
    LspClient.VersionsGrow s (LspClient.handleMessage env s msg) := by
  unfold LspClient.handleMessage
  simp only []
  split
  · exact LspClient.handleReply_grow env
      { s with pendingRequests_ :=
          Assoc.erase ((QJsonObject.value msg (qs "id")).toInt 0) s.pendingRequests_ } _ _ msg
  · repeat (first | exact LspClient.VersionsGrow.reflG _ | split)

theorem LspClient.onFrame_grow (env : QtEnv) (s : LspClient) (body : QByteArray) :
    LspClient.VersionsGrow s (LspClient.onFrame env s body) := by
  unfold LspClient.onFrame
  simp only []
  split
  · exact LspClient.VersionsGrow.reflG _
  · exact LspClient.handleMessage_grow env s _

theorem LspClient.parseBufferWith_grow (env : QtEnv) :
    ∀ (fuel : Nat) (s : LspClient) (buf : QByteArray) (r : LspClient × QByteArray),
      LspClient.parseBufferWith (LspClient.onFrame env) fuel s buf = some r →
      LspClient.VersionsGrow s r.1 := by
  intro fuel
  induction fuel with
  | zero => intro s buf r h; simp [LspClient.parseBufferWith] at h
  | succ n ih =>
    intro s buf r h
    rw [LspClient.parseBufferWith] at h
    split at h
    · cases h; exact LspClient.VersionsGrow.reflG _
    · simp only [] at h
      split at h
      · simp at h
      · split at h
        · exact ih _ _ _ h
        · split at h
          · simp at h
          · split at h
            · cases h; exact LspClient.VersionsGrow.reflG _
            · exact (LspClient.onFrame_grow env s _).transG (ih _ _ _ h)

theorem LspClient.stop_docs (env : QtEnv) (s : LspClient) :
    (LspClient.stop env s).docVersions_ = s.docVersions_ := by
  unfold LspClient.stop
  split
  · rfl
  · simp only []
    split
    · exact ((LspClient.sendRequest_docs env s _ _).transD
        (LspClient.sendNotification_docs env _ _ _)).1
    · rfl

theorem LspClient.step_grow (env : QtEnv) (s s1 : LspClient) (a : LspAction)
    (ha : a.isStart = false) (h : LspClient.step env s a = some s1) :
    LspClient.VersionsGrow s s1 := by
  by_cases hd : a.isDocumentCall = true
  · cases hv : a.versionedFile with
    | none =>
      obtain ⟨r, h1, h2⟩ := LspClient.request_docs env s a hd hv
      rw [h1] at h
      cases h
      exact h2.grow
    | some f =>
      cases a with
      | openDocument f1 t =>
        simp only [LspClient.step, Option.some.injEq] at h
        subst h
        exact LspClient.openDocument_grow env s f1 t
      | changeDocument f1 t =>
        simp only [LspClient.step, Option.some.injEq] at h
        subst h
        exact LspClient.changeDocument_grow env s f1 t
      | saveDocument f => cases hv
      | requestCompletion f l c => cases hv
      | requestDocumentSymbols f => cases hv
      | requestFoldingRanges f => cases hv
      | requestSemanticTokens f => cases hv
      | requestDefinition f l c => cases hv
      | requestReferences f l c => cases hv
      | requestRename f l c n => cases hv
      | start r ok => cases hv
      | stop => cases hv
      | setCurrentDocument d f => cases hv
      | readyRead b => cases hv
      | error c => cases hv
      | processExited => cases hv
  · cases a with
    | start r ok => cases ha
    | stop =>
      simp only [LspClient.step, Option.some.injEq] at h
      subst h
      intro g
      unfold LspClient.currentVersion
      rw [LspClient.stop_docs]
    | setCurrentDocument d f =>
      simp only [LspClient.step, Option.some.injEq] at h
      subst h
      exact LspClient.VersionsGrow.reflG _
    | readyRead b =>
      simp only [LspClient.step, LspClient.handleReadyRead, Option.map_eq_some'] at h
      obtain ⟨r, hr, rfl⟩ := h
      exact LspClient.parseBufferWith_grow env _ _ _ _ hr
    | error c =>
      simp only [LspClient.step, Option.some.injEq] at h
      subst h
      exact LspClient.VersionsGrow.reflG _
    | processExited =>
      simp only [LspClient.step, Option.some.injEq] at h
      subst h
      exact LspClient.VersionsGrow.reflG _
    | openDocument f t => exact absurd rfl hd
    | changeDocument f t => exact absurd rfl hd
    | saveDocument f => exact absurd rfl hd
    | requestCompletion f l c => exact absurd rfl hd
    | requestDocumentSymbols f => exact absurd rfl hd
    | requestFoldingRanges f => exact absurd rfl hd
    | requestSemanticTokens f => exact absurd rfl hd
    | requestDefinition f l c => exact absurd rfl hd
    | requestReferences f l c => exact absurd rfl hd
    | requestRename f l c n => exact absurd rfl hd

theorem LspClient.run_grow (env : QtEnv) (acts : List LspAction) :
    ∀ (s s1 : LspClient), (∀ a ∈ acts, a.isStart = false) →
      LspClient.run env s acts = some s1 → LspClient.VersionsGrow s s1 := by
  induction acts with
  | nil =>
    intro s s1 _ h
    simp only [LspClient.run, Option.some.injEq] at h
    subst h
    exact LspClient.VersionsGrow.reflG _
  | cons a rest ih =>
    intro s s1 hs h
    rw [LspClient.run] at h
    cases h1 : LspClient.step env s a with
    | none => rw [h1] at h; cases h
    | some s2 =>
      rw [h1] at h
      exact (LspClient.step_grow env s s2 a (hs a (List.mem_cons_self _ _)) h1).transG
        (ih s2 s1 (fun b hb => hs b (List.mem_cons_of_mem _ hb)) h)

theorem LspClient.start_versions (env : QtEnv) (s : LspClient) (rootDir : QString)
    (startedOk : Bool) (g : QString) :
    (LspClient.start env s rootDir startedOk).currentVersion g = 0 := by
  unfold LspClient.start
  simp only []
  split
  · rfl
  · unfold LspClient.initializeServer
    rw [(LspClient.sendRequest_docs env _ _ _).version g]
    rfl

/-- Claim C16.  In the session that `start` opens every document version is 0.
Let `early` be the document calls made before the reply to `initialize`, let the
reply be handled, and let `pre` be document calls made after it.  The queued
opens are then sent with the versions 1, 2, ... per file, and an `openDocument`
or `changeDocument` call for a file that follows sends the number of open and
change notifications sent for that file so far plus one, which becomes the
version of the file, while the versions of all other files stay as they are.  No
call or event other than `start` lowers the version of a file. -/
theorem LspClient.document_versions (env : QtEnv) (s0 : LspClient) (rootDir : QString)
    (early : List LspAction) (message : QJsonObject) (pre later : List LspAction)
    (filePath text : QString)
    (hearly : ∀ a ∈ early, a.isDocumentCall = true)
    (hreply : LspClient.isReply message = true)
    (htag : Assoc.find (LspClient.replyId message)
      (LspClient.start env s0 rootDir true).pendingRequests_ = some (qs "initialize"))
    (hpre : ∀ a ∈ pre, a.isDocumentCall = true)
    (hlater : ∀ a ∈ later, a.isStart = false) :
    (∀ g, (LspClient.start env s0 rootDir true).currentVersion g = 0) ∧
    (∃ ready sp : LspClient,
      (LspClient.run env (LspClient.start env s0 rootDir true) early).map
        (fun s1 => LspClient.handleMessage env s1 message) = some ready ∧
      ready.written = (LspClient.start env s0 rootDir true).written ++
        LspClient.frame env (LspClient.notification (qs "initialized") []) ++
        LspClient.didOpenFrames env (fun _ => 0) [] (early.filterMap LspAction.openedDocument) ∧
      LspClient.run env ready pre = some sp ∧
      sp.currentVersion filePath =
        LspClient.countQueued filePath (early.filterMap LspAction.openedDocument) +
          LspAction.countFor filePath pre ∧
      (LspClient.openDocument env sp filePath text).written = sp.written ++
        LspClient.frame env (LspClient.notification (qs "textDocument/didOpen")
          (LspClient.didOpenParams env filePath text
            (LspClient.countQueued filePath (early.filterMap LspAction.openedDocument) +
              LspAction.countFor filePath pre + 1))) ∧
      (LspClient.changeDocument env sp filePath text).written = sp.written ++
        LspClient.frame env (LspClient.notification (qs "textDocument/didChange")
          (LspClient.didChangeParams env filePath text
            (LspClient.countQueued filePath (early.filterMap LspAction.openedDocument) +
              LspAction.countFor filePath pre + 1))) ∧
      (∀ g, (LspClient.openDocument env sp filePath text).currentVersion g =
        if g = filePath then sp.currentVersion filePath + 1 else sp.currentVersion g) ∧
      (∀ g, (LspClient.changeDocument env sp filePath text).currentVersion g =
        if g = filePath then sp.currentVersion filePath + 1 else sp.currentVersion g)) ∧
    (∀ t r : LspClient, LspClient.run env t later = some r →
      ∀ g, t.currentVersion g ≤ r.currentVersion g) := by
  have hzero : (LspClient.start env s0 rootDir true).currentVersion = fun _ => 0 :=
    funext (LspClient.start_versions env s0 rootDir true)
  have hrun : (LspClient.start env s0 rootDir true).running = true := by
    unfold LspClient.start LspClient.initializeServer
    simp only [Bool.true_eq_false, if_false]
    exact (LspClient.sendRequest_docs env _ _ _).2.2
  have hnot : (LspClient.start env s0 rootDir true).initialized_ = false := by
    unfold LspClient.start LspClient.initializeServer
    simp only [Bool.true_eq_false, if_false]
    exact (LspClient.sendRequest_docs env _ _ _).2.1
  have hqueue : (LspClient.start env s0 rootDir true).pendingOpenDocs_ = [] := by
    unfold LspClient.start LspClient.initializeServer LspClient.sendRequest LspClient.sendMessage
      LspClient.write
    simp only [Bool.true_eq_false, if_false]
    split <;> rfl
  refine ⟨LspClient.start_versions env s0 rootDir true, ?_,
    fun t r h => LspClient.run_grow env later t r hlater h⟩
  have h1 := LspClient.run_before_ready env early _ hnot hearly
  obtain ⟨k1, k2, k3, k4, k5, k6, k7, k8⟩ := LspClient.handleReply_initialize env
    { LspClient.start env s0 rootDir true with
      pendingOpenDocs_ := (LspClient.start env s0 rootDir true).pendingOpenDocs_ ++
        early.filterMap LspAction.openedDocument,
      pendingRequests_ := Assoc.erase (LspClient.replyId message)
        (LspClient.start env s0 rootDir true).pendingRequests_ }
    (LspClient.tagFilePath (qs "initialize")) message hrun
  have hready : (LspClient.run env (LspClient.start env s0 rootDir true) early).map
      (fun s1 => LspClient.handleMessage env s1 message) =
      some (LspClient.handleReply env
        { LspClient.start env s0 rootDir true with
          pendingOpenDocs_ := (LspClient.start env s0 rootDir true).pendingOpenDocs_ ++
            early.filterMap LspAction.openedDocument,
          pendingRequests_ := Assoc.erase (LspClient.replyId message)
            (LspClient.start env s0 rootDir true).pendingRequests_ }
        (qs "initialize") (LspClient.tagFilePath (qs "initialize")) message) := by
    rw [h1]
    simp only [Option.map_some']
    rw [LspClient.handleMessage_reply env _ message hreply]
    simp only [htag, Option.getD_some, LspClient.tagMethod_initialize]
  obtain ⟨sp, p1, p2, p3, p4⟩ := LspClient.run_ready env pre _ k3 k4 hpre
  have hsp : sp.currentVersion filePath =
      LspClient.countQueued filePath (early.filterMap LspAction.openedDocument) +
        LspAction.countFor filePath pre := by
    rw [p4 filePath, k8 filePath]
    show (LspClient.start env s0 rootDir true).currentVersion filePath +
      (LspClient.countQueued filePath ((LspClient.start env s0 rootDir true).pendingOpenDocs_ ++
        early.filterMap LspAction.openedDocument) : Int) + _ = _
    rw [hqueue, LspClient.start_versions]
    simp
  obtain ⟨_, o2, o3⟩ := LspClient.openDocument_facts env sp filePath text p2 p3
  obtain ⟨_, c2, c3⟩ := LspClient.changeDocument_facts env sp filePath text p2 p3
  refine ⟨_, sp, hready, ?_, p1, hsp, ?_, ?_, o3, c3⟩
  · rw [k1]
    show _ ++ _ ++ LspClient.didOpenFrames env (LspClient.start env s0 rootDir true).currentVersion
      [] ((LspClient.start env s0 rootDir true).pendingOpenDocs_ ++
        early.filterMap LspAction.openedDocument) = _
    rw [hzero, hqueue]
    rfl
  · rw [o2, hsp]
  · rw [c2, hsp]

theorem LspClient.document_versions_witness :
    ((∀ a ∈ LspClient.sampleEarlyCalls, a.isDocumentCall = true) ∧
      LspClient.isReply LspClient.sampleInitializeReply = true ∧
      Assoc.find (LspClient.replyId LspClient.sampleInitializeReply)
        (LspClient.start QtEnv.sample LspClient.init [] true).pendingRequests_ =
          some (qs "initialize") ∧
      (∀ a ∈ LspClient.sampleLaterCalls, a.isDocumentCall = true) ∧
      (∀ a ∈ [LspAction.stop, LspAction.processExited], a.isStart = false)) ∧
    LspClient.countQueued (qs "a.cpp")
        (LspClient.sampleEarlyCalls.filterMap LspAction.openedDocument) = 2 ∧
    LspAction.countFor (qs "a.cpp") LspClient.sampleLaterCalls = 1 ∧
    ∃ ready sp : LspClient,
      (LspClient.run QtEnv.sample (LspClient.start QtEnv.sample LspClient.init [] true)
        LspClient.sampleEarlyCalls).map
        (fun s1 => LspClient.handleMessage QtEnv.sample s1 LspClient.sampleInitializeReply) =
          some ready ∧
      LspClient.run QtEnv.sample ready LspClient.sampleLaterCalls = some sp ∧
      sp.currentVersion (qs "a.cpp") = 3 ∧
      (LspClient.changeDocument QtEnv.sample sp (qs "a.cpp") (qs "int v;")).written =
        sp.written ++ LspClient.frame QtEnv.sample
          (LspClient.notification (qs "textDocument/didChange")
            (LspClient.didChangeParams QtEnv.sample (qs "a.cpp") (qs "int v;") 4)) ∧
      (LspClient.changeDocument QtEnv.sample sp (qs "a.cpp") (qs "int v;")).currentVersion
        (qs "a.cpp") = 4 ∧
      (LspClient.changeDocument QtEnv.sample sp (qs "a.cpp") (qs "int v;")).currentVersion
        (qs "b.cpp") = sp.currentVersion (qs "b.cpp") := by
  have hq : LspClient.countQueued (qs "a.cpp")
      (LspClient.sampleEarlyCalls.filterMap LspAction.openedDocument) = 2 := by decide
  have hc : LspAction.countFor (qs "a.cpp") LspClient.sampleLaterCalls = 1 := by decide
  refine ⟨⟨by decide, by decide, by decide, by decide, by decide⟩, hq, hc, ?_⟩
  obtain ⟨ready, sp, h1, _, h3, h4, _, h6, _, h8⟩ :=
    (LspClient.document_versions QtEnv.sample LspClient.init [] LspClient.sampleEarlyCalls
      LspClient.sampleInitializeReply LspClient.sampleLaterCalls
      [LspAction.stop, LspAction.processExited] (qs "a.cpp") (qs "int v;")
      (by decide) (by decide) (by decide) (by decide) (by decide)).2.1
  rw [hq, hc] at h4 h6
  refine ⟨ready, sp, h1, h3, h4, h6, ?_, ?_⟩
  · rw [h8, if_pos rfl, h4]
    rfl
  · rw [h8, if_neg (by decide)]

/-! ## Decimal numbers in frame headers -/

theorem Nat.digitChar_byte : ∀ d : Fin 10,
    (Nat.digitChar d.val).toNat.toUInt8 = (48 + d.val).toUInt8 := by decide

theorem QByteArray.digit_byte (d : Nat) (h : d < 10) :
    48 ≤ (48 + d).toUInt8 ∧ (48 + d).toUInt8 ≤ 57 ∧ ((48 + d).toUInt8.toNat - 48 = d) := by
  interval_cases d <;> decide

theorem QByteArray.digitsValue_append (a : QByteArray) :
    ∀ (b : QByteArray) (acc : Nat), QByteArray.digitsValue (a ++ b) acc =
      (QByteArray.digitsValue a acc).bind (fun v => QByteArray.digitsValue b v) := by
  induction a with
  | nil => intro b acc; rfl
  | cons x xs ih =>
    intro b acc
    simp only [List.cons_append, QByteArray.digitsValue]
    split
    · exact ih b _
    · rfl

/-- The digits that `toDigitsCore` puts in front of `ds` are decimal digit bytes
whose value is `n`. -/
theorem Nat.toDigitsCore_value (fuel : Nat) :
    ∀ (n : Nat) (ds : List Char), n < fuel →
      ∃ front : List Char, Nat.toDigitsCore 10 fuel n ds = front ++ ds ∧ front ≠ [] ∧
        (∀ c ∈ front, 48 ≤ c.toNat.toUInt8 ∧ c.toNat.toUInt8 ≤ 57) ∧
        ∃ k, ∀ acc, QByteArray.digitsValue (front.map (fun c => c.toNat.toUInt8)) acc =
          some (acc * 10 ^ k + n) := by
  induction fuel with
  | zero => intro n ds h; omega
  | succ fuel ih =>
    intro n ds h
    have hd : n % 10 < 10 := Nat.mod_lt _ (by decide)
    have hbyte := Nat.digitChar_byte ⟨n % 10, hd⟩
    simp only at hbyte
    obtain ⟨b1, b2, b3⟩ := QByteArray.digit_byte (n % 10) hd
    have hone : ∀ acc, QByteArray.digitsValue [(Nat.digitChar (n % 10)).toNat.toUInt8] acc =
        some (acc * 10 + n % 10) := by
      intro acc
      simp only [QByteArray.digitsValue, hbyte, b1, b2, and_self, if_true, b3]
    unfold Nat.toDigitsCore
    by_cases hz : n / 10 = 0
    · simp only [hz, if_true]
      refine ⟨[Nat.digitChar (n % 10)], rfl, by simp, ?_, 1, ?_⟩
      · intro c hc
        simp only [List.mem_singleton] at hc
        subst hc
        rw [hbyte]
        exact ⟨b1, b2⟩
      · intro acc
        simp only [List.map_cons, List.map_nil, hone, pow_one]
        have : n % 10 = n := Nat.mod_eq_of_lt (by omega)
        rw [this]
    · simp only [hz, if_false]
      obtain ⟨front, e1, _, e3, k, e4⟩ := ih (n / 10) (Nat.digitChar (n % 10) :: ds) (by omega)
      refine ⟨front ++ [Nat.digitChar (n % 10)], by rw [e1]; simp, by simp, ?_, k + 1, ?_⟩
      · intro c hc
        rcases List.mem_append.mp hc with h1 | h1
        · exact e3 c h1
        · simp only [List.mem_singleton] at h1
          subst h1
          rw [hbyte]
          exact ⟨b1, b2⟩
      · intro acc
        rw [List.map_append, QByteArray.digitsValue_append, e4 acc]
        simp only [List.map_cons, List.map_nil, Option.some_bind, hone]
        congr 1
        have := Nat.div_add_mod n 10
        rw [pow_succ]
        nlinarith [Nat.div_add_mod n 10]

theorem QByteArray.number_spec (n : Nat) :
    QByteArray.number n ≠ [] ∧ (∀ b ∈ QByteArray.number n, 48 ≤ b ∧ b ≤ 57) ∧
      QByteArray.digitsValue (QByteArray.number n) 0 = some n := by
  obtain ⟨front, e1, e2, e3, k, e4⟩ := Nat.toDigitsCore_value (n + 1) n [] (Nat.lt_succ_self n)
  have e : QByteArray.number n = front.map (fun c => c.toNat.toUInt8) := by
    unfold QByteArray.number Nat.toDigits
    rw [e1, List.append_nil]
  rw [e]
  refine ⟨by simpa using e2, ?_, by simpa using e4 0⟩
  intro b hb
  obtain ⟨c, hc, rfl⟩ := List.mem_map.mp hb
  exact e3 c hc

theorem QByteArray.trimmed_self (a : QByteArray)
    (hhead : ∀ b, a.head? = some b → QByteArray.isSpace b = false)
    (hlast : ∀ b, a.getLast? = some b → QByteArray.isSpace b = false) :
    QByteArray.trimmed a = a := by
  unfold QByteArray.trimmed
  have e1 : a.dropWhile QByteArray.isSpace = a := by
    cases a with
    | nil => rfl
    | cons x xs =>
      have := hhead x rfl
      simp [List.dropWhile, this]
  rw [e1]
  have e2 : a.reverse.dropWhile QByteArray.isSpace = a.reverse := by
    cases h : a.reverse with
    | nil => rfl
    | cons x xs =>
      have hx : a.getLast? = some x := by
        rw [← List.head?_reverse, h]
        rfl
      have := hlast x hx
      simp [List.dropWhile, this]
  rw [e2, List.reverse_reverse]

theorem QByteArray.digit_not_space (b : UInt8) (h : 48 ≤ b ∧ b ≤ 57) :
    QByteArray.isSpace b = false ∧ b ≠ 45 ∧ b ≠ 43 ∧ b ≠ 13 ∧ b ≠ 10 := by
  obtain ⟨h1, h2⟩ := h
  have h3 : 48 ≤ b.toNat := h1
  have h4 : b.toNat ≤ 57 := h2
  refine ⟨?_, ?_, ?_, ?_, ?_⟩
  · unfold QByteArray.isSpace
    have n1 : (b == 32) = false := by
      apply beq_false_of_ne
      intro e; rw [e] at h3; exact absurd h3 (by decide)
    have n2 : decide (b ≤ 13) = false := by
      apply decide_eq_false
      intro e
      have : b.toNat ≤ 13 := e
      omega
    simp [n1, n2]
  all_goals (intro e; rw [e] at h3; exact absurd h3 (by decide))

theorem QByteArray.toInt_number (n : Nat) (h : (n : Int) ≤ intMax) :
    QByteArray.toInt (QByteArray.number n) = n := by
  obtain ⟨h1, h2, h3⟩ := QByteArray.number_spec n
  have htrim : QByteArray.trimmed (QByteArray.number n) = QByteArray.number n := by
    apply QByteArray.trimmed_self
    · intro b hb
      exact (QByteArray.digit_not_space b (h2 b (List.mem_of_mem_head? hb))).1
    · intro b hb
      exact (QByteArray.digit_not_space b (h2 b (List.mem_of_mem_getLast? hb))).1
  unfold QByteArray.toInt
  simp only [htrim]
  have hsign : ¬ ((QByteArray.number n).head? = some 45 ∨ (QByteArray.number n).head? = some 43) := by
    intro hs
    rcases hs with hs | hs
    · exact (QByteArray.digit_not_space 45 (h2 45 (List.mem_of_mem_head? hs))).2.1 rfl
    · exact (QByteArray.digit_not_space 43 (h2 43 (List.mem_of_mem_head? hs))).2.2.1 rfl
  have hneg : ¬ ((QByteArray.number n).head? = some 45) := fun e => hsign (Or.inl e)
  rw [if_neg hsign, if_neg h1, h3]
  simp only [hneg, if_false]
  rw [if_pos]
  unfold intMin
  constructor <;> omega

theorem QByteArray.split_single (sep : UInt8) (a : QByteArray) (h : sep ∉ a) :
    QByteArray.split sep a = [a] := by
  induction a with
  | nil => rfl
  | cons b rest ih =>
    have h1 : ¬ b = sep := fun e => h (by rw [e]; exact List.mem_cons_self _ _)
    have h2 := ih (fun hm => h (List.mem_cons_of_mem _ hm))
    simp [QByteArray.split, h1, h2]

theorem QByteArray.toLower_append (a b : QByteArray) :
    QByteArray.toLower (a ++ b) = QByteArray.toLower a ++ QByteArray.toLower b := by
  simp [QByteArray.toLower]

theorem QByteArray.not_space_of_le (b : UInt8) (h : 45 ≤ b.toNat) :
    QByteArray.isSpace b = false ∧ b ≠ 13 ∧ b ≠ 10 := by
  refine ⟨?_, ?_, ?_⟩
  · unfold QByteArray.isSpace
    have n1 : (b == 32) = false := by
      apply beq_false_of_ne
      intro e; rw [e] at h; exact absurd h (by decide)
    have n2 : decide (b ≤ 13) = false := by
      apply decide_eq_false
      intro e
      have : b.toNat ≤ 13 := e
      omega
    simp [n1, n2]
  all_goals (intro e; rw [e] at h; exact absurd h (by decide))

/-- The bytes of a spelling of the field name `content-length:` in any letter
case: there are 15 of them and none is white space, a carriage return or a line
feed. -/
theorem QByteArray.name_bytes (name : QByteArray)
    (h : QByteArray.toLower name = ascii "content-length:") :
    name.length = 15 ∧ ∀ b ∈ name, QByteArray.isSpace b = false ∧ b ≠ 13 ∧ b ≠ 10 := by
  constructor
  · have := congrArg List.length h
    simpa [QByteArray.toLower] using this
  · intro b hb
    apply QByteArray.not_space_of_le
    have hm : (if 65 ≤ b ∧ b ≤ 90 then b + 32 else b) ∈ ascii "content-length:" := by
      rw [← h]
      exact List.mem_map_of_mem _ hb
    have hall : ∀ x ∈ ascii "content-length:", 45 ≤ x.toNat := by decide
    by_cases hc : 65 ≤ b ∧ b ≤ 90
    · have : 65 ≤ b.toNat := hc.1
      omega
    · rw [if_neg hc] at hm
      exact hall b hm

theorem QByteArray.trimmed_number (n : Nat) :
    QByteArray.trimmed (QByteArray.number n) = QByteArray.number n := by
  obtain ⟨_, h2, _⟩ := QByteArray.number_spec n
  apply QByteArray.trimmed_self
  · intro b hb
    exact (QByteArray.digit_not_space b (h2 b (List.mem_of_mem_head? hb))).1
  · intro b hb
    exact (QByteArray.digit_not_space b (h2 b (List.mem_of_mem_getLast? hb))).1

/-- The header line `name`, a space and a decimal number gives that number as
content length, whatever the letter case of the name. -/
theorem LspClient.contentLength_header (name : QByteArray) (n : Nat)
    (hname : QByteArray.toLower name = ascii "content-length:") (hn : (n : Int) ≤ intMax) :
    LspClient.contentLength (name ++ 32 :: QByteArray.number n) = n := by
  obtain ⟨hlen, hbytes⟩ := QByteArray.name_bytes name hname
  obtain ⟨d1, d2, _⟩ := QByteArray.number_spec n
  have hno10 : (10 : UInt8) ∉ name ++ 32 :: QByteArray.number n := by
    intro hm
    rcases List.mem_append.mp hm with h | h
    · exact (hbytes 10 h).2.2 rfl
    · rcases List.mem_cons.mp h with h | h
      · exact absurd h (by decide)
      · exact (QByteArray.digit_not_space 10 (d2 10 h)).2.2.2.2 rfl
  have htrim : QByteArray.trimmed (name ++ 32 :: QByteArray.number n) =
      name ++ 32 :: QByteArray.number n := by
    apply QByteArray.trimmed_self
    · intro b hb
      cases name with
      | nil => simp at hlen
      | cons x xs =>
        simp only [List.cons_append, List.head?_cons, Option.some.injEq] at hb
        subst hb
        exact (hbytes x (List.mem_cons_self _ _)).1
    · intro b hb
      have hl : (name ++ 32 :: QByteArray.number n).getLast? = (QByteArray.number n).getLast? := by
        rw [List.getLast?_append, List.getLast?_cons]
        cases h : (QByteArray.number n).getLast? with
        | none =>
          rw [List.getLast?_eq_none_iff] at h
          exact absurd h d1
        | some x => simp
      rw [hl] at hb
      exact (QByteArray.digit_not_space b (d2 b (List.mem_of_mem_getLast? hb))).1
  have hpre : (ascii "content-length:").isPrefixOf
      (QByteArray.toLower (name ++ 32 :: QByteArray.number n)) = true := by
    rw [QByteArray.toLower_append, hname, List.isPrefixOf_iff_prefix]
    exact List.prefix_append _ _
  have hdrop : (name ++ 32 :: QByteArray.number n).drop 15 = 32 :: QByteArray.number n := by
    rw [← hlen]
    exact List.drop_left' rfl
  have htrim2 : QByteArray.trimmed (32 :: QByteArray.number n) = QByteArray.number n := by
    have e : QByteArray.trimmed (32 :: QByteArray.number n) =
        QByteArray.trimmed (QByteArray.number n) := by
      unfold QByteArray.trimmed
      have : QByteArray.isSpace 32 = true := by decide
      simp [List.dropWhile, this]
    rw [e, QByteArray.trimmed_number]
  unfold LspClient.contentLength
  rw [QByteArray.split_single 10 _ hno10]
  simp only [List.foldl_cons, List.foldl_nil, htrim, hpre, if_true, hdrop, htrim2]
  exact QByteArray.toInt_number n hn

theorem QByteArray.indexOf_after (pat : QByteArray) (c : UInt8) (tail : QByteArray)
    (hpat : pat = c :: tail) :
    ∀ (a rest : QByteArray), c ∉ a →
      QByteArray.indexOf pat (a ++ (pat ++ rest)) = some a.length := by
  intro a
  induction a with
  | nil =>
    intro rest _
    have hp : pat.isPrefixOf (pat ++ rest) = true := by
      rw [ List.isPrefixOf_iff_prefix]
      exact List.prefix_append _ _
    subst hpat
    simp only [List.nil_append, List.cons_append] at hp ⊢
    unfold QByteArray.indexOf
    rw [if_pos hp]
    rfl
  | cons b xs ih =>
    intro rest hc
    have hb : ¬ c = b := fun e => hc (by rw [e]; exact List.mem_cons_self _ _)
    have hnp : pat.isPrefixOf (b :: (xs ++ (pat ++ rest))) = false := by
      subst hpat
      simp [List.isPrefixOf, hb]
    rw [List.cons_append]
    unfold QByteArray.indexOf
    rw [hnp, ih rest (fun hm => hc (List.mem_cons_of_mem _ hm))]
    simp

theorem LspClient.frameBytes_length (name body : QByteArray) :
    (LspClient.frameBytes name body).length =
      (name ++ 32 :: QByteArray.number body.length).length + 4 + body.length := by
  unfold LspClient.frameBytes LspClient.headerTerminator
  simp only [List.length_append, List.length_cons, List.length_nil]

/-- One pass of the loop of `parseBuffer` over a buffer that starts with a
well-formed frame: the body is handled and the loop goes on after the frame. -/
theorem LspClient.parseBufferWith_frame {σ : Type} (onBody : σ → QByteArray → σ) (fuel : Nat)
    (st : σ) (name body rest : QByteArray)
    (hname : QByteArray.toLower name = ascii "content-length:")
    (hbody : 0 < body.length)
    (hsize : ((LspClient.frameBytes name body).length : Int) ≤ intMax) :
    LspClient.parseBufferWith onBody (fuel + 1) st (LspClient.frameBytes name body ++ rest) =
      LspClient.parseBufferWith onBody fuel (onBody st body) rest := by
  obtain ⟨_, hbytes⟩ := QByteArray.name_bytes name hname
  obtain ⟨_, d2, _⟩ := QByteArray.number_spec body.length
  have hlen := LspClient.frameBytes_length name body
  have hno13 : (13 : UInt8) ∉ name ++ 32 :: QByteArray.number body.length := by
    intro hm
    rcases List.mem_append.mp hm with h | h
    · exact (hbytes 13 h).2.1 rfl
    · rcases List.mem_cons.mp h with h | h
      · exact absurd h (by decide)
      · exact (QByteArray.digit_not_space 13 (d2 13 h)).2.2.2.1 rfl
  have hbuf : LspClient.frameBytes name body ++ rest =
      (name ++ 32 :: QByteArray.number body.length) ++
        (LspClient.headerTerminator ++ (body ++ rest)) := by
    unfold LspClient.frameBytes
    simp only [List.append_assoc, List.cons_append]
  have hidx := QByteArray.indexOf_after LspClient.headerTerminator 13 [10, 13, 10] rfl
    (name ++ 32 :: QByteArray.number body.length) (body ++ rest) hno13
  have hcl := LspClient.contentLength_header name body.length hname (by omega)
  rw [hbuf, LspClient.parseBufferWith, hidx]
  simp only []
  rw [if_neg (by omega)]
  rw [List.take_left' rfl, hcl]
  rw [if_neg (by omega), if_neg (by omega)]
  simp only [Int.toNat_ofNat]
  have hdrop : ((name ++ 32 :: QByteArray.number body.length) ++
      (LspClient.headerTerminator ++ (body ++ rest))).drop
        ((name ++ 32 :: QByteArray.number body.length).length + 4) = body ++ rest := by
    rw [← List.append_assoc]
    exact List.drop_left' (by simp [LspClient.headerTerminator]; omega)
  have hdrop2 : ((name ++ 32 :: QByteArray.number body.length) ++
      (LspClient.headerTerminator ++ (body ++ rest))).drop
        ((name ++ 32 :: QByteArray.number body.length).length + 4 + body.length) = rest := by
    rw [← List.append_assoc, ← List.append_assoc]
    exact List.drop_left' (by simp [LspClient.headerTerminator]; omega)
  rw [if_neg (by
    simp only [List.length_append, LspClient.headerTerminator, List.length_cons,
      List.length_nil]
    omega)]
  rw [hdrop, hdrop2, List.take_left' rfl]

theorem LspClient.parseBufferWith_empty {σ : Type} (onBody : σ → QByteArray → σ) (fuel : Nat)
    (st : σ) : LspClient.parseBufferWith onBody (fuel + 1) st [] = some (st, []) := by
  rw [LspClient.parseBufferWith]
  rfl

/-- The loop of `parseBuffer` over a buffer that consists of well-formed frames:
every body is handled, in order, and nothing is left in the buffer. -/
theorem LspClient.parseBufferWith_frames {σ : Type} (onBody : σ → QByteArray → σ)
    (frames : List (QByteArray × QByteArray)) :
    ∀ (fuel : Nat) (st : σ), frames.length < fuel →
      (∀ f ∈ frames, QByteArray.toLower f.1 = ascii "content-length:" ∧ 0 < f.2.length ∧
        ((LspClient.frameBytes f.1 f.2).length : Int) ≤ intMax) →
      LspClient.parseBufferWith onBody fuel st
          (frames.map (fun f => LspClient.frameBytes f.1 f.2)).flatten =
        some (frames.foldl (fun acc f => onBody acc f.2) st, []) := by
  induction frames with
  | nil =>
    intro fuel st hf _
    obtain ⟨k, rfl⟩ : ∃ k, fuel = k + 1 := ⟨fuel - 1, by simp at hf; omega⟩
    exact LspClient.parseBufferWith_empty onBody k st
  | cons f rest ih =>
    intro fuel st hf hall
    obtain ⟨k, rfl⟩ : ∃ k, fuel = k + 1 := ⟨fuel - 1, by omega⟩
    obtain ⟨h1, h2, h3⟩ := hall f (List.mem_cons_self _ _)
    rw [List.map_cons, List.flatten_cons, LspClient.parseBufferWith_frame onBody k st f.1 f.2 _
      h1 h2 h3]
    exact ih k _ (by simp at hf; omega) (fun g hg => hall g (List.mem_cons_of_mem _ hg))

theorem LspClient.frames_length (frames : List (QByteArray × QByteArray)) :
    frames.length ≤ (frames.map (fun f => LspClient.frameBytes f.1 f.2)).flatten.length := by
  induction frames with
  | nil => simp
  | cons f rest ih =>
    rw [List.map_cons, List.flatten_cons, List.length_append, LspClient.frameBytes_length]
    simp only [List.length_cons, List.length_append]
    omega

theorem LspClient.foldl_bodies {σ : Type} (env : QtEnv) (onBody : σ → QByteArray → σ)
    (g : σ → QJsonObject → σ) (frames : List (QByteArray × QJsonObject)) :
    ∀ (st : σ), (∀ f ∈ frames, ∀ acc, onBody acc (env.toJson f.2) = g acc f.2) →
      (frames.map (fun f => (f.1, env.toJson f.2))).foldl (fun acc f => onBody acc f.2) st =
        frames.foldl (fun acc f => g acc f.2) st := by
  induction frames with
  | nil => intro st _; rfl
  | cons f rest ih =>
    intro st h
    simp only [List.map_cons, List.foldl_cons]
    rw [h f (List.mem_cons_self _ _) st]
    exact ih _ (fun x hx => h x (List.mem_cons_of_mem _ hx))

theorem LspClient.foldl_record (frames : List (QByteArray × QJsonObject)) :
    ∀ (acc : List QJsonObject),
      frames.foldl (fun acc f => acc ++ [f.2]) acc = acc ++ frames.map Prod.snd := by
  induction frames with
  | nil => intro acc; simp
  | cons f rest ih => intro acc; simp [ih]

/-- The two decoding facts of the round trip: for a buffer of well-formed frames
the objects recorded are those of the frames, and the engine handles them in
order and ends with an empty buffer. -/
theorem LspClient.framing_round_trip_aux (env : QtEnv) (s : LspClient)
    (frames : List (QByteArray × QJsonObject))
    (hname : ∀ f ∈ frames, QByteArray.toLower f.1 = ascii "content-length:")
    (hcodec : ∀ f ∈ frames, (env.fromJson (env.toJson f.2)).noError = true ∧
      (env.fromJson (env.toJson f.2)).document = .object f.2)
    (hsize : ∀ f ∈ frames, 0 < (env.toJson f.2).length ∧
      ((LspClient.frameBytes f.1 (env.toJson f.2)).length : Int) ≤ intMax)
    (hbuffer : s.buffer_ = []) :
    LspClient.decodeRead env [] []
        (frames.map (fun f => LspClient.frameBytes f.1 (env.toJson f.2))).flatten =
      some (frames.map Prod.snd, []) ∧
    LspClient.handleReadyRead env s
        (frames.map (fun f => LspClient.frameBytes f.1 (env.toJson f.2))).flatten =
      some ((frames.foldl (fun st f => LspClient.handleMessage env st f.2) s).withBuffer []) := by
  have hmap : frames.map (fun f => LspClient.frameBytes f.1 (env.toJson f.2)) =
      (frames.map (fun f => (f.1, env.toJson f.2))).map
        (fun f => LspClient.frameBytes f.1 f.2) := by
    rw [List.map_map]
    rfl
  have hall : ∀ f ∈ frames.map (fun f => (f.1, env.toJson f.2)),
      QByteArray.toLower f.1 = ascii "content-length:" ∧ 0 < f.2.length ∧
        ((LspClient.frameBytes f.1 f.2).length : Int) ≤ intMax := by
    intro f hf
    obtain ⟨g, hg, rfl⟩ := List.mem_map.mp hf
    exact ⟨hname g hg, (hsize g hg).1, (hsize g hg).2⟩
  have hfuel : (frames.map (fun f => (f.1, env.toJson f.2))).length <
      ((frames.map (fun f => (f.1, env.toJson f.2))).map
        (fun f => LspClient.frameBytes f.1 f.2)).flatten.length + 1 :=
    Nat.lt_succ_of_le (LspClient.frames_length _)
  refine ⟨?_, ?_⟩
  · unfold LspClient.decodeRead
    rw [List.nil_append, hmap,
      LspClient.parseBufferWith_frames (LspClient.recordMessage env) _ _ [] hfuel hall,
      LspClient.foldl_bodies env (LspClient.recordMessage env) (fun acc m => acc ++ [m]) frames []
        (fun f hf acc => by
          unfold LspClient.recordMessage
          simp [(hcodec f hf).1, (hcodec f hf).2, QJsonValue.isObject, QJsonValue.toObject]),
      LspClient.foldl_record]
    rfl
  · unfold LspClient.handleReadyRead
    rw [hbuffer, List.nil_append, hmap,
      LspClient.parseBufferWith_frames (LspClient.onFrame env) _ _ s hfuel hall,
      LspClient.foldl_bodies env (LspClient.onFrame env) (LspClient.handleMessage env) frames s
        (fun f hf acc => by
          unfold LspClient.onFrame
          simp [(hcodec f hf).1, (hcodec f hf).2, QJsonValue.isObject, QJsonValue.toObject])]
    rfl

/-- Claim C17.  In a running session `sendMessage` writes for a message the
header `Content-Length: <n>` with its empty line and then the body of `n`
bytes.  Let a buffer consist of frames of this form whose field name is spelled
in any letter case, whose bodies are the encodings of JSON objects that the
decoder maps back to them, are not empty, and whose length fits `int`.  Then
`parseBuffer` passes exactly these objects to `handleMessage`, in order, and
leaves the buffer empty. -/
theorem LspClient.framing_round_trip (env : QtEnv) (s : LspClient)
    (frames : List (QByteArray × QJsonObject))
    (hname : ∀ f ∈ frames, QByteArray.toLower f.1 = ascii "content-length:")
    (hcodec : ∀ f ∈ frames, (env.fromJson (env.toJson f.2)).noError = true ∧
      (env.fromJson (env.toJson f.2)).document = .object f.2)
    (hsize : ∀ f ∈ frames, 0 < (env.toJson f.2).length ∧
      ((LspClient.frameBytes f.1 (env.toJson f.2)).length : Int) ≤ intMax)
    (hbuffer : s.buffer_ = []) :
    (∀ (t : LspClient) (m : QJsonObject), t.running = true →
      (LspClient.sendMessage env t m).written = t.written ++ LspClient.frame env m ∧
      (LspClient.frame env m).flatten =
        LspClient.frameBytes (ascii "Content-Length:") (env.toJson m)) ∧
    LspClient.decodeRead env [] []
        (frames.map (fun f => LspClient.frameBytes f.1 (env.toJson f.2))).flatten =
      some (frames.map Prod.snd, []) ∧
    LspClient.handleReadyRead env s
        (frames.map (fun f => LspClient.frameBytes f.1 (env.toJson f.2))).flatten =
      some ((frames.foldl (fun st f => LspClient.handleMessage env st f.2) s).withBuffer []) := by
  obtain ⟨hdecode, hhandle⟩ := LspClient.framing_round_trip_aux env s frames hname hcodec hsize
    hbuffer
  refine ⟨?_, hdecode, hhandle⟩
  intro t m ht
  refine ⟨by rw [LspClient.sendMessage_running env t m ht], ?_⟩
  unfold LspClient.frame LspClient.frameBytes
  have e1 : ascii "Content-Length: " = ascii "Content-Length:" ++ [32] := by decide
  have e2 : ascii "\r\n\r\n" = LspClient.headerTerminator := by decide
  rw [e1, e2]
  simp [List.append_assoc]

set_option maxRecDepth 8000 in
theorem LspClient.framing_round_trip_witness :
    ((∀ f ∈ LspClient.sampleFrames, QByteArray.toLower f.1 = ascii "content-length:") ∧
      (∀ f ∈ LspClient.sampleFrames,
        (QtEnv.sampleCodec.fromJson (QtEnv.sampleCodec.toJson f.2)).noError = true ∧
        (QtEnv.sampleCodec.fromJson (QtEnv.sampleCodec.toJson f.2)).document = .object f.2) ∧
      (∀ f ∈ LspClient.sampleFrames, 0 < (QtEnv.sampleCodec.toJson f.2).length ∧
        ((LspClient.frameBytes f.1 (QtEnv.sampleCodec.toJson f.2)).length : Int) ≤ intMax) ∧
      LspClient.init.buffer_ = []) ∧
    (LspClient.sampleFrames.map
        (fun f => LspClient.frameBytes f.1 (QtEnv.sampleCodec.toJson f.2))).flatten =
      ascii ("Content-Length: 2\r\n\r\n\x7b\x7d" ++
        "content-LENGTH: 52\r\n\r\n\x7b\"jsonrpc\":\"2.0\",\"method\":\"initialized\",\"params\":\x7b\x7d\x7d") ∧
    LspClient.decodeRead QtEnv.sampleCodec [] []
        (LspClient.sampleFrames.map
          (fun f => LspClient.frameBytes f.1 (QtEnv.sampleCodec.toJson f.2))).flatten =
      some ([[], LspClient.notification (qs "initialized") []], []) := by
  have h1 : ∀ f ∈ LspClient.sampleFrames, QByteArray.toLower f.1 = ascii "content-length:" := by
    decide
  have h2 : ∀ f ∈ LspClient.sampleFrames,
      (QtEnv.sampleCodec.fromJson (QtEnv.sampleCodec.toJson f.2)).noError = true ∧
      (QtEnv.sampleCodec.fromJson (QtEnv.sampleCodec.toJson f.2)).document = .object f.2 := by
    intro f hf
    simp only [LspClient.sampleFrames, List.mem_cons, List.mem_singleton, List.not_mem_nil,
      or_false] at hf
    rcases hf with rfl | rfl
    · exact ⟨by rfl, by rfl⟩
    · exact ⟨by rfl, by rfl⟩
  have h3 : ∀ f ∈ LspClient.sampleFrames, 0 < (QtEnv.sampleCodec.toJson f.2).length ∧
      ((LspClient.frameBytes f.1 (QtEnv.sampleCodec.toJson f.2)).length : Int) ≤ intMax := by
    intro f hf
    simp only [LspClient.sampleFrames, List.mem_cons, List.mem_singleton, List.not_mem_nil,
      or_false] at hf
    rcases hf with rfl | rfl
    · exact ⟨by decide, by decide⟩
    · exact ⟨by decide, by decide⟩
  exact ⟨⟨h1, h2, h3, rfl⟩, by decide,
    (LspClient.framing_round_trip QtEnv.sampleCodec LspClient.init LspClient.sampleFrames
      h1 h2 h3 rfl).2.1⟩

/-! ## Header blocks without a valid length -/

theorem LspClient.contentLength_invalid (block : QByteArray)
    (hinvalid : ∀ line ∈ QByteArray.split 10 block, LspClient.isLengthLine line = false) :
    LspClient.contentLength block ≤ 0 := by
  unfold LspClient.contentLength
  generalize QByteArray.split 10 block = lines at hinvalid
  have key : ∀ (acc : Int), acc ≤ 0 →
      lines.foldl (fun contentLength line =>
        if (ascii "content-length:").isPrefixOf (QByteArray.toLower (QByteArray.trimmed line)) then
          QByteArray.toInt (QByteArray.trimmed ((QByteArray.trimmed line).drop 15))
        else contentLength) acc ≤ 0 := by
    induction lines with
    | nil => intro acc h; exact h
    | cons line rest ih =>
      intro acc h
      rw [List.foldl_cons]
      apply ih (fun l hl => hinvalid l (List.mem_cons_of_mem _ hl))
      have hl := hinvalid line (List.mem_cons_self _ _)
      unfold LspClient.isLengthLine at hl
      split
      · rename_i hp
        rw [hp, Bool.true_and, decide_eq_false_iff_not] at hl
        omega
      · exact h
  exact key 0 (le_refl 0)

/-- One pass of the loop of `parseBuffer` over a buffer that starts with a
header block without a valid content length: the block and its empty line are
removed and the loop goes on after them with the same state. -/
theorem LspClient.parseBufferWith_skip {σ : Type} (onBody : σ → QByteArray → σ) (fuel : Nat)
    (st : σ) (block rest : QByteArray)
    (hblock : QByteArray.indexOf LspClient.headerTerminator
      (block ++ LspClient.headerTerminator) = some block.length)
    (hinvalid : ∀ line ∈ QByteArray.split 10 block, LspClient.isLengthLine line = false)
    (hlen : (block.length : Int) + 4 ≤ intMax) :
    LspClient.parseBufferWith onBody (fuel + 1) st
        (block ++ LspClient.headerTerminator ++ rest) =
      LspClient.parseBufferWith onBody fuel st rest := by
  have hidx := QByteArray.indexOf_append LspClient.headerTerminator _ rest _ hblock
  rw [LspClient.parseBufferWith, hidx]
  simp only []
  rw [if_neg (by omega)]
  have htake : (block ++ LspClient.headerTerminator ++ rest).take block.length = block := by
    rw [List.append_assoc]
    exact List.take_left' rfl
  rw [htake, if_pos (LspClient.contentLength_invalid block hinvalid)]
  have hdrop : (block ++ LspClient.headerTerminator ++ rest).drop (block.length + 4) = rest :=
    List.drop_left' (by simp [LspClient.headerTerminator])
  rw [hdrop]

/-- Claim C18.  Let a header block, the bytes before the first empty line of
the buffer, hold no `Content-Length` line with a value that is a positive
number for `toInt`.  `parseBuffer` removes the block with its empty line, leaves
the state of the engine as it is (nothing is emitted and `handleMessage` is not
called) and decodes what follows as if the block had not been there: a
well-formed frame after the block is decoded and passed to `handleMessage`. -/
theorem LspClient.invalid_header_skipped (env : QtEnv) (s : LspClient)
    (block rest name : QByteArray) (message : QJsonObject)
    (hblock : QByteArray.indexOf LspClient.headerTerminator
      (block ++ LspClient.headerTerminator) = some block.length)
    (hinvalid : ∀ line ∈ QByteArray.split 10 block, LspClient.isLengthLine line = false)
    (hlen : (block.length : Int) + 4 ≤ intMax)
    (hbuffer : s.buffer_ = [])
    (hname : QByteArray.toLower name = ascii "content-length:")
    (hcodec : (env.fromJson (env.toJson message)).noError = true ∧
      (env.fromJson (env.toJson message)).document = .object message)
    (hsize : 0 < (env.toJson message).length ∧
      ((LspClient.frameBytes name (env.toJson message)).length : Int) ≤ intMax) :
    LspClient.handleReadyRead env s (block ++ LspClient.headerTerminator ++ rest) =
      LspClient.handleReadyRead env s rest ∧
    LspClient.decodeRead env [] [] (block ++ LspClient.headerTerminator ++ rest) =
      LspClient.decodeRead env [] [] rest ∧
    LspClient.handleReadyRead env s (block ++ LspClient.headerTerminator) =
      some (s.withBuffer []) ∧
    LspClient.handleReadyRead env s (block ++ LspClient.headerTerminator ++
        LspClient.frameBytes name (env.toJson message)) =
      some ((LspClient.handleMessage env s message).withBuffer []) ∧
    LspClient.decodeRead env [] [] (block ++ LspClient.headerTerminator ++
        LspClient.frameBytes name (env.toJson message)) = some ([message], []) := by
  have hfuel : ∀ {σ : Type} (onBody : σ → QByteArray → σ) (st : σ) (tail : QByteArray),
      LspClient.parseBufferWith onBody
          ((block ++ LspClient.headerTerminator ++ tail).length + 1) st
          (block ++ LspClient.headerTerminator ++ tail) =
        LspClient.parseBufferWith onBody (tail.length + 1) st tail := by
    intro σ onBody st tail
    rw [LspClient.parseBufferWith_skip onBody _ st block tail hblock hinvalid hlen]
    exact LspClient.parseBufferWith_fuel onBody _ _ st tail
      (by simp [LspClient.headerTerminator]; omega) (by omega)
  have hskip : ∀ tail, LspClient.handleReadyRead env s
      (block ++ LspClient.headerTerminator ++ tail) = LspClient.handleReadyRead env s tail := by
    intro tail
    unfold LspClient.handleReadyRead
    rw [hbuffer, List.nil_append, List.nil_append, hfuel]
  have hskip2 : ∀ tail, LspClient.decodeRead env [] []
      (block ++ LspClient.headerTerminator ++ tail) = LspClient.decodeRead env [] [] tail := by
    intro tail
    unfold LspClient.decodeRead
    rw [List.nil_append, List.nil_append, hfuel]
  have hframe := LspClient.framing_round_trip_aux env s [(name, message)]
    (fun f hf => by rw [List.mem_singleton.mp hf]; exact hname)
    (fun f hf => by rw [List.mem_singleton.mp hf]; exact hcodec)
    (fun f hf => by rw [List.mem_singleton.mp hf]; exact hsize) hbuffer
  simp only [List.map_cons, List.map_nil, List.flatten_cons, List.flatten_nil, List.append_nil,
    List.foldl_cons, List.foldl_nil] at hframe
  refine ⟨hskip rest, hskip2 rest, ?_, ?_, ?_⟩
  · have h := hskip []
    rw [List.append_nil] at h
    rw [h]
    unfold LspClient.handleReadyRead
    rw [hbuffer]
    rfl
  · rw [hskip]
    exact hframe.2
  · rw [hskip2]
    exact hframe.1

set_option maxRecDepth 8000 in
theorem LspClient.invalid_header_skipped_witness :
    (QByteArray.indexOf LspClient.headerTerminator
        (LspClient.sampleBadHeader ++ LspClient.headerTerminator) =
          some LspClient.sampleBadHeader.length ∧
      (∀ line ∈ QByteArray.split 10 LspClient.sampleBadHeader,
        LspClient.isLengthLine line = false) ∧
      (LspClient.sampleBadHeader.length : Int) + 4 ≤ intMax ∧
      LspClient.init.buffer_ = [] ∧
      QByteArray.toLower (ascii "Content-Length:") = ascii "content-length:" ∧
      ((QtEnv.sampleCodec.fromJson (QtEnv.sampleCodec.toJson [])).noError = true ∧
        (QtEnv.sampleCodec.fromJson (QtEnv.sampleCodec.toJson [])).document = .object []) ∧
      (0 < (QtEnv.sampleCodec.toJson []).length ∧
        ((LspClient.frameBytes (ascii "Content-Length:")
          (QtEnv.sampleCodec.toJson [])).length : Int) ≤ intMax)) ∧
    LspClient.sampleBadHeader ++ LspClient.headerTerminator ++
        LspClient.frameBytes (ascii "Content-Length:") (QtEnv.sampleCodec.toJson []) =
      ascii "X-Junk: 1\r\nContent-Length: abc\r\n\r\nContent-Length: 2\r\n\r\n\x7b\x7d" ∧
    LspClient.decodeRead QtEnv.sampleCodec [] []
        (LspClient.sampleBadHeader ++ LspClient.headerTerminator ++
          LspClient.frameBytes (ascii "Content-Length:") (QtEnv.sampleCodec.toJson [])) =
      some ([[]], []) ∧
    LspClient.handleReadyRead QtEnv.sampleCodec LspClient.init
        (LspClient.sampleBadHeader ++ LspClient.headerTerminator) =
      some (LspClient.init.withBuffer []) :=
  have h := LspClient.invalid_header_skipped QtEnv.sampleCodec LspClient.init
    LspClient.sampleBadHeader [] (ascii "Content-Length:") []
    (by decide) (by decide) (by decide) rfl (by decide) ⟨by rfl, by rfl⟩
    ⟨by decide, by decide⟩
  ⟨⟨by decide, by decide, by decide, rfl, by decide, ⟨by rfl, by rfl⟩, ⟨by decide, by decide⟩⟩,
    by decide, h.2.2.2.2, h.2.2.1⟩

/-! ## What `start` clears -/

theorem LspClient.write_legend (s : LspClient) (d : QByteArray) :
    (s.write d).semanticTokenTypes_ = s.semanticTokenTypes_ ∧ (s.write d).nextId_ = s.nextId_ ∧
      (s.write d).buffer_ = s.buffer_ ∧ (s.write d).pendingOpenDocs_ = s.pendingOpenDocs_ := by
  unfold LspClient.write
  split <;> exact ⟨rfl, rfl, rfl, rfl⟩

theorem LspClient.sendMessage_legend (env : QtEnv) (s : LspClient) (m : QJsonObject) :
    (LspClient.sendMessage env s m).semanticTokenTypes_ = s.semanticTokenTypes_ ∧
      (LspClient.sendMessage env s m).nextId_ = s.nextId_ ∧
      (LspClient.sendMessage env s m).buffer_ = s.buffer_ ∧
      (LspClient.sendMessage env s m).pendingOpenDocs_ = s.pendingOpenDocs_ := by
  unfold LspClient.sendMessage
  obtain ⟨a1, a2, a3, a4⟩ := LspClient.write_legend s
    (ascii "Content-Length: " ++ QByteArray.number (env.toJson m).length ++ ascii "\r\n\r\n")
  obtain ⟨b1, b2, b3, b4⟩ := LspClient.write_legend
    (s.write (ascii "Content-Length: " ++ QByteArray.number (env.toJson m).length ++
      ascii "\r\n\r\n")) (env.toJson m)
  exact ⟨b1.trans a1, b2.trans a2, b3.trans a3, b4.trans a4⟩

theorem LspClient.sendRequest_legend (env : QtEnv) (s : LspClient) (m : QString)
    (p : QJsonObject) :
    (LspClient.sendRequest env s m p).1.semanticTokenTypes_ = s.semanticTokenTypes_ ∧
      (LspClient.sendRequest env s m p).1.buffer_ = s.buffer_ ∧
      (LspClient.sendRequest env s m p).1.pendingOpenDocs_ = s.pendingOpenDocs_ := by
  have h := LspClient.sendMessage_legend env
    { s with nextId_ := s.nextId_ + 1,
             pendingRequests_ := Assoc.insert s.nextId_ m s.pendingRequests_ }
    (jsonObject [(qs "jsonrpc", .string (qs "2.0")), (qs "id", .number s.nextId_),
      (qs "method", .string m), (qs "params", .object p)])
  exact ⟨h.1, h.2.2.1, h.2.2.2⟩

theorem LspClient.stop_legend (env : QtEnv) (s : LspClient) :
    (LspClient.stop env s).semanticTokenTypes_ = s.semanticTokenTypes_ := by
  unfold LspClient.stop
  split
  · rfl
  · simp only []
    split
    · exact (LspClient.sendMessage_legend env _ _).1.trans
        (LspClient.sendRequest_legend env s _ _).1
    · rfl

/-- What `LspClient::start` clears and what it keeps. -/
theorem LspClient.start_cleared (env : QtEnv) (s : LspClient) (rootDir : QString)
    (startedOk : Bool) :
    (LspClient.start env s rootDir startedOk).semanticTokenTypes_ = s.semanticTokenTypes_ ∧
    (LspClient.start env s rootDir startedOk).buffer_ = [] ∧
    (LspClient.start env s rootDir startedOk).docVersions_ = [] ∧
    (LspClient.start env s rootDir startedOk).pendingOpenDocs_ = [] ∧
    (LspClient.start env s rootDir startedOk).initialized_ = false := by
  unfold LspClient.start
  simp only []
  split
  · exact ⟨LspClient.stop_legend env s, rfl, rfl, rfl, rfl⟩
  · unfold LspClient.initializeServer
    obtain ⟨a1, a2, a3⟩ := LspClient.sendRequest_legend env
      { LspClient.stop env s with
        rootDir_ := rootDir, initialized_ := false, buffer_ := [], pendingRequests_ := [],
        docVersions_ := [], pendingOpenDocs_ := [], running := true } (qs "initialize")
      (jsonObject [(qs "processId", .number env.applicationPid),
        (qs "rootUri", .string (env.pathToUri rootDir)),
        (qs "capabilities", .object (jsonObject [
          (qs "textDocument", .object (jsonObject [
            (qs "synchronization", .object (jsonObject [(qs "didSave", .bool true)])),
            (qs "completion", .object []), (qs "documentSymbol", .object []),
            (qs "foldingRange", .object []),
            (qs "semanticTokens", .object (jsonObject [
              (qs "requests", .object (jsonObject [(qs "full", .bool true)])),
              (qs "formats", .array [.string (qs "relative")])]))])),
          (qs "workspace", .object (jsonObject [(qs "workspaceFolders", .bool true)]))]))])
    have d := LspClient.sendRequest_docs env
      { LspClient.stop env s with
        rootDir_ := rootDir, initialized_ := false, buffer_ := [], pendingRequests_ := [],
        docVersions_ := [], pendingOpenDocs_ := [], running := true } (qs "initialize")
      (jsonObject [(qs "processId", .number env.applicationPid),
        (qs "rootUri", .string (env.pathToUri rootDir)),
        (qs "capabilities", .object (jsonObject [
          (qs "textDocument", .object (jsonObject [
            (qs "synchronization", .object (jsonObject [(qs "didSave", .bool true)])),
            (qs "completion", .object []), (qs "documentSymbol", .object []),
            (qs "foldingRange", .object []),
            (qs "semanticTokens", .object (jsonObject [
              (qs "requests", .object (jsonObject [(qs "full", .bool true)])),
              (qs "formats", .array [.string (qs "relative")])]))])),
          (qs "workspace", .object (jsonObject [(qs "workspaceFolders", .bool true)]))]))])
    exact ⟨a1.trans (LspClient.stop_legend env s), a2, d.1, a3, d.2.1⟩

/-- What `GdbMiClient::start` leaves when the process has started. -/
theorem GdbMiClient.start_reset (s : GdbMiClient) (workingDir : QString) :
    (s.start workingDir true).buffer_ = [] ∧ (s.start workingDir true).breakpoints_ = [] ∧
    (s.start workingDir true).pendingTags_ = [(1, qs "init"), (2, qs "break-list")] ∧
    (s.start workingDir true).nextToken_ = 3 := by
  unfold GdbMiClient.start GdbMiClient.refreshBreakpoints GdbMiClient.sendMiCommand
  simp [Assoc.insert]

/-- Claim C19 fails for the semantic token legend of `LspClient`.  A session
whose `initialize` reply carried the legend `class`, `function` is restarted with
`start`: the token types are still `class`, `function` after `start`, and still
after the `initialize` reply of the new session, which carries no legend.  The
request counter is not reset either (the new session sends `initialize` with id
3, a first session with id 1), while `GdbMiClient::start` resets its counter and
every table and list.  `LspClient::start` does clear the buffer, the document
versions and the queued opens. -/
theorem LspClient.start_keeps_legend :
    LspClient.sampleWithLegend.semanticTokenTypes_ = [qs "class", qs "function"] ∧
    LspClient.sampleRestarted.semanticTokenTypes_ = [qs "class", qs "function"] ∧
    (LspClient.handleMessage QtEnv.sample LspClient.sampleRestarted
      [(qs "id", .number 3), (qs "result", .object [])]).semanticTokenTypes_ =
        [qs "class", qs "function"] ∧
    (LspClient.handleMessage QtEnv.sample LspClient.sampleRestarted
      [(qs "id", .number 3), (qs "result", .object [])]).initialized_ = true ∧
    LspClient.sampleStarted.semanticTokenTypes_ = [] ∧
    LspClient.sampleStarted.pendingRequests_ = [(1, qs "initialize")] ∧
    LspClient.sampleRestarted.pendingRequests_ = [(3, qs "initialize")] ∧
    LspClient.sampleStarted.nextId_ = 2 ∧ LspClient.sampleRestarted.nextId_ = 4 ∧
    (∀ (env : QtEnv) (s : LspClient) (rootDir : QString) (startedOk : Bool),
      (LspClient.start env s rootDir startedOk).semanticTokenTypes_ = s.semanticTokenTypes_ ∧
      (LspClient.start env s rootDir startedOk).buffer_ = [] ∧
      (LspClient.start env s rootDir startedOk).docVersions_ = [] ∧
      (LspClient.start env s rootDir startedOk).pendingOpenDocs_ = [] ∧
      (LspClient.start env s rootDir startedOk).initialized_ = false) ∧
    (∀ (g : GdbMiClient) (workingDir : QString),
      (g.start workingDir true).buffer_ = [] ∧ (g.start workingDir true).breakpoints_ = [] ∧
      (g.start workingDir true).pendingTags_ = [(1, qs "init"), (2, qs "break-list")] ∧
      (g.start workingDir true).nextToken_ = 3) := by
  refine ⟨by decide, by decide, by decide, by decide, by decide, by decide, by decide, by decide,
    by decide, LspClient.start_cleared, GdbMiClient.start_reset⟩

/-! ## Breakpoint mutation commands -/

theorem GdbMiClient.sendMiCommand_running (s : GdbMiClient) (command tag : QString)
    (hrun : s.running = true) :
    s.sendMiCommand command tag =
      { s with
        nextToken_ := s.nextToken_ + 1,
        pendingTags_ := Assoc.insert s.nextToken_ tag s.pendingTags_,
        written := s.written ++ [QString.number s.nextToken_ ++ command ++ qs "\n"] } := by
  unfold GdbMiClient.sendMiCommand
  rw [if_neg (by simp [hrun])]

theorem GdbMiClient.sendMiCommand_breakpoints (s : GdbMiClient) (command tag : QString) :
    (s.sendMiCommand command tag).breakpoints_ = s.breakpoints_ := by
  unfold GdbMiClient.sendMiCommand
  split <;> rfl

theorem GdbMiClient.mutate_breakpoints (arg : QString → QString → QString) (s : GdbMiClient)
    (m : BreakpointMutation) : (GdbMiClient.mutate arg s m).breakpoints_ = s.breakpoints_ := by
  cases m with
  | insert f l => exact GdbMiClient.sendMiCommand_breakpoints s _ _
  | delete n => exact GdbMiClient.sendMiCommand_breakpoints s _ _
  | setEnabled n e => exact GdbMiClient.sendMiCommand_breakpoints s _ _
  | setCondition n c =>
    show (GdbMiClient.setBreakpointCondition arg s n c).breakpoints_ = _
    unfold GdbMiClient.setBreakpointCondition
    split <;> exact GdbMiClient.sendMiCommand_breakpoints s _ _
  | setIgnoreCount n c => exact GdbMiClient.sendMiCommand_breakpoints s _ _
  | setLogMessage n msg =>
    show ((s.sendConsoleCommand _).refreshBreakpoints).breakpoints_ = _
    unfold GdbMiClient.refreshBreakpoints GdbMiClient.sendConsoleCommand
    rw [GdbMiClient.sendMiCommand_breakpoints]
    split
    · rfl
    · exact GdbMiClient.sendMiCommand_breakpoints s _ _

theorem GdbMiClient.mutate_command (arg : QString → QString → QString) (s : GdbMiClient)
    (m : BreakpointMutation) (h : m.isLogMessage = false) :
    ∃ command tag, tag ∈ GdbMiClient.mutationTags ∧
      GdbMiClient.mutate arg s m = s.sendMiCommand command tag := by
  cases m with
  | insert f l => exact ⟨_, _, by decide, rfl⟩
  | delete n => exact ⟨_, _, by decide, rfl⟩
  | setEnabled n e => exact ⟨_, _, by decide, rfl⟩
  | setCondition n c =>
    show ∃ command tag, tag ∈ GdbMiClient.mutationTags ∧
      GdbMiClient.setBreakpointCondition arg s n c = _
    unfold GdbMiClient.setBreakpointCondition
    split
    · exact ⟨_, _, by decide, rfl⟩
    · exact ⟨_, _, by decide, rfl⟩
  | setIgnoreCount n c => exact ⟨_, _, by decide, rfl⟩
  | setLogMessage n msg => cases h

theorem GdbMiClient.handleResultForTag_mutation (env : QtEnv) (t : GdbMiClient)
    (tag line : QString) (h : tag ∈ GdbMiClient.mutationTags) :
    GdbMiClient.handleResultForTag env t tag line =
      some (t.refreshBreakpoints.emit
        (.consoleOutput (GdbMiClient.decodeMiString line ++ qs "\n"))) := by
  simp only [GdbMiClient.mutationTags, List.mem_cons, List.mem_singleton, List.not_mem_nil,
    or_false] at h
  unfold GdbMiClient.handleResultForTag
  rcases h with rfl | rfl | rfl | rfl | rfl <;>
    (simp only []
     rw [if_neg (by decide), if_neg (by decide), if_neg (by decide), if_neg (by decide),
       if_neg (by decide), if_neg (by decide), if_pos (by decide)]
     rfl)

theorem GdbMiClient.handleResultForTag_console (env : QtEnv) (t : GdbMiClient)
    (line : QString) :
    GdbMiClient.handleResultForTag env t (qs "console") line =
      some (t.emit (.consoleOutput (GdbMiClient.decodeMiString line ++ qs "\n"))) := by
  unfold GdbMiClient.handleResultForTag
  simp only []
  rw [if_neg (by decide), if_neg (by decide), if_neg (by decide), if_neg (by decide),
    if_neg (by decide), if_neg (by decide), if_neg (by decide)]
  rfl

theorem GdbMiClient.handleResultForTag_breakList (env : QtEnv) (t r : GdbMiClient)
    (line : QString)
    (h : GdbMiClient.handleResultForTag env t (qs "break-list") line = some r) :
    r.written = t.written ∧ r.nextToken_ = t.nextToken_ ∧ r.pendingTags_ = t.pendingTags_ := by
  unfold GdbMiClient.handleResultForTag at h
  simp only [if_true] at h
  unfold GdbMiClient.parseBreakpointList at h
  cases hp : GdbMiClient.parseMiResults (QString.afterFirstComma line) with
  | none => rw [hp] at h; cases h
  | some res =>
    rw [hp] at h
    simp only [Option.map_some', Option.some.injEq] at h
    subst h
    exact ⟨rfl, rfl, rfl⟩

theorem GdbMiClient.handleResultForTag_breakList_returns (env : QtEnv) (t : GdbMiClient)
    (status : QString) (fs : List (QString × MiValue)) (hstatus : ',' ∉ status)
    (hwf : MiValue.wfFields fs = true) :
    ∃ r, GdbMiClient.handleResultForTag env t (qs "break-list")
      (status ++ ',' :: MiValue.renderResults fs) = some r := by
  unfold GdbMiClient.handleResultForTag
  simp only [if_true]
  unfold GdbMiClient.parseBreakpointList
  rw [QString.afterFirstComma_append status _ hstatus, GdbMiClient.parseMiResults_render fs hwf]
  exact ⟨_, rfl⟩

theorem GdbMiClient.mutate_logMessage_running (arg : QString → QString → QString)
    (s : GdbMiClient) (number : Int) (message : QString) (hrun : s.running = true)
    (hcmd : (QString.trimmed (GdbMiClient.logMessageCommand arg number message)).isEmpty = false) :
    GdbMiClient.mutate arg s (.setLogMessage number message) =
      { s with
        nextToken_ := s.nextToken_ + 1 + 1,
        pendingTags_ := Assoc.insert (s.nextToken_ + 1) (qs "break-list")
          (Assoc.insert s.nextToken_ (qs "console") s.pendingTags_),
        written := s.written ++
          [QString.number s.nextToken_ ++
            (qs "-interpreter-exec console \"" ++
              GdbMiClient.escapeQuotes (GdbMiClient.logMessageCommand arg number message) ++
              qs "\"") ++ qs "\n"] ++
          [QString.number (s.nextToken_ + 1) ++ qs "-break-list" ++ qs "\n"] } := by
  show ((s.sendConsoleCommand _).refreshBreakpoints) = _
  unfold GdbMiClient.refreshBreakpoints GdbMiClient.sendConsoleCommand
  rw [if_neg (by simp [hcmd]), GdbMiClient.sendMiCommand_running s _ _ hrun]
  unfold GdbMiClient.sendMiCommand
  rw [if_neg (by simp [hrun])]

/-- Claim C20, amended. In a running session every breakpoint mutation call
leaves the cached breakpoint collection as it was. The calls insert, delete,
enable/disable, condition and ignore-count send one command under a tag that
starts with `break`, and the arrival of the result record that carries the token
of that command issues exactly one `-break-list` command and leaves the
collection as it was. The log-message call writes its console command and one
`-break-list` command at once, and the arrival of the result record of the
console command issues no command. The result record of a `-break-list` command
issues no command, and it is handled whenever its payload is well formed. -/
theorem GdbMiClient.breakpoint_mutation_refresh (env : QtEnv)
    (arg : QString → QString → QString) (s : GdbMiClient) (m : BreakpointMutation)
    (digits text : QString)
    (hrun : s.running = true)
    (hrec : GdbMiClient.isResultRecord digits text = true)
    (htok : QString.toInt digits = s.nextToken_) :
    (GdbMiClient.mutate arg s m).breakpoints_ = s.breakpoints_ ∧
    (m.isLogMessage = false →
      (∃ command tag, tag ∈ GdbMiClient.mutationTags ∧
        GdbMiClient.mutate arg s m = s.sendMiCommand command tag) ∧
      ∃ r, GdbMiClient.parseLine env (GdbMiClient.mutate arg s m) (digits ++ text) = some r ∧
        r.written = (GdbMiClient.mutate arg s m).written ++
          [QString.number (s.nextToken_ + 1) ++ qs "-break-list" ++ qs "\n"] ∧
        r.breakpoints_ = s.breakpoints_) ∧
    (∀ number message, m = .setLogMessage number message →
      (QString.trimmed (GdbMiClient.logMessageCommand arg number message)).isEmpty = false →
      (GdbMiClient.mutate arg s m).written = s.written ++
        [QString.number s.nextToken_ ++
          (qs "-interpreter-exec console \"" ++
            GdbMiClient.escapeQuotes (GdbMiClient.logMessageCommand arg number message) ++
            qs "\"") ++ qs "\n",
         QString.number (s.nextToken_ + 1) ++ qs "-break-list" ++ qs "\n"] ∧
      ∃ r, GdbMiClient.parseLine env (GdbMiClient.mutate arg s m) (digits ++ text) = some r ∧
        r.written = (GdbMiClient.mutate arg s m).written ∧
        r.breakpoints_ = s.breakpoints_) ∧
    (∀ t : GdbMiClient,
      Assoc.find (QString.toInt digits) t.pendingTags_ = some (qs "break-list") →
      (∀ r, GdbMiClient.parseLine env t (digits ++ text) = some r → r.written = t.written) ∧
      (∀ status fs, ',' ∉ status → MiValue.wfFields fs = true →
        text = status ++ ',' :: MiValue.renderResults fs →
        ∃ r, GdbMiClient.parseLine env t (digits ++ text) = some r)) := by
  refine ⟨GdbMiClient.mutate_breakpoints arg s m, ?_, ?_, ?_⟩
  · intro hm
    obtain ⟨command, tag, htag, hmut⟩ := GdbMiClient.mutate_command arg s m hm
    refine ⟨⟨command, tag, htag, hmut⟩, ?_⟩
    rw [GdbMiClient.parseLine_record env _ digits text hrec, hmut,
      GdbMiClient.sendMiCommand_running s command tag hrun, htok]
    simp only [Assoc.find_insert_self, Option.getD_some]
    rw [GdbMiClient.handleResultForTag_mutation env _ tag text htag]
    refine ⟨_, rfl, ?_, ?_⟩
    · unfold GdbMiClient.refreshBreakpoints GdbMiClient.sendMiCommand
      rw [if_neg (by simp [hrun])]
      rfl
    · show (GdbMiClient.refreshBreakpoints _).breakpoints_ = _
      unfold GdbMiClient.refreshBreakpoints
      rw [GdbMiClient.sendMiCommand_breakpoints]
  · intro number message hm hcmd
    subst hm
    rw [GdbMiClient.parseLine_record env _ digits text hrec,
      GdbMiClient.mutate_logMessage_running arg s number message hrun hcmd, htok]
    refine ⟨by simp, ?_⟩
    simp only []
    rw [Assoc.find_insert_ne _ _ _ _ (by omega), Assoc.find_insert_self]
    simp only [Option.getD_some]
    rw [GdbMiClient.handleResultForTag_console]
    exact ⟨_, rfl, rfl, rfl⟩
  · intro t ht
    rw [GdbMiClient.parseLine_record env t digits text hrec, ht]
    simp only [Option.getD_some]
    refine ⟨?_, ?_⟩
    · intro r hr
      exact (GdbMiClient.handleResultForTag_breakList env _ r text hr).1
    · intro status fs hstatus hwf htext
      subst htext
      exact GdbMiClient.handleResultForTag_breakList_returns env _ status fs hstatus hwf

set_option maxRecDepth 8000 in
theorem GdbMiClient.breakpoint_mutation_refresh_witness :
    (GdbMiClient.sampleSession.running = true ∧
      GdbMiClient.isResultRecord (qs "3") (qs "^done,bkpt=\x7bnumber=\"1\"\x7d") = true ∧
      GdbMiClient.isResultRecord (qs "3") (qs "^done") = true ∧
      QString.toInt (qs "3") = GdbMiClient.sampleSession.nextToken_ ∧
      (QString.trimmed (GdbMiClient.logMessageCommand QString.sampleArg 1 (qs "hit"))).isEmpty
        = false) ∧
    (GdbMiClient.mutate QString.sampleArg GdbMiClient.sampleSession
        (.insert (qs "a.cpp") 5)).breakpoints_ = GdbMiClient.sampleSession.breakpoints_ ∧
    (∃ r, GdbMiClient.parseLine QtEnv.sample
          (GdbMiClient.mutate QString.sampleArg GdbMiClient.sampleSession (.insert (qs "a.cpp") 5))
          (qs "3" ++ qs "^done,bkpt=\x7bnumber=\"1\"\x7d") = some r ∧
        r.written =
          (GdbMiClient.mutate QString.sampleArg GdbMiClient.sampleSession
            (.insert (qs "a.cpp") 5)).written ++
            [QString.number (GdbMiClient.sampleSession.nextToken_ + 1) ++ qs "-break-list" ++
              qs "\n"] ∧
        r.breakpoints_ = GdbMiClient.sampleSession.breakpoints_) ∧
    (GdbMiClient.mutate QString.sampleArg GdbMiClient.sampleSession
        (.insert (qs "a.cpp") 5)).written =
      [qs "1-gdb-set target-async on\n", qs "2-break-list\n", qs "3-break-insert a.cpp:5\n"] ∧
    QString.number (GdbMiClient.sampleSession.nextToken_ + 1) ++ qs "-break-list" ++ qs "\n" =
      qs "4-break-list\n" ∧
    ((GdbMiClient.mutate QString.sampleArg GdbMiClient.sampleSession
          (.setLogMessage 1 (qs "hit"))).written =
        GdbMiClient.sampleSession.written ++
          [QString.number GdbMiClient.sampleSession.nextToken_ ++
            (qs "-interpreter-exec console \"" ++
              GdbMiClient.escapeQuotes
                (GdbMiClient.logMessageCommand QString.sampleArg 1 (qs "hit")) ++
              qs "\"") ++ qs "\n",
           QString.number (GdbMiClient.sampleSession.nextToken_ + 1) ++ qs "-break-list" ++
            qs "\n"] ∧
      ∃ r, GdbMiClient.parseLine QtEnv.sample
          (GdbMiClient.mutate QString.sampleArg GdbMiClient.sampleSession
            (.setLogMessage 1 (qs "hit")))
          (qs "3" ++ qs "^done") = some r ∧
        r.written =
          (GdbMiClient.mutate QString.sampleArg GdbMiClient.sampleSession
            (.setLogMessage 1 (qs "hit"))).written ∧
        r.breakpoints_ = GdbMiClient.sampleSession.breakpoints_) :=
  ⟨⟨by decide, by decide, by decide, by decide, by decide⟩,
    (GdbMiClient.breakpoint_mutation_refresh QtEnv.sample QString.sampleArg
      GdbMiClient.sampleSession (.insert (qs "a.cpp") 5) (qs "3")
      (qs "^done,bkpt=\x7bnumber=\"1\"\x7d") (by decide) (by decide) (by decide)).1,
    ((GdbMiClient.breakpoint_mutation_refresh QtEnv.sample QString.sampleArg
      GdbMiClient.sampleSession (.insert (qs "a.cpp") 5) (qs "3")
      (qs "^done,bkpt=\x7bnumber=\"1\"\x7d") (by decide) (by decide) (by decide)).2.1 rfl).2,
    by decide, by decide,
    (GdbMiClient.breakpoint_mutation_refresh QtEnv.sample QString.sampleArg
      GdbMiClient.sampleSession (.setLogMessage 1 (qs "hit")) (qs "3") (qs "^done")
      (by decide) (by decide) (by decide)).2.2.1 1 (qs "hit") rfl (by decide)⟩

set_option maxRecDepth 8000 in
/-- Claim C20 fails for the log-message call: on the sample session the call
writes its console command under token 3 and the `-break-list` command under
token 4 at once, and the arrival of the result record `3^done` writes no
command. -/
theorem GdbMiClient.log_message_counterexample :
    (GdbMiClient.mutate QString.sampleArg GdbMiClient.sampleSession
        (.setLogMessage 1 (qs "hit"))).written =
      [qs "1-gdb-set target-async on\n", qs "2-break-list\n",
       qs "3-interpreter-exec console \"commands 1\nsilent\nprintf \\\"hit\\n\\\"\ncontinue\nend\"\n",
       qs "4-break-list\n"] ∧
    (GdbMiClient.parseLine QtEnv.sample
        (GdbMiClient.mutate QString.sampleArg GdbMiClient.sampleSession
          (.setLogMessage 1 (qs "hit")))
        (qs "3^done")).map (fun r => r.written) =
      some [qs "1-gdb-set target-async on\n", qs "2-break-list\n",
       qs "3-interpreter-exec console \"commands 1\nsilent\nprintf \\\"hit\\n\\\"\ncontinue\nend\"\n",
       qs "4-break-list\n"] ∧
    ¬ ∃ r, GdbMiClient.parseLine QtEnv.sample
        (GdbMiClient.mutate QString.sampleArg GdbMiClient.sampleSession
          (.setLogMessage 1 (qs "hit")))
        (qs "3^done") = some r ∧
      r.written ≠ (GdbMiClient.mutate QString.sampleArg GdbMiClient.sampleSession
        (.setLogMessage 1 (qs "hit"))).written := by
  have h2 : (GdbMiClient.parseLine QtEnv.sample
        (GdbMiClient.mutate QString.sampleArg GdbMiClient.sampleSession
          (.setLogMessage 1 (qs "hit")))
        (qs "3^done")).map (fun r => r.written) =
      some [qs "1-gdb-set target-async on\n", qs "2-break-list\n",
       qs "3-interpreter-exec console \"commands 1\nsilent\nprintf \\\"hit\\n\\\"\ncontinue\nend\"\n",
       qs "4-break-list\n"] := by decide
  have h1 : (GdbMiClient.mutate QString.sampleArg GdbMiClient.sampleSession
        (.setLogMessage 1 (qs "hit"))).written =
      [qs "1-gdb-set target-async on\n", qs "2-break-list\n",
       qs "3-interpreter-exec console \"commands 1\nsilent\nprintf \\\"hit\\n\\\"\ncontinue\nend\"\n",
       qs "4-break-list\n"] := by decide
  refine ⟨h1, h2, ?_⟩
  rintro ⟨r, hr, hne⟩
  rw [hr] at h2
  simp only [Option.map_some', Option.some.injEq] at h2
  exact hne (h2.trans h1.symm)

/-! ## The value parser on stray closing characters -/

theorem GdbMiClient.resultsLoop_stall (c : Char) (h : c = '}' ∨ c = ']') :
    ∀ (fuel : Nat) (map : QVariantMap),
      GdbMiClient.parseMiResultsLoop (fuel + 1) map [c] =
        GdbMiClient.parseMiResultsLoop fuel map [c] := by
  intro fuel map
  rcases h with rfl | rfl <;> rfl

theorem GdbMiClient.resultsLoop_never (c : Char) (h : c = '}' ∨ c = ']') :
    ∀ (fuel : Nat) (map : QVariantMap), GdbMiClient.parseMiResultsLoop fuel map [c] = none := by
  intro fuel
  induction fuel with
  | zero => intro map; rfl
  | succ n ih => intro map; rw [GdbMiClient.resultsLoop_stall c h, ih]

theorem GdbMiClient.tupleLoop_stall (fuel : Nat) (map : QVariantMap) :
    GdbMiClient.parseMiTupleLoop (fuel + 1) map (qs "]") =
      GdbMiClient.parseMiTupleLoop fuel map (qs "]") := by
  rfl

theorem GdbMiClient.tupleLoop_never :
    ∀ (fuel : Nat) (map : QVariantMap), GdbMiClient.parseMiTupleLoop fuel map (qs "]") = none := by
  intro fuel
  induction fuel with
  | zero => intro map; rfl
  | succ n ih => intro map; rw [GdbMiClient.tupleLoop_stall, ih]

theorem GdbMiClient.listLoop_stall (fuel : Nat) (list : QVariantList) :
    GdbMiClient.parseMiListLoop (fuel + 2) list (qs "\x7d") =
      GdbMiClient.parseMiListLoop (fuel + 1) (list ++ [QVariant.string []]) (qs "\x7d") := by
  rfl

theorem GdbMiClient.listLoop_never :
    ∀ (fuel : Nat) (list : QVariantList), GdbMiClient.parseMiListLoop fuel list (qs "\x7d") = none := by
  intro fuel
  induction fuel with
  | zero => intro list; rfl
  | succ n ih =>
    intro list
    cases n with
    | zero => rfl
    | succ m => rw [GdbMiClient.listLoop_stall, ih]

theorem GdbMiClient.parseMiValue_tuple_never (fuel : Nat) :
    GdbMiClient.parseMiValue fuel (qs "\x7b]") = none := by
  cases fuel with
  | zero => rfl
  | succ n =>
    show (GdbMiClient.parseMiTupleLoop n [] (qs "]")).map _ = none
    rw [GdbMiClient.tupleLoop_never]
    rfl

theorem GdbMiClient.parseMiValue_list_never (fuel : Nat) :
    GdbMiClient.parseMiValue fuel (qs "[\x7d") = none := by
  cases fuel with
  | zero => rfl
  | succ n =>
    show (GdbMiClient.parseMiListLoop n [] (qs "\x7d")).map _ = none
    rw [GdbMiClient.listLoop_never]
    rfl

theorem GdbMiClient.resultsLoop_value_never (fuel : Nat) (map : QVariantMap) (text : QString)
    (h : ∀ n, GdbMiClient.parseMiValue n text = none) :
    GdbMiClient.parseMiResultsLoop fuel map ('a' :: '=' :: text) = none := by
  cases fuel with
  | zero => rfl
  | succ n =>
    show (match (if (GdbMiClient.parseMiWord ('a' :: '=' :: text)).2.head? = some '='
      then GdbMiClient.parseMiValue n (GdbMiClient.parseMiWord ('a' :: '=' :: text)).2.tail
      else some (QVariant.invalid, (GdbMiClient.parseMiWord ('a' :: '=' :: text)).2)) with
      | none => none
      | some (value, text1) => _) = none
    have hw : GdbMiClient.parseMiWord ('a' :: '=' :: text) = (['a'], '=' :: text) := by
      simp [GdbMiClient.parseMiWord, skipDelimiters, List.dropWhile, List.takeWhile,
        GdbMiClient.isWordEnd, QChar.isSpace]
    rw [hw]
    simp only [List.head?_cons, if_true, List.tail_cons, h]

set_option maxRecDepth 8000 in
/-- Claim C24 fails: the loops of the value parser do not advance at a closing
character that they do not expect.  At the text `}` (or `]`) the loop of
`parseMiResults` reaches its next iteration with the same text and the same
entries, at `]` so does the loop of `parseMiTuple`, and at `}` the loop of
`parseMiList` does with one more (empty) element in its list; so no amount of
fuel lets the parser return on the payloads `}`, `]`, `a={]` and `a=[}`, and
`parseLine` does not return on the record `3^done,}` received for a pending
`-stack-list-frames`.  On the well-formed neighbours `a={}` and `a=[]` the
parser returns. -/
theorem GdbMiClient.parser_does_not_advance :
    (∀ (fuel : Nat) (map : QVariantMap),
      GdbMiClient.parseMiResultsLoop (fuel + 1) map (qs "\x7d") =
        GdbMiClient.parseMiResultsLoop fuel map (qs "\x7d")) ∧
    (∀ (fuel : Nat) (map : QVariantMap),
      GdbMiClient.parseMiTupleLoop (fuel + 1) map (qs "]") =
        GdbMiClient.parseMiTupleLoop fuel map (qs "]")) ∧
    (∀ (fuel : Nat) (list : QVariantList),
      GdbMiClient.parseMiListLoop (fuel + 2) list (qs "\x7d") =
        GdbMiClient.parseMiListLoop (fuel + 1) (list ++ [QVariant.string []]) (qs "\x7d")) ∧
    (∀ (fuel : Nat) (map : QVariantMap),
      GdbMiClient.parseMiResultsLoop fuel map (skipDelimiters (qs "\x7d")) = none) ∧
    (∀ (fuel : Nat) (map : QVariantMap),
      GdbMiClient.parseMiResultsLoop fuel map (skipDelimiters (qs "]")) = none) ∧
    (∀ (fuel : Nat) (map : QVariantMap),
      GdbMiClient.parseMiResultsLoop fuel map (skipDelimiters (qs "a=\x7b]")) = none) ∧
    (∀ (fuel : Nat) (map : QVariantMap),
      GdbMiClient.parseMiResultsLoop fuel map (skipDelimiters (qs "a=[\x7d")) = none) ∧
    GdbMiClient.parseMiResults (qs "\x7d") = none ∧
    Assoc.find 3 GdbMiClient.sampleStackPending.pendingTags_ = some (qs "stack-list") ∧
    (GdbMiClient.parseLine QtEnv.sample GdbMiClient.sampleStackPending
      (qs "3^done,\x7d")).isNone = true ∧
    GdbMiClient.parseMiResults (qs "a=\x7b\x7d") = some [(qs "a", QVariant.map [])] ∧
    GdbMiClient.parseMiResults (qs "a=[]") = some [(qs "a", QVariant.list [])] := by
  refine ⟨GdbMiClient.resultsLoop_stall '}' (Or.inl rfl), GdbMiClient.tupleLoop_stall,
    GdbMiClient.listLoop_stall, GdbMiClient.resultsLoop_never '}' (Or.inl rfl),
    GdbMiClient.resultsLoop_never ']' (Or.inr rfl), ?_, ?_,
    GdbMiClient.resultsLoop_never '}' (Or.inl rfl) _ _, by decide, by rfl, by rfl, by rfl⟩
  · intro fuel map
    exact GdbMiClient.resultsLoop_value_never fuel map _ GdbMiClient.parseMiValue_tuple_never
  · intro fuel map
    exact GdbMiClient.resultsLoop_value_never fuel map _ GdbMiClient.parseMiValue_list_never

/-! ## Escapes in quoted strings -/

theorem MiValue.wellEscaped_plain (c : Char) (t : QString) (h1 : c ≠ '"') (h2 : c ≠ '\\') :
    MiValue.wellEscaped (c :: t) = MiValue.wellEscaped t := by
  cases t with
  | nil => simp [MiValue.wellEscaped, h1, h2]
  | cons d r => simp [MiValue.wellEscaped, h1, h2]

theorem MiValue.unescape_plain (c : Char) (t : QString) (h : c ≠ '\\') :
    MiValue.unescape (c :: t) = c :: MiValue.unescape t := by
  cases t with
  | nil => simp [MiValue.unescape]
  | cons d r => simp [MiValue.unescape, h]

theorem MiValue.escapeQuotes_spec (s : QString) (h : '\\' ∉ s) :
    MiValue.wellEscaped (GdbMiClient.escapeQuotes s) = true ∧
      MiValue.unescape (GdbMiClient.escapeQuotes s) = s := by
  induction s with
  | nil => exact ⟨rfl, rfl⟩
  | cons c r ih =>
    have hc : c ≠ '\\' := fun e => h (e ▸ List.mem_cons_self _ _)
    have hr := ih (fun hm => h (List.mem_cons_of_mem _ hm))
    have e : GdbMiClient.escapeQuotes (c :: r) =
        (if c = '"' then ['\\', '"'] else [c]) ++ GdbMiClient.escapeQuotes r := by
      simp [GdbMiClient.escapeQuotes, List.flatMap_cons]
    rw [e]
    by_cases hq : c = '"'
    · subst hq
      simp [MiValue.wellEscaped, MiValue.unescape, hr.1, hr.2]
    · simp only [hq, if_false, List.singleton_append]
      rw [MiValue.wellEscaped_plain c _ hq hc, MiValue.unescape_plain c _ hc]
      exact ⟨hr.1, by rw [hr.2]⟩

theorem GdbMiClient.parseMiValueAt_quoted (raw : QString) (h : MiValue.wellEscaped raw = true) :
    GdbMiClient.parseMiValueAt (qs "\"" ++ raw ++ qs "\"") 0 =
      some (.string (MiValue.unescape raw), (qs "\"" ++ raw ++ qs "\"").length) := by
  unfold GdbMiClient.parseMiValueAt
  have e : (qs "\"" ++ raw ++ qs "\"") = '"' :: (raw ++ '"' :: []) := by
    simp [qs]
  rw [List.drop_zero, e]
  have hf : 2 * ('"' :: (raw ++ ['"'])).length + 2 = (2 * ('"' :: (raw ++ ['"'])).length + 1) + 1 :=
    rfl
  rw [hf]
  simp only [GdbMiClient.parseMiValue, skipDelimiters]
  have hs : List.dropWhile QChar.isSpace ('"' :: (raw ++ ['"'])) = '"' :: (raw ++ ['"']) := by
    rw [List.dropWhile_cons_of_neg (by decide)]
  rw [hs]
  simp only [if_true, Option.map_some']
  rw [GdbMiClient.parseMiQuoted_raw raw.length raw [] [] (le_refl _) h]
  simp

theorem GdbMiClient.quotedArgument_round_trip (s : QString) (h : '\\' ∉ s) :
    GdbMiClient.parseMiValueAt (GdbMiClient.quotedArgument s) 0 =
      some (.string s, (GdbMiClient.quotedArgument s).length) := by
  have hs := MiValue.escapeQuotes_spec s h
  unfold GdbMiClient.quotedArgument
  rw [GdbMiClient.parseMiValueAt_quoted _ hs.1, hs.2]

set_option maxRecDepth 8000 in
/-- Claim C30 fails for texts that hold a backslash: the escaping puts a
backslash before double quotes only.  The expression `a\nb` (with a backslash
and the letter n) is written as `"a\nb"`, which the quoted-string rule reads as
`a`, line feed, `b`; the console command that is one backslash is written as
`"\"`, which the rule reads as a double quote with the closing quote missing.
For every text without a backslash the written argument is read back as the
text, with the position at the end of the argument. -/
theorem GdbMiClient.backslash_not_escaped :
    GdbMiClient.quotedArgument (qs "a\\nb") = qs "\"a\\nb\"" ∧
    GdbMiClient.parseMiValueAt (GdbMiClient.quotedArgument (qs "a\\nb")) 0 =
      some (.string (qs "a\nb"), 6) ∧
    GdbMiClient.quotedArgument (qs "\\") = qs "\"\\\"" ∧
    GdbMiClient.parseMiValueAt (GdbMiClient.quotedArgument (qs "\\")) 0 =
      some (.string (qs "\""), 3) ∧
    (GdbMiClient.sampleSession.evaluateExpression (qs "a\\nb")).written =
      GdbMiClient.sampleSession.written ++
        [qs "3-data-evaluate-expression " ++ GdbMiClient.quotedArgument (qs "a\\nb") ++ qs "\n"] ∧
    (GdbMiClient.sampleSession.sendConsoleCommand (qs "\\")).written =
      GdbMiClient.sampleSession.written ++
        [qs "3-interpreter-exec console " ++ GdbMiClient.quotedArgument (qs "\\") ++ qs "\n"] ∧
    (∀ s : QString, '\\' ∉ s →
      GdbMiClient.parseMiValueAt (GdbMiClient.quotedArgument s) 0 =
        some (.string s, (GdbMiClient.quotedArgument s).length)) :=
  ⟨by decide, by rfl, by decide, by rfl, by decide, by decide,
    GdbMiClient.quotedArgument_round_trip⟩

/-! ## Stream records -/

theorem QString.replace2_plain (b1 b2 a c : Char) (t : QString) (h : c ≠ b1) :
    QString.replace2 b1 b2 a (c :: t) = c :: QString.replace2 b1 b2 a t := by
  cases t with
  | nil => simp [QString.replace2]
  | cons d r => simp [QString.replace2, h]

theorem QString.replace2_hit (b1 b2 a : Char) (t : QString) :
    QString.replace2 b1 b2 a (b1 :: b2 :: t) = a :: QString.replace2 b1 b2 a t := by
  simp [QString.replace2]

theorem QString.replace2_skip (b1 b2 a d : Char) (t : QString) (h1 : d ≠ b2) (h2 : d ≠ b1) :
    QString.replace2 b1 b2 a (b1 :: d :: t) = b1 :: d :: QString.replace2 b1 b2 a t := by
  rw [QString.replace2]
  simp only [h1, and_false, if_false]
  rw [QString.replace2_plain b1 b2 a d t h2]

theorem MiValue.replace_simple :
    ∀ (n : Nat) (body : QString), body.length ≤ n → MiValue.simpleEscapes body = true →
      QString.replace2 '\\' '"' '"' (QString.replace2 '\\' 't' '\t'
        (QString.replace2 '\\' 'n' '\n' body)) = MiValue.unescape body := by
  intro n
  induction n with
  | zero =>
    intro body hl _
    have : body = [] := List.length_eq_zero.mp (by omega)
    subst this
    rfl
  | succ n ih =>
    intro body hl hs
    match body, hl, hs with
    | [], _, _ => rfl
    | [c], _, hs =>
      simp only [MiValue.simpleEscapes, Bool.and_eq_true, bne_iff_ne, ne_eq] at hs
      simp [QString.replace2, MiValue.unescape]
    | c :: d :: r, hl, hs =>
      by_cases hc : c = '\\'
      · subst hc
        simp only [MiValue.simpleEscapes, if_true, Bool.and_eq_true, Bool.or_eq_true,
          decide_eq_true_eq] at hs
        have hr := ih r (by simp at hl ⊢; omega) hs.2
        rcases hs.1 with (hd | hd) | hd
        · subst hd
          rw [QString.replace2_hit, QString.replace2_plain _ _ _ '\n' _ (by decide),
            QString.replace2_plain _ _ _ '\n' _ (by decide), hr]
          simp [MiValue.unescape]
        · subst hd
          rw [QString.replace2_skip _ _ _ 't' _ (by decide) (by decide), QString.replace2_hit,
            QString.replace2_plain _ _ _ '\t' _ (by decide), hr]
          simp [MiValue.unescape]
        · subst hd
          rw [QString.replace2_skip _ _ _ '"' _ (by decide) (by decide),
            QString.replace2_skip _ _ _ '"' _ (by decide) (by decide), QString.replace2_hit, hr]
          simp [MiValue.unescape]
      · simp only [MiValue.simpleEscapes, hc, if_false, Bool.and_eq_true, bne_iff_ne,
          ne_eq] at hs
        have hr := ih (d :: r) (by simp at hl ⊢; omega) hs.2
        rw [QString.replace2_plain _ _ _ c _ hc, QString.replace2_plain _ _ _ c _ hc,
          QString.replace2_plain _ _ _ c _ hc, hr, MiValue.unescape_plain c _ hc]

theorem GdbMiClient.decodeMiString_stream (p : Char) (body : QString)
    (hp : p = '~' ∨ p = '@' ∨ p = '&') :
    GdbMiClient.decodeMiString (GdbMiClient.streamRecord p body) =
      QString.replace2 '\\' '"' '"' (QString.replace2 '\\' 't' '\t'
        (QString.replace2 '\\' 'n' '\n' body)) := by
  unfold GdbMiClient.decodeMiString GdbMiClient.streamRecord
  have h1 : 2 ≤ (p :: '"' :: body ++ ['"']).length ∧
      ((p :: '"' :: body ++ ['"']).head? = some '~' ∨
        (p :: '"' :: body ++ ['"']).head? = some '@' ∨
        (p :: '"' :: body ++ ['"']).head? = some '&') := by
    refine ⟨by simp, ?_⟩
    rcases hp with rfl | rfl | rfl <;> simp
  rw [if_pos h1]
  have h2 : (p :: '"' :: body ++ ['"']).drop 2 = body ++ ['"'] := rfl
  have h3 : (body ++ ['"']).getLast? = some '"' := by simp
  simp only [h2, h3, if_true, List.dropLast_concat]

theorem GdbMiClient.parseLine_stream (env : QtEnv) (s : GdbMiClient) (p : Char) (body : QString)
    (hp : p = '~' ∨ p = '@' ∨ p = '&') :
    GdbMiClient.parseLine env s (GdbMiClient.streamRecord p body) =
      some (s.emit (.consoleOutput
        (GdbMiClient.decodeMiString (GdbMiClient.streamRecord p body) ++ qs "\n"))) := by
  unfold GdbMiClient.parseLine
  have h0 : (GdbMiClient.streamRecord p body).head? = some p := rfl
  simp only [h0, Option.some.injEq]
  rcases hp with rfl | rfl | rfl
  · rw [if_neg (by decide), if_pos (by decide)]
  · rw [if_neg (by decide), if_pos (by decide)]
  · rw [if_neg (by decide), if_pos (by decide)]

set_option maxRecDepth 8000 in
/-- Claim C26 fails for bodies that hold an escaped backslash.  `decodeMiString`
replaces backslash-n, then backslash-t, then backslash-quote wherever the two
characters stand side by side, so in the body `a\\nb` (which encodes `a`,
backslash, `n`, `b`) the second backslash and the `n` become a line feed and the
first backslash stays; the record `~"$1 = \"a\\nb\"\n"`, which the debugger
writes for the console line `$1 = "a\nb"`, is emitted as `$1 = "a\`, line
feed, `b"`, line feed.  The quoted-string rule of `parseMiValue` reads both
bodies as the text they encode.  For every body whose escapes are backslash-n,
backslash-t and backslash-quote only, the console output is the text that the
body encodes, followed by one line feed. -/
theorem GdbMiClient.stream_backslash_kept :
    GdbMiClient.streamRecord '~' (qs "a\\\\nb") = qs "~\"a\\\\nb\"" ∧
    GdbMiClient.decodeMiString (qs "~\"a\\\\nb\"") = qs "a\\\nb" ∧
    MiValue.unescape (qs "a\\\\nb") = qs "a\\nb" ∧
    GdbMiClient.parseMiQuoted (qs "a\\\\nb\"") [] = (qs "a\\nb", []) ∧
    GdbMiClient.decodeMiString (qs "~\"$1 = \\\"a\\\\nb\\\"\\n\"") = qs "$1 = \"a\\\nb\"\n" ∧
    MiValue.unescape (qs "$1 = \\\"a\\\\nb\\\"\\n") = qs "$1 = \"a\\nb\"\n" ∧
    (GdbMiClient.parseLine QtEnv.sample GdbMiClient.sampleSession
        (qs "~\"$1 = \\\"a\\\\nb\\\"\\n\"")).map (fun r => r.emitted) =
      some (GdbMiClient.sampleSession.emitted ++
        [.consoleOutput (qs "$1 = \"a\\\nb\"\n" ++ qs "\n")]) ∧
    (∀ (env : QtEnv) (s : GdbMiClient) (p : Char) (body : QString),
      p = '~' ∨ p = '@' ∨ p = '&' → MiValue.simpleEscapes body = true →
      GdbMiClient.parseLine env s (GdbMiClient.streamRecord p body) =
        some (s.emit (.consoleOutput (MiValue.unescape body ++ qs "\n")))) := by
  refine ⟨by decide, by decide, by decide, by decide, by decide, by decide, by rfl, ?_⟩
  intro env s p body hp hs
  rw [GdbMiClient.parseLine_stream env s p body hp, GdbMiClient.decodeMiString_stream p body hp,
    MiValue.replace_simple body.length body (le_refl _) hs]

/-! ## Diagnostic selections -/

theorem QTextDocument.findBlockByNumber_length (doc : QTextDocument) (n p l : Int)
    (h : doc.findBlockByNumber n = some (p, l)) :
    l = ((doc.blocks.getD n.toNat []).length : Int) + 1 := by
  unfold QTextDocument.findBlockByNumber at h
  split at h
  · simp only [Option.some.injEq, Prod.mk.injEq] at h
    rw [← h.2]
    push_cast
    rfl
  · cases h

set_option maxRecDepth 8000 in
/-- Claim C28 fails by one character: the character of a position is clamped to
`length()` of the block, which counts the separator after the line, so a
character beyond the line gives the offset of the first character of the next
line, and on the last line an offset outside the document, which
`QTextCursor::setPosition` refuses.  In the document of the lines `ab` and `cd`
(blocks at 0 and 3, both of length 3, six characters in all) a diagnostic from
(0, 10) to (0, 12) is placed at offset 3, the start of line 1; one from (1, 10)
to (1, 12) is placed at offset 0; one from (1, 10) to (1, 1) selects the offsets
0 to 4.  Positions inside their line are mapped to the start of the line plus
the character, a missing end stands for the start line and the start character
plus one, and a diagnostic whose start line does not exist gives no
selection. -/
theorem LspClient.diagnostic_clamp_past_line :
    LspClient.sampleTracking.currentDocument_ = some { blocks := [qs "ab", qs "cd"] } ∧
    ({ blocks := [qs "ab", qs "cd"] } : QTextDocument).findBlockByNumber 0 = some (0, 3) ∧
    ({ blocks := [qs "ab", qs "cd"] } : QTextDocument).findBlockByNumber 1 = some (3, 3) ∧
    ({ blocks := [qs "ab", qs "cd"] } : QTextDocument).characterCount = 6 ∧
    (LspClient.sampleTracking.buildDiagnosticSelections [LspClient.diagnostic 0 10 0 12]).1 =
      [{ anchor := 3, position := 3 }] ∧
    (LspClient.sampleTracking.buildDiagnosticSelections [LspClient.diagnostic 0 2 0 3]).1 =
      [{ anchor := 2, position := 3 }] ∧
    (LspClient.sampleTracking.buildDiagnosticSelections [LspClient.diagnostic 1 10 1 12]).1 =
      [{ anchor := 0, position := 0 }] ∧
    (LspClient.sampleTracking.buildDiagnosticSelections [LspClient.diagnostic 1 10 1 1]).1 =
      [{ anchor := 0, position := 4 }] ∧
    (LspClient.sampleTracking.buildDiagnosticSelections [LspClient.diagnostic 0 1 0 2]).1 =
      [{ anchor := 1, position := 2 }] ∧
    (LspClient.sampleTracking.buildDiagnosticSelections [LspClient.diagnosticAt 0 1]).1 =
      [{ anchor := 1, position := 2 }] ∧
    (LspClient.sampleTracking.buildDiagnosticSelections [LspClient.diagnosticAt 5 1]).1 = [] ∧
    (∀ (doc : QTextDocument) (n p l : Int), doc.findBlockByNumber n = some (p, l) →
      l = ((doc.blocks.getD n.toNat []).length : Int) + 1) :=
  ⟨by rfl, by decide, by decide, by decide, by decide, by decide, by decide, by decide, by decide,
    by decide, by decide, QTextDocument.findBlockByNumber_length⟩

/-! ## Tags of the form `<method>|<filePath>` -/

theorem LspClient.tag_split (method filePath : QString) (h : '|' ∉ method) :
    LspClient.tagMethod (method ++ qs "|" ++ filePath) = method ∧
      LspClient.tagFilePath (method ++ qs "|" ++ filePath) = filePath := by
  have e : method ++ qs "|" ++ filePath = method ++ '|' :: filePath := by simp [qs]
  have hp : ∀ c ∈ method, (fun c => c != '|') c = true := by
    intro c hc
    simp only [bne_iff_ne, ne_eq]
    intro e2
    exact h (e2 ▸ hc)
  have hc : (method ++ '|' :: filePath).contains '|' = true := by simp
  unfold LspClient.tagMethod LspClient.tagFilePath
  rw [e, hc]
  simp only [if_true]
  rw [List.takeWhile_append_of_pos hp, List.dropWhile_append_of_pos hp]
  simp [List.takeWhile, List.dropWhile]

theorem LspClient.pathMethods_plain : ∀ m ∈ LspClient.pathMethods, '|' ∉ m := by decide

theorem LspClient.handleReply_path (env : QtEnv) (s : LspClient) (method filePath : QString)
    (msg : QJsonObject) (h : method ∈ LspClient.pathMethods) :
    ∃ e, LspClient.handleReply env s method filePath msg = s.emit e ∧
      e.replyFilePath = some filePath := by
  simp only [LspClient.pathMethods, List.mem_cons, List.mem_singleton, List.not_mem_nil,
    or_false] at h
  unfold LspClient.handleReply
  simp only []
  rcases h with rfl | rfl | rfl | rfl | rfl | rfl
  · rw [if_neg (by decide), if_neg (by decide), if_pos rfl]
    exact ⟨_, rfl, rfl⟩
  · rw [if_neg (by decide), if_neg (by decide), if_neg (by decide), if_pos rfl]
    exact ⟨_, rfl, rfl⟩
  · rw [if_neg (by decide), if_neg (by decide), if_neg (by decide), if_neg (by decide),
      if_pos rfl]
    exact ⟨_, rfl, rfl⟩
  · rw [if_neg (by decide), if_neg (by decide), if_neg (by decide), if_neg (by decide),
      if_neg (by decide), if_pos rfl]
    exact ⟨_, rfl, rfl⟩
  · rw [if_neg (by decide), if_neg (by decide), if_neg (by decide), if_neg (by decide),
      if_neg (by decide), if_neg (by decide), if_pos rfl]
    exact ⟨_, rfl, rfl⟩
  · rw [if_neg (by decide), if_neg (by decide), if_neg (by decide), if_neg (by decide),
      if_neg (by decide), if_neg (by decide), if_neg (by decide), if_pos rfl]
    exact ⟨_, rfl, rfl⟩

theorem LspAction.pathRequest_step (env : QtEnv) (s : LspClient) (a : LspAction)
    (method filePath : QString) (ha : a.pathRequest = some (method, filePath))
    (hinit : s.initialized_ = true) :
    method ∈ LspClient.pathMethods ∧
      ∃ params, LspClient.step env s a =
        some (LspClient.requestWithPath env s method filePath params) := by
  cases a <;> simp only [LspAction.pathRequest] at ha <;> cases ha
  all_goals
    refine ⟨by decide, ?_⟩
    simp only [LspClient.step, LspClient.requestDocumentSymbols, LspClient.requestFoldingRanges,
      LspClient.requestSemanticTokens, LspClient.requestDefinition,
      LspClient.requestReferences, LspClient.requestRename, hinit]
    exact ⟨_, rfl⟩

/-- Claim C29.  Each of the six calls that record a tag `<method>|<filePath>`
(document symbols, folding ranges, semantic tokens, definition, references,
rename), made on an initialized engine with any file path, stores that tag under
the id of its request; splitting the tag at its first `|` gives the method and
the file path as they were passed, also when the file path holds `|` itself,
since no method name holds one; and the reply with that id makes the engine emit
exactly one signal, which carries that file path. -/
theorem LspClient.tag_round_trip (env : QtEnv) (s : LspClient) (a : LspAction)
    (method filePath : QString) (msg : QJsonObject)
    (ha : a.pathRequest = some (method, filePath)) (hinit : s.initialized_ = true)
    (hreply : LspClient.isReply msg = true) (hid : LspClient.replyId msg = s.nextId_) :
    ∃ s1, LspClient.step env s a = some s1 ∧
      Assoc.find s.nextId_ s1.pendingRequests_ = some (method ++ qs "|" ++ filePath) ∧
      LspClient.tagMethod (method ++ qs "|" ++ filePath) = method ∧
      LspClient.tagFilePath (method ++ qs "|" ++ filePath) = filePath ∧
      ∃ e, (LspClient.handleMessage env s1 msg).emitted = s1.emitted ++ [e] ∧
        e.replyFilePath = some filePath := by
  obtain ⟨hm, params, hstep⟩ := LspAction.pathRequest_step env s a method filePath ha hinit
  have hsplit := LspClient.tag_split method filePath (LspClient.pathMethods_plain method hm)
  have hfields := (LspClient.requestWithPath_fields env s method filePath params).1
  have hfind : Assoc.find s.nextId_
      (LspClient.requestWithPath env s method filePath params).pendingRequests_ =
      some (method ++ qs "|" ++ filePath) := by
    rw [hfields, Assoc.find_insert_self]
  refine ⟨_, hstep, hfind, hsplit.1, hsplit.2, ?_⟩
  rw [LspClient.handleMessage_reply env _ msg hreply, hid, hfind]
  simp only [Option.getD_some, hsplit.1, hsplit.2]
  obtain ⟨e, he, hpath⟩ := LspClient.handleReply_path env
    { LspClient.requestWithPath env s method filePath params with
      pendingRequests_ := Assoc.erase s.nextId_
        (LspClient.requestWithPath env s method filePath params).pendingRequests_ }
    method filePath msg hm
  exact ⟨e, by rw [he]; rfl, hpath⟩

set_option maxRecDepth 8000 in
theorem LspClient.tag_round_trip_witness :
    ((LspAction.requestRename (qs "/w/a|b.cpp") 1 2 (qs "n")).pathRequest =
        some (qs "textDocument/rename", qs "/w/a|b.cpp") ∧
      LspClient.sampleReady.initialized_ = true ∧
      LspClient.isReply [(qs "id", .number 2), (qs "result", .object [])] = true ∧
      LspClient.replyId [(qs "id", .number 2), (qs "result", .object [])] =
        LspClient.sampleReady.nextId_) ∧
    (∃ s1, LspClient.step QtEnv.sample LspClient.sampleReady
          (.requestRename (qs "/w/a|b.cpp") 1 2 (qs "n")) = some s1 ∧
      Assoc.find LspClient.sampleReady.nextId_ s1.pendingRequests_ =
        some (qs "textDocument/rename" ++ qs "|" ++ qs "/w/a|b.cpp") ∧
      LspClient.tagMethod (qs "textDocument/rename" ++ qs "|" ++ qs "/w/a|b.cpp") =
        qs "textDocument/rename" ∧
      LspClient.tagFilePath (qs "textDocument/rename" ++ qs "|" ++ qs "/w/a|b.cpp") =
        qs "/w/a|b.cpp" ∧
      ∃ e, (LspClient.handleMessage QtEnv.sample s1
            [(qs "id", .number 2), (qs "result", .object [])]).emitted = s1.emitted ++ [e] ∧
        e.replyFilePath = some (qs "/w/a|b.cpp")) ∧
    ((LspClient.handleMessage QtEnv.sample
        (LspClient.requestRename QtEnv.sample LspClient.sampleReady (qs "/w/a|b.cpp") 1 2
          (qs "n"))
        [(qs "id", .number 2), (qs "result", .object [])]).emitted.map
        LspEvent.replyFilePath).getLast? = some (some (qs "/w/a|b.cpp")) :=
  ⟨⟨by decide, by decide, by decide, by decide⟩,
    LspClient.tag_round_trip QtEnv.sample LspClient.sampleReady
      (.requestRename (qs "/w/a|b.cpp") 1 2 (qs "n")) (qs "textDocument/rename")
      (qs "/w/a|b.cpp") [(qs "id", .number 2), (qs "result", .object [])]
      (by decide) (by decide) (by decide) (by decide),
    by decide⟩

/-! ## Skipped semantic tokens -/

theorem SemanticToken.positions_append (xs : List SemanticToken) :
    ∀ (line character : Int) (ys : List SemanticToken),
      SemanticToken.positions line character (xs ++ ys) =
        SemanticToken.positions line character xs ++
          SemanticToken.positions (SemanticToken.endPosition line character xs).1
            (SemanticToken.endPosition line character xs).2 ys := by
  induction xs with
  | nil => intro line character ys; rfl
  | cons t rest ih =>
    intro line character ys
    have e : SemanticToken.endPosition line character (t :: rest) =
        SemanticToken.endPosition (line + t.deltaLine)
          (if t.deltaLine ≠ 0 then t.deltaStart else character + t.deltaStart) rest := by
      show (((line + t.deltaLine,
          if t.deltaLine ≠ 0 then t.deltaStart else character + t.deltaStart) ::
          SemanticToken.positions (line + t.deltaLine)
            (if t.deltaLine ≠ 0 then t.deltaStart else character + t.deltaStart) rest).getLast?.getD
          (line, character)) =
        (SemanticToken.positions (line + t.deltaLine)
            (if t.deltaLine ≠ 0 then t.deltaStart else character + t.deltaStart) rest).getLast?.getD
          (line + t.deltaLine,
            if t.deltaLine ≠ 0 then t.deltaStart else character + t.deltaStart)
      generalize SemanticToken.positions (line + t.deltaLine)
        (if t.deltaLine ≠ 0 then t.deltaStart else character + t.deltaStart) rest = q
      cases q with
      | nil => rfl
      | cons p ps => rw [List.getLast?_cons_cons]; simp [List.getLast?_eq_getLast]
    rw [e]
    show _ :: SemanticToken.positions _ _ (rest ++ ys) = _
    rw [ih]
    rfl

theorem SemanticToken.endPosition_single (line character : Int) (t : SemanticToken) :
    SemanticToken.endPosition line character [t] =
      (line + t.deltaLine, if t.deltaLine ≠ 0 then t.deltaStart else character + t.deltaStart) := by
  rfl

theorem SemanticToken.endPosition_append (xs ys : List SemanticToken) (line character : Int) :
    SemanticToken.endPosition line character (xs ++ ys) =
      SemanticToken.endPosition (SemanticToken.endPosition line character xs).1
        (SemanticToken.endPosition line character xs).2 ys := by
  have h := SemanticToken.positions_append xs line character ys
  have hE : (SemanticToken.positions line character xs).getLast?.getD (line, character) =
      SemanticToken.endPosition line character xs := rfl
  generalize SemanticToken.endPosition line character xs = E at h hE ⊢
  show (SemanticToken.positions line character (xs ++ ys)).getLast?.getD (line, character) =
    (SemanticToken.positions E.1 E.2 ys).getLast?.getD E
  rw [h]
  generalize SemanticToken.positions E.1 E.2 ys = q
  cases q with
  | nil => rw [List.append_nil]; exact hE
  | cons p ps =>
    rw [List.getLast?_append, List.getLast?_eq_getLast _ (List.cons_ne_nil p ps)]
    rfl

theorem MainWindow.selectionsFrom_append (doc : QTextDocument) (tokenTypes : List QString)
    (xs ys : List SemanticToken) (line character : Int) :
    MainWindow.selectionsFrom doc tokenTypes line character (xs ++ ys) =
      MainWindow.selectionsFrom doc tokenTypes line character xs ++
        MainWindow.selectionsFrom doc tokenTypes (SemanticToken.endPosition line character xs).1
          (SemanticToken.endPosition line character xs).2 ys := by
  unfold MainWindow.selectionsFrom
  rw [SemanticToken.positions_append,
    List.zip_append (by rw [SemanticToken.positions_length]), List.filterMap_append]

theorem MainWindow.tokenSelection_skipped (doc : QTextDocument) (tokenTypes : List QString)
    (t : SemanticToken) (line character : Int) (h : t.skippedType tokenTypes = true) :
    MainWindow.tokenSelection doc tokenTypes line character t.length t.tokenType = some none := by
  unfold SemanticToken.skippedType at h
  simp only [Bool.or_eq_true, decide_eq_true_eq] at h
  unfold MainWindow.tokenSelection
  rcases h with h | h
  · rw [if_pos h]
  · by_cases h1 : t.tokenType < 0 ∨ (tokenTypes.length : Int) ≤ t.tokenType
    · rw [if_pos h1]
    · rw [if_neg h1, if_pos h]

theorem MainWindow.selectionsFrom_single (doc : QTextDocument) (tokenTypes : List QString)
    (t : SemanticToken) (line character : Int) :
    MainWindow.selectionsFrom doc tokenTypes line character [t] =
      ((MainWindow.tokenSelection doc tokenTypes (line + t.deltaLine)
        (if t.deltaLine ≠ 0 then t.deltaStart else character + t.deltaStart)
        t.length t.tokenType).getD none).toList := by
  unfold MainWindow.selectionsFrom
  simp only [SemanticToken.positions, List.zip_cons_cons, List.zip_nil_right,
    List.filterMap_cons, List.filterMap_nil]
  cases (MainWindow.tokenSelection doc tokenTypes (line + t.deltaLine)
        (if t.deltaLine ≠ 0 then t.deltaStart else character + t.deltaStart)
        t.length t.tokenType).getD none <;> rfl

theorem MainWindow.handleSemanticTokens_stream (doc : QTextDocument) (tokenTypes : List QString)
    (entries : List SemanticToken) (tail : QJsonArray) (filePath : QString)
    (hint : ∀ t ∈ entries, t.isInt) (htail : tail.length < 5)
    (hdefined : SemanticToken.defined doc tokenTypes 0 0 entries = true)
    (htypes : tokenTypes.isEmpty = false) :
    MainWindow.handleSemanticTokens filePath (some { filePath := filePath, editor := some doc })
        tokenTypes filePath (MainWindow.tokenStream entries ++ tail) =
      some (some (MainWindow.selectionsFrom doc tokenTypes 0 0 entries)) := by
  unfold MainWindow.handleSemanticTokens
  simp only [ne_eq, not_true_eq_false, if_false, htypes, Bool.false_eq_true]
  have h := MainWindow.semanticTokensLoop_stream doc tokenTypes tail htail entries 0 0 [] hint
    hdefined
  unfold SemanticLoop.init
  rw [h]
  simp [MainWindow.selectionsFrom]

theorem MainWindow.selectionsFrom_middle (doc : QTextDocument) (tokenTypes : List QString)
    (pre post : List SemanticToken) (t : SemanticToken) :
    MainWindow.selectionsFrom doc tokenTypes 0 0 (pre ++ t :: post) =
      MainWindow.selectionsFrom doc tokenTypes 0 0 pre ++
        ((MainWindow.tokenSelection doc tokenTypes
          (SemanticToken.advance (SemanticToken.endPosition 0 0 pre) t).1
          (SemanticToken.advance (SemanticToken.endPosition 0 0 pre) t).2
          t.length t.tokenType).getD none).toList ++
        MainWindow.selectionsFrom doc tokenTypes
          (SemanticToken.advance (SemanticToken.endPosition 0 0 pre) t).1
          (SemanticToken.advance (SemanticToken.endPosition 0 0 pre) t).2 post := by
  have e : pre ++ t :: post = pre ++ ([t] ++ post) := rfl
  rw [e, MainWindow.selectionsFrom_append, MainWindow.selectionsFrom_append,
    MainWindow.selectionsFrom_single, SemanticToken.endPosition_single, List.append_assoc]
  rfl

theorem SemanticToken.positions_middle (pre post : List SemanticToken) (t kept : SemanticToken)
    (h1 : kept.deltaLine = t.deltaLine) (h2 : kept.deltaStart = t.deltaStart) :
    SemanticToken.positions 0 0 (pre ++ kept :: post) =
      SemanticToken.positions 0 0 (pre ++ t :: post) := by
  rw [SemanticToken.positions_append, SemanticToken.positions_append]
  simp only [SemanticToken.positions, h1, h2]

/-- Claim C27.  Let a semantic token stream consist of the entries `pre`, an
entry `t` that is skipped for its type (type index negative or not below the
size of the legend, or legend type `keyword`) and the entries `post`, possibly
followed by fewer than five further values, with no sum of the loop outside the
range of `int`.  The entry `t` gives no selection, the running line and
character after it are those before it advanced by its line delta and start
delta, and the selections of the later entries are built from there.  For an
entry `kept` with the same two deltas in the place of `t` all absolute positions
are the same, and the selections are those of the stream with `t`, with the
selection of `kept` between them.  The trailing values are ignored. -/
theorem MainWindow.skipped_tokens_advance (doc : QTextDocument) (tokenTypes : List QString)
    (pre post : List SemanticToken) (t : SemanticToken) (tail : QJsonArray) (filePath : QString)
    (hint : ∀ x ∈ pre ++ t :: post, x.isInt) (htail : tail.length < 5)
    (hskip : t.skippedType tokenTypes = true)
    (hdefined : SemanticToken.defined doc tokenTypes 0 0 (pre ++ t :: post) = true)
    (htypes : tokenTypes.isEmpty = false) :
    MainWindow.handleSemanticTokens filePath (some { filePath := filePath, editor := some doc })
        tokenTypes filePath (MainWindow.tokenStream (pre ++ t :: post) ++ tail) =
      some (some (MainWindow.selectionsFrom doc tokenTypes 0 0 pre ++
        MainWindow.selectionsFrom doc tokenTypes
          (SemanticToken.advance (SemanticToken.endPosition 0 0 pre) t).1
          (SemanticToken.advance (SemanticToken.endPosition 0 0 pre) t).2 post)) ∧
    SemanticToken.endPosition 0 0 (pre ++ [t]) =
      SemanticToken.advance (SemanticToken.endPosition 0 0 pre) t ∧
    (∀ kept : SemanticToken, kept.deltaLine = t.deltaLine → kept.deltaStart = t.deltaStart →
      kept.isInt → SemanticToken.defined doc tokenTypes 0 0 (pre ++ kept :: post) = true →
      SemanticToken.positions 0 0 (pre ++ kept :: post) =
        SemanticToken.positions 0 0 (pre ++ t :: post) ∧
      MainWindow.handleSemanticTokens filePath
          (some { filePath := filePath, editor := some doc })
          tokenTypes filePath (MainWindow.tokenStream (pre ++ kept :: post) ++ tail) =
        some (some (MainWindow.selectionsFrom doc tokenTypes 0 0 pre ++
          ((MainWindow.tokenSelection doc tokenTypes
            (SemanticToken.advance (SemanticToken.endPosition 0 0 pre) t).1
            (SemanticToken.advance (SemanticToken.endPosition 0 0 pre) t).2
            kept.length kept.tokenType).getD none).toList ++
          MainWindow.selectionsFrom doc tokenTypes
            (SemanticToken.advance (SemanticToken.endPosition 0 0 pre) t).1
            (SemanticToken.advance (SemanticToken.endPosition 0 0 pre) t).2 post))) ∧
    MainWindow.handleSemanticTokens filePath (some { filePath := filePath, editor := some doc })
        tokenTypes filePath (MainWindow.tokenStream (pre ++ t :: post) ++ tail) =
      MainWindow.handleSemanticTokens filePath (some { filePath := filePath, editor := some doc })
        tokenTypes filePath (MainWindow.tokenStream (pre ++ t :: post)) := by
  have hmain := MainWindow.handleSemanticTokens_stream doc tokenTypes (pre ++ t :: post) tail
    filePath hint htail hdefined htypes
  have hplain := MainWindow.handleSemanticTokens_stream doc tokenTypes (pre ++ t :: post) []
    filePath hint (by decide) hdefined htypes
  rw [List.append_nil] at hplain
  refine ⟨?_, ?_, ?_, ?_⟩
  · rw [hmain, MainWindow.selectionsFrom_middle,
      MainWindow.tokenSelection_skipped doc tokenTypes t _ _ hskip]
    simp
  · rw [SemanticToken.endPosition_append, SemanticToken.endPosition_single]
    rfl
  · intro kept h1 h2 hk hd
    refine ⟨SemanticToken.positions_middle pre post t kept h1 h2, ?_⟩
    have hint2 : ∀ x ∈ pre ++ kept :: post, x.isInt := by
      intro x hx
      rcases List.mem_append.mp hx with h | h
      · exact hint x (List.mem_append_left _ h)
      · rcases List.mem_cons.mp h with h | h
        · exact h ▸ hk
        · exact hint x (List.mem_append_right _ (List.mem_cons_of_mem _ h))
    rw [MainWindow.handleSemanticTokens_stream doc tokenTypes (pre ++ kept :: post) tail
      filePath hint2 htail hd htypes, MainWindow.selectionsFrom_middle]
    have ea : SemanticToken.advance (SemanticToken.endPosition 0 0 pre) kept =
        SemanticToken.advance (SemanticToken.endPosition 0 0 pre) t := by
      unfold SemanticToken.advance
      rw [h1, h2]
    rw [ea]
  · rw [hmain, hplain]

set_option maxRecDepth 8000 in
theorem MainWindow.skipped_tokens_advance_witness :
    ((∀ x ∈ [MainWindow.sampleClass] ++ MainWindow.sampleKeyword :: [MainWindow.sampleFunction],
        x.isInt) ∧
      ([.number 9, .number 9] : QJsonArray).length < 5 ∧
      MainWindow.sampleKeyword.skippedType [qs "class", qs "keyword", qs "function"] = true ∧
      SemanticToken.defined MainWindow.sampleDocument [qs "class", qs "keyword", qs "function"]
        0 0 ([MainWindow.sampleClass] ++ MainWindow.sampleKeyword :: [MainWindow.sampleFunction])
        = true ∧
      [qs "class", qs "keyword", qs "function"].isEmpty = false) ∧
    MainWindow.handleSemanticTokens (qs "a.cpp")
        (some { filePath := qs "a.cpp", editor := some MainWindow.sampleDocument })
        [qs "class", qs "keyword", qs "function"] (qs "a.cpp")
        (MainWindow.tokenStream
          ([MainWindow.sampleClass] ++ MainWindow.sampleKeyword :: [MainWindow.sampleFunction]) ++
          [.number 9, .number 9]) =
      some (some (MainWindow.selectionsFrom MainWindow.sampleDocument
          [qs "class", qs "keyword", qs "function"] 0 0 [MainWindow.sampleClass] ++
        MainWindow.selectionsFrom MainWindow.sampleDocument
          [qs "class", qs "keyword", qs "function"]
          (SemanticToken.advance (SemanticToken.endPosition 0 0 [MainWindow.sampleClass])
            MainWindow.sampleKeyword).1
          (SemanticToken.advance (SemanticToken.endPosition 0 0 [MainWindow.sampleClass])
            MainWindow.sampleKeyword).2 [MainWindow.sampleFunction])) ∧
    SemanticToken.advance (SemanticToken.endPosition 0 0 [MainWindow.sampleClass])
      MainWindow.sampleKeyword = (1, 2) ∧
    SemanticToken.positions 0 0
      ([MainWindow.sampleClass] ++ MainWindow.sampleKeyword :: [MainWindow.sampleFunction]) =
      [(0, 0), (1, 2), (1, 6)] ∧
    MainWindow.selectionsFrom MainWindow.sampleDocument
        [qs "class", qs "keyword", qs "function"] 0 0 [MainWindow.sampleClass] ++
      MainWindow.selectionsFrom MainWindow.sampleDocument
        [qs "class", qs "keyword", qs "function"] 1 2 [MainWindow.sampleFunction] =
      [{ cursor := { anchor := 0, position := 5 },
         format := { foreground := some (0, 70, 140), bold := true } },
       { cursor := { anchor := 20, position := 24 },
         format := { foreground := some (20, 20, 20), bold := true } }] ∧
    MainWindow.handleSemanticTokens (qs "a.cpp")
        (some { filePath := qs "a.cpp", editor := some MainWindow.sampleDocument })
        [qs "class", qs "keyword", qs "function"] (qs "a.cpp")
        (MainWindow.tokenStream
          ([MainWindow.sampleClass] ++
            { MainWindow.sampleKeyword with tokenType := 0 } :: [MainWindow.sampleFunction]) ++
          [.number 9, .number 9]) =
      some (some [{ cursor := { anchor := 0, position := 5 },
                    format := { foreground := some (0, 70, 140), bold := true } },
                  { cursor := { anchor := 16, position := 19 },
                    format := { foreground := some (0, 70, 140), bold := true } },
                  { cursor := { anchor := 20, position := 24 },
                    format := { foreground := some (20, 20, 20), bold := true } }]) :=
  ⟨⟨by decide, by decide, by decide, by decide, by decide⟩,
    (MainWindow.skipped_tokens_advance MainWindow.sampleDocument
      [qs "class", qs "keyword", qs "function"] [MainWindow.sampleClass]
      [MainWindow.sampleFunction] MainWindow.sampleKeyword [.number 9, .number 9] (qs "a.cpp")
      (by decide) (by decide) (by decide) (by decide) (by decide)).1,
    by decide, by decide, by decide, by decide⟩

/-! ## Replies to `-data-evaluate-expression` -/

theorem MiValue.octalDigit_plain (n : Nat) :
    MiValue.isControl (MiValue.octalDigit n) = false ∧ MiValue.octalDigit n ≠ '\\' ∧
      MiValue.octalDigit n ≠ '"' ∧ MiValue.octalDigit n ≠ 'n' ∧ MiValue.octalDigit n ≠ 't' ∧
      MiValue.octalDigit n ≠ '\n' := by
  unfold MiValue.octalDigit
  have h : n % 8 < 8 := Nat.mod_lt _ (by decide)
  generalize n % 8 = k at h
  interval_cases k <;> decide

theorem MiValue.unescape_escaped (x : Char) (t : QString) (hn : x ≠ 'n') (ht : x ≠ 't') :
    MiValue.unescape ('\\' :: x :: t) = x :: MiValue.unescape t := by
  simp [MiValue.unescape, hn, ht]

theorem MiValue.wellEscaped_escaped (x : Char) (t : QString) :
    MiValue.wellEscaped ('\\' :: x :: t) = MiValue.wellEscaped t := by
  simp [MiValue.wellEscaped]

/-- The encoding of one character in front of a text: the quoted-string rule
reads it as one unit, gives back the character when it is not a control
character or is a line feed or a tab, and gives another character first for
every other control character. -/
theorem MiValue.escapeChar_spec (c : Char) (rest : QString) :
    MiValue.wellEscaped (MiValue.escapeChar c ++ rest) = MiValue.wellEscaped rest ∧
    '\n' ∉ MiValue.escapeChar c ∧
    ((MiValue.isControl c = false ∨ c = '\n' ∨ c = '\t') →
      MiValue.unescape (MiValue.escapeChar c ++ rest) = c :: MiValue.unescape rest) ∧
    (MiValue.isControl c = true → c ≠ '\n' → c ≠ '\t' →
      ∃ x t, MiValue.unescape (MiValue.escapeChar c ++ rest) = x :: t ∧ x ≠ c) := by
  have letter : ∀ x : Char, MiValue.isControl x = false → x ≠ 'n' → x ≠ 't' → x ≠ '\n' →
      MiValue.isControl c = true → c ≠ '\n' → c ≠ '\t' →
      MiValue.wellEscaped (['\\', x] ++ rest) = MiValue.wellEscaped rest ∧
      '\n' ∉ ['\\', x] ∧
      ((MiValue.isControl c = false ∨ c = '\n' ∨ c = '\t') →
        MiValue.unescape (['\\', x] ++ rest) = c :: MiValue.unescape rest) ∧
      (MiValue.isControl c = true → c ≠ '\n' → c ≠ '\t' →
        ∃ y t, MiValue.unescape (['\\', x] ++ rest) = y :: t ∧ y ≠ c) := by
    intro x hx hxn hxt hxl hc hcn hct
    refine ⟨MiValue.wellEscaped_escaped x rest, ?_, ?_, ?_⟩
    · simp only [List.mem_cons, List.mem_singleton, List.not_mem_nil, or_false, not_or]
      exact ⟨by decide, fun e => hxl e.symm⟩
    · intro h
      rcases h with h | h | h
      · rw [hc] at h; cases h
      · exact absurd h hcn
      · exact absurd h hct
    · intro _ _ _
      refine ⟨x, MiValue.unescape rest, MiValue.unescape_escaped x rest hxn hxt, ?_⟩
      intro e
      rw [e, hc] at hx
      cases hx
  by_cases hctl : MiValue.isControl c = true
  · unfold MiValue.escapeChar
    rw [if_pos hctl]
    by_cases h1 : c = '\n'
    · subst h1
      refine ⟨MiValue.wellEscaped_escaped _ rest, by decide, ?_, fun _ h => absurd rfl h⟩
      intro _
      simp [MiValue.unescape]
    · rw [if_neg h1]
      by_cases h3 : c = '\t'
      · subst h3
        refine ⟨MiValue.wellEscaped_escaped _ rest, by decide, ?_, fun _ _ h => absurd rfl h⟩
        intro _
        simp [MiValue.unescape]
      · by_cases h2 : c.toNat = 8
        · rw [if_pos h2]
          exact letter 'b' (by decide) (by decide) (by decide) (by decide) hctl h1 h3
        · rw [if_neg h2, if_neg h3]
          by_cases h4 : c.toNat = 12
          · rw [if_pos h4]
            exact letter 'f' (by decide) (by decide) (by decide) (by decide) hctl h1 h3
          · rw [if_neg h4]
            by_cases h5 : c = '\r'
            · rw [if_pos h5]
              exact letter 'r' (by decide) (by decide) (by decide) (by decide) hctl h1 h3
            · rw [if_neg h5]
              by_cases h6 : c.toNat = 27
              · rw [if_pos h6]
                exact letter 'e' (by decide) (by decide) (by decide) (by decide) hctl h1 h3
              · rw [if_neg h6]
                by_cases h7 : c.toNat = 7
                · rw [if_pos h7]
                  exact letter 'a' (by decide) (by decide) (by decide) (by decide) hctl h1 h3
                · rw [if_neg h7]
                  obtain ⟨a1, a2, a3, a4, a5, a6⟩ := MiValue.octalDigit_plain (c.toNat / 64)
                  obtain ⟨b1, b2, b3, b4, b5, b6⟩ := MiValue.octalDigit_plain (c.toNat / 8)
                  obtain ⟨c1, c2, c3, c4, c5, c6⟩ := MiValue.octalDigit_plain c.toNat
                  refine ⟨?_, ?_, ?_, ?_⟩
                  · show MiValue.wellEscaped ('\\' :: _ :: _ :: _ :: rest) = _
                    rw [MiValue.wellEscaped_escaped, MiValue.wellEscaped_plain _ _ b3 b2,
                      MiValue.wellEscaped_plain _ _ c3 c2]
                  · simp only [List.mem_cons, List.mem_singleton, List.not_mem_nil, or_false,
                      not_or]
                    exact ⟨by decide, fun e => a6 e.symm, fun e => b6 e.symm,
                      fun e => c6 e.symm⟩
                  · intro h
                    rcases h with h | h | h
                    · rw [hctl] at h; cases h
                    · exact absurd h h1
                    · exact absurd h h3
                  · intro _ _ _
                    refine ⟨_, _, MiValue.unescape_escaped _ _ a4 a5, ?_⟩
                    intro e
                    rw [e, hctl] at a1
                    cases a1
  · have hfalse : MiValue.isControl c = false := by
      cases h : MiValue.isControl c with
      | false => rfl
      | true => exact absurd h hctl
    have hnl : c ≠ '\n' := by
      intro e
      rw [e] at hfalse
      revert hfalse
      decide
    unfold MiValue.escapeChar
    rw [if_neg hctl]
    by_cases hq : c = '\\' ∨ c = '"'
    · rw [if_pos hq]
      refine ⟨MiValue.wellEscaped_escaped c rest, ?_, ?_, fun h => absurd h hctl⟩
      · simp only [List.mem_cons, List.mem_singleton, List.not_mem_nil, or_false, not_or]
        exact ⟨by decide, fun e => hnl e.symm⟩
      · intro _
        rcases hq with e | e <;> subst e <;> simp [MiValue.unescape]
    · rw [if_neg hq]
      have hb : c ≠ '\\' := fun e => hq (Or.inl e)
      have hd : c ≠ '"' := fun e => hq (Or.inr e)
      refine ⟨MiValue.wellEscaped_plain c rest hd hb, ?_, ?_, fun h => absurd h hctl⟩
      · simp only [List.mem_singleton]
        exact fun e => hnl e.symm
      · intro _
        exact MiValue.unescape_plain c rest hb

theorem MiValue.escape_cons (c : Char) (v : QString) :
    MiValue.escape (c :: v) = MiValue.escapeChar c ++ MiValue.escape v := by
  simp [MiValue.escape, List.flatMap_cons]

/-- The encoding of every text is a well-escaped body on one line. -/
theorem MiValue.escape_wellEscaped (v : QString) :
    MiValue.wellEscaped (MiValue.escape v) = true ∧ '\n' ∉ MiValue.escape v := by
  induction v with
  | nil => exact ⟨rfl, by simp [MiValue.escape]⟩
  | cons c r ih =>
    rw [MiValue.escape_cons]
    obtain ⟨h1, h2, _, _⟩ := MiValue.escapeChar_spec c (MiValue.escape r)
    refine ⟨by rw [h1]; exact ih.1, ?_⟩
    simp only [List.mem_append, not_or]
    exact ⟨h2, ih.2⟩

/-- The quoted-string rule of `parseMiValue` gives back the encoded text
exactly for the texts without control character other than line feed and tab. -/
theorem MiValue.unescape_escape (v : QString) :
    MiValue.unescape (MiValue.escape v) = v ↔ MiValue.plainValue v = true := by
  induction v with
  | nil => exact ⟨fun _ => rfl, fun _ => rfl⟩
  | cons c r ih =>
    rw [MiValue.escape_cons]
    obtain ⟨_, _, h3, h4⟩ := MiValue.escapeChar_spec c (MiValue.escape r)
    have hall : MiValue.plainValue (c :: r) =
        ((!MiValue.isControl c || c = '\n' || c = '\t') && MiValue.plainValue r) := by
      simp [MiValue.plainValue]
    rw [hall]
    by_cases hp : MiValue.isControl c = false ∨ c = '\n' ∨ c = '\t'
    · rw [h3 hp]
      have hb : (!MiValue.isControl c || decide (c = '\n') || decide (c = '\t')) = true := by
        rcases hp with h | h | h
        · simp [h]
        · simp [h]
        · simp [h]
      rw [hb, Bool.true_and, ← ih]
      exact ⟨fun e => (List.cons.inj e).2, fun e => by rw [e]⟩
    · have hc : MiValue.isControl c = true := by
        cases h : MiValue.isControl c with
        | true => rfl
        | false => exact absurd (Or.inl h) hp
      have hn : c ≠ '\n' := fun e => hp (Or.inr (Or.inl e))
      have ht : c ≠ '\t' := fun e => hp (Or.inr (Or.inr e))
      obtain ⟨x, t, hx, hxc⟩ := h4 hc hn ht
      rw [hx]
      constructor
      · intro e
        exact absurd (List.cons.inj e).1 hxc
      · intro e
        simp [hc, hn, ht] at e

theorem GdbMiClient.valueRecord_render (raw : QString) :
    GdbMiClient.valueRecord raw =
      qs "^done" ++ ',' :: MiValue.renderResults [(qs "value", MiValue.cstring raw)] := by
  simp [GdbMiClient.valueRecord, MiValue.renderResults, MiValue.render, qs]

theorem GdbMiClient.valueRecord_isResultRecord (digits raw : QString)
    (hd : digits ≠ [] ∧ digits.all QChar.isAsciiDigit = true) (hraw : '\n' ∉ raw) :
    GdbMiClient.isResultRecord digits (GdbMiClient.valueRecord raw) = true := by
  unfold GdbMiClient.isResultRecord GdbMiClient.valueRecord
  have h1 : digits.isEmpty = false := by
    cases digits with
    | nil => exact absurd rfl hd.1
    | cons _ _ => rfl
  have h2 : (qs "^done,value=\"" ++ raw ++ qs "\"").head? = some '^' := rfl
  have h3 : (qs "^done,value=\"" ++ raw ++ qs "\"").contains '\n' = false := by
    rw [Bool.eq_false_iff]
    intro hc
    simp only [List.contains_eq_any_beq, List.any_eq_true, beq_iff_eq] at hc
    obtain ⟨x, hx, rfl⟩ := hc
    simp only [List.mem_append] at hx
    rcases hx with (hx | hx) | hx
    · revert hx; decide
    · exact hraw hx
    · revert hx; decide
  simp only [h1, hd.2, h2, h3]
  decide

theorem GdbMiClient.handleResultForTag_eval (env : QtEnv) (t : GdbMiClient) (e raw : QString)
    (hraw : MiValue.wellEscaped raw = true) :
    GdbMiClient.handleResultForTag env t (qs "eval|" ++ e) (GdbMiClient.valueRecord raw) =
      some ((t.emit (.expressionEvaluated e (MiValue.unescape raw))).emit
        (.consoleOutput (GdbMiClient.valueRecord raw ++ qs "\n"))) := by
  unfold GdbMiClient.handleResultForTag
  have n1 : ¬ (qs "eval|" ++ e = qs "break-list") := by simp [qs]
  have n2 : ¬ (qs "eval|" ++ e = qs "stack-list") := by simp [qs]
  have n3 : ¬ (qs "eval|" ++ e = qs "locals-list") := by simp [qs]
  have n4 : ¬ (qs "eval|" ++ e = qs "threads-list") := by simp [qs]
  have p5 : (qs "eval|").isPrefixOf (qs "eval|" ++ e) = true := by
    rw [ List.isPrefixOf_iff_prefix]
    exact List.prefix_append _ _
  have hdrop : (qs "eval|" ++ e).drop 5 = e := by simp [qs]
  have hwf : MiValue.wfFields [(qs "value", MiValue.cstring raw)] = true := by
    simp only [MiValue.wfFields, MiValue.wf, hraw, Bool.and_true]
    decide
  have hparse : GdbMiClient.parseMiResults (QString.afterFirstComma (GdbMiClient.valueRecord raw)) =
      some [(qs "value", QVariant.string (MiValue.unescape raw))] := by
    rw [GdbMiClient.valueRecord_render, QString.afterFirstComma_append _ _ (by decide),
      GdbMiClient.parseMiResults_render _ hwf]
    rfl
  have hdec : GdbMiClient.decodeMiString (GdbMiClient.valueRecord raw) =
      GdbMiClient.valueRecord raw := by
    unfold GdbMiClient.decodeMiString
    rw [if_neg]
    have h2 : (GdbMiClient.valueRecord raw).head? = some '^' := rfl
    rw [h2]
    simp
  simp only [n1, n2, n3, n4, p5, if_false, if_true, hparse, hdrop, hdec, Option.map_some']
  rfl

theorem GdbMiClient.evaluate_reply (env : QtEnv) (s : GdbMiClient) (e raw digits : QString)
    (hrun : s.running = true)
    (hdigits : digits ≠ [] ∧ digits.all QChar.isAsciiDigit = true)
    (htok : QString.toInt digits = s.nextToken_)
    (hraw : MiValue.wellEscaped raw = true) (hline : '\n' ∉ raw) :
    ∃ r, GdbMiClient.parseLine env (s.evaluateExpression e)
        (digits ++ GdbMiClient.valueRecord raw) = some r ∧
      r.emitted = s.emitted ++ [.expressionEvaluated e (MiValue.unescape raw),
        .consoleOutput (GdbMiClient.valueRecord raw ++ qs "\n")] := by
  rw [GdbMiClient.parseLine_record env _ digits _
    (GdbMiClient.valueRecord_isResultRecord digits raw hdigits hline), htok]
  unfold GdbMiClient.evaluateExpression
  rw [GdbMiClient.sendMiCommand_running s _ _ hrun]
  simp only [Assoc.find_insert_self, Option.getD_some]
  rw [GdbMiClient.handleResultForTag_eval env _ e raw hraw]
  refine ⟨_, rfl, ?_⟩
  simp [GdbMiClient.emit]

set_option maxRecDepth 8000 in
/-- Claim C21 fails for values that hold a control character other than line
feed and tab.  In a running session, after `evaluateExpression(e)` the token of
the command is pending with the tag `eval|` followed by `e`, for every text `e`,
and when the result record `^done,value="<c-string encoding of v>"` arrives with
that token the engine emits `expressionEvaluated` with the key `e` and with the
text that the quoted-string rule of `parseMiValue` reads from the encoding,
then the console line of the record.  That text is `v` exactly when `v` holds no
control character other than line feed and tab: commas, braces, `=`, double
quotes and backslashes are read back, but the rule knows only the escapes
backslash-n and backslash-t.  For the value `a`, carriage return, `b` gdb writes
`a\rb` and the engine emits `arb`; for the value of the three characters
U+00E6, U+0096, U+0087 gdb writes `æ\226\207` and the engine emits
`æ226207`. -/
theorem GdbMiClient.value_escapes_missed :
    (∀ (env : QtEnv) (s : GdbMiClient) (e v digits : QString),
      s.running = true → (digits ≠ [] ∧ digits.all QChar.isAsciiDigit = true) →
      QString.toInt digits = s.nextToken_ →
        Assoc.find s.nextToken_ (s.evaluateExpression e).pendingTags_ =
          some (qs "eval|" ++ e) ∧
        (∃ r, GdbMiClient.parseLine env (s.evaluateExpression e)
            (digits ++ GdbMiClient.valueRecord (MiValue.escape v)) = some r ∧
          r.emitted = s.emitted ++
            [.expressionEvaluated e (MiValue.unescape (MiValue.escape v)),
             .consoleOutput (GdbMiClient.valueRecord (MiValue.escape v) ++ qs "\n")]) ∧
        (MiValue.unescape (MiValue.escape v) = v ↔ MiValue.plainValue v = true)) ∧
    GdbMiClient.valueRecord (MiValue.escape (qs "a\rb")) = qs "^done,value=\"a\\rb\"" ∧
    (GdbMiClient.parseLine QtEnv.sample
        (GdbMiClient.sampleSession.evaluateExpression (qs "s.t|\"k\""))
        (qs "3^done,value=\"a\\rb\"")).map (fun r => r.emitted) =
      some [.expressionEvaluated (qs "s.t|\"k\"") (qs "arb"),
        .consoleOutput (qs "^done,value=\"a\\rb\"\n")] ∧
    qs "arb" ≠ qs "a\rb" ∧
    GdbMiClient.valueRecord (MiValue.escape (qs "\u00e6\u0096\u0087")) =
      qs "^done,value=\"\u00e6\\226\\207\"" ∧
    (GdbMiClient.parseLine QtEnv.sample
        (GdbMiClient.sampleSession.evaluateExpression (qs "s.t|\"k\""))
        (qs "3^done,value=\"\u00e6\\226\\207\"")).map (fun r => r.emitted) =
      some [.expressionEvaluated (qs "s.t|\"k\"") (qs "\u00e6226207"),
        .consoleOutput (qs "^done,value=\"\u00e6\\226\\207\"\n")] ∧
    qs "\u00e6226207" ≠ qs "\u00e6\u0096\u0087" := by
  refine ⟨?_, by decide, by rfl, by decide, by decide, by rfl, by decide⟩
  intro env s e v digits hrun hdigits htok
  refine ⟨?_, ?_, MiValue.unescape_escape v⟩
  · unfold GdbMiClient.evaluateExpression
    rw [GdbMiClient.sendMiCommand_running s _ _ hrun]
    exact Assoc.find_insert_self _ _ _
  · obtain ⟨h1, h2⟩ := MiValue.escape_wellEscaped v
    exact GdbMiClient.evaluate_reply env s e (MiValue.escape v) digits hrun hdigits htok h1 h2

/-! ## The pattern of `*stopped` records -/

theorem GdbMiClient.matchLineHere_none (text : QString)
    (h : (qs "line=\"").isPrefixOf text = false) : GdbMiClient.matchLineHere text = none := by
  unfold GdbMiClient.matchLineHere
  rw [h]
  rfl

theorem GdbMiClient.matchLineLast_infix (text : QString) (d : QString)
    (h : GdbMiClient.matchLineLast text = some d) : qs "line=\"" <:+: text := by
  induction text generalizing d with
  | nil => cases h
  | cons c rest ih =>
    unfold GdbMiClient.matchLineLast at h
    by_cases hc : c = '\n'
    · rw [if_pos hc] at h
      simp only at h
      by_cases hp : (qs "line=\"").isPrefixOf (c :: rest) = true
      · exact (List.isPrefixOf_iff_prefix.mp hp).isInfix
      · rw [GdbMiClient.matchLineHere_none _ (Bool.eq_false_iff.mpr hp)] at h
        cases h
    · rw [if_neg hc] at h
      cases hr : GdbMiClient.matchLineLast rest with
      | some d2 => exact List.infix_cons (ih d2 hr)
      | none =>
        rw [hr] at h
        simp only at h
        by_cases hp : (qs "line=\"").isPrefixOf (c :: rest) = true
        · exact (List.isPrefixOf_iff_prefix.mp hp).isInfix
        · rw [GdbMiClient.matchLineHere_none _ (Bool.eq_false_iff.mpr hp)] at h
          cases h

theorem GdbMiClient.matchLineLast_none (text : QString) (h : ¬ qs "line=\"" <:+: text) :
    GdbMiClient.matchLineLast text = none := by
  cases hr : GdbMiClient.matchLineLast text with
  | none => rfl
  | some d => exact absurd (GdbMiClient.matchLineLast_infix text d hr) h

theorem GdbMiClient.matchLineLast_skip (pfx : QString) (h : 'l' ∉ pfx) :
    ∀ (post : QString), GdbMiClient.matchLineLast post = none →
      GdbMiClient.matchLineLast (pfx ++ post) = none := by
  induction pfx with
  | nil => intro post hp; exact hp
  | cons c p ih =>
    intro post hp
    have hc : c ≠ 'l' := fun e => h (e ▸ List.mem_cons_self _ _)
    have hrest := ih (fun hm => h (List.mem_cons_of_mem _ hm)) post hp
    have hhere : GdbMiClient.matchLineHere (c :: (p ++ post)) = none := by
      apply GdbMiClient.matchLineHere_none
      have e : qs "line=\"" = 'l' :: qs "ine=\"" := rfl
      rw [e]
      simp [List.isPrefixOf, Ne.symm hc]
    show GdbMiClient.matchLineLast (c :: (p ++ post)) = none
    unfold GdbMiClient.matchLineLast
    rw [hrest, hhere]
    by_cases hn : c = '\n'
    · rw [if_pos hn]
    · rw [if_neg hn]

theorem GdbMiClient.matchLineHere_digits (digits post : QString)
    (hd : digits ≠ [] ∧ digits.all QChar.isAsciiDigit = true) :
    GdbMiClient.matchLineHere (qs "line=\"" ++ digits ++ '"' :: post) = some digits := by
  unfold GdbMiClient.matchLineHere
  have hp : (qs "line=\"").isPrefixOf (qs "line=\"" ++ digits ++ '"' :: post) = true := by
    rw [ List.isPrefixOf_iff_prefix, List.append_assoc]
    exact List.prefix_append _ _
  have hdrop : (qs "line=\"" ++ digits ++ '"' :: post).drop 6 = digits ++ '"' :: post := by
    simp [qs]
  have hall : ∀ c ∈ digits, QChar.isAsciiDigit c = true := by
    intro c hc
    exact List.all_eq_true.mp hd.2 c hc
  have hne : digits.isEmpty = false := by
    cases digits with
    | nil => exact absurd rfl hd.1
    | cons _ _ => rfl
  have hq : QChar.isAsciiDigit '"' = false := by decide
  rw [if_pos hp, hdrop, List.takeWhile_append_of_pos hall, List.dropWhile_append_of_pos hall]
  simp [List.takeWhile, List.dropWhile, hne, hq]

theorem GdbMiClient.matchLineLast_found (mid digits post : QString) (hmid : '\n' ∉ mid)
    (hd : digits ≠ [] ∧ digits.all QChar.isAsciiDigit = true)
    (hpost : ¬ qs "line=\"" <:+: post) :
    GdbMiClient.matchLineLast (mid ++ (qs "line=\"" ++ digits ++ '"' :: post)) = some digits := by
  have hhere := GdbMiClient.matchLineHere_digits digits post hd
  have hl : 'l' ∉ qs "ine=\"" ++ digits ++ ['"'] := by
    intro hm
    simp only [List.mem_append, List.mem_singleton] at hm
    rcases hm with (hm | hm) | hm
    · revert hm; decide
    · have := List.all_eq_true.mp hd.2 'l' hm
      revert this; decide
    · revert hm; decide
  have hskip := GdbMiClient.matchLineLast_skip _ hl post
    (GdbMiClient.matchLineLast_none post hpost)
  have e : qs "line=\"" ++ digits ++ '"' :: post =
      'l' :: (qs "ine=\"" ++ digits ++ ['"'] ++ post) := by
    simp [qs]
  have hX : GdbMiClient.matchLineLast (qs "line=\"" ++ digits ++ '"' :: post) = some digits := by
    rw [e]
    unfold GdbMiClient.matchLineLast
    rw [if_neg (by decide), hskip, ← e, hhere]
  induction mid with
  | nil => exact hX
  | cons c m ih =>
    have hc : c ≠ '\n' := fun e2 => hmid (e2 ▸ List.mem_cons_self _ _)
    have hm := ih (fun h => hmid (List.mem_cons_of_mem _ h))
    show GdbMiClient.matchLineLast (c :: (m ++ (qs "line=\"" ++ digits ++ '"' :: post))) = _
    unfold GdbMiClient.matchLineLast
    rw [if_neg hc, hm]

theorem GdbMiClient.matchStoppedHere_file (file after : QString)
    (hf : file ≠ [] ∧ '"' ∉ file) :
    GdbMiClient.matchStoppedHere (qs "file=\"" ++ file ++ '"' :: after) =
      (GdbMiClient.matchLineLast after).map (fun digits => (file, digits)) := by
  unfold GdbMiClient.matchStoppedHere
  have hp : (qs "file=\"").isPrefixOf (qs "file=\"" ++ file ++ '"' :: after) = true := by
    rw [ List.isPrefixOf_iff_prefix, List.append_assoc]
    exact List.prefix_append _ _
  have hdrop : (qs "file=\"" ++ file ++ '"' :: after).drop 6 = file ++ '"' :: after := by
    simp [qs]
  have hall : ∀ c ∈ file, (fun c => c != '"') c = true := by
    intro c hc
    simp only [bne_iff_ne, ne_eq]
    intro e
    exact hf.2 (e ▸ hc)
  have hne : file.isEmpty = false := by
    cases file with
    | nil => exact absurd rfl hf.1
    | cons _ _ => rfl
  rw [if_pos hp, hdrop, List.takeWhile_append_of_pos hall, List.dropWhile_append_of_pos hall]
  simp [List.takeWhile, List.dropWhile, hne]

theorem GdbMiClient.matchStoppedHere_none (text : QString)
    (h : (qs "file=\"").isPrefixOf text = false) : GdbMiClient.matchStoppedHere text = none := by
  unfold GdbMiClient.matchStoppedHere
  rw [h]
  rfl

theorem GdbMiClient.file_not_at (t tail : QString) (hne : t ≠ [])
    (h : ¬ qs "file=\"" <:+: t) :
    (qs "file=\"").isPrefixOf (t ++ (qs "file=\"" ++ tail)) = false := by
  rw [Bool.eq_false_iff]
  intro hp
  rw [ List.isPrefixOf_iff_prefix] at hp
  by_cases hlen : 6 ≤ t.length
  · exact h (List.prefix_of_prefix_length_le hp (List.prefix_append _ _) hlen).isInfix
  · have hp2 := List.isPrefixOf_iff_prefix.mpr hp
    match t, hne, hlen with
    | [a], _, _ => revert hp2; simp [qs, List.isPrefixOf]
    | [a, b], _, _ => revert hp2; simp [qs, List.isPrefixOf]
    | [a, b, c], _, _ => revert hp2; simp [qs, List.isPrefixOf]
    | [a, b, c, d], _, _ => revert hp2; simp [qs, List.isPrefixOf]
    | [a, b, c, d, e], _, _ => revert hp2; simp [qs, List.isPrefixOf]
    | _ :: _ :: _ :: _ :: _ :: _ :: _, _, hlen => simp at hlen

theorem GdbMiClient.matchStopped_cons (c : Char) (rest : QString) :
    GdbMiClient.matchStopped (c :: rest) =
      match GdbMiClient.matchStoppedHere (c :: rest) with
      | some m => some m
      | none => GdbMiClient.matchStopped rest := rfl

theorem GdbMiClient.matchStopped_skip (pre tail : QString) (h : ¬ qs "file=\"" <:+: pre) :
    GdbMiClient.matchStopped (pre ++ (qs "file=\"" ++ tail)) =
      GdbMiClient.matchStopped (qs "file=\"" ++ tail) := by
  induction pre with
  | nil => rfl
  | cons c p ih =>
    have hp : ¬ qs "file=\"" <:+: p := fun hi => h (List.infix_cons hi)
    have hnot : (qs "file=\"").isPrefixOf (c :: (p ++ (qs "file=\"" ++ tail))) = false :=
      GdbMiClient.file_not_at (c :: p) tail (List.cons_ne_nil _ _) h
    show GdbMiClient.matchStopped (c :: (p ++ (qs "file=\"" ++ tail))) = _
    rw [GdbMiClient.matchStopped_cons, GdbMiClient.matchStoppedHere_none _ hnot]
    exact ih hp

theorem GdbMiClient.matchStopped_line (pre file mid digits post : QString)
    (hpre : ¬ qs "file=\"" <:+: pre) (hf : file ≠ [] ∧ '"' ∉ file) (hmid : '\n' ∉ mid)
    (hd : digits ≠ [] ∧ digits.all QChar.isAsciiDigit = true)
    (hpost : ¬ qs "line=\"" <:+: post) :
    GdbMiClient.matchStopped (GdbMiClient.stoppedLine pre file mid digits post) =
      some (file, digits) := by
  unfold GdbMiClient.stoppedLine
  rw [List.append_assoc, GdbMiClient.matchStopped_skip pre _ hpre]
  have e : qs "file=\"" ++ (file ++ '"' :: (mid ++ (qs "line=\"" ++ digits ++ '"' :: post))) =
      'f' :: (qs "ile=\"" ++ (file ++ '"' :: (mid ++ (qs "line=\"" ++ digits ++ '"' :: post)))) :=
    rfl
  have hhere := GdbMiClient.matchStoppedHere_file file
    (mid ++ (qs "line=\"" ++ digits ++ '"' :: post)) hf
  rw [GdbMiClient.matchLineLast_found mid digits post hmid hd hpost, List.append_assoc] at hhere
  rw [e, GdbMiClient.matchStopped_cons, ← e, hhere]
  rfl

theorem GdbMiClient.matchStopped_no_file (line : QString) (h : ¬ qs "file=\"" <:+: line) :
    GdbMiClient.matchStopped line = none := by
  induction line with
  | nil => rfl
  | cons c rest ih =>
    have hnot : (qs "file=\"").isPrefixOf (c :: rest) = false := by
      rw [Bool.eq_false_iff]
      intro hp
      exact h (List.isPrefixOf_iff_prefix.mp hp).isInfix
    rw [GdbMiClient.matchStopped_cons, GdbMiClient.matchStoppedHere_none _ hnot]
    exact ih (fun hi => h (List.infix_cons hi))

theorem GdbMiClient.matchStoppedHere_line (text : QString) (m : QString × QString)
    (h : GdbMiClient.matchStoppedHere text = some m) : qs "line=\"" <:+: text := by
  unfold GdbMiClient.matchStoppedHere at h
  split at h
  · simp only at h
    split at h
    · cases hl : GdbMiClient.matchLineLast
          ((text.drop 6).dropWhile (fun c => c != '"')).tail with
      | none => rw [hl] at h; cases h
      | some d =>
        have h1 := GdbMiClient.matchLineLast_infix _ d hl
        have h2 : ((text.drop 6).dropWhile (fun c => c != '"')).tail <:+ text :=
          ((List.tail_suffix _).trans (List.dropWhile_suffix _)).trans (List.drop_suffix 6 text)
        exact h1.trans h2.isInfix
    · cases h
  · cases h

theorem GdbMiClient.matchStopped_no_line (line : QString) (h : ¬ qs "line=\"" <:+: line) :
    GdbMiClient.matchStopped line = none := by
  induction line with
  | nil => rfl
  | cons c rest ih =>
    rw [GdbMiClient.matchStopped_cons]
    cases hm : GdbMiClient.matchStoppedHere (c :: rest) with
    | some m => exact absurd (GdbMiClient.matchStoppedHere_line _ m hm) h
    | none => exact ih (fun hi => h (List.infix_cons hi))

theorem QString.dropWhile_head {p : Char → Bool} (c : Char) (rest : QString) (h : p c = false) :
    (c :: rest).dropWhile p = c :: rest := by
  rw [List.dropWhile_cons_of_neg (by simp [h])]

theorem QString.trimmed_digits (digits : QString)
    (hd : digits.all QChar.isAsciiDigit = true) : QString.trimmed digits = digits := by
  have hsp : ∀ c, QChar.isAsciiDigit c = true → QChar.isSpace c = false := by
    intro c hc
    unfold QChar.isAsciiDigit at hc
    unfold QChar.isSpace
    simp only [Bool.and_eq_true, decide_eq_true_eq] at hc
    simp only [Bool.or_eq_false_iff, Bool.and_eq_false_iff, beq_eq_false_iff_ne, ne_eq,
      decide_eq_false_iff_not, not_le]
    omega
  unfold QString.trimmed
  cases digits with
  | nil => rfl
  | cons c rest =>
    have h1 : (c :: rest).dropWhile QChar.isSpace = c :: rest :=
      QString.dropWhile_head c rest (hsp c (List.all_eq_true.mp hd c (List.mem_cons_self _ _)))
    rw [h1]
    have hrev : ∀ x ∈ (c :: rest).reverse, QChar.isAsciiDigit x = true := by
      intro x hx
      exact List.all_eq_true.mp hd x (List.mem_reverse.mp hx)
    cases hr : (c :: rest).reverse with
    | nil => simp at hr
    | cons y ys =>
      rw [hr] at hrev
      rw [QString.dropWhile_head y ys (hsp y (hrev y (List.mem_cons_self _ _))), ← hr,
        List.reverse_reverse]

theorem QString.toInt_digits (digits : QString) (n : Nat)
    (hd : digits ≠ [] ∧ digits.all QChar.isAsciiDigit = true)
    (hv : QString.digitsValue digits 0 = some n) (hfit : (n : Int) ≤ intMax) :
    QString.toInt digits = n := by
  unfold QString.toInt
  rw [QString.trimmed_digits digits hd.2]
  cases digits with
  | nil => exact absurd rfl hd.1
  | cons c rest =>
    have hc : QChar.isAsciiDigit c = true := List.all_eq_true.mp hd.2 c (List.mem_cons_self _ _)
    have h1 : c ≠ '-' := by intro e; subst e; revert hc; decide
    have h2 : c ≠ '+' := by intro e; subst e; revert hc; decide
    have hmin : intMin ≤ (n : Int) := by unfold intMin; omega
    simp [h1, h2, hv, hfit, hmin]

theorem GdbMiClient.decodeMiString_star (line : QString) (h : line.head? = some '*') :
    GdbMiClient.decodeMiString line = line := by
  unfold GdbMiClient.decodeMiString
  rw [h, if_neg]
  simp

theorem GdbMiClient.refreshAll_running (s : GdbMiClient) (hrun : s.running = true) :
    s.refreshStack.refreshLocals.refreshThreads =
      { s with
        nextToken_ := s.nextToken_ + 3,
        pendingTags_ := Assoc.insert (s.nextToken_ + 2) (qs "threads-list")
          (Assoc.insert (s.nextToken_ + 1) (qs "locals-list")
            (Assoc.insert s.nextToken_ (qs "stack-list") s.pendingTags_)),
        written := s.written ++
          [QString.number s.nextToken_ ++ qs "-stack-list-frames" ++ qs "\n",
           QString.number (s.nextToken_ + 1) ++ qs "-stack-list-variables --simple-values" ++
            qs "\n",
           QString.number (s.nextToken_ + 2) ++ qs "-thread-info" ++ qs "\n"] } := by
  unfold GdbMiClient.refreshThreads GdbMiClient.refreshLocals GdbMiClient.refreshStack
    GdbMiClient.sendMiCommand
  simp only [hrun, Bool.true_eq_false, if_false]
  have e1 : s.nextToken_ + 1 + 1 = s.nextToken_ + 2 := by ring
  have e2 : s.nextToken_ + 1 + 1 + 1 = s.nextToken_ + 3 := by ring
  have e3 : s.nextToken_ + 2 + 1 = s.nextToken_ + 3 := by ring
  simp only [e1, e2, e3, List.append_assoc, List.cons_append, List.nil_append]

theorem GdbMiClient.parseLine_star (env : QtEnv) (s : GdbMiClient) (line : QString)
    (h : line.head? = some '*')
    (hno : (qs "*stopped").isPrefixOf line = false ∨ GdbMiClient.matchStopped line = none) :
    GdbMiClient.parseLine env s line = some (s.emit (.consoleOutput (line ++ qs "\n"))) := by
  unfold GdbMiClient.parseLine
  simp only [h, if_true, GdbMiClient.decodeMiString_star line h]
  rcases hno with h1 | h1
  · rw [h1]
    rfl
  · rw [h1]
    split <;> rfl

/-- Claim C25.  In a running session let a line start with `*stopped` and hold
`file="F"` (`F` not empty, without double quote; no `file="` before it) and after
it, on the same line, `line="L"` with `L` a non-empty run of decimal digits (no
`line="` after it).  Then `parseLine` emits `stopped(F, L.toInt())`, where the
number is the decimal value of `L` whenever that value fits `int`, writes the
three commands `-stack-list-frames`, `-stack-list-variables --simple-values`
and `-thread-info` in this order under three consecutive tokens tagged
`stack-list`, `locals-list` and `threads-list`, and emits the console line.  A
line that starts with `*` and does not start with `*stopped`, or does not match
the pattern, only gives its console line: no `stopped` signal and no command;
a line without `file="` or without `line="` does not match. -/
theorem GdbMiClient.stopped_record (env : QtEnv) (s : GdbMiClient)
    (pre file mid digits post : QString)
    (hrun : s.running = true)
    (hstart : (qs "*stopped").isPrefixOf
      (GdbMiClient.stoppedLine pre file mid digits post) = true)
    (hpre : ¬ qs "file=\"" <:+: pre) (hf : file ≠ [] ∧ '"' ∉ file) (hmid : '\n' ∉ mid)
    (hd : digits ≠ [] ∧ digits.all QChar.isAsciiDigit = true)
    (hpost : ¬ qs "line=\"" <:+: post) :
    (∃ r, GdbMiClient.parseLine env s (GdbMiClient.stoppedLine pre file mid digits post) =
        some r ∧
      r.emitted = s.emitted ++
        [.stopped file (QString.toInt digits),
         .consoleOutput (GdbMiClient.stoppedLine pre file mid digits post ++ qs "\n")] ∧
      r.written = s.written ++
        [QString.number s.nextToken_ ++ qs "-stack-list-frames" ++ qs "\n",
         QString.number (s.nextToken_ + 1) ++ qs "-stack-list-variables --simple-values" ++
          qs "\n",
         QString.number (s.nextToken_ + 2) ++ qs "-thread-info" ++ qs "\n"] ∧
      r.pendingTags_ = Assoc.insert (s.nextToken_ + 2) (qs "threads-list")
        (Assoc.insert (s.nextToken_ + 1) (qs "locals-list")
          (Assoc.insert s.nextToken_ (qs "stack-list") s.pendingTags_)) ∧
      r.nextToken_ = s.nextToken_ + 3) ∧
    (∀ n : Nat, QString.digitsValue digits 0 = some n → (n : Int) ≤ intMax →
      QString.toInt digits = n) ∧
    (∀ line : QString, line.head? = some '*' →
      ((qs "*stopped").isPrefixOf line = false ∨ GdbMiClient.matchStopped line = none) →
      GdbMiClient.parseLine env s line =
        some (s.emit (.consoleOutput (line ++ qs "\n")))) ∧
    (∀ line : QString, (¬ qs "file=\"" <:+: line ∨ ¬ qs "line=\"" <:+: line) →
      GdbMiClient.matchStopped line = none) := by
  refine ⟨?_, ?_, ?_, ?_⟩
  · have hhead : (GdbMiClient.stoppedLine pre file mid digits post).head? = some '*' := by
      have hp := List.isPrefixOf_iff_prefix.mp hstart
      obtain ⟨t, ht⟩ := hp
      rw [← ht]
      rfl
    have hm := GdbMiClient.matchStopped_line pre file mid digits post hpre hf hmid hd hpost
    unfold GdbMiClient.parseLine
    simp only [hhead, if_true, hstart, hm, GdbMiClient.decodeMiString_star _ hhead]
    have hrun2 : (s.emit (.stopped file (QString.toInt digits))).running = true := hrun
    rw [GdbMiClient.refreshAll_running _ hrun2]
    exact ⟨_, rfl, by simp [GdbMiClient.emit], rfl, rfl, rfl⟩
  · intro n hv hfit
    exact QString.toInt_digits digits n hd hv hfit
  · intro line h hno
    exact GdbMiClient.parseLine_star env s line h hno
  · intro line h
    rcases h with h | h
    · exact GdbMiClient.matchStopped_no_file line h
    · exact GdbMiClient.matchStopped_no_line line h

set_option maxRecDepth 20000 in
theorem GdbMiClient.stopped_record_witness :
    (GdbMiClient.sampleSession.running = true ∧
      (qs "*stopped").isPrefixOf
        (GdbMiClient.stoppedLine
          (qs "*stopped,reason=\"breakpoint-hit\",frame=\x7baddr=\"0x1\",") (qs "a.cpp")
          (qs ",fullname=\"/w/a.cpp\",") (qs "5")
          (qs ",arch=\"i386\"\x7d,thread-id=\"1\"")) = true ∧
      ¬ qs "file=\"" <:+: qs "*stopped,reason=\"breakpoint-hit\",frame=\x7baddr=\"0x1\"," ∧
      (qs "a.cpp" ≠ [] ∧ '"' ∉ qs "a.cpp") ∧
      '\n' ∉ qs ",fullname=\"/w/a.cpp\"," ∧
      (qs "5" ≠ [] ∧ (qs "5").all QChar.isAsciiDigit = true) ∧
      ¬ qs "line=\"" <:+: qs ",arch=\"i386\"\x7d,thread-id=\"1\"") ∧
    GdbMiClient.sampleStopped =
      qs "*stopped,reason=\"breakpoint-hit\",frame=\x7baddr=\"0x1\",file=\"a.cpp\",fullname=\"/w/a.cpp\",line=\"5\",arch=\"i386\"\x7d,thread-id=\"1\"" ∧
    (∃ r, GdbMiClient.parseLine QtEnv.sample GdbMiClient.sampleSession
        (GdbMiClient.stoppedLine
          (qs "*stopped,reason=\"breakpoint-hit\",frame=\x7baddr=\"0x1\",") (qs "a.cpp")
          (qs ",fullname=\"/w/a.cpp\",") (qs "5")
          (qs ",arch=\"i386\"\x7d,thread-id=\"1\"")) = some r ∧
      r.emitted = GdbMiClient.sampleSession.emitted ++
        [.stopped (qs "a.cpp") (QString.toInt (qs "5")),
         .consoleOutput (GdbMiClient.stoppedLine
          (qs "*stopped,reason=\"breakpoint-hit\",frame=\x7baddr=\"0x1\",") (qs "a.cpp")
          (qs ",fullname=\"/w/a.cpp\",") (qs "5")
          (qs ",arch=\"i386\"\x7d,thread-id=\"1\"") ++ qs "\n")] ∧
      r.written = GdbMiClient.sampleSession.written ++
        [QString.number GdbMiClient.sampleSession.nextToken_ ++ qs "-stack-list-frames" ++
          qs "\n",
         QString.number (GdbMiClient.sampleSession.nextToken_ + 1) ++
          qs "-stack-list-variables --simple-values" ++ qs "\n",
         QString.number (GdbMiClient.sampleSession.nextToken_ + 2) ++ qs "-thread-info" ++
          qs "\n"] ∧
      r.pendingTags_ = Assoc.insert (GdbMiClient.sampleSession.nextToken_ + 2)
        (qs "threads-list")
        (Assoc.insert (GdbMiClient.sampleSession.nextToken_ + 1) (qs "locals-list")
          (Assoc.insert GdbMiClient.sampleSession.nextToken_ (qs "stack-list")
            GdbMiClient.sampleSession.pendingTags_)) ∧
      r.nextToken_ = GdbMiClient.sampleSession.nextToken_ + 3) ∧
    QString.toInt (qs "5") = 5 ∧
    (GdbMiClient.parseLine QtEnv.sample GdbMiClient.sampleSession
        GdbMiClient.sampleStopped).map (fun r => r.written) =
      some [qs "1-gdb-set target-async on\n", qs "2-break-list\n", qs "3-stack-list-frames\n",
        qs "4-stack-list-variables --simple-values\n", qs "5-thread-info\n"] ∧
    (GdbMiClient.parseLine QtEnv.sample GdbMiClient.sampleSession
        (qs "*running,thread-id=\"all\"")).map (fun r => (r.written, r.emitted)) =
      some (GdbMiClient.sampleSession.written,
        [.consoleOutput (qs "*running,thread-id=\"all\"\n")]) :=
  ⟨⟨by decide, by decide, by decide, ⟨by decide, by decide⟩, by decide,
      ⟨by decide, by decide⟩, by decide⟩,
    by decide,
    (GdbMiClient.stopped_record QtEnv.sample GdbMiClient.sampleSession
      (qs "*stopped,reason=\"breakpoint-hit\",frame=\x7baddr=\"0x1\",") (qs "a.cpp")
      (qs ",fullname=\"/w/a.cpp\",") (qs "5") (qs ",arch=\"i386\"\x7d,thread-id=\"1\"")
      (by decide) (by decide) (by decide) ⟨by decide, by decide⟩ (by decide)
      ⟨by decide, by decide⟩ (by decide)).1,
    by decide, by rfl, by rfl⟩

/-! ## Line framing of `GdbMiClient` -/

theorem QByteArray.indexOfLineFeed_bound :
    ∀ (buf : QByteArray) (i : Nat), QByteArray.indexOfLineFeed buf = some i → i < buf.length := by
  intro buf
  induction buf with
  | nil => intro i h; cases h
  | cons b rest ih =>
    intro i h
    unfold QByteArray.indexOfLineFeed at h
    by_cases hb : b = 10
    · rw [if_pos hb] at h
      cases h
      simp
    · rw [if_neg hb] at h
      cases hr : QByteArray.indexOfLineFeed rest with
      | none => rw [hr] at h; cases h
      | some j =>
        rw [hr] at h
        cases h
        have := ih j hr
        simp
        omega

theorem QByteArray.indexOfLineFeed_append :
    ∀ (a b : QByteArray) (i : Nat), QByteArray.indexOfLineFeed a = some i →
      QByteArray.indexOfLineFeed (a ++ b) = some i := by
  intro a
  induction a with
  | nil => intro b i h; cases h
  | cons x rest ih =>
    intro b i h
    unfold QByteArray.indexOfLineFeed at h
    show QByteArray.indexOfLineFeed (x :: (rest ++ b)) = some i
    unfold QByteArray.indexOfLineFeed
    by_cases hb : x = 10
    · rw [if_pos hb] at h ⊢
      exact h
    · rw [if_neg hb] at h ⊢
      cases hr : QByteArray.indexOfLineFeed rest with
      | none => rw [hr] at h; cases h
      | some j =>
        rw [hr] at h
        rw [ih b j hr]
        exact h

theorem QByteArray.indexOfLineFeed_none (buf : QByteArray) :
    QByteArray.indexOfLineFeed buf = none ↔ (10 : UInt8) ∉ buf := by
  induction buf with
  | nil => simp [QByteArray.indexOfLineFeed]
  | cons b rest ih =>
    unfold QByteArray.indexOfLineFeed
    by_cases hb : b = 10
    · rw [if_pos hb]
      simp [hb]
    · rw [if_neg hb]
      simp only [Option.map_eq_none', ih, List.mem_cons, not_or]
      exact ⟨fun h => ⟨fun e => hb e.symm, h⟩, fun h => h.2⟩

theorem GdbMiClient.readLoopWith_length {σ : Type} (env : QtEnv)
    (onLine : σ → QString → Option σ) :
    ∀ (fuel : Nat) (st : σ) (buf : QByteArray) (r : σ × QByteArray),
      GdbMiClient.readLoopWith env onLine fuel st buf = some r → r.2.length ≤ buf.length := by
  intro fuel
  induction fuel with
  | zero => intro st buf r h; cases h
  | succ n ih =>
    intro st buf r h
    rw [GdbMiClient.readLoopWith] at h
    cases hi : QByteArray.indexOfLineFeed buf with
    | none => simp only [hi, Option.some.injEq] at h; subst h; exact le_refl _
    | some i =>
      simp only [hi] at h
      split at h
      · have := ih _ _ _ h
        simp at this
        omega
      · cases ho : onLine st (QString.trimmed (env.fromLocal8Bit (buf.take i))) with
        | none => rw [ho] at h; cases h
        | some st1 =>
          rw [ho] at h
          have := ih _ _ _ h
          simp at this
          omega

theorem GdbMiClient.readLoopWith_fuel {σ : Type} (env : QtEnv)
    (onLine : σ → QString → Option σ) :
    ∀ (fuel fuel2 : Nat) (st : σ) (buf : QByteArray), buf.length < fuel → buf.length < fuel2 →
      GdbMiClient.readLoopWith env onLine fuel st buf =
        GdbMiClient.readLoopWith env onLine fuel2 st buf := by
  intro fuel
  induction fuel with
  | zero => intro fuel2 st buf h; omega
  | succ n ih =>
    intro fuel2 st buf h h2
    cases fuel2 with
    | zero => omega
    | succ m =>
      rw [GdbMiClient.readLoopWith, GdbMiClient.readLoopWith]
      cases hi : QByteArray.indexOfLineFeed buf with
      | none => rfl
      | some i =>
        have hb := QByteArray.indexOfLineFeed_bound _ _ hi
        simp only []
        split
        · apply ih <;> simp <;> omega
        · cases onLine st (QString.trimmed (env.fromLocal8Bit (buf.take i))) with
          | none => rfl
          | some st1 =>
            simp only [Option.bind]
            apply ih <;> simp <;> omega

theorem GdbMiClient.readLoopWith_append {σ : Type} (env : QtEnv)
    (onLine : σ → QString → Option σ) :
    ∀ (fuel : Nat) (st : σ) (a b : QByteArray), a.length < fuel →
      GdbMiClient.readLoopWith env onLine (fuel + b.length) st (a ++ b) =
        (GdbMiClient.readLoopWith env onLine fuel st a).bind
          (fun r => GdbMiClient.readLoopWith env onLine (fuel + b.length) r.1 (r.2 ++ b)) := by
  intro fuel
  induction fuel with
  | zero => intro st a b h; omega
  | succ n ih =>
    intro st a b h
    have step : ∀ (st1 : σ) (a1 : QByteArray), a1.length < n →
        GdbMiClient.readLoopWith env onLine (n + b.length) st1 (a1 ++ b) =
          (GdbMiClient.readLoopWith env onLine n st1 a1).bind
            (fun r => GdbMiClient.readLoopWith env onLine (n + 1 + b.length) r.1 (r.2 ++ b)) := by
      intro st1 a1 h1
      rw [ih st1 a1 b h1]
      cases hr : GdbMiClient.readLoopWith env onLine n st1 a1 with
      | none => rfl
      | some r =>
        have hl := GdbMiClient.readLoopWith_length env onLine n st1 a1 r hr
        simp only [Option.bind]
        apply GdbMiClient.readLoopWith_fuel <;> simp <;> omega
    cases hi : QByteArray.indexOfLineFeed a with
    | none =>
      have : GdbMiClient.readLoopWith env onLine (n + 1) st a = some (st, a) := by
        rw [GdbMiClient.readLoopWith]; simp [hi]
      rw [this]; rfl
    | some i =>
      have hb := QByteArray.indexOfLineFeed_bound _ _ hi
      have hi2 := QByteArray.indexOfLineFeed_append a b i hi
      have htake : (a ++ b).take i = a.take i := List.take_append_of_le_length (by omega)
      have hdrop : (a ++ b).drop (i + 1) = a.drop (i + 1) ++ b :=
        List.drop_append_of_le_length (by omega)
      have e : n + 1 + b.length = (n + b.length) + 1 := by omega
      rw [e, GdbMiClient.readLoopWith, GdbMiClient.readLoopWith]
      simp only [hi, hi2, htake, hdrop]
      split
      · rw [← e]
        apply step; simp; omega
      · cases onLine st (QString.trimmed (env.fromLocal8Bit (a.take i))) with
        | none => rfl
        | some st1 =>
          simp only [Option.bind]
          rw [← e]
          apply step; simp; omega

theorem GdbMiClient.readLoopWith_read {σ : Type} (env : QtEnv)
    (onLine : σ → QString → Option σ) (st : σ) (buf c d : QByteArray) :
    GdbMiClient.readLoopWith env onLine ((buf ++ (c ++ d)).length + 1) st (buf ++ (c ++ d)) =
      (GdbMiClient.readLoopWith env onLine ((buf ++ c).length + 1) st (buf ++ c)).bind
        (fun r => GdbMiClient.readLoopWith env onLine ((r.2 ++ d).length + 1) r.1 (r.2 ++ d)) := by
  have h := GdbMiClient.readLoopWith_append env onLine ((buf ++ c).length + 1) st (buf ++ c) d
    (by omega)
  have e : (buf ++ (c ++ d)).length + 1 = (buf ++ c).length + 1 + d.length := by
    simp; omega
  rw [e, ← List.append_assoc, h]
  cases hr : GdbMiClient.readLoopWith env onLine ((buf ++ c).length + 1) st (buf ++ c) with
  | none => rfl
  | some r =>
    have hl := GdbMiClient.readLoopWith_length env onLine _ st _ r hr
    simp only [Option.bind]
    apply GdbMiClient.readLoopWith_fuel
    · simp at hl ⊢; omega
    · simp at hl ⊢

theorem GdbMiClient.linesRead_append (env : QtEnv) (acc : List QString)
    (buffer c d : QByteArray) :
    GdbMiClient.linesRead env acc buffer (c ++ d) =
      (GdbMiClient.linesRead env acc buffer c).bind
        (fun r => GdbMiClient.linesRead env r.1 r.2 d) :=
  GdbMiClient.readLoopWith_read env GdbMiClient.recordLine acc buffer c d

theorem GdbMiClient.linesReads_eq (env : QtEnv) :
    ∀ (chunks : List QByteArray) (acc : List QString) (buffer chunk : QByteArray),
      GdbMiClient.linesReads env (acc, buffer) (chunk :: chunks) =
        GdbMiClient.linesRead env acc buffer (chunk ++ chunks.flatten) := by
  intro chunks
  induction chunks with
  | nil =>
    intro acc buffer chunk
    simp only [GdbMiClient.linesReads, List.flatten, List.append_nil]
    cases GdbMiClient.linesRead env acc buffer chunk <;> rfl
  | cons c cs ih =>
    intro acc buffer chunk
    rw [GdbMiClient.linesReads]
    simp only [List.flatten]
    rw [GdbMiClient.linesRead_append]
    cases hr : GdbMiClient.linesRead env acc buffer chunk with
    | none => rfl
    | some r =>
      simp only [Option.bind]
      exact ih r.1 r.2 c

theorem QByteArray.afterLastLineFeed_none (buf : QByteArray) (h : (10 : UInt8) ∉ buf) :
    QByteArray.afterLastLineFeed buf = buf := by
  unfold QByteArray.afterLastLineFeed
  rw [List.takeWhile_eq_self_iff.mpr, List.reverse_reverse]
  intro b hb
  simp only [bne_iff_ne, ne_eq]
  intro e
  exact h (e ▸ List.mem_reverse.mp hb)

theorem QByteArray.afterLastLineFeed_drop (buf : QByteArray) (i : Nat)
    (h : QByteArray.indexOfLineFeed buf = some i) :
    QByteArray.afterLastLineFeed (buf.drop (i + 1)) = QByteArray.afterLastLineFeed buf := by
  have hb := QByteArray.indexOfLineFeed_bound buf i h
  have hget : buf[i]? = some 10 := by
    clear hb
    induction buf generalizing i with
    | nil => cases h
    | cons b rest ih =>
      unfold QByteArray.indexOfLineFeed at h
      by_cases hb : b = 10
      · rw [if_pos hb] at h
        cases h
        simp [hb]
      · rw [if_neg hb] at h
        cases hr : QByteArray.indexOfLineFeed rest with
        | none => rw [hr] at h; cases h
        | some j =>
          rw [hr] at h
          cases h
          simpa using ih j hr
  have hsplit : buf = buf.take i ++ 10 :: buf.drop (i + 1) := by
    have h1 : buf.drop i = 10 :: buf.drop (i + 1) := by
      rw [List.drop_eq_getElem_cons hb]
      congr 1
      have := List.getElem?_eq_getElem hb
      rw [this] at hget
      exact Option.some.inj hget
    conv_lhs => rw [← List.take_append_drop i buf, h1]
  unfold QByteArray.afterLastLineFeed
  conv_rhs => rw [hsplit]
  rw [List.reverse_append, List.reverse_cons, List.append_assoc]
  have hp : ∀ b ∈ (buf.drop (i + 1)).reverse.takeWhile (fun b => b != 10), True := fun _ _ => trivial
  rw [List.takeWhile_append]
  split
  · rename_i hlen
    have hfull := (List.takeWhile_prefix (fun b => b != 10)).eq_of_length hlen
    simp [List.takeWhile, hfull]
  · rfl

theorem GdbMiClient.readLoopWith_rest {σ : Type} (env : QtEnv)
    (onLine : σ → QString → Option σ) :
    ∀ (fuel : Nat) (st : σ) (buf : QByteArray) (r : σ × QByteArray),
      GdbMiClient.readLoopWith env onLine fuel st buf = some r →
        (10 : UInt8) ∉ r.2 ∧ r.2 = QByteArray.afterLastLineFeed buf := by
  intro fuel
  induction fuel with
  | zero => intro st buf r h; cases h
  | succ n ih =>
    intro st buf r h
    rw [GdbMiClient.readLoopWith] at h
    cases hi : QByteArray.indexOfLineFeed buf with
    | none =>
      simp only [hi, Option.some.injEq] at h
      subst h
      have hno := (QByteArray.indexOfLineFeed_none buf).mp hi
      exact ⟨hno, (QByteArray.afterLastLineFeed_none buf hno).symm⟩
    | some i =>
      simp only [hi] at h
      split at h
      · have := ih _ _ _ h
        rw [QByteArray.afterLastLineFeed_drop buf i hi] at this
        exact this
      · cases ho : onLine st (QString.trimmed (env.fromLocal8Bit (buf.take i))) with
        | none => rw [ho] at h; cases h
        | some st1 =>
          rw [ho] at h
          have := ih _ _ _ h
          rw [QByteArray.afterLastLineFeed_drop buf i hi] at this
          exact this

theorem GdbMiClient.recordLine_total (env : QtEnv) :
    ∀ (fuel : Nat) (acc : List QString) (buf : QByteArray), buf.length < fuel →
      ∃ lines, GdbMiClient.readLoopWith env GdbMiClient.recordLine fuel acc buf =
          some (acc ++ lines, QByteArray.afterLastLineFeed buf) ∧
        ∀ l ∈ lines, l ≠ [] := by
  intro fuel
  induction fuel with
  | zero => intro acc buf h; omega
  | succ n ih =>
    intro acc buf h
    rw [GdbMiClient.readLoopWith]
    cases hi : QByteArray.indexOfLineFeed buf with
    | none =>
      have hno := (QByteArray.indexOfLineFeed_none buf).mp hi
      exact ⟨[], by simp [QByteArray.afterLastLineFeed_none buf hno], by simp⟩
    | some i =>
      have hb := QByteArray.indexOfLineFeed_bound _ _ hi
      have hlen : (buf.drop (i + 1)).length < n := by simp; omega
      simp only []
      split
      · obtain ⟨lines, h1, h2⟩ := ih acc (buf.drop (i + 1)) hlen
        rw [QByteArray.afterLastLineFeed_drop buf i hi] at h1
        exact ⟨lines, h1, h2⟩
      · rename_i hne
        obtain ⟨lines, h1, h2⟩ := ih (acc ++ [QString.trimmed (env.fromLocal8Bit (buf.take i))])
          (buf.drop (i + 1)) hlen
        rw [QByteArray.afterLastLineFeed_drop buf i hi] at h1
        refine ⟨QString.trimmed (env.fromLocal8Bit (buf.take i)) :: lines, ?_, ?_⟩
        · simp only [GdbMiClient.recordLine, Option.bind]
          rw [h1]
          simp
        · intro l hl
          rcases List.mem_cons.mp hl with e | e
          · subst e
            intro hnil
            exact hne (by rw [hnil]; rfl)
          · exact h2 l e

theorem GdbMiClient.recordLine_acc (env : QtEnv) :
    ∀ (fuel : Nat) (acc : List QString) (buf : QByteArray),
      GdbMiClient.readLoopWith env GdbMiClient.recordLine fuel acc buf =
        (GdbMiClient.readLoopWith env GdbMiClient.recordLine fuel [] buf).map
          (fun r => (acc ++ r.1, r.2)) := by
  intro fuel
  induction fuel with
  | zero => intro acc buf; rfl
  | succ n ih =>
    intro acc buf
    rw [GdbMiClient.readLoopWith, GdbMiClient.readLoopWith]
    cases hi : QByteArray.indexOfLineFeed buf with
    | none => simp
    | some i =>
      simp only []
      split
      · exact ih acc _
      · simp only [GdbMiClient.recordLine, Option.bind, List.nil_append]
        rw [ih (acc ++ [_]), ih [_]]
        cases GdbMiClient.readLoopWith env GdbMiClient.recordLine n [] (buf.drop (i + 1)) with
        | none => rfl
        | some r => simp

theorem GdbMiClient.withBuffer_self (s : GdbMiClient) : s.withBuffer s.buffer_ = s := rfl

theorem GdbMiClient.sendMiCommand_buffer (s : GdbMiClient) (b : QByteArray)
    (command tag : QString) :
    (s.withBuffer b).sendMiCommand command tag = (s.sendMiCommand command tag).withBuffer b := by
  unfold GdbMiClient.sendMiCommand
  by_cases h : s.running = false
  · rw [if_pos h, if_pos (show (s.withBuffer b).running = false from h)]
  · rw [if_neg h, if_neg (show ¬ (s.withBuffer b).running = false from h)]
    rfl

theorem GdbMiClient.refreshAll_buffer (s : GdbMiClient) (b : QByteArray) :
    (s.withBuffer b).refreshStack.refreshLocals.refreshThreads =
      (s.refreshStack.refreshLocals.refreshThreads).withBuffer b := by
  unfold GdbMiClient.refreshThreads GdbMiClient.refreshLocals GdbMiClient.refreshStack
  rw [GdbMiClient.sendMiCommand_buffer, GdbMiClient.sendMiCommand_buffer,
    GdbMiClient.sendMiCommand_buffer]

theorem GdbMiClient.handleResultForTag_buffer (env : QtEnv) (s : GdbMiClient) (b : QByteArray)
    (tag line : QString) :
    GdbMiClient.handleResultForTag env (s.withBuffer b) tag line =
      (GdbMiClient.handleResultForTag env s tag line).map (fun r => r.withBuffer b) := by
  unfold GdbMiClient.handleResultForTag
  simp only []
  split
  · unfold GdbMiClient.parseBreakpointList
    cases GdbMiClient.parseMiResults (QString.afterFirstComma line) <;> rfl
  · split
    · unfold GdbMiClient.parseStackList
      cases GdbMiClient.parseMiResults (QString.afterFirstComma line) <;> rfl
    · split
      · unfold GdbMiClient.parseLocalsList
        cases GdbMiClient.parseMiResults (QString.afterFirstComma line) <;> rfl
      · split
        · unfold GdbMiClient.parseThreadsList
          cases GdbMiClient.parseMiResults (QString.afterFirstComma line) <;> rfl
        · split
          · cases GdbMiClient.parseMiResults (QString.afterFirstComma line) <;> rfl
          · split
            · rw [GdbMiClient.refreshAll_buffer]
              rfl
            · split
              · unfold GdbMiClient.refreshBreakpoints
                rw [GdbMiClient.sendMiCommand_buffer]
                rfl
              · rfl

theorem GdbMiClient.parseLine_buffer (env : QtEnv) (s : GdbMiClient) (b : QByteArray)
    (line : QString) :
    GdbMiClient.parseLine env (s.withBuffer b) line =
      (GdbMiClient.parseLine env s line).map (fun r => r.withBuffer b) := by
  unfold GdbMiClient.parseLine
  simp only []
  split
  · split
    · split
      · have e : ∀ ev, (s.withBuffer b).emit ev = (s.emit ev).withBuffer b := fun _ => rfl
        rw [e, GdbMiClient.refreshAll_buffer]
        rfl
      · rfl
    · rfl
  · split
    · rfl
    · split
      · rename_i m _
        exact GdbMiClient.handleResultForTag_buffer env
          { s with pendingTags_ := Assoc.erase (QString.toInt m.1) s.pendingTags_ } b _ _
      · rfl

theorem GdbMiClient.readLoop_with (env : QtEnv) :
    ∀ (fuel : Nat) (s : GdbMiClient) (buf : QByteArray),
      GdbMiClient.readLoop env fuel (s.withBuffer buf) =
        (GdbMiClient.readLoopWith env (GdbMiClient.parseLine env) fuel s buf).map
          (fun r => r.1.withBuffer r.2) := by
  intro fuel
  induction fuel with
  | zero => intro s buf; rfl
  | succ n ih =>
    intro s buf
    rw [GdbMiClient.readLoop, GdbMiClient.readLoopWith]
    have hbuf : (s.withBuffer buf).buffer_ = buf := rfl
    rw [hbuf]
    cases hi : QByteArray.indexOfLineFeed buf with
    | none => rfl
    | some i =>
      simp only []
      have hs1 : { s.withBuffer buf with buffer_ := buf.drop (i + 1) } =
          s.withBuffer (buf.drop (i + 1)) := rfl
      rw [hs1]
      split
      · exact ih s _
      · rw [GdbMiClient.parseLine_buffer]
        cases GdbMiClient.parseLine env s (QString.trimmed (env.fromLocal8Bit (buf.take i))) with
        | none => rfl
        | some s1 =>
          simp only [Option.map_some', Option.bind]
          exact ih s1 _

theorem GdbMiClient.readLoopWith_lines (env : QtEnv) :
    ∀ (fuel : Nat) (s : GdbMiClient) (buf : QByteArray),
      GdbMiClient.readLoopWith env (GdbMiClient.parseLine env) fuel s buf =
        (GdbMiClient.readLoopWith env GdbMiClient.recordLine fuel [] buf).bind
          (fun r => (GdbMiClient.parseLines env s r.1).map (fun s1 => (s1, r.2))) := by
  intro fuel
  induction fuel with
  | zero => intro s buf; rfl
  | succ n ih =>
    intro s buf
    rw [GdbMiClient.readLoopWith, GdbMiClient.readLoopWith]
    cases hi : QByteArray.indexOfLineFeed buf with
    | none => rfl
    | some i =>
      simp only []
      split
      · exact ih s _
      · simp only [GdbMiClient.recordLine, Option.bind, List.nil_append]
        rw [GdbMiClient.recordLine_acc env n [_]]
        cases hr : GdbMiClient.readLoopWith env GdbMiClient.recordLine n [] (buf.drop (i + 1)) with
        | none =>
          cases hp : GdbMiClient.parseLine env s
              (QString.trimmed (env.fromLocal8Bit (buf.take i))) with
          | none => rfl
          | some s1 =>
            simp only [Option.map_none']
            rw [ih s1, hr]
            rfl
        | some r =>
          simp only [Option.map_some', List.singleton_append, GdbMiClient.parseLines]
          cases hp : GdbMiClient.parseLine env s
              (QString.trimmed (env.fromLocal8Bit (buf.take i))) with
          | none => rfl
          | some s1 =>
            simp only [Option.bind]
            rw [ih s1, hr]
            rfl

theorem GdbMiClient.handleReadyRead_lines (env : QtEnv) (s : GdbMiClient) (bytes : QByteArray) :
    GdbMiClient.handleReadyRead env s bytes =
      (GdbMiClient.linesRead env [] s.buffer_ bytes).bind
        (fun r => (GdbMiClient.parseLines env s r.1).map (fun s1 => s1.withBuffer r.2)) := by
  unfold GdbMiClient.handleReadyRead GdbMiClient.linesRead
  have e : { s with buffer_ := s.buffer_ ++ bytes } = s.withBuffer (s.buffer_ ++ bytes) := rfl
  rw [e, GdbMiClient.readLoop_with, GdbMiClient.readLoopWith_lines]
  cases GdbMiClient.readLoopWith env GdbMiClient.recordLine ((s.buffer_ ++ bytes).length + 1) []
      (s.buffer_ ++ bytes) with
  | none => rfl
  | some r =>
    simp only [Option.bind, Option.map_map]
    rfl

theorem GdbMiClient.handleReadyRead_split (env : QtEnv) (s : GdbMiClient) (c d : QByteArray) :
    GdbMiClient.handleReadyRead env s (c ++ d) =
      (GdbMiClient.handleReadyRead env s c).bind (fun s1 => GdbMiClient.handleReadyRead env s1 d) := by
  have hread : ∀ (t : GdbMiClient) (x : QByteArray), GdbMiClient.handleReadyRead env t x =
      (GdbMiClient.readLoopWith env (GdbMiClient.parseLine env) ((t.buffer_ ++ x).length + 1) t
        (t.buffer_ ++ x)).map (fun r => r.1.withBuffer r.2) := by
    intro t x
    exact GdbMiClient.readLoop_with env _ t (t.buffer_ ++ x)
  rw [hread s (c ++ d), hread s c, GdbMiClient.readLoopWith_read]
  cases GdbMiClient.readLoopWith env (GdbMiClient.parseLine env) ((s.buffer_ ++ c).length + 1) s
      (s.buffer_ ++ c) with
  | none => rfl
  | some r =>
    simp only [Option.bind, Option.map_some']
    have h2 := GdbMiClient.readLoop_with env ((r.2 ++ d).length + 1) r.1 (r.2 ++ d)
    rw [← h2]
    rfl

theorem GdbMiClient.handleLineReads_eq (env : QtEnv) :
    ∀ (chunks : List QByteArray) (s : GdbMiClient) (chunk : QByteArray),
      GdbMiClient.handleReads env s (chunk :: chunks) =
        GdbMiClient.handleReadyRead env s (chunk ++ chunks.flatten) := by
  intro chunks
  induction chunks with
  | nil =>
    intro s chunk
    simp only [GdbMiClient.handleReads, List.flatten, List.append_nil]
    cases GdbMiClient.handleReadyRead env s chunk <;> rfl
  | cons c cs ih =>
    intro s chunk
    rw [GdbMiClient.handleReads]
    simp only [List.flatten]
    rw [GdbMiClient.handleReadyRead_split]
    cases hr : GdbMiClient.handleReadyRead env s chunk with
    | none => rfl
    | some r =>
      simp only [Option.bind]
      exact ih r c

/-- Claim C22.  Line framing in `GdbMiClient` does not depend on how the byte
stream is cut into reads.  A read is split at line feeds into lines, each decoded
and trimmed, and the non-empty ones are passed to `parseLine` in order; what
follows the last line feed stays in the buffer.  For every stream cut into
consecutive chunks `chunk :: chunks`, the reads taken one at a time pass the same
sequence of lines and leave the same buffer as one read of the whole stream, and
the same holds for the complete engine state (both sides fail to return together
when a call of `parseLine` does not return).  The splitting itself always
returns, and after a read that returns the buffer holds no line feed and is the
part after the last line feed of the old buffer followed by the bytes read. -/
theorem GdbMiClient.line_framing_chunk_independent (env : QtEnv) (chunk : QByteArray)
    (chunks : List QByteArray) :
    (∀ (acc : List QString) (buffer : QByteArray),
      GdbMiClient.linesReads env (acc, buffer) (chunk :: chunks) =
        GdbMiClient.linesRead env acc buffer (chunk ++ chunks.flatten)) ∧
    (∀ (acc : List QString) (buffer bytes : QByteArray),
      ∃ lines, GdbMiClient.linesRead env acc buffer bytes =
          some (acc ++ lines, QByteArray.afterLastLineFeed (buffer ++ bytes)) ∧
        ∀ l ∈ lines, l ≠ []) ∧
    (∀ (s : GdbMiClient) (bytes : QByteArray),
      GdbMiClient.handleReadyRead env s bytes =
        (GdbMiClient.linesRead env [] s.buffer_ bytes).bind
          (fun r => (GdbMiClient.parseLines env s r.1).map (fun s1 => s1.withBuffer r.2))) ∧
    (∀ s : GdbMiClient,
      GdbMiClient.handleReads env s (chunk :: chunks) =
        GdbMiClient.handleReadyRead env s (chunk ++ chunks.flatten)) ∧
    (∀ (s r : GdbMiClient) (bytes : QByteArray),
      GdbMiClient.handleReadyRead env s bytes = some r →
        (10 : UInt8) ∉ r.buffer_ ∧
          r.buffer_ = QByteArray.afterLastLineFeed (s.buffer_ ++ bytes)) := by
  refine ⟨fun acc buffer => GdbMiClient.linesReads_eq env chunks acc buffer chunk,
    fun acc buffer bytes => GdbMiClient.recordLine_total env _ acc _ (Nat.lt_succ_self _),
    GdbMiClient.handleReadyRead_lines env,
    fun s => GdbMiClient.handleLineReads_eq env chunks s chunk, ?_⟩
  intro s r bytes h
  have hread := GdbMiClient.readLoop_with env ((s.buffer_ ++ bytes).length + 1) s
    (s.buffer_ ++ bytes)
  have h2 : GdbMiClient.handleReadyRead env s bytes =
      GdbMiClient.readLoop env ((s.buffer_ ++ bytes).length + 1)
        (s.withBuffer (s.buffer_ ++ bytes)) := rfl
  rw [h2, hread] at h
  cases hr : GdbMiClient.readLoopWith env (GdbMiClient.parseLine env)
      ((s.buffer_ ++ bytes).length + 1) s (s.buffer_ ++ bytes) with
  | none => rw [hr] at h; cases h
  | some q =>
    rw [hr] at h
    simp only [Option.map_some', Option.some.injEq] at h
    subst h
    exact GdbMiClient.readLoopWith_rest env _ _ _ _ q hr

/-! ## Termination of `parseBuffer` -/

theorem LspClient.parseBufferWith_drained {σ : Type} (onBody : σ → QByteArray → σ) :
    ∀ (fuel : Nat) (st : σ) (buf : QByteArray) (r : σ × QByteArray),
      LspClient.parseBufferWith onBody fuel st buf = some r → LspClient.drained r.2 = true := by
  intro fuel
  induction fuel with
  | zero => intro st buf r h; simp [LspClient.parseBufferWith] at h
  | succ n ih =>
    intro st buf r h
    rw [LspClient.parseBufferWith] at h
    cases hi : QByteArray.indexOf LspClient.headerTerminator buf with
    | none =>
      simp only [hi, Option.some.injEq] at h
      subst h
      unfold LspClient.drained
      rw [hi]
    | some i =>
      simp only [hi] at h
      split at h
      · cases h
      · split at h
        · exact ih _ _ _ h
        · split at h
          · cases h
          · split at h
            · rename_i h1 h2 h3 h4
              simp only [Option.some.injEq] at h
              subst h
              unfold LspClient.drained
              rw [hi]
              simp only [Bool.and_eq_true, decide_eq_true_eq]
              exact ⟨by omega, h4⟩
            · exact ih _ _ _ h

theorem LspClient.parseBufferWith_returns {σ : Type} (onBody : σ → QByteArray → σ) :
    ∀ (fuel : Nat) (st : σ) (buf : QByteArray), buf.length < fuel →
      (∀ h : QByteArray, h <:+: buf →
        (buf.length : Int) + 4 + LspClient.contentLength h ≤ intMax) →
      ∃ r, LspClient.parseBufferWith onBody fuel st buf = some r := by
  intro fuel
  induction fuel with
  | zero => intro st buf h; omega
  | succ n ih =>
    intro st buf hlen hfit
    rw [LspClient.parseBufferWith]
    cases hi : QByteArray.indexOf LspClient.headerTerminator buf with
    | none => exact ⟨_, rfl⟩
    | some i =>
      have hb := QByteArray.indexOf_bound _ _ _ hi
      have h4 : LspClient.headerTerminator.length = 4 := rfl
      rw [h4] at hb
      have h0 := hfit [] List.nil_infix
      have hc0 : LspClient.contentLength [] = 0 := by decide
      rw [hc0] at h0
      have hhead := hfit (buf.take i) (List.take_prefix i buf).isInfix
      have hsub : ∀ k : Nat, ∀ h : QByteArray, h <:+: buf.drop k →
          ((buf.drop k).length : Int) + 4 + LspClient.contentLength h ≤ intMax := by
        intro k h hh
        have h1 := hfit h (hh.trans (List.drop_suffix k buf).isInfix)
        have h2 : (buf.drop k).length ≤ buf.length := by simp
        omega
      simp only []
      rw [if_neg (by omega)]
      split
      · exact ih st _ (by simp; omega) (hsub _)
      · rw [if_neg (by omega)]
        split
        · exact ⟨_, rfl⟩
        · exact ih _ _ (by simp; omega) (hsub _)

set_option maxRecDepth 20000 in
theorem LspClient.sampleHugeHeader_facts :
    QByteArray.indexOf LspClient.headerTerminator LspClient.sampleHugeHeader = some 26 ∧
      LspClient.contentLength (LspClient.sampleHugeHeader.take 26) = 2147483647 := by
  constructor
  · decide
  · decide

theorem LspClient.parseBufferWith_huge {σ : Type} (onBody : σ → QByteArray → σ) (fuel : Nat)
    (st : σ) : LspClient.parseBufferWith onBody fuel st LspClient.sampleHugeHeader = none := by
  cases fuel with
  | zero => rfl
  | succ n =>
    rw [LspClient.parseBufferWith]
    simp only [LspClient.sampleHugeHeader_facts.1, LspClient.sampleHugeHeader_facts.2]
    rw [if_neg (by decide), if_neg (by decide), if_pos (by decide)]

theorem QByteArray.toInt_le (a : QByteArray) : QByteArray.toInt a ≤ intMax := by
  unfold QByteArray.toInt
  simp only []
  generalize (if (QByteArray.trimmed a).head? = some 45 ∨ (QByteArray.trimmed a).head? = some 43
    then (QByteArray.trimmed a).tail else QByteArray.trimmed a) = ds
  have h0 : (0 : Int) ≤ intMax := by decide
  have key : ∀ v : Int, (if intMin ≤ v ∧ v ≤ intMax then v else 0) ≤ intMax := by
    intro v
    by_cases h : intMin ≤ v ∧ v ≤ intMax
    · rw [if_pos h]
      exact h.2
    · rw [if_neg h]
      exact h0
  by_cases h1 : ds = []
  · rw [if_pos h1]
    exact h0
  · rw [if_neg h1]
    cases QByteArray.digitsValue ds 0 with
    | none => exact h0
    | some n => exact key _

theorem LspClient.contentLength_le (header : QByteArray) :
    LspClient.contentLength header ≤ intMax := by
  unfold LspClient.contentLength
  have h : ∀ (lines : List QByteArray) (init : Int), init ≤ intMax →
      lines.foldl (fun contentLength line =>
        if (ascii "content-length:").isPrefixOf (QByteArray.toLower (QByteArray.trimmed line)) then
          QByteArray.toInt (QByteArray.trimmed ((QByteArray.trimmed line).drop 15))
        else contentLength) init ≤ intMax := by
    intro lines
    induction lines with
    | nil => intro init hi; exact hi
    | cons l ls ih =>
      intro init hi
      simp only [List.foldl_cons]
      apply ih
      split
      · exact QByteArray.toInt_le _
      · exact hi
  exact h _ 0 (by decide)

theorem LspClient.parseBufferWrapWith_agrees {σ : Type} (onBody : σ → QByteArray → σ) :
    ∀ (fuel : Nat) (st : σ) (buf : QByteArray) (r : σ × QByteArray),
      LspClient.parseBufferWith onBody fuel st buf = some r →
        LspClient.parseBufferWrapWith onBody fuel st buf = some r := by
  intro fuel
  induction fuel with
  | zero => intro st buf r h; simp [LspClient.parseBufferWith] at h
  | succ n ih =>
    intro st buf r h
    rw [LspClient.parseBufferWith] at h
    rw [LspClient.parseBufferWrapWith]
    cases hi : QByteArray.indexOf LspClient.headerTerminator buf with
    | none => simpa [hi] using h
    | some i =>
      simp only [hi] at h ⊢
      split at h
      · cases h
      · rename_i h1
        rw [if_neg h1]
        split at h
        · rename_i h2
          rw [if_pos h2]
          exact ih _ _ _ h
        · rename_i h2
          rw [if_neg h2]
          split at h
          · cases h
          · rename_i h3
            have hw : intWrap ((i : Int) + 4 + LspClient.contentLength (buf.take i)) =
                (i : Int) + 4 + LspClient.contentLength (buf.take i) := by
              unfold intWrap
              unfold intMax at h3
              omega
            have hnat : (((i + 4 + (LspClient.contentLength (buf.take i)).toNat : Nat)) : Int) =
                (i : Int) + 4 + LspClient.contentLength (buf.take i) := by
              push_cast
              rw [Int.toNat_of_nonneg (by omega)]
            rw [hw]
            split at h
            · rename_i h4
              rw [if_pos (by omega)]
              exact h
            · rename_i h4
              rw [if_neg (by omega)]
              have hrem : QByteArray.removeFront buf
                  ((i : Int) + 4 + LspClient.contentLength (buf.take i)) =
                  buf.drop (i + 4 + (LspClient.contentLength (buf.take i)).toNat) := by
                unfold QByteArray.removeFront
                rw [if_neg (by omega), ← hnat, Int.toNat_ofNat]
              rw [hrem]
              exact ih _ _ _ h

theorem LspClient.parseBufferWrapWith_stuck {σ : Type} (onBody : σ → QByteArray → σ)
    (buf : QByteArray) (i : Nat)
    (hi : QByteArray.indexOf LspClient.headerTerminator buf = some i)
    (hhead : ¬ intMax < (i : Int) + 4)
    (hover : intMax < (i : Int) + 4 + LspClient.contentLength (buf.take i)) :
    ∀ (fuel : Nat) (st : σ), LspClient.parseBufferWrapWith onBody fuel st buf = none := by
  have hle := LspClient.contentLength_le (buf.take i)
  have hw : intWrap ((i : Int) + 4 + LspClient.contentLength (buf.take i)) < 0 := by
    unfold intWrap
    unfold intMax at hhead hover hle
    omega
  intro fuel
  induction fuel with
  | zero => intro st; rfl
  | succ n ih =>
    intro st
    rw [LspClient.parseBufferWrapWith]
    simp only [hi]
    rw [if_neg hhead, if_neg (by unfold intMax at hhead hover; omega), if_neg (by omega)]
    have hrem : QByteArray.removeFront buf
        (intWrap ((i : Int) + 4 + LspClient.contentLength (buf.take i))) = buf := by
      unfold QByteArray.removeFront
      rw [if_pos (by omega)]
    rw [hrem]
    exact ih _

set_option maxRecDepth 20000 in
/-- Claim C23 fails for headers that declare a length near the largest `int`:
the sum `headerEnd + 4 + contentLength` is formed in `int` without a check.  For
the buffer `Content-Length: 2147483647`, CR LF CR LF (header end 26, declared
length 2147483647) the sum is 2147483677, outside the range of `int`, so the
loop has no defined result; with the sum wrapped around it is negative, the test
for an incomplete body fails, `remove(0, totalLength)` removes nothing and the
loop runs again on the same buffer, so it does not return for any amount of
fuel, and the same holds for every buffer whose first header makes the sum
exceed the range.  Whenever the loop returns, no complete frame is left at the
head of the buffer, and it does return, within a fuel above the length of the
buffer, when the length of the buffer plus 4 plus the length declared by any
stretch of the buffer read as a header stays within `int`; the loop with
wrap-around then returns the same. -/
theorem LspClient.parse_buffer_length_overflow :
    LspClient.sampleHugeHeader.length = 30 ∧
    QByteArray.indexOf LspClient.headerTerminator LspClient.sampleHugeHeader = some 26 ∧
    LspClient.contentLength (LspClient.sampleHugeHeader.take 26) = 2147483647 ∧
    intMax < (26 : Int) + 4 + 2147483647 ∧
    intWrap ((26 : Int) + 4 + 2147483647) = -2147483619 ∧
    (∀ (σ : Type) (onBody : σ → QByteArray → σ) (fuel : Nat) (st : σ),
      LspClient.parseBufferWith onBody fuel st LspClient.sampleHugeHeader = none ∧
      LspClient.parseBufferWrapWith onBody fuel st LspClient.sampleHugeHeader = none) ∧
    LspClient.sampleSession.buffer_ = [] ∧
    (LspClient.handleReadyRead QtEnv.sample LspClient.sampleSession
      LspClient.sampleHugeHeader).isNone = true ∧
    (∀ (σ : Type) (onBody : σ → QByteArray → σ) (buf : QByteArray) (i : Nat),
      QByteArray.indexOf LspClient.headerTerminator buf = some i →
      ¬ intMax < (i : Int) + 4 →
      intMax < (i : Int) + 4 + LspClient.contentLength (buf.take i) →
      ∀ (fuel : Nat) (st : σ), LspClient.parseBufferWrapWith onBody fuel st buf = none) ∧
    (∀ (σ : Type) (onBody : σ → QByteArray → σ) (fuel : Nat) (st : σ) (buf : QByteArray)
      (r : σ × QByteArray),
      LspClient.parseBufferWith onBody fuel st buf = some r →
        LspClient.drained r.2 = true ∧
          LspClient.parseBufferWrapWith onBody fuel st buf = some r) ∧
    (∀ (σ : Type) (onBody : σ → QByteArray → σ) (fuel : Nat) (st : σ) (buf : QByteArray),
      buf.length < fuel →
      (∀ h : QByteArray, h <:+: buf →
        (buf.length : Int) + 4 + LspClient.contentLength h ≤ intMax) →
      ∃ r, LspClient.parseBufferWith onBody fuel st buf = some r) := by
  have hstuck : ∀ (σ : Type) (onBody : σ → QByteArray → σ) (fuel : Nat) (st : σ),
      LspClient.parseBufferWrapWith onBody fuel st LspClient.sampleHugeHeader = none := by
    intro σ onBody fuel st
    refine LspClient.parseBufferWrapWith_stuck onBody _ 26 LspClient.sampleHugeHeader_facts.1
      (by decide) ?_ fuel st
    rw [LspClient.sampleHugeHeader_facts.2]
    decide
  refine ⟨by decide, LspClient.sampleHugeHeader_facts.1, LspClient.sampleHugeHeader_facts.2,
    by decide, by decide,
    fun σ onBody fuel st => ⟨LspClient.parseBufferWith_huge onBody fuel st, hstuck σ onBody fuel st⟩,
    by decide, ?_, fun σ onBody => LspClient.parseBufferWrapWith_stuck onBody,
    fun σ onBody fuel st buf r h => ⟨LspClient.parseBufferWith_drained onBody fuel st buf r h,
      LspClient.parseBufferWrapWith_agrees onBody fuel st buf r h⟩,
    fun σ onBody => LspClient.parseBufferWith_returns onBody⟩
  unfold LspClient.handleReadyRead
  have hb : LspClient.sampleSession.buffer_ = [] := by decide
  rw [hb, List.nil_append, LspClient.parseBufferWith_huge]
  rfl
